import Mathlib

/-!
Verification of circlecover-triangles: interval booleans, interval arithmetic
and comparisons, integer conversion, trigonometric functions, and the prover.

A shallow embedding of

* `ivarp_ia/include/ivarp_ia/ibool.hpp` (the three-valued `IBool`),
* `ivarp_ia/include/ivarp_ia/impl/compare_interval.hpp` and the comparison
  operators of `IDouble` in `builtin_interval.hpp`,
* `ivarp_ia/include/ivarp_ia/impl/mul_interval.hpp` (`mul_intervald`,
  `fixed_pow`), `impl/div_interval.hpp` and `ivarp_ia/src/interval_div.cpp`
  (`div_intervald`), `impl/sqrt_interval.hpp`, `impl/interval_setops.hpp`,
  `fpsetup.hpp`,
* `src/propagate_result.hpp`, `src/constraint.hpp`, `src/basic_variable_set.hpp`,
* `src/prover.hpp` (the branch-and-bound driver `Prover::prove`),
* `ivarp_ia/include/ivarp_ia/impl/i64_to_interval.hpp` (the conversions of 64-bit
  integers) and the constructors of `IDouble`,
* `ivarp_ia/include/ivarp_ia/constant_cache.hpp`, `period_reduction.hpp` and
  `ivarp_ia/src/interval_sin.cpp`, `interval_cos.cpp`, `interval_tan.cpp`,
* `src/below_45_isoceles.cpp` (`Below45IsocelesVariables`, `Radius123Consistency`)
  and `src/below_45_isoceles_derivatives.cpp`
  (`VariableSetProofRestweightPartialR1Negative`).

Model of `double`.

A `double` is modelled by its value.  All NaN payloads are identified and the
two zeros are identified: IEEE comparisons treat `-0.0` and `+0.0` alike and are
false on every NaN, and sums, products, quotients by a divisor that is not zero
and square roots have the same value for either zero.  A finite double is stored
as the integer `n` with value `n * 2^(-1074)`; every finite binary64 number is
such an integer multiple of the smallest subnormal.  Arithmetic is the exact
operation followed by rounding toward minus infinity, the rounding mode
installed by `setup_floating_point_environment` (`fesetround(FE_DOWNWARD)`,
MXCSR round down, denormals kept); the square root reads the rounding mode from
the register `MXCSR`, which `sqrt_intervald` switches.  The bit operations of the
SIMD code act on the sign bit or on a whole lane, and are modelled by their
effect on the value: switching or clearing the sign, replacing a lane by NaN or
by zero.  The integer conversions assemble doubles from bit patterns; there a
lane is a natural number below `2^64`, read as a double by `Dbl.ofBits`.  The
point functions of MPFR behind sine, cosine and tangent are parameters of the
model.
-/

set_option exponentiation.threshold 5000

namespace ivarp

/-! ## `ibool.hpp` -/

/-- The class `IBool`: the pair of private members `lb`, `ub`. -/
structure IBool where
  lb : Bool
  ub : Bool
deriving DecidableEq, Repr

namespace IBool

/-- The constructor `explicit IBool(bool value)`. -/
def ofBool (value : Bool) : IBool := ⟨value, value⟩

/-- The member `possibly()`. -/
def possibly (v : IBool) : Bool := v.ub

/-- The member `definitely()`. -/
def definitely (v : IBool) : Bool := v.lb

/-- The member `indeterminate()`: `lb != ub`. -/
def indeterminate (v : IBool) : Bool := v.lb != v.ub

/-- The operator `!`: `IBool(!ub, !lb)`. -/
def not (v : IBool) : IBool := ⟨!v.ub, !v.lb⟩

/-- The operator `&`: `IBool(lb & other.lb, ub & other.ub)`. -/
def and (v other : IBool) : IBool := ⟨v.lb && other.lb, v.ub && other.ub⟩

/-- The operator `|`: `IBool(lb | other.lb, ub | other.ub)`. -/
def or (v other : IBool) : IBool := ⟨v.lb || other.lb, v.ub || other.ub⟩

/-- The operator `||` of `IBool` (not short-circuiting): `IBool(lb | other.lb, ub | other.ub)`. -/
def lor (v other : IBool) : IBool := ⟨v.lb || other.lb, v.ub || other.ub⟩

/-- The operator `&&` of `IBool` (not short-circuiting): `IBool(lb & other.lb, ub & other.ub)`. -/
def land (v other : IBool) : IBool := ⟨v.lb && other.lb, v.ub && other.ub⟩

/-- The operator `^`. -/
def xor (v other : IBool) : IBool :=
  if v.indeterminate || other.indeterminate then
    ⟨false, true⟩
  else
    let neq := (v.lb != other.lb)
    ⟨neq, neq⟩

/-- The operator `==` (three-valued). -/
def eq (v other : IBool) : IBool :=
  if (v.lb != v.ub) || (other.lb != other.ub) then
    ⟨false, true⟩
  else
    let res := (v.lb == other.lb)
    ofBool res

/-- The operator `!=`: `!(*this == other)`. -/
def ne (v other : IBool) : IBool := (v.eq other).not

/-- The free function `same(IBool, IBool)`. -/
def same (v w : IBool) : Bool :=
  (v.possibly == w.possibly) && (v.definitely == w.definitely)

/-- The invariant `lb ≤ ub` of the data model: not (definitely and not possibly). -/
def WellFormed (v : IBool) : Prop := (v.lb && !v.ub) = false

instance (v : IBool) : Decidable v.WellFormed := by
  unfold WellFormed; infer_instance

end IBool

/-! ## The model of `double` -/

/-- A `double` by value: NaN, the two infinities, or the finite number
`n * 2^(-1074)`. -/
inductive Dbl where
  | nan : Dbl
  | ninf : Dbl
  | fin (n : Int) : Dbl
  | pinf : Dbl
deriving DecidableEq, Repr

/-- The integer `2^k`. -/
def pow2 (k : Nat) : Int := ((2 ^ k : Nat) : Int)

namespace Dbl

/-- The double with the integer value `z` (exact for `|z| < 2^53`). -/
def ofInt (z : Int) : Dbl := fin (z * pow2 1074)

/-- The test `x != x`, true exactly on NaN. -/
def isNaN : Dbl → Bool
  | nan => true
  | _ => false

/-- The IEEE comparison `x < y` of two doubles (false when either is NaN). -/
def lt : Dbl → Dbl → Bool
  | nan, _ => false
  | _, nan => false
  | ninf, ninf => false
  | ninf, _ => true
  | fin _, ninf => false
  | fin a, fin b => decide (a < b)
  | fin _, pinf => true
  | pinf, _ => false

/-- The IEEE comparison `x <= y` of two doubles (false when either is NaN). -/
def le : Dbl → Dbl → Bool
  | nan, _ => false
  | _, nan => false
  | ninf, _ => true
  | fin _, ninf => false
  | fin a, fin b => decide (a ≤ b)
  | fin _, pinf => true
  | pinf, pinf => true
  | pinf, _ => false

/-- The IEEE comparison `x > y`. -/
def gt (x y : Dbl) : Bool := lt y x

/-- The largest finite double, `(2^53 - 1) * 2^971`, in units of `2^(-1074)`. -/
def maxFinite : Int := (((2 ^ 53 - 1) * 2 ^ 2045 : Nat) : Int)

/-- The number of low bits dropped from the magnitude `m` (in units of
`2^(-1074)`) to leave a 53-bit significand: the least `k` with
`m / 2^k < 2^53`, found bit by bit from the top.  With `j` bits it is exact
for `m < 2^(52 + 2^j)`. -/
def ulpAux : Nat → Nat → Nat
  | 0, _ => 0
  | j + 1, m =>
    if 2 ^ (52 + 2 ^ j) ≤ m then 2 ^ j + ulpAux j (m / 2 ^ 2 ^ j) else ulpAux j m

/-- The exponent (relative to `2^(-1074)`) of the unit in the last place of the
binade of the exact value `p / 2^s`.  Thirteen bits cover every magnitude below
`2^(52 + 8192)`, beyond the exact sum or product of any two doubles. -/
def ulpShift (p : Int) (s : Nat) : Nat := ulpAux 13 (p.natAbs / 2 ^ s)

/-- The finite value `p / 2^s` (in units of `2^(-1074)`) rounded toward minus
infinity to 53 significant bits, before the overflow test. -/
def roundDownInt (p : Int) (s : Nat) : Int :=
  (p / pow2 (s + ulpShift p s)) * pow2 (ulpShift p s)

/-- Rounding toward minus infinity of the exact value `p / 2^s` (in units of
`2^(-1074)`) to a double: positive overflow gives the largest finite double,
negative overflow gives minus infinity. -/
def roundDown (p : Int) (s : Nat) : Dbl :=
  let r := roundDownInt p s
  if maxFinite < r then fin maxFinite
  else if r < -maxFinite then ninf
  else fin r

/-- The sum `x + y` of doubles under rounding toward minus infinity. -/
def add : Dbl → Dbl → Dbl
  | nan, _ => nan
  | _, nan => nan
  | pinf, ninf => nan
  | ninf, pinf => nan
  | pinf, _ => pinf
  | _, pinf => pinf
  | ninf, _ => ninf
  | _, ninf => ninf
  | fin a, fin b => roundDown (a + b) 0

/-- The product `x * y` of doubles under rounding toward minus infinity. -/
def mul : Dbl → Dbl → Dbl
  | nan, _ => nan
  | _, nan => nan
  | fin a, fin b => roundDown (a * b) 1074
  | fin a, pinf => if a = 0 then nan else if 0 < a then pinf else ninf
  | fin a, ninf => if a = 0 then nan else if 0 < a then ninf else pinf
  | pinf, fin b => if b = 0 then nan else if 0 < b then pinf else ninf
  | ninf, fin b => if b = 0 then nan else if 0 < b then ninf else pinf
  | pinf, pinf => pinf
  | ninf, ninf => pinf
  | pinf, ninf => ninf
  | ninf, pinf => ninf

/-- The literal `0.5`. -/
def half : Dbl := fin (pow2 1073)

/-- A finite double is representable when rounding leaves it unchanged and it
does not exceed the largest finite double in magnitude. -/
def Representable (n : Int) : Prop :=
  roundDownInt n 0 = n ∧ -maxFinite ≤ n ∧ n ≤ maxFinite

instance (n : Int) : Decidable (Representable n) := by
  unfold Representable; infer_instance

/-- The real number `x` (in units of `2^(-1074)`) is at least the double `d`;
false for NaN, as every comparison with NaN is. -/
def leReal : Dbl → ℝ → Prop
  | nan, _ => False
  | ninf, _ => True
  | fin a, x => (a : ℝ) ≤ x
  | pinf, _ => False

/-- The real number `x` (in units of `2^(-1074)`) is at most the double `d`. -/
def geReal : Dbl → ℝ → Prop
  | nan, _ => False
  | ninf, _ => False
  | fin a, x => x ≤ (a : ℝ)
  | pinf, _ => True

end Dbl

/-! ## `builtin_interval.hpp` and `impl/compare_interval.hpp` -/

/-- The class `IDouble`: the two lanes of `m_data`, lane 0 the lower bound and
lane 1 the upper bound. -/
structure IDouble where
  lb : Dbl
  ub : Dbl
deriving DecidableEq, Repr

/-- The intrinsic `_mm_or_pd` of one lane with one lane of a comparison mask: the
mask lane is all ones or all zeros, and the all-ones pattern is a NaN. -/
def or_pd_mask (x : Dbl) (mask : Bool) : Dbl := if mask then Dbl.nan else x

/-- The function `broadcast_nan_intervald`: if one of the entries is NaN, make
both entries NaN. -/
def broadcast_nan_intervald (a : IDouble) : IDouble :=
  -- `_mm_cmpunord_pd(a, a)`
  let nanmask : Bool × Bool := (a.lb.isNaN, a.ub.isNaN)
  -- `_mm_permute_pd(nanmask, 1)` swaps the two lanes
  let fnanmask : Bool × Bool := (nanmask.2, nanmask.1)
  let a1 : IDouble := ⟨or_pd_mask a.lb nanmask.1, or_pd_mask a.ub nanmask.2⟩
  let a2 : IDouble := ⟨or_pd_mask a1.lb fnanmask.1, or_pd_mask a1.ub fnanmask.2⟩
  a2

/-- The function `lt_intervald`: `IBool{a[1] < b[0], !(b[1] <= a[0])}`. -/
def lt_intervald (a b : IDouble) : IBool :=
  ⟨Dbl.lt a.ub b.lb, !(Dbl.le b.ub a.lb)⟩

/-- The function `gt_intervald`: `IBool{a[0] > b[1], !(a[1] <= b[0])}`. -/
def gt_intervald (a b : IDouble) : IBool :=
  ⟨Dbl.gt a.lb b.ub, !(Dbl.le a.ub b.lb)⟩

/-- The function `le_intervald`: `IBool{a[1] <= b[0], !(b[1] < a[0])}`. -/
def le_intervald (a b : IDouble) : IBool :=
  ⟨Dbl.le a.ub b.lb, !(Dbl.lt b.ub a.lb)⟩

namespace IDouble

/-- The constructor `explicit IDouble(double value)`: `_mm_set1_pd(value)`. -/
def ofDbl (value : Dbl) : IDouble := ⟨value, value⟩

/-- The member `possibly_undefined()`. -/
def possibly_undefined (x : IDouble) : Bool := x.lb.isNaN || x.ub.isNaN

/-- The member `center()`: `0.5 * (lb() + ub())`. -/
def center (x : IDouble) : Dbl := Dbl.mul Dbl.half (Dbl.add x.lb x.ub)

/-- The operator `<` on two intervals. -/
def lt (x other_ : IDouble) : IBool :=
  let self := broadcast_nan_intervald x
  let other := broadcast_nan_intervald other_
  lt_intervald self other

/-- The operator `>` on two intervals. -/
def gt (x other_ : IDouble) : IBool :=
  let self := broadcast_nan_intervald x
  let other := broadcast_nan_intervald other_
  gt_intervald self other

/-- The operator `<=` on two intervals. -/
def le (x other_ : IDouble) : IBool :=
  let self := broadcast_nan_intervald x
  let other := broadcast_nan_intervald other_
  le_intervald self other

/-- The operator `>=` on two intervals: `le_intervald(other, self)`. -/
def ge (x other_ : IDouble) : IBool :=
  let self := broadcast_nan_intervald x
  let other := broadcast_nan_intervald other_
  le_intervald other self

/-- The operator `>` of an interval and a built-in number: the number is turned
into the singleton `IDouble(other_)`, which is not broadcast. -/
def gtScalar (x : IDouble) (other_ : Dbl) : IBool :=
  let self := broadcast_nan_intervald x
  let other := IDouble.ofDbl other_
  gt_intervald self other

/-- An endpoint of the interval is NaN. -/
def hasNaN (x : IDouble) : Bool := x.lb.isNaN || x.ub.isNaN

/-- The real number `x` (in units of `2^(-1074)`) lies in the interval:
`lb <= x` and `x <= ub`. -/
def Contains (I : IDouble) (x : ℝ) : Prop := Dbl.leReal I.lb x ∧ Dbl.geReal I.ub x

/-- The interval has finite representable endpoints `lb ≤ ub` whose doubles
`2 * lb` and `2 * ub` do not overflow: its midpoint is computed without overflow. -/
def Splittable (I : IDouble) : Prop :=
  ∃ l u : Int, I = ⟨Dbl.fin l, Dbl.fin u⟩ ∧ Dbl.Representable l ∧ Dbl.Representable u ∧
    l ≤ u ∧ -Dbl.maxFinite ≤ 2 * l ∧ 2 * u ≤ Dbl.maxFinite

end IDouble

/-- The function `split_half`: `{IT{iv.lb(), mid}, IT{mid, iv.ub()}}` with
`mid = iv.center()`. -/
def split_half (iv : IDouble) : IDouble × IDouble :=
  let mid := iv.center
  (⟨iv.lb, mid⟩, ⟨mid, iv.ub⟩)



/-! ## `propagate_result.hpp` -/

/-- The enumeration `PropagateResult`, with underlying type `unsigned`. -/
inductive PropagateResult where
  | UNCHANGED : PropagateResult
  | CHANGED : PropagateResult
  | EMPTY : PropagateResult
  | CHANGED_EMPTY : PropagateResult
deriving DecidableEq, Repr

namespace PropagateResult

/-- The underlying value: `static_cast<unsigned>(r)`. -/
def toUnsigned : PropagateResult → Nat
  | UNCHANGED => 0
  | CHANGED => 1
  | EMPTY => 2
  | CHANGED_EMPTY => 3

/-- The cast back: `static_cast<PropagateResult>(n)` for the two low bits. -/
def ofUnsigned (n : Nat) : PropagateResult :=
  match n % 4 with
  | 0 => UNCHANGED
  | 1 => CHANGED
  | 2 => EMPTY
  | _ => CHANGED_EMPTY

/-- The operator `|` (and `|=`) of `PropagateResult`. -/
def or (r1 r2 : PropagateResult) : PropagateResult := ofUnsigned (r1.toUnsigned ||| r2.toUnsigned)

/-- The operator `&` (and `&=`) of `PropagateResult`. -/
def and (r1 r2 : PropagateResult) : PropagateResult := ofUnsigned (r1.toUnsigned &&& r2.toUnsigned)

end PropagateResult

/-! ## `constraint.hpp` -/

/-- The abstract class `Constraint<VariableSet>`: the virtual members
`can_propagate()`, `satisfied(vars)` and `propagate(vars)`; `propagate` returns
its result together with the box it may have mutated. -/
structure Constraint (V : Type) where
  can_propagate : Bool
  satisfied : V → IBool
  propagate : V → PropagateResult × V

/-- A constraint that keeps the defaults of the base class:
`can_propagate()` is `false` and `propagate` returns `UNCHANGED`. -/
def Constraint.checker {V : Type} (satisfied : V → IBool) : Constraint V :=
  ⟨false, satisfied, fun vars => (PropagateResult.UNCHANGED, vars)⟩

/-! ## `basic_variable_set.hpp` -/

/-- The class `BasicVariableSet<ConcreteVariableSet, NumVars>` seen from the
concrete class: the array `m_variable_values` and the further members of the
concrete class (its cached derived quantities), of type `X`. -/
structure BasicVariableSet (X : Type) where
  m_variable_values : List IDouble
  derived : X
deriving DecidableEq, Repr

/-- The type `OnChangeHandler`: a member function of the concrete class taking
`(lb_changed, ub_changed)`. -/
abbrev OnChangeHandler (X : Type) := Bool → Bool → BasicVariableSet X → BasicVariableSet X

namespace BasicVariableSet

variable {X : Type}

/-- The constant `num_vars`. -/
def num_vars (v : BasicVariableSet X) : Nat := v.m_variable_values.length

/-- The member `get_value<Index>()`. -/
def get_value (v : BasicVariableSet X) (index : Nat) : IDouble :=
  v.m_variable_values.getD index ⟨Dbl.nan, Dbl.nan⟩

/-- The member `p_call_handler`: calls `m_handlers[index]` on the box. -/
def p_call_handler (m_handlers : List (OnChangeHandler X)) (index : Nat)
    (lb_changed ub_changed : Bool) (v : BasicVariableSet X) : BasicVariableSet X :=
  match m_handlers.get? index with
  | some handler => handler lb_changed ub_changed v
  | none => v

/-- The member `set_value<Index>`. -/
def set_value (m_handlers : List (OnChangeHandler X)) (index : Nat) (value : IDouble)
    (v : BasicVariableSet X) : BasicVariableSet X :=
  p_call_handler m_handlers index true true
    { v with m_variable_values := v.m_variable_values.set index value }

/-- The member `restrict_lb<Index>`: the returned flag and the box. -/
def restrict_lb (m_handlers : List (OnChangeHandler X)) (index : Nat) (lower_bound : Dbl)
    (v : BasicVariableSet X) : Bool × BasicVariableSet X :=
  let ref := v.get_value index
  if Dbl.lt ref.lb lower_bound then
    (true, p_call_handler m_handlers index true false
      { v with m_variable_values := v.m_variable_values.set index { ref with lb := lower_bound } })
  else (false, v)

/-- The member `restrict_ub<Index>`: the returned flag and the box. -/
def restrict_ub (m_handlers : List (OnChangeHandler X)) (index : Nat) (upper_bound : Dbl)
    (v : BasicVariableSet X) : Bool × BasicVariableSet X :=
  let ref := v.get_value index
  if Dbl.gt ref.ub upper_bound then
    (true, p_call_handler m_handlers index false true
      { v with m_variable_values := v.m_variable_values.set index { ref with ub := upper_bound } })
  else (false, v)

/-- The member `default_split`: the two boxes handed to the callback, in call order. -/
def default_split (m_handlers : List (OnChangeHandler X)) (v : BasicVariableSet X)
    (height : Nat) : List (BasicVariableSet X) :=
  let idx := height % v.num_vars
  let halves := split_half (v.get_value idx)
  let vset1 : BasicVariableSet X := { v with m_variable_values := v.m_variable_values.set idx halves.1 }
  let vset2 : BasicVariableSet X := { v with m_variable_values := v.m_variable_values.set idx halves.2 }
  let vset1 := p_call_handler m_handlers idx false true vset1
  let vset2 := p_call_handler m_handlers idx true false vset2
  [vset1, vset2]

/-- The points of a box: the real vectors (in units of `2^(-1074)`) lying,
coordinate by coordinate, in the intervals of the variables. -/
def Points (v : BasicVariableSet X) (x : List ℝ) : Prop :=
  List.Forall₂ IDouble.Contains v.m_variable_values x

/-- Every variable of the box has a splittable interval. -/
def Splittable (v : BasicVariableSet X) : Prop :=
  ∀ I ∈ v.m_variable_values, I.Splittable

end BasicVariableSet

/-! ## `prover.hpp` -/

/-- The struct `Prover::StackElement`. -/
structure StackElement (V : Type) where
  domain : V
  height : Nat
  id : Nat
  parent_id : Nat
deriving DecidableEq, Repr

/-- The constructor `StackElement(prover, domain, id)` of a root frame. -/
def StackElement.root {V : Type} (domain : V) (id : Nat) : StackElement V :=
  ⟨domain, 0, id, 0⟩

/-- The constructor `StackElement(domain, parent, id)` of a child frame; the
height is a `std::uint64_t`. -/
def StackElement.child {V : Type} (domain : V) (parent : StackElement V) (id : Nat) :
    StackElement V :=
  ⟨domain, (parent.height + 1) % 2 ^ 64, id, parent.id⟩

/-- The class `Prover<VariableSet>`: the members the search reads, and the
`split` member of the `VariableSet` class, given as the list of the boxes it
hands to its callback, in call order. -/
structure Prover (V : Type) where
  split : V → Nat → List V
  m_basic : List V
  m_constraints : List (Constraint V)
  m_abort_satisfiable : Bool
  m_abort_height : Nat
  m_id_counter : Nat

/-- The state of a run of `prove`: the work stack (the back of the vector is the
head of the list), the id counter, the local `result`, and the calls made to the
reporter, oldest first.  The last two fields record the run and are never read by
it: `leaves` collects the boxes of the frames that are discarded, reported or
dropped by `m_stack.clear()`, and `pushed` collects every frame pushed. -/
structure ProofState (V : Type) where
  m_stack : List (StackElement V)
  m_id_counter : Nat
  result : Bool
  reported : List (V × Bool)
  leaves : List V
  pushed : List (StackElement V)
deriving DecidableEq, Repr

namespace Prover

variable {V : Type}

/-- A default-constructed prover for boxes with the given `split`:
no roots, no constraints, `m_abort_satisfiable = false`,
`m_abort_height = numeric_limits<uint64_t>::max()`, `m_id_counter = 0`. -/
def new (split : V → Nat → List V) : Prover V :=
  ⟨split, [], [], false, 2 ^ 64 - 1, 0⟩

/-- The member `add_variable_set`. -/
def add_variable_set (p : Prover V) (vars : V) : Prover V :=
  { p with m_basic := p.m_basic ++ [vars] }

/-- The member `add_constraint`. -/
def add_constraint (p : Prover V) (m : Constraint V) : Prover V :=
  { p with m_constraints := p.m_constraints ++ [m] }

/-- The member `abort_on_satisfiable`. -/
def abort_on_satisfiable (p : Prover V) (value : Bool) : Prover V :=
  { p with m_abort_satisfiable := value }

/-- The member `abort_at_height`; the argument is a `std::uint64_t`. -/
def abort_at_height (p : Prover V) (height : Nat) : Prover V :=
  { p with m_abort_height := height % 2 ^ 64 }

/-- The list `m_propagators` built by `setup_proof`. -/
def m_propagators (p : Prover V) : List (Constraint V) :=
  p.m_constraints.filter (fun c => c.can_propagate)

/-- The list `m_checkers` built by `setup_proof`. -/
def m_checkers (p : Prover V) : List (Constraint V) :=
  p.m_constraints.filter (fun c => !c.can_propagate)

/-- The loop of `setup_proof` that pushes one root frame per box of `m_basic`. -/
def push_roots : List V → ProofState V → ProofState V
  | [], s => s
  | v :: vs, s =>
    let id := (s.m_id_counter + 1) % 2 ^ 64
    let e := StackElement.root v id
    push_roots vs { s with m_id_counter := id, m_stack := e :: s.m_stack,
                           pushed := s.pushed ++ [e] }

/-- The member `setup_proof`, followed by `bool result = true`. -/
def setup_proof (p : Prover V) : ProofState V :=
  push_roots p.m_basic ⟨[], p.m_id_counter, true, [], [], []⟩

/-- One pass of the `for` loop of `run_propagators` over the propagators,
starting from the accumulated `any_change`. -/
def propagate_pass : List (Constraint V) → PropagateResult → V → PropagateResult × V
  | [], any_change, domain => (any_change, domain)
  | c :: rest, any_change, domain =>
    let r := c.propagate domain
    let any_change := any_change.or r.1
    if r.1 = PropagateResult.EMPTY then (any_change, r.2)
    else propagate_pass rest any_change r.2

/-- The member `run_propagators`: the `do ... while(any_change == CHANGED)` loop,
with a bound on the number of passes; `none` when the bound is reached. -/
def run_propagators (ps : List (Constraint V)) : Nat → V → Option (Bool × V)
  | 0, _ => none
  | fuel + 1, domain =>
    let r := propagate_pass ps PropagateResult.UNCHANGED domain
    if r.1 = PropagateResult.CHANGED then run_propagators ps fuel r.2
    else some (decide (r.1.and PropagateResult.EMPTY ≠ PropagateResult.UNCHANGED), r.2)

/-- The loop of `run_checker_collection`, from the accumulated `cresult`. -/
def checker_loop (domain : V) : List (Constraint V) → IBool → IBool
  | [], cresult => cresult
  | c :: rest, cresult =>
    let r := c.satisfied domain
    let cresult := cresult.and r
    if !r.possibly then cresult else checker_loop domain rest cresult

/-- The member `run_checker_collection`. -/
def run_checker_collection (domain : V) (collection : List (Constraint V)) : IBool :=
  checker_loop domain collection ⟨true, true⟩

/-- The member `run_checkers`. -/
def run_checkers (p : Prover V) (domain : V) : IBool :=
  run_checker_collection domain p.m_checkers

/-- The member `run_propagators_as_checkers`. -/
def run_propagators_as_checkers (p : Prover V) (domain : V) : IBool :=
  run_checker_collection domain p.m_propagators

/-- The checking part of the loop body of `prove`: `none` when the frame is
dropped with "Constraints violated!", otherwise the final value of `def`. -/
def check_element (p : Prover V) (domain : V) : Option Bool :=
  let cresult := p.run_checkers domain
  if !cresult.possibly then none
  else if cresult.definitely then
    let cresult := cresult.and (p.run_propagators_as_checkers domain)
    if !cresult.possibly then none else some cresult.definitely
  else some false

/-- The calls of `split_callback`: one frame pushed per box, with `++m_id_counter`. -/
def push_children (element : StackElement V) : List V → ProofState V → ProofState V
  | [], s => s
  | d :: ds, s =>
    let id := (s.m_id_counter + 1) % 2 ^ 64
    let e := StackElement.child d element id
    push_children element ds { s with m_id_counter := id, m_stack := e :: s.m_stack,
                                      pushed := s.pushed ++ [e] }

/-- The two reporting branches of `prove`: `result = false`, the reporter is
called, and the stack is cleared under `m_abort_satisfiable`. -/
def report (p : Prover V) (s : ProofState V) (domain : V) (definitely_satisfiable : Bool) :
    ProofState V :=
  let s := { s with result := false,
                    reported := s.reported ++ [(domain, definitely_satisfiable)],
                    leaves := s.leaves ++ [domain] }
  if p.m_abort_satisfiable then
    { s with m_stack := [], leaves := s.leaves ++ s.m_stack.map (fun e => e.domain) }
  else s

/-- One iteration of the `while` loop of `prove` on the popped frame `element`,
`s` being the state after `m_stack.pop_back()`; `none` when `run_propagators`
does not finish within `fuel` passes. -/
def iteration (p : Prover V) (fuel : Nat) (element : StackElement V) (s : ProofState V) :
    Option (ProofState V) :=
  match run_propagators p.m_propagators fuel element.domain with
  | none => none
  | some (empty, domain) =>
    let element := { element with domain := domain }
    if empty then some { s with leaves := s.leaves ++ [element.domain] }
    else
      match p.check_element element.domain with
      | none => some { s with leaves := s.leaves ++ [element.domain] }
      | some true => some (p.report s element.domain true)
      | some false =>
        if element.height = p.m_abort_height then some (p.report s element.domain false)
        else some (push_children element (p.split element.domain element.height) s)

/-- The `while(!m_stack.empty())` loop of `prove`, for at most `n` iterations. -/
def prove_loop (p : Prover V) (fuel : Nat) : Nat → ProofState V → Option (ProofState V)
  | 0, s =>
    match s.m_stack with
    | [] => some s
    | _ :: _ => none
  | n + 1, s =>
    match s.m_stack with
    | [] => some s
    | element :: rest =>
      match p.iteration fuel element { s with m_stack := rest } with
      | none => none
      | some s1 => prove_loop p fuel n s1

/-- The first `k` iterations of the `while` loop of `prove` (fewer when the stack
runs empty before). -/
def run_iterations (p : Prover V) (fuel : Nat) : Nat → ProofState V → Option (ProofState V)
  | 0, s => some s
  | k + 1, s =>
    match s.m_stack with
    | [] => some s
    | element :: rest =>
      match p.iteration fuel element { s with m_stack := rest } with
      | none => none
      | some s1 => run_iterations p fuel k s1

/-- The run of `prove` with its final state: `none` when it does not finish
within `fuel` iterations, each with at most `fuel` propagation passes. -/
def prove_run (p : Prover V) (fuel : Nat) : Option (ProofState V) :=
  prove_loop p fuel fuel p.setup_proof

/-- The member `prove`: the returned `result`. -/
def prove (p : Prover V) (fuel : Nat) : Option Bool :=
  (p.prove_run fuel).map (fun s => s.result)

/-- The calls made to the reporter during `prove`, oldest first. -/
def prove_reports (p : Prover V) (fuel : Nat) : Option (List (V × Bool)) :=
  (p.prove_run fuel).map (fun s => s.reported)

/-! ### Predicates on the states of a run -/

/-- The boxes and heights of the frames on the work stack, top first. -/
def stack_keys (s : ProofState V) : List (V × Nat) :=
  s.m_stack.map (fun e => (e.domain, e.height))

/-- The loop of `prove` finishes from every state whose work stack holds the
given boxes and heights. -/
def TerminatesFrom (p : Prover V) (ks : List (V × Nat)) : Prop :=
  ∀ s : ProofState V, stack_keys s = ks →
    ∃ (f n : Nat) (out : ProofState V), prove_loop p f n s = some out

/-- The heights of the frames on the stack and of the frames pushed so far are at
most the abort height. -/
def HeightsBounded (p : Prover V) (s : ProofState V) : Prop :=
  (∀ e ∈ s.m_stack, e.height ≤ p.m_abort_height) ∧
  (∀ e ∈ s.pushed, e.height ≤ p.m_abort_height)

/-- The points held by a state: those of its leaves and of the frames on its stack. -/
def Covered {P : Type} (pts : V → P → Prop) (s : ProofState V) (x : P) : Prop :=
  (∃ l ∈ s.leaves, pts l x) ∨ (∃ e ∈ s.m_stack, pts e.domain x)

/-- The local `result` is true exactly while the reporter has not been called. -/
def ResultTracksReports (s : ProofState V) : Prop := s.result = true ↔ s.reported = []

end Prover

/-! ## The one-variable prover of the concrete scenario -/

/-- A box with the single variable `x` and no derived quantity. -/
abbrev Box1 := BasicVariableSet Unit

/-- The box `x ∈ [l, u]`. -/
def box1 (l u : Dbl) : Box1 := ⟨[⟨l, u⟩], ()⟩

/-- The handler table of `Box1`: one handler, which does nothing. -/
def box1_handlers : List (OnChangeHandler Unit) := [fun _ _ v => v]

/-- The `split` member of `Box1`: `default_split`. -/
def box1_split (v : Box1) (height : Nat) : List Box1 :=
  BasicVariableSet.default_split box1_handlers v height

/-- The checker constraint `x > c` for the integer constant `c`. -/
def constraint_gt (c : Int) : Constraint Box1 :=
  Constraint.checker (fun v => (v.get_value 0).gtScalar (Dbl.ofInt c))

/-- The prover with the single root `x ∈ [-1, 1]` and the single constraint
`x > c`, all flags at their defaults. -/
def prover_gt (c : Int) : Prover Box1 :=
  ((Prover.new box1_split).add_variable_set (box1 (Dbl.ofInt (-1)) (Dbl.ofInt 1))).add_constraint
    (constraint_gt c)

/-- A propagator whose `propagate` reports `CHANGED` on every call and leaves the
box as it is. -/
def constraint_always_changed : Constraint Box1 :=
  ⟨true, fun _ => ⟨false, true⟩, fun v => (PropagateResult.CHANGED, v)⟩

/-- The propagator of `x <= 0`: it lowers the upper bound of `x` to `0` with
`restrict_ub` and reports `CHANGED` when the bound moved. -/
def constraint_le_zero : Constraint Box1 :=
  ⟨true, fun v => (v.get_value 0).le (IDouble.ofDbl (Dbl.ofInt 0)),
   fun v =>
    let r := BasicVariableSet.restrict_ub box1_handlers 0 (Dbl.ofInt 0) v
    (if r.1 then PropagateResult.CHANGED else PropagateResult.UNCHANGED, r.2)⟩

/-- The propagator of `x >= 0`: it raises the lower bound of `x` to `0` with
`restrict_lb` and reports `CHANGED` when the bound moved. -/
def constraint_ge_zero : Constraint Box1 :=
  ⟨true, fun v => (v.get_value 0).ge (IDouble.ofDbl (Dbl.ofInt 0)),
   fun v =>
    let r := BasicVariableSet.restrict_lb box1_handlers 0 (Dbl.ofInt 0) v
    (if r.1 then PropagateResult.CHANGED else PropagateResult.UNCHANGED, r.2)⟩

/-- A checker that is indeterminate on every box. -/
def constraint_indeterminate : Constraint Box1 :=
  Constraint.checker (fun _ => ⟨false, true⟩)

/-- The prover with the single root `x ∈ [l, u]`, the given constraints and the
abort height `h`. -/
def prover_box1 (l u : Dbl) (cs : List (Constraint Box1)) (h : Nat) : Prover Box1 :=
  { (Prover.new box1_split) with
    m_basic := [box1 l u], m_constraints := cs, m_abort_height := h % 2 ^ 64 }

/-- The number of upper bounds above zero: a measure that `constraint_le_zero`
lowers whenever it reports a change. -/
def measure_le_zero (v : Box1) : Nat := if Dbl.gt (v.get_value 0).ub (Dbl.ofInt 0) then 1 else 0

end ivarp

namespace ivarp

/-! ## The reference of the test `[ivarp_ia][IDouble] Comparisons` -/

/-- The test's `havenan`: one of the four endpoints differs from itself. -/
def havenan (xi xj : IDouble) : Bool :=
  xi.lb.isNaN || xi.ub.isNaN || xj.lb.isNaN || xj.ub.isNaN

/-- The test's expected value `exp_lt` of `xi < xj`. -/
def exp_lt (xi xj : IDouble) : IBool :=
  ⟨Dbl.lt xi.lb xj.lb && Dbl.lt xi.lb xj.ub && Dbl.lt xi.ub xj.lb && Dbl.lt xi.ub xj.ub
      && !havenan xi xj,
   Dbl.lt xi.lb xj.lb || Dbl.lt xi.lb xj.ub || Dbl.lt xi.ub xj.lb || Dbl.lt xi.ub xj.ub
      || havenan xi xj⟩

/-- The test's expected value `exp_le` of `xi <= xj`. -/
def exp_le (xi xj : IDouble) : IBool :=
  ⟨Dbl.le xi.lb xj.lb && Dbl.le xi.lb xj.ub && Dbl.le xi.ub xj.lb && Dbl.le xi.ub xj.ub
      && !havenan xi xj,
   Dbl.le xi.lb xj.lb || Dbl.le xi.lb xj.ub || Dbl.le xi.ub xj.lb || Dbl.le xi.ub xj.ub
      || havenan xi xj⟩

/-- The endpoints of the interval are ordered, `lb <= ub`, or one of them is NaN. -/
def IDouble.OrderedOrNaN (x : IDouble) : Prop := Dbl.le x.lb x.ub = true ∨ x.hasNaN = true

end ivarp

namespace ivarp
/-! ## Further operations on `double`: sign masks, division, square root -/

namespace Dbl

/-- The `xor` of a double with the sign-bit mask: the sign is switched. -/
def neg : Dbl → Dbl
  | nan => nan
  | ninf => pinf
  | fin n => fin (-n)
  | pinf => ninf

/-- The `andnot` of the sign-bit mask with a double: the sign bit is cleared. -/
def abs : Dbl → Dbl
  | nan => nan
  | ninf => pinf
  | fin n => fin (n.natAbs : Int)
  | pinf => pinf

/-- The `and` of the sign-bit mask with a double: the sign bit alone.  The model
keeps a single zero, whose sign bit reads as clear; the sign bit of a NaN is
not kept either. -/
def signbit : Dbl → Bool
  | nan => false
  | ninf => true
  | fin n => decide (n < 0)
  | pinf => false

/-- The `xor` of a double with a mask lane that holds a sign bit or nothing. -/
def xor_sign (x : Dbl) (s : Bool) : Dbl := if s then neg x else x

/-- The `and` of one lane with one lane of a comparison mask: all ones keeps
the lane, all zeros gives `+0.0`. -/
def and_pd_mask (x : Dbl) (mask : Bool) : Dbl := if mask then x else fin 0

/-- The instruction `minsd`/`minpd` on one lane: `a < b ? a : b`, the second
operand when either is NaN. -/
def min_sd (a b : Dbl) : Dbl := if lt a b then a else b

/-- The instruction `maxsd`/`maxpd` on one lane: `a > b ? a : b`, the second
operand when either is NaN. -/
def max_sd (a b : Dbl) : Dbl := if gt a b then a else b

/-- Rounding toward minus infinity of the exact quotient `p / d` (in units of
`2^(-1074)`, with `0 < d`) to a double, with the overflow rule of `roundDown`. -/
def roundDownQuot (p d : Int) : Dbl :=
  let e := ulpAux 13 (p.natAbs / d.natAbs)
  let r := (p / (d * pow2 e)) * pow2 e
  if maxFinite < r then fin maxFinite
  else if r < -maxFinite then ninf
  else fin r

/-- The quotient `x / y` of doubles under rounding toward minus infinity
(`vdivpd`).  A zero divisor is read as `+0.0`, the model keeping a single
zero; the interval division never divides by a zero when its denominator is an
ordered interval. -/
def div : Dbl → Dbl → Dbl
  | nan, _ => nan
  | _, nan => nan
  | fin a, fin b =>
    if b = 0 then (if a = 0 then nan else if 0 < a then pinf else ninf)
    else if 0 < b then roundDownQuot (a * pow2 1074) b
    else roundDownQuot (-a * pow2 1074) (-b)
  | fin _, pinf => fin 0
  | fin _, ninf => fin 0
  | pinf, fin b => if 0 ≤ b then pinf else ninf
  | ninf, fin b => if 0 ≤ b then ninf else pinf
  | pinf, pinf => nan
  | pinf, ninf => nan
  | ninf, pinf => nan
  | ninf, ninf => nan

/-- The IEEE comparison `x == y` of two doubles (false when either is NaN). -/
def eq : Dbl → Dbl → Bool
  | nan, _ => false
  | _, nan => false
  | ninf, ninf => true
  | fin a, fin b => decide (a = b)
  | pinf, pinf => true
  | _, _ => false

/-- Newton's iteration `x ↦ (x + n / x) / 2` for the integer square root of `n`,
run from a start above the root until it stops decreasing. -/
def sqrtIter (n : Nat) : Nat → Nat → Nat
  | 0, x => x
  | fuel + 1, x =>
    let y := (x + n / x) / 2
    if y < x then sqrtIter n fuel y else x

/-- The integer square root `⌊√n⌋`: Newton's iteration from a power of two above
the root; the result is checked, and is `Nat.sqrt n` in every case. -/
def isqrt (n : Nat) : Nat :=
  let r := sqrtIter n 64 (2 ^ ((53 + ulpAux 13 n) / 2 + 1))
  if r * r ≤ n ∧ n < (r + 1) * (r + 1) then r else Nat.sqrt n

/-- The rounding-control field `RC` of the register `MXCSR` (bits 13 and 14):
`0` to nearest, `1` down, `2` up, `3` toward zero. -/
def rounding_control (mxcsr : Nat) : Nat := (mxcsr / 2 ^ 13) % 4

/-- The square root of the positive finite double `n * 2^(-1074)` rounded as the
rounding control `rc` says.  The exact root is `√(n * 2^1074)` in units of
`2^(-1074)`; `q` is its floor in units of the last place `2^e` of the result. -/
def sqrtRound (rc : Nat) (n : Nat) : Dbl :=
  let X := n * 2 ^ 1074
  let e := ulpAux 13 (isqrt X)
  let q := isqrt (X / 4 ^ e)
  let exact : Bool := decide (q * q * 4 ^ e = X)
  let up : Bool :=
    if exact then false
    else if rc = 2 then true
    else if rc = 0 then
      (if 4 * X < (2 * q + 1) * (2 * q + 1) * 4 ^ e then false
       else if (2 * q + 1) * (2 * q + 1) * 4 ^ e < 4 * X then true
       else decide (q % 2 = 1))
    else false
  fin ((((if up then q + 1 else q) * 2 ^ e : Nat)) : Int)

/-- The instruction `vsqrtsd` under the rounding mode held in `MXCSR`. -/
def vsqrtsd (mxcsr : Nat) : Dbl → Dbl
  | nan => nan
  | ninf => nan
  | pinf => pinf
  | fin n =>
    if n < 0 then nan
    else if n = 0 then fin 0
    else sqrtRound (rounding_control mxcsr) n.toNat

end Dbl

/-- The function `setup_floating_point_environment` on the register `MXCSR`:
`fpmode &= 0xffff0000; fpmode |= 0x00003f80` (exceptions masked, no
flush-to-zero, no denormals-are-zero, round down). -/
def setup_floating_point_environment (fpmode : Nat) : Nat :=
  (fpmode &&& 0xffff0000) ||| 0x00003f80

end ivarp

namespace ivarp
/-! ## `impl/mul_interval.hpp`, `impl/div_interval.hpp`, `interval_div.cpp`,
`impl/sqrt_interval.hpp` and `impl/interval_setops.hpp`

A `__m128d` is an `IDouble` (lane 0 the lower bound).  A comparison mask and a
sign mask are pairs of booleans, one per lane. -/

/-- The type `__m256d`: four lanes of doubles, lane 0 first. -/
structure M256d where
  e0 : Dbl
  e1 : Dbl
  e2 : Dbl
  e3 : Dbl
deriving DecidableEq, Repr

/-- The constant `NAN_INTERVAL`: all bits set in both lanes. -/
def NAN_INTERVAL : IDouble := ⟨Dbl.nan, Dbl.nan⟩

/-- The constant `SWITCH_LOWER_SIGN128`: the sign bit of lane 0. -/
def SWITCH_LOWER_SIGN128 : Bool × Bool := (true, false)

/-- The constant `SWITCH_UPPER_SIGN128`: the sign bit of lane 1. -/
def SWITCH_UPPER_SIGN128 : Bool × Bool := (false, true)

/-- Modelled from the spec: the constant `SWITCH_BOTH_SIGNS128` is declared in
`impl/add_interval.hpp`, which is not among the sources; by its name and its
use (clearing both signs, extracting both signs) it holds the sign bits of both
lanes. -/
def SWITCH_BOTH_SIGNS128 : Bool × Bool := (true, true)

/-- The intrinsic `_mm_xor_pd` of an interval with a sign mask. -/
def mm_xor_pd (x : IDouble) (mask : Bool × Bool) : IDouble :=
  ⟨Dbl.xor_sign x.lb mask.1, Dbl.xor_sign x.ub mask.2⟩

/-- The intrinsic `_mm_xor_pd` of two sign masks. -/
def mm_xor_mask (m1 m2 : Bool × Bool) : Bool × Bool := (xor m1.1 m2.1, xor m1.2 m2.2)

/-- The intrinsic `_mm_andnot_pd` of a sign mask with an interval: the masked
sign bits are cleared. -/
def mm_andnot_pd (mask : Bool × Bool) (x : IDouble) : IDouble :=
  ⟨if mask.1 then x.lb.abs else x.lb, if mask.2 then x.ub.abs else x.ub⟩

/-- The intrinsic `_mm_and_pd` of a sign mask with an interval: the masked sign
bits alone. -/
def mm_and_pd (mask : Bool × Bool) (x : IDouble) : Bool × Bool :=
  (mask.1 && x.lb.signbit, mask.2 && x.ub.signbit)

/-- The intrinsic `_mm_cmpunord_pd`: per lane, one of the two doubles is NaN. -/
def mm_cmpunord_pd (a b : IDouble) : Bool × Bool :=
  (a.lb.isNaN || b.lb.isNaN, a.ub.isNaN || b.ub.isNaN)

/-- The intrinsic `_mm_cmpeq_pd`. -/
def mm_cmpeq_pd (a b : IDouble) : Bool × Bool := (Dbl.eq a.lb b.lb, Dbl.eq a.ub b.ub)

/-- The intrinsic `_mm_movemask_pd`: the lane bits of a mask as an integer. -/
def mm_movemask_pd (m : Bool × Bool) : Nat := (if m.1 then 1 else 0) + (if m.2 then 2 else 0)

/-- The intrinsic `_mm_or_pd` of a comparison mask with an interval. -/
def mm_or_pd (mask : Bool × Bool) (x : IDouble) : IDouble :=
  ⟨or_pd_mask x.lb mask.1, or_pd_mask x.ub mask.2⟩

/-- The intrinsic `_mm_min_pd`. -/
def mm_min_pd (a b : IDouble) : IDouble := ⟨Dbl.min_sd a.lb b.lb, Dbl.min_sd a.ub b.ub⟩

/-- The intrinsic `_mm_max_pd`. -/
def mm_max_pd (a b : IDouble) : IDouble := ⟨Dbl.max_sd a.lb b.lb, Dbl.max_sd a.ub b.ub⟩

/-- The intrinsic `_mm_min_sd`: lane 0 is the minimum, lane 1 is copied from `a`. -/
def mm_min_sd (a b : IDouble) : IDouble := ⟨Dbl.min_sd a.lb b.lb, a.ub⟩

/-- The intrinsic `_mm_max_sd`: lane 0 is the maximum, lane 1 is copied from `a`. -/
def mm_max_sd (a b : IDouble) : IDouble := ⟨Dbl.max_sd a.lb b.lb, a.ub⟩

/-- The intrinsic `_mm_unpackhi_pd`. -/
def mm_unpackhi_pd (a b : IDouble) : IDouble := ⟨a.ub, b.ub⟩

/-- The function `horizontal_min`; the result is read in lane 0. -/
def horizontal_min (x : M256d) : IDouble :=
  let vlow : IDouble := ⟨x.e0, x.e1⟩
  let vhigh : IDouble := ⟨x.e2, x.e3⟩
  let vlow := mm_min_pd vlow vhigh
  let high64 := mm_unpackhi_pd vlow vlow
  mm_min_sd vlow high64

/-- The function `horizontal_max128`; the result is read in lane 0. -/
def horizontal_max128 (x : IDouble) : IDouble :=
  let low := x
  let high := mm_unpackhi_pd x x
  mm_max_sd high low

/-- The function `horizontal_sort`. -/
def horizontal_sort (x : IDouble) : IDouble :=
  let low := x
  let high := mm_unpackhi_pd x x
  let mn := mm_min_sd low high
  let mx := mm_max_sd low high
  ⟨mn.lb, mx.lb⟩

/-- One instruction on the four lanes of two `__m256d`. -/
def M256d.map₂ (f : Dbl → Dbl → Dbl) (x y : M256d) : M256d :=
  ⟨f x.e0 y.e0, f x.e1 y.e1, f x.e2 y.e2, f x.e3 y.e3⟩

/-- The body of `mul_intervald`, the instruction `vmulpd` (the product of two
lanes under the current rounding mode) being the argument `vmulpd`. -/
def mul_intervald_with (vmulpd : Dbl → Dbl → Dbl) (a b : IDouble) : IDouble :=
  if mm_movemask_pd (mm_cmpunord_pd a b) ≠ 0 then NAN_INTERVAL
  else
    -- `lhs_rd = [a_lb, a_lb, a_ub, a_ub]`
    let lhs_rd : M256d := ⟨a.lb, a.lb, a.ub, a.ub⟩
    -- `lhs_ru = [-a_lb, -a_lb, -a_ub, -a_ub]`
    let lhs_ru : M256d := ⟨lhs_rd.e0.neg, lhs_rd.e1.neg, lhs_rd.e2.neg, lhs_rd.e3.neg⟩
    -- `rhs = [b_lb, b_ub, b_lb, b_ub]`
    let rhs : M256d := ⟨b.lb, b.ub, b.lb, b.ub⟩
    let lhs_rd := M256d.map₂ vmulpd rhs lhs_rd
    let lhs_ru := M256d.map₂ vmulpd rhs lhs_ru
    -- `nanmask = _mm256_cmp_pd(lhs_rd, 0.0, _CMP_ORD_Q)`, lane by lane
    let n0 := !lhs_rd.e0.isNaN
    let n1 := !lhs_rd.e1.isNaN
    let n2 := !lhs_rd.e2.isNaN
    let n3 := !lhs_rd.e3.isNaN
    let lhs_rd : M256d := ⟨Dbl.and_pd_mask lhs_rd.e0 n0, Dbl.and_pd_mask lhs_rd.e1 n1,
      Dbl.and_pd_mask lhs_rd.e2 n2, Dbl.and_pd_mask lhs_rd.e3 n3⟩
    let lhs_ru : M256d := ⟨Dbl.and_pd_mask lhs_ru.e0 n0, Dbl.and_pd_mask lhs_ru.e1 n1,
      Dbl.and_pd_mask lhs_ru.e2 n2, Dbl.and_pd_mask lhs_ru.e3 n3⟩
    let rdmin := horizontal_min lhs_rd
    let rumin := horizontal_min lhs_ru
    let rumax := mm_xor_pd rumin SWITCH_LOWER_SIGN128
    ⟨rdmin.lb, rumax.lb⟩

/-- The function `mul_intervald`: `vmulpd` multiplies under rounding toward minus
infinity, the mode the program runs in. -/
def mul_intervald (a b : IDouble) : IDouble := mul_intervald_with Dbl.mul a b

/-- The member `PowSingle<N>::compute`, the recursion on `N / 2` counted down by
`fuel`; `fuel = N` is more than the depth of the recursion. -/
def PowSingle_compute : Nat → Nat → Dbl → Dbl
  | _, 0, _ => Dbl.ofInt 1
  | _, 1, x => x
  | 0, _ + 2, x => x
  | fuel + 1, N + 2, x =>
    if (N + 2) % 2 = 1 then
      let xsq := PowSingle_compute fuel ((N + 2) / 2) x
      let y := xsq.neg
      let xsq := Dbl.mul y xsq
      let xsq := Dbl.mul x xsq
      xsq.neg
    else
      let x := PowSingle_compute fuel ((N + 2) / 2) x
      let y := x.neg
      let x := Dbl.mul y x
      x.neg

/-- The function `pow_ru_single<N>`. -/
def pow_ru_single (N : Nat) (x : Dbl) : Dbl := PowSingle_compute N N x

/-- The instruction `vmulpd` on the two lanes of two `__m128d`. -/
def vmulpd (x y : IDouble) : IDouble := ⟨Dbl.mul x.lb y.lb, Dbl.mul x.ub y.ub⟩

/-- The instruction `vdivpd` on the two lanes of two `__m128d`. -/
def vdivpd (x y : IDouble) : IDouble := ⟨Dbl.div x.lb y.lb, Dbl.div x.ub y.ub⟩

/-- The member `PowInterval<N>::compute`, the recursion on `N / 2` counted down
by `fuel`; `fuel = N` is more than the depth of the recursion. -/
def PowInterval_compute : Nat → Nat → IDouble → Bool × Bool → IDouble
  | _, 0, _, _ => ⟨Dbl.ofInt 1, Dbl.ofInt 1⟩
  | _, 1, x, _ => x
  | 0, _ + 2, x, _ => x
  | fuel + 1, N + 2, x, signswap =>
    let xsq := PowInterval_compute fuel ((N + 2) / 2) x signswap
    let y := mm_xor_pd xsq signswap
    let xsq := vmulpd y xsq
    if (N + 2) % 2 = 1 then vmulpd x xsq else xsq

/-- The function `fixed_pow<N>`. -/
def fixed_pow (N : Nat) (x : IDouble) : IDouble :=
  if N = 0 then
    if x.lb.isNaN || x.ub.isNaN then NAN_INTERVAL
    else ⟨Dbl.ofInt 1, Dbl.ofInt 1⟩
  else if N = 1 then x
  else if N % 2 = 0 then
    let masked_sign := mm_andnot_pd SWITCH_BOTH_SIGNS128 x
    if Dbl.le x.lb (Dbl.fin 0) && Dbl.le (Dbl.fin 0) x.ub then
      ⟨Dbl.fin 0, pow_ru_single N (horizontal_max128 masked_sign).lb⟩
    else
      if x.lb.isNaN || x.ub.isNaN then NAN_INTERVAL
      else
        let signswitch := SWITCH_UPPER_SIGN128
        let sorted := horizontal_sort masked_sign
        mm_xor_pd (PowInterval_compute N N sorted signswitch) signswitch
  else
    let masked_sign := mm_andnot_pd SWITCH_BOTH_SIGNS128 x
    let signs := mm_and_pd SWITCH_BOTH_SIGNS128 x
    let signs := mm_xor_mask SWITCH_UPPER_SIGN128 signs
    let x := PowInterval_compute N N masked_sign signs
    mm_xor_pd x SWITCH_UPPER_SIGN128

/-- The function `div_intervald_with_infinities` of `interval_div.cpp`. -/
def div_intervald_with_infinities (num den : IDouble) : IDouble :=
  let flip : Bool := Dbl.lt den.lb (Dbl.fin 0)
  -- `swap(lbden, ubden); lbden = -lbden; ubden = -ubden;` and the same on `num`
  let lbden := if flip then den.ub.neg else den.lb
  let ubden := if flip then den.lb.neg else den.ub
  let lbnum := if flip then num.ub.neg else num.lb
  let ubnum := if flip then num.lb.neg else num.ub
  let act_num : IDouble := ⟨lbnum, ubnum.neg⟩
  let act_den : IDouble :=
    if Dbl.le (Dbl.fin 0) lbnum then ⟨ubden, lbden⟩
    else if Dbl.le ubnum (Dbl.fin 0) then ⟨lbden, ubden⟩
    else ⟨lbden, lbden⟩
  let act_num := vdivpd act_num act_den
  mm_xor_pd act_num SWITCH_UPPER_SIGN128

/-- The constant `POSITIVE_INF128`. -/
def POSITIVE_INF128 : IDouble := ⟨Dbl.pinf, Dbl.pinf⟩

/-- The function `div_intervald`. -/
def div_intervald (num den : IDouble) : IDouble :=
  let smask_num := mm_andnot_pd SWITCH_BOTH_SIGNS128 num
  let smask_den := mm_andnot_pd SWITCH_BOTH_SIGNS128 den
  if mm_movemask_pd (mm_cmpunord_pd num den) ≠ 0 then NAN_INTERVAL
  else
    let num_inf := mm_movemask_pd (mm_cmpeq_pd smask_num POSITIVE_INF128)
    let den_inf := mm_movemask_pd (mm_cmpeq_pd smask_den POSITIVE_INF128)
    if Dbl.le den.lb (Dbl.fin 0) && Dbl.le (Dbl.fin 0) den.ub then NAN_INTERVAL
    else if num_inf ||| den_inf ≠ 0 then div_intervald_with_infinities num den
    else
      let num_rd : M256d := ⟨num.lb, num.lb, num.ub, num.ub⟩
      let num_ru : M256d := ⟨num_rd.e0.neg, num_rd.e1.neg, num_rd.e2.neg, num_rd.e3.neg⟩
      let den_both : M256d := ⟨den.lb, den.ub, den.lb, den.ub⟩
      let num_rd := M256d.map₂ Dbl.div num_rd den_both
      let num_ru := M256d.map₂ Dbl.div num_ru den_both
      let rdmin := horizontal_min num_rd
      let rumin := horizontal_min num_ru
      let rumax := mm_xor_pd rumin SWITCH_LOWER_SIGN128
      ⟨rdmin.lb, rumax.lb⟩

/-- The function `sqrt_intervald`, with the register `MXCSR` passed in and
handed back: `stmxcsr; vsqrtsd lb; xorl $0x6000; ldmxcsr; vsqrtsd ub;
xorl $0x6000; ldmxcsr`. -/
def sqrt_intervald (MXCSR : Nat) (x : IDouble) : IDouble × Nat :=
  let lb := x.lb
  let ub := x.ub
  let mxcsr := MXCSR
  let lb := Dbl.vsqrtsd MXCSR lb
  let mxcsr := mxcsr ^^^ 0x6000
  let MXCSR := mxcsr
  let ub := Dbl.vsqrtsd MXCSR ub
  let mxcsr := mxcsr ^^^ 0x6000
  let MXCSR := mxcsr
  (⟨lb, ub⟩, MXCSR)

/-- The function `join_intervald`. -/
def join_intervald (a b : IDouble) : IDouble :=
  let nanmask := mm_cmpunord_pd a b
  let a := mm_xor_pd a SWITCH_UPPER_SIGN128
  let b := mm_xor_pd b SWITCH_UPPER_SIGN128
  let mins := mm_min_pd a b
  mm_or_pd nanmask (mm_xor_pd mins SWITCH_UPPER_SIGN128)

/-- The function `intersect_intervald`. -/
def intersect_intervald (a b : IDouble) : IDouble :=
  let nanmask := mm_cmpunord_pd a b
  let a := mm_xor_pd a SWITCH_UPPER_SIGN128
  let b := mm_xor_pd b SWITCH_UPPER_SIGN128
  let maxs := mm_max_pd a b
  mm_or_pd nanmask (mm_xor_pd maxs SWITCH_UPPER_SIGN128)

/-- Modelled from the spec: the function `negate_intervald` is defined in
`impl/add_interval.hpp`, which is not among the sources; negation swaps the
endpoints and switches their signs. -/
def negate_intervald (a : IDouble) : IDouble := ⟨a.ub.neg, a.lb.neg⟩

namespace IDouble

/-- The operator `*`. -/
def mul (x other : IDouble) : IDouble := mul_intervald x other

/-- The operator `/`. -/
def div (x other : IDouble) : IDouble := div_intervald x other

/-- The unary operator `-`. -/
def neg (x : IDouble) : IDouble := negate_intervald x

/-- The member `sqrt()`, in a program whose register `MXCSR` holds `MXCSR`. -/
def sqrt (MXCSR : Nat) (x : IDouble) : IDouble := (sqrt_intervald MXCSR x).1

/-- The member `fixed_pow<N>()`. -/
def fixed_pow (N : Nat) (x : IDouble) : IDouble := ivarp.fixed_pow N x

/-- The member `join`. -/
def join (x y : IDouble) : IDouble := join_intervald x y

/-- The member `intersection`. -/
def intersection (x y : IDouble) : IDouble := intersect_intervald x y

end IDouble
end ivarp

namespace ivarp
/-! ## Reference definitions

The notions in which the properties of the arithmetic are stated: rounding
toward plus infinity defined by the ceiling (the program obtains it by sign
switches in the round-down mode), minimum and maximum, the cross products of
endpoints with `0 * ∞` read as `0`, the directed square roots defined from the
integer square root, and powers by repeated squaring with every product rounded
in one direction. -/

namespace Dbl

/-- The double is plus or minus infinity. -/
def isInf : Dbl → Bool
  | pinf => true
  | ninf => true
  | _ => false

/-- The double is a finite number. -/
def isFinite : Dbl → Bool
  | fin _ => true
  | _ => false

/-- The quotient `p / d` of integers rounded toward plus infinity, for `0 < d`. -/
def ceilDiv (p d : Int) : Int := (p + d - 1) / d

/-- The finite value `p / 2^s` (in units of `2^(-1074)`) rounded toward plus
infinity to 53 significant bits, before the overflow test. -/
def roundUpInt (p : Int) (s : Nat) : Int :=
  ceilDiv p (pow2 (s + ulpShift p s)) * pow2 (ulpShift p s)

/-- Rounding toward plus infinity of the exact value `p / 2^s` (in units of
`2^(-1074)`) to a double: positive overflow gives plus infinity, negative
overflow gives the most negative finite double. -/
def roundUp (p : Int) (s : Nat) : Dbl :=
  let r := roundUpInt p s
  if maxFinite < r then pinf
  else if r < -maxFinite then fin (-maxFinite)
  else fin r

/-- The product `x * y` of doubles rounded toward plus infinity. -/
def mulUp : Dbl → Dbl → Dbl
  | nan, _ => nan
  | _, nan => nan
  | fin a, fin b => roundUp (a * b) 1074
  | fin a, pinf => if a = 0 then nan else if 0 < a then pinf else ninf
  | fin a, ninf => if a = 0 then nan else if 0 < a then ninf else pinf
  | pinf, fin b => if b = 0 then nan else if 0 < b then pinf else ninf
  | ninf, fin b => if b = 0 then nan else if 0 < b then ninf else pinf
  | pinf, pinf => pinf
  | ninf, ninf => pinf
  | pinf, ninf => ninf
  | ninf, pinf => ninf

/-- Rounding toward plus infinity of the exact quotient `p / d` (in units of
`2^(-1074)`, with `0 < d`) to a double, with the overflow rule of `roundUp`. -/
def roundUpQuot (p d : Int) : Dbl :=
  let e := ulpAux 13 (p.natAbs / d.natAbs)
  let r := ceilDiv p (d * pow2 e) * pow2 e
  if maxFinite < r then pinf
  else if r < -maxFinite then fin (-maxFinite)
  else fin r

/-- The quotient `x / y` of doubles rounded toward plus infinity, with the same
reading of a zero divisor. -/
def divUp : Dbl → Dbl → Dbl
  | nan, _ => nan
  | _, nan => nan
  | fin a, fin b =>
    if b = 0 then (if a = 0 then nan else if 0 < a then pinf else ninf)
    else if 0 < b then roundUpQuot (a * pow2 1074) b
    else roundUpQuot (-a * pow2 1074) (-b)
  | fin _, pinf => fin 0
  | fin _, ninf => fin 0
  | pinf, fin b => if 0 ≤ b then pinf else ninf
  | ninf, fin b => if 0 ≤ b then ninf else pinf
  | pinf, pinf => nan
  | pinf, ninf => nan
  | ninf, pinf => nan
  | ninf, ninf => nan

/-- The smaller of two doubles that are not NaN. -/
def min (x y : Dbl) : Dbl := if le x y then x else y

/-- The larger of two doubles that are not NaN. -/
def max (x y : Dbl) : Dbl := if le x y then y else x

/-- The square root of a double rounded toward minus infinity: the floor of the
exact root `√(n * 2^1074)`, cut to a multiple of the unit in the last place. -/
def sqrtDown : Dbl → Dbl
  | nan => nan
  | ninf => nan
  | pinf => pinf
  | fin n =>
    if n < 0 then nan
    else
      let r := Nat.sqrt (n.toNat * 2 ^ 1074)
      let e := ulpAux 13 r
      fin ((r / 2 ^ e * 2 ^ e : Nat) : Int)

/-- The square root of a double rounded toward plus infinity: the exact root
when it is a double, the next multiple of the unit in the last place above the
root otherwise. -/
def sqrtUp : Dbl → Dbl
  | nan => nan
  | ninf => nan
  | pinf => pinf
  | fin n =>
    if n < 0 then nan
    else
      let X := n.toNat * 2 ^ 1074
      let r := Nat.sqrt X
      let e := ulpAux 13 r
      if r * r = X ∧ r % 2 ^ e = 0 then fin (r : Int)
      else fin (((r / 2 ^ e + 1) * 2 ^ e : Nat) : Int)

/-- The product `x * y` has the form `0 * ∞` or `∞ * 0`. -/
def zeroTimesInf (x y : Dbl) : Bool :=
  (decide (x = fin 0) && y.isInf) || (x.isInf && decide (y = fin 0))

/-- A cross product of two endpoints rounded toward minus infinity, a product of
the form `0 * ∞` contributing `0`. -/
def crossDown (x y : Dbl) : Dbl := if zeroTimesInf x y then fin 0 else mul x y

/-- A cross product of two endpoints rounded toward plus infinity, a product of
the form `0 * ∞` contributing `0`. -/
def crossUp (x y : Dbl) : Dbl := if zeroTimesInf x y then fin 0 else mulUp x y

/-- The double `m` is the minimum of the doubles in `l`: one of them, and `<=`
each of them. -/
def IsMinOf (m : Dbl) (l : List Dbl) : Prop := m ∈ l ∧ ∀ x ∈ l, le m x = true

/-- The double `m` is the maximum of the doubles in `l`: one of them, and `>=`
each of them. -/
def IsMaxOf (m : Dbl) (l : List Dbl) : Prop := m ∈ l ∧ ∀ x ∈ l, le x m = true

/-- The assumption on the multiplication instruction under which the product of
intervals is enclosing: on finite operands it returns a double not above the
exact product (the exact product of `a * 2^(-1074)` and `b * 2^(-1074)` is
`a * b / 2^1074` in units of `2^(-1074)`), and on an infinite or NaN operand it
follows IEEE 754. -/
def RoundsDownMul (f : Dbl → Dbl → Dbl) : Prop :=
  (∀ a b : Int, leReal (f (fin a) (fin b)) ((a : ℝ) * (b : ℝ) / 2 ^ 1074)) ∧
  (∀ x y : Dbl, (x.isFinite && y.isFinite) = false → f x y = mul x y)

/-- The power `x^N` by repeated squaring, every product rounded by `m`: the
square of `x^(N / 2)`, times `x` when `N` is odd.  The recursion on `N / 2` is
counted down by `fuel`. -/
def powWith (m : Dbl → Dbl → Dbl) : Nat → Nat → Dbl → Dbl
  | _, 0, _ => ofInt 1
  | _, 1, x => x
  | 0, _ + 2, x => x
  | fuel + 1, N + 2, x =>
    let h := powWith m fuel ((N + 2) / 2) x
    let sq := m h h
    if (N + 2) % 2 = 1 then m sq x else sq

/-- The power `x^N` with every product rounded toward minus infinity. -/
def powDown (N : Nat) (x : Dbl) : Dbl := powWith mul N N x

/-- The power `x^N` with every product rounded toward plus infinity. -/
def powUp (N : Nat) (x : Dbl) : Dbl := powWith mulUp N N x

/-! ### Auxiliary notions of the proofs -/

/-- The product of the endpoint `c` (a number or an infinity) with the real `y`
is at most `r`, where `0 * ∞` counts as `0`. -/
def mulLe : Dbl → ℝ → ℝ → Prop
  | nan, _, _ => False
  | fin n, y, r => (n : ℝ) * y ≤ r
  | pinf, y, r => y ≤ 0 ∧ (y = 0 → 0 ≤ r)
  | ninf, y, r => 0 ≤ y ∧ (y = 0 → 0 ≤ r)

/-- One lane of `PowInterval<N>::compute`: the lane `x` of the argument and the
lane `s` of the sign mask. -/
def PowLane : Nat → Nat → Dbl → Bool → Dbl
  | _, 0, _, _ => ofInt 1
  | _, 1, x, _ => x
  | 0, _ + 2, x, _ => x
  | fuel + 1, N + 2, x, s =>
    let xsq := PowLane fuel ((N + 2) / 2) x s
    let y := xor_sign xsq s
    let xsq := mul y xsq
    if (N + 2) % 2 = 1 then mul x xsq else xsq

end Dbl
end ivarp

namespace ivarp
/-! ## `basic_variable_set.hpp`: the combined `restrict` -/

namespace BasicVariableSet

variable {X : Type}

/-- The member `restrict<Index>`: the returned flag and the box.  The two bounds
are written through the reference `ref`, and the handler is called once, after
both writes, when a flag is set. -/
def restrict (m_handlers : List (OnChangeHandler X)) (index : Nat) (bounds : IDouble)
    (v : BasicVariableSet X) : Bool × BasicVariableSet X :=
  let ref := v.get_value index
  let lbc := Dbl.lt ref.lb bounds.lb
  let ref : IDouble := if lbc then { ref with lb := bounds.lb } else ref
  let ubc := Dbl.gt ref.ub bounds.ub
  let ref : IDouble := if ubc then { ref with ub := bounds.ub } else ref
  let v : BasicVariableSet X := { v with m_variable_values := v.m_variable_values.set index ref }
  let v := if lbc || ubc then p_call_handler m_handlers index lbc ubc v else v
  (lbc || ubc, v)

end BasicVariableSet

/-! ## `impl/i64_to_interval.hpp`

A `__m128i` is a pair of 64-bit lanes, each a natural number below `2^64`.  The
casts between `__m128i` and `__m128d` read a lane as the bit pattern of a
double. -/

namespace Dbl

/-- The double with the 64-bit pattern `b`: the sign in bit 63, the biased
exponent in bits 62 to 52, the fraction in bits 51 to 0. -/
def ofBits (b : Nat) : Dbl :=
  let sign : Nat := b / 2 ^ 63 % 2
  let e : Nat := b / 2 ^ 52 % 2 ^ 11
  let m : Nat := b % 2 ^ 52
  if e = 2047 then
    if m = 0 then (if sign = 1 then ninf else pinf) else nan
  else
    let mag : Int := if e = 0 then (m : Int) else ((2 ^ 52 + m : Nat) : Int) * pow2 (e - 1)
    fin (if sign = 1 then -mag else mag)

/-- The 64-bit pattern of a double (of the quiet NaN for NaN, of `+0.0` for
zero). -/
def toBits : Dbl → Nat
  | nan => 0x7ff8000000000000
  | pinf => 0x7ff0000000000000
  | ninf => 0xfff0000000000000
  | fin n =>
    let sign : Nat := if n < 0 then 2 ^ 63 else 0
    let m : Nat := n.natAbs
    if m < 2 ^ 52 then sign + m
    else
      let s := ulpAux 13 m
      sign + (s + 1) * 2 ^ 52 + (m / 2 ^ s - 2 ^ 52)

/-- The difference `x - y` of doubles under rounding toward minus infinity: the
sign switch is exact, so this is the sum of `x` and `-y`. -/
def sub (x y : Dbl) : Dbl := add x (neg y)

end Dbl

/-- The type `__m128i`: two 64-bit lanes, lane 0 first. -/
structure M128i where
  e0 : Nat
  e1 : Nat
deriving DecidableEq, Repr

/-- The intrinsic `_mm_set1_pd`. -/
def mm_set1_pd (a : Dbl) : IDouble := ⟨a, a⟩

/-- The intrinsic `_mm_set_pd(e1, e0)`: the first argument is the upper lane. -/
def mm_set_pd (e1 e0 : Dbl) : IDouble := ⟨e0, e1⟩

/-- The intrinsic `_mm_setzero_si128`. -/
def mm_setzero_si128 : M128i := ⟨0, 0⟩

/-- The intrinsic `_mm_castpd_si128`. -/
def mm_castpd_si128 (x : IDouble) : M128i := ⟨x.lb.toBits, x.ub.toBits⟩

/-- The intrinsic `_mm_castsi128_pd`. -/
def mm_castsi128_pd (x : M128i) : IDouble := ⟨Dbl.ofBits x.e0, Dbl.ofBits x.e1⟩

/-- The arithmetic right shift of a 32-bit element by `k ≤ 32` bits: the sign
bit is shifted in. -/
def srai32 (w k : Nat) : Nat :=
  if w < 2 ^ 31 then w / 2 ^ k else w / 2 ^ k + (2 ^ 32 - 2 ^ (32 - k))

/-- The intrinsic `_mm_srai_epi32`: both 32-bit elements of each lane. -/
def mm_srai_epi32 (x : M128i) (k : Nat) : M128i :=
  ⟨srai32 (x.e0 % 2 ^ 32) k + 2 ^ 32 * srai32 (x.e0 / 2 ^ 32) k,
   srai32 (x.e1 % 2 ^ 32) k + 2 ^ 32 * srai32 (x.e1 / 2 ^ 32) k⟩

/-- The 16-bit word `j` of a 64-bit lane. -/
def word16 (v j : Nat) : Nat := v / 2 ^ (16 * j) % 2 ^ 16

/-- One lane of `_mm_blend_epi16`: word `j` of the lane comes from `b` when bit
`j` of the four mask bits `imm` of the lane is set, and from `a` otherwise. -/
def blend_lane (a b imm : Nat) : Nat :=
  (if imm.testBit 0 then word16 b 0 else word16 a 0)
  + 2 ^ 16 * (if imm.testBit 1 then word16 b 1 else word16 a 1)
  + 2 ^ 32 * (if imm.testBit 2 then word16 b 2 else word16 a 2)
  + 2 ^ 48 * (if imm.testBit 3 then word16 b 3 else word16 a 3)

/-- The intrinsic `_mm_blend_epi16`: bits 0 to 3 of `imm8` select in lane 0, bits
4 to 7 in lane 1. -/
def mm_blend_epi16 (a b : M128i) (imm8 : Nat) : M128i :=
  ⟨blend_lane a.e0 b.e0 (imm8 % 16), blend_lane a.e1 b.e1 (imm8 / 16)⟩

/-- The intrinsic `_mm_add_epi64`: the sum of each lane modulo `2^64`. -/
def mm_add_epi64 (a b : M128i) : M128i := ⟨(a.e0 + b.e0) % 2 ^ 64, (a.e1 + b.e1) % 2 ^ 64⟩

/-- The intrinsic `_mm_srli_epi64`: the logical right shift of each lane. -/
def mm_srli_epi64 (x : M128i) (k : Nat) : M128i := ⟨x.e0 / 2 ^ k, x.e1 / 2 ^ k⟩

/-- The intrinsic `_mm_or_si128`. -/
def mm_or_si128 (a b : M128i) : M128i := ⟨a.e0 ||| b.e0, a.e1 ||| b.e1⟩

/-- The intrinsic `_mm_sub_pd`. -/
def mm_sub_pd (a b : IDouble) : IDouble := ⟨Dbl.sub a.lb b.lb, Dbl.sub a.ub b.ub⟩

/-- The intrinsic `_mm_add_pd`. -/
def mm_add_pd (a b : IDouble) : IDouble := ⟨Dbl.add a.lb b.lb, Dbl.add a.ub b.ub⟩

/-- The function `i64_to_intervald`, on the value `i` of a `std::int64_t`.  The
first `asm` block moves `i` to lane 0, negates the register (`negq`, modulo
`2^64`) and moves it to lane 1. -/
def i64_to_intervald (i : Int) : IDouble :=
  let x : M128i := ⟨(i % 2 ^ 64).toNat, ((-i) % 2 ^ 64).toNat⟩
  let xH := mm_srai_epi32 x 16
  let xH := mm_blend_epi16 xH mm_setzero_si128 0x33
  let xH := mm_add_epi64 xH (mm_castpd_si128 (mm_set1_pd (Dbl.ofInt 442721857769029238784)))
  let xL := mm_blend_epi16 x (mm_castpd_si128 (mm_set1_pd (Dbl.ofInt 0x0010000000000000))) 0x88
  let f := mm_sub_pd (mm_castsi128_pd xH) (mm_set1_pd (Dbl.ofInt 442726361368656609280))
  let f := mm_add_pd f (mm_castsi128_pd xL)
  mm_xor_pd f SWITCH_UPPER_SIGN128

/-- The function `u64_to_intervald`, on the value `i` of a `std::uint64_t`.  The
`asm` block moves `i` to lane 0 and copies it to lane 1 (`vpshufd $68`). -/
def u64_to_intervald (i : Nat) : IDouble :=
  let two52 := mm_castpd_si128 (mm_set_pd (Dbl.ofInt (-4503599627370496)) (Dbl.ofInt 4503599627370496))
  let two84 := mm_castpd_si128
    (mm_set_pd (Dbl.ofInt (-19342813113834066795298816)) (Dbl.ofInt 19342813113834066795298816))
  let sum8452 :=
    mm_set_pd (Dbl.ofInt (-19342813118337666422669312)) (Dbl.ofInt 19342813118337666422669312)
  let x : M128i := ⟨i % 2 ^ 64, i % 2 ^ 64⟩
  let xH := mm_srli_epi64 x 32
  let xH := mm_or_si128 xH two84
  let xL := mm_blend_epi16 x two52 0xcc
  let f := mm_sub_pd (mm_castsi128_pd xH) sum8452
  let f := mm_add_pd f (mm_castsi128_pd xL)
  mm_xor_pd f SWITCH_UPPER_SIGN128

/-- The free function `singleton`: `lb(x) == ub(x)`. -/
def singleton (x : IDouble) : Bool := Dbl.eq x.lb x.ub

/-- The free function `same`: `x.lb() == y.lb() && x.ub() == y.ub()`. -/
def same (x y : IDouble) : Bool := Dbl.eq x.lb y.lb && Dbl.eq x.ub y.ub

namespace IDouble

/-- The constructor `explicit IDouble(std::int64_t i)`. -/
def ofInt64 (i : Int) : IDouble := i64_to_intervald i

/-- The constructor `explicit IDouble(std::uint64_t i)`. -/
def ofUInt64 (i : Nat) : IDouble := u64_to_intervald i

/-- The constructor `IDouble(double l, double u)`: `_mm_set_pd(u, l)`. -/
def ofBounds (l u : Dbl) : IDouble := mm_set_pd u l

/-- The constructor `IDouble(double l, double u, bool poss_undef)`: the upper
lane is a quiet NaN when `poss_undef` is set. -/
def ofBoundsUndef (l u : Dbl) (poss_undef : Bool) : IDouble :=
  mm_set_pd (if poss_undef then Dbl.nan else u) l

/-- The member `is_finite()`: `std::isfinite` of both lanes. -/
def is_finite (x : IDouble) : Bool := x.lb.isFinite && x.ub.isFinite

/-- The static member `undefined_value()`: both lanes a quiet NaN. -/
def undefined_value : IDouble := ofBounds Dbl.nan Dbl.nan

end IDouble
end ivarp

namespace ivarp
/-! ## `constant_cache.hpp`

The literals are the decimal expansions of doubles; each is given by its
53-bit significand and its exponent. -/

namespace ConstantCache

/-- The member `pi`: the doubles `0x1.921fb54442d18p+1` and
`0x1.921fb54442d19p+1`. -/
def pi : IDouble :=
  IDouble.ofBounds (Dbl.fin (7074237752028440 * pow2 1023)) (Dbl.fin (7074237752028441 * pow2 1023))

/-- The member `pi_half`: the doubles `0x1.921fb54442d18p+0` and
`0x1.921fb54442d19p+0`. -/
def pi_half : IDouble :=
  IDouble.ofBounds (Dbl.fin (7074237752028440 * pow2 1022)) (Dbl.fin (7074237752028441 * pow2 1022))

/-- The member `rec_2pi`: the doubles `0x1.45f306dc9c882p-3` and
`0x1.45f306dc9c883p-3`. -/
def rec_2pi : IDouble :=
  IDouble.ofBounds (Dbl.fin (5734161139222658 * pow2 1019)) (Dbl.fin (5734161139222659 * pow2 1019))

end ConstantCache

/-! ## `builtin_interval.hpp`: `modf`, `add_rd`; `period_reduction.hpp` -/

/-- The function `modf` (`std::modf`), returning `{integral, fractional}`: the
integral part is the argument rounded toward zero, the fractional part is the
exact rest; an infinity has itself as integral part and a zero rest. -/
def modf (v : Dbl) : Dbl × Dbl :=
  match v with
  | Dbl.nan => (Dbl.nan, Dbl.nan)
  | Dbl.pinf => (Dbl.pinf, Dbl.fin 0)
  | Dbl.ninf => (Dbl.ninf, Dbl.fin 0)
  | Dbl.fin n => (Dbl.fin (Int.tdiv n (pow2 1074) * pow2 1074), Dbl.fin (Int.tmod n (pow2 1074)))

/-- Modelled from the spec: the function `impl::add_rd` is defined in
`impl/add_interval.hpp`, which is not among the sources; it is the sum of two
doubles rounded toward minus infinity. -/
def add_rd (x y : Dbl) : Dbl := Dbl.add x y

/-- The function `std::min` on doubles: `(b < a) ? b : a`. -/
def std_min (a b : Dbl) : Dbl := if Dbl.lt b a then b else a

/-- The function `std::max` on doubles: `(a < b) ? b : a`. -/
def std_max (a b : Dbl) : Dbl := if Dbl.lt a b then b else a

/-- The struct `PositivePeriodReduction`. -/
structure PositivePeriodReduction where
  period : IDouble
  lb_period_fractional : Dbl
  ub_period_fractional : Dbl
  lb_period_integral : Dbl
  ub_period_integral : Dbl
deriving DecidableEq, Repr

/-- The function `positive_period_reduction`. -/
def positive_period_reduction (x one_over_period : IDouble) : PositivePeriodReduction :=
  let result := x.mul one_over_period
  let lb_split := modf result.lb
  let ub_split := modf result.ub
  ⟨result, lb_split.2, ub_split.2, lb_split.1, ub_split.1⟩

/-! ## `interval_sin.cpp`, `interval_cos.cpp`, `interval_tan.cpp`

The functions `round_sin<RoundUp>`, `round_cos<RoundUp>` and `round_tan<RoundUp>`
call the MPFR library; they are parameters `round_sin RoundUp x` of the model.
The argument `precision` is ignored by every function and left out. -/

/-- The function `interval_sin_nowrap`. -/
def interval_sin_nowrap (round_sin : Bool → Dbl → Dbl) (period : PositivePeriodReduction)
    (x : IDouble) : IDouble :=
  if Dbl.le period.lb_period_fractional (Dbl.fin (pow2 1072)) then
    if Dbl.lt period.ub_period_fractional (Dbl.fin (pow2 1072)) then
      IDouble.ofBounds (round_sin false x.lb) (round_sin true x.ub)
    else if Dbl.lt period.ub_period_fractional (Dbl.fin (3 * pow2 1072)) then
      IDouble.ofBounds (std_min (round_sin false x.lb) (round_sin false x.ub)) (Dbl.ofInt 1)
    else
      IDouble.ofBounds (Dbl.ofInt (-1)) (Dbl.ofInt 1)
  else
    if Dbl.lt period.ub_period_fractional (Dbl.fin (3 * pow2 1072)) then
      IDouble.ofBounds (round_sin false x.ub) (round_sin true x.lb)
    else if Dbl.le period.lb_period_fractional (Dbl.fin (3 * pow2 1072)) then
      IDouble.ofBounds (Dbl.ofInt (-1)) (std_max (round_sin true x.lb) (round_sin true x.ub))
    else
      IDouble.ofBounds (round_sin false x.lb) (round_sin true x.ub)

/-- The function `interval_sin_wrap`. -/
def interval_sin_wrap (round_sin : Bool → Dbl → Dbl) (period : PositivePeriodReduction)
    (x : IDouble) : IDouble :=
  if Dbl.le period.lb_period_fractional (Dbl.fin (pow2 1072)) then
    IDouble.ofBounds (Dbl.ofInt (-1)) (Dbl.ofInt 1)
  else if Dbl.le period.lb_period_fractional (Dbl.fin (3 * pow2 1072)) then
    if Dbl.lt period.ub_period_fractional (Dbl.fin (pow2 1072)) then
      IDouble.ofBounds (Dbl.ofInt (-1)) (std_max (round_sin true x.lb) (round_sin true x.ub))
    else
      IDouble.ofBounds (Dbl.ofInt (-1)) (Dbl.ofInt 1)
  else
    if Dbl.lt period.ub_period_fractional (Dbl.fin (pow2 1072)) then
      IDouble.ofBounds (round_sin false x.lb) (round_sin true x.ub)
    else if Dbl.lt period.ub_period_fractional (Dbl.fin (3 * pow2 1072)) then
      IDouble.ofBounds (std_min (round_sin false x.lb) (round_sin false x.ub)) (Dbl.ofInt 1)
    else
      IDouble.ofBounds (Dbl.ofInt (-1)) (Dbl.ofInt 1)

/-- The function `interval_sin_nonnegative`. -/
def interval_sin_nonnegative (round_sin : Bool → Dbl → Dbl) (x : IDouble) : IDouble :=
  let period := positive_period_reduction x ConstantCache.rec_2pi
  if Dbl.lt (add_rd period.lb_period_integral (Dbl.ofInt 1)) period.ub_period_integral then
    IDouble.ofBounds (Dbl.ofInt (-1)) (Dbl.ofInt 1)
  else if Dbl.eq period.lb_period_integral period.ub_period_integral then
    interval_sin_nowrap round_sin period x
  else
    interval_sin_wrap round_sin period x

/-- The function `interval_sin_symm`. -/
def interval_sin_symm (round_sin : Bool → Dbl → Dbl) (x : IDouble) : IDouble :=
  if !x.is_finite || x.possibly_undefined then
    IDouble.ofBoundsUndef (Dbl.ofInt (-1)) (Dbl.ofInt 1) x.possibly_undefined
  else
    let l := x.lb
    let u := x.ub
    if Dbl.le u (Dbl.fin 0) then
      (interval_sin_nonnegative round_sin x.neg).neg
    else if Dbl.lt l (Dbl.fin 0) then
      let rneg := (interval_sin_nonnegative round_sin (IDouble.ofBounds (Dbl.fin 0) l.neg)).neg
      let rpos := interval_sin_nonnegative round_sin (IDouble.ofBounds (Dbl.fin 0) u)
      rpos.join rneg
    else
      interval_sin_nonnegative round_sin x

/-- The function `sin` on `IDouble`. -/
def sin (round_sin : Bool → Dbl → Dbl) (x : IDouble) : IDouble := interval_sin_symm round_sin x

/-- The function `interval_cos_nowrap`. -/
def interval_cos_nowrap (round_cos : Bool → Dbl → Dbl) (period : PositivePeriodReduction)
    (x : IDouble) : IDouble :=
  if Dbl.le period.lb_period_fractional Dbl.half then
    if Dbl.le period.ub_period_fractional Dbl.half then
      IDouble.ofBounds (round_cos false x.ub) (round_cos true x.lb)
    else
      IDouble.ofBounds (Dbl.ofInt (-1)) (std_max (round_cos true x.ub) (round_cos true x.lb))
  else
    IDouble.ofBounds (round_cos false x.lb) (round_cos true x.ub)

/-- The function `interval_cos_wrap`. -/
def interval_cos_wrap (round_cos : Bool → Dbl → Dbl) (period : PositivePeriodReduction)
    (x : IDouble) : IDouble :=
  if Dbl.le period.lb_period_fractional Dbl.half || Dbl.le Dbl.half period.ub_period_fractional then
    IDouble.ofBounds (Dbl.ofInt (-1)) (Dbl.ofInt 1)
  else
    IDouble.ofBounds (std_min (round_cos false x.lb) (round_cos false x.ub)) (Dbl.ofInt 1)

/-- The function `interval_cos_nonnegative`. -/
def interval_cos_nonnegative (round_cos : Bool → Dbl → Dbl) (x : IDouble) : IDouble :=
  let period := positive_period_reduction x ConstantCache.rec_2pi
  if Dbl.lt (add_rd period.lb_period_integral (Dbl.ofInt 1)) period.ub_period_integral then
    IDouble.ofBounds (Dbl.ofInt (-1)) (Dbl.ofInt 1)
  else if Dbl.eq period.lb_period_integral period.ub_period_integral then
    interval_cos_nowrap round_cos period x
  else
    interval_cos_wrap round_cos period x

/-- The function `interval_cos_symm`. -/
def interval_cos_symm (round_cos : Bool → Dbl → Dbl) (x : IDouble) : IDouble :=
  if !x.is_finite || x.possibly_undefined then
    IDouble.ofBoundsUndef (Dbl.ofInt (-1)) (Dbl.ofInt 1) x.possibly_undefined
  else
    if Dbl.le x.ub (Dbl.fin 0) then
      interval_cos_nonnegative round_cos x.neg
    else if Dbl.lt x.lb (Dbl.fin 0) then
      let mx := x.lb.neg
      let mx := if Dbl.lt mx x.ub then x.ub else mx
      interval_cos_nonnegative round_cos (IDouble.ofBounds (Dbl.fin 0) mx)
    else
      interval_cos_nonnegative round_cos x

/-- The function `cos` on `IDouble`. -/
def cos (round_cos : Bool → Dbl → Dbl) (x : IDouble) : IDouble := interval_cos_symm round_cos x

/-- The function `interval_tan`. -/
def interval_tan (round_tan : Bool → Dbl → Dbl) (it : IDouble) : IDouble :=
  let pi_half := ConstantCache.pi_half
  if Dbl.lt it.lb pi_half.lb.neg || Dbl.gt it.ub pi_half.lb then
    IDouble.undefined_value
  else
    IDouble.ofBounds (round_tan false it.lb) (round_tan true it.ub)

/-- The function `tan` on `IDouble`. -/
def tan (round_tan : Bool → Dbl → Dbl) (x : IDouble) : IDouble := interval_tan round_tan x

/-! ## Reference definitions for the conversions, the constants, the
trigonometric functions and the change handlers -/

namespace Dbl

/-- The double `d` is the real `x` (in units of `2^(-1074)`) rounded toward
minus infinity: the largest finite double that is at most `x`. -/
def IsRoundDown (x : ℝ) (d : Dbl) : Prop :=
  ∃ n : Int, d = fin n ∧ Representable n ∧ (n : ℝ) ≤ x ∧
    ∀ m : Int, Representable m → (m : ℝ) ≤ x → m ≤ n

/-- The double `d` is the real `x` (in units of `2^(-1074)`) rounded toward plus
infinity: the smallest finite double that is at least `x`. -/
def IsRoundUp (x : ℝ) (d : Dbl) : Prop :=
  ∃ n : Int, d = fin n ∧ Representable n ∧ x ≤ (n : ℝ) ∧
    ∀ m : Int, Representable m → x ≤ (m : ℝ) → n ≤ m

/-- The finite doubles `l < u` are consecutive: both are doubles and no double
lies strictly between them. -/
def Consecutive (l u : Int) : Prop :=
  Representable l ∧ Representable u ∧ l < u ∧
    ∀ k : Int, l < k → k < u → ¬ Representable k

end Dbl

/-- The contract of the point functions used for the enclosure: at every finite
double `n * 2^(-1074)` the value rounded down is at most `f`, and the value
rounded up is at least `f` (values in units of `2^(-1074)`). -/
def RoundsOutward (f : ℝ → ℝ) (round_f : Bool → Dbl → Dbl) : Prop :=
  ∀ n : Int,
    Dbl.leReal (round_f false (Dbl.fin n)) (2 ^ 1074 * f ((n : ℝ) / 2 ^ 1074)) ∧
    Dbl.geReal (round_f true (Dbl.fin n)) (2 ^ 1074 * f ((n : ℝ) / 2 ^ 1074))

/-- The integral parts of the two doubles are more than one apart:
`floor(pl) + 1 < floor(pu)`, for finite doubles. -/
def PeriodsApart : Dbl → Dbl → Prop
  | Dbl.fin n, Dbl.fin m => n / pow2 1074 + 1 < m / pow2 1074
  | _, _ => False

instance (a b : Dbl) : Decidable (PeriodsApart a b) := by
  cases a <;> cases b <;> unfold PeriodsApart <;> infer_instance

/-- One call of a change handler: the index of the variable, `lb_changed` and
`ub_changed`. -/
abbrev HandlerCall := Nat × Bool × Bool

/-- The change handler of variable `i` that records its call at the end of the
list kept by the box and does nothing else. -/
def recordingHandler (i : Nat) : OnChangeHandler (List HandlerCall) :=
  fun lb_changed ub_changed v => { v with derived := v.derived ++ [(i, lb_changed, ub_changed)] }

/-- The array `m_handlers` with the recording handler of each of `n` variables. -/
def recordingHandlers (n : Nat) : List (OnChangeHandler (List HandlerCall)) :=
  (List.range n).map recordingHandler

end ivarp

namespace ivarp

/-! ## Reference definitions for the connectives of `IBool` -/

/-- The classical boolean `p` is a possible value of the interval boolean `A`:
if `A` is definitely true then `p` holds, and if `p` holds then `A` is possibly
true. -/
def IBool.PossibleValue (A : IBool) (p : Bool) : Prop :=
  (A.definitely = true → p = true) ∧ (p = true → A.possibly = true)

instance (A : IBool) (p : Bool) : Decidable (A.PossibleValue p) := by
  unfold IBool.PossibleValue; infer_instance

/-! ## Reference definitions for the prover -/

/-- The operator `<` of an interval and a built-in number: the number is turned
into the singleton `IDouble(other_)`, which is not broadcast. -/
def IDouble.ltScalar (x : IDouble) (other_ : Dbl) : IBool :=
  let self := broadcast_nan_intervald x
  let other := IDouble.ofDbl other_
  lt_intervald self other

/-- The checker constraint `x < c` for the integer constant `c`. -/
def constraint_lt (c : Int) : Constraint Box1 :=
  Constraint.checker (fun v => (v.get_value 0).ltScalar (Dbl.ofInt c))

namespace PropagateResult

/-- The result contains the bit `CHANGED`: `(r & CHANGED) != UNCHANGED`. -/
def hasChanged (r : PropagateResult) : Bool := decide (r.and CHANGED ≠ UNCHANGED)

/-- The result contains the bit `EMPTY`: `(r & EMPTY) != UNCHANGED`. -/
def hasEmpty (r : PropagateResult) : Bool := decide (r.and EMPTY ≠ UNCHANGED)

/-- The union (operator `|`) of a list of results, starting from `UNCHANGED`. -/
def union (rs : List PropagateResult) : PropagateResult := rs.foldl PropagateResult.or UNCHANGED

end PropagateResult

/-- A propagator that reports `EMPTY` on a box whose interval has `lb > ub` and
`UNCHANGED` otherwise, and leaves the box as it is. -/
def constraint_ordered : Constraint Box1 :=
  ⟨true, fun v => ⟨!(Dbl.gt (v.get_value 0).lb (v.get_value 0).ub),
      !(Dbl.gt (v.get_value 0).lb (v.get_value 0).ub)⟩,
   fun v => (if Dbl.gt (v.get_value 0).lb (v.get_value 0).ub then PropagateResult.EMPTY
             else PropagateResult.UNCHANGED, v)⟩

namespace Prover

variable {V : Type}

/-- The calls of `propagate` made by one pass of the `for` loop of
`run_propagators`, in call order: the result `pr` of each call, and the box after
the pass.  The loop stops after a call that returns `EMPTY`. -/
def pass_calls : List (Constraint V) → V → List PropagateResult × V
  | [], domain => ([], domain)
  | c :: rest, domain =>
    let r := c.propagate domain
    if r.1 = PropagateResult.EMPTY then ([r.1], r.2)
    else
      let t := pass_calls rest r.2
      (r.1 :: t.1, t.2)

/-- The box after `n` passes of the `for` loop of `run_propagators`. -/
def pass_box (ps : List (Constraint V)) : Nat → V → V
  | 0, domain => domain
  | n + 1, domain => pass_box ps n (propagate_pass ps PropagateResult.UNCHANGED domain).2

/-- The constraints of a list are called in list order, each on the box left by
the call before: the results of the calls and the final box. -/
def call_in_order : List (Constraint V) → V → List PropagateResult × V
  | [], domain => ([], domain)
  | c :: rest, domain =>
    let r := c.propagate domain
    let t := call_in_order rest r.2
    (r.1 :: t.1, t.2)

/-- The frames of a state are well numbered: the id counter has advanced by one per
frame pushed; the frame created at position `i` has the id `m_id_counter + 1 + i`
(modulo `2^64`); the frames created first are the roots, of height zero; every
later frame has a parent created before it, one level lower, whose id is its
`parent_id`; and the work stack holds frames in reverse order of creation, the
top of the stack first. -/
def FramesOk (p : Prover V) (s : ProofState V) : Prop :=
  s.m_id_counter = (p.m_id_counter + s.pushed.length) % 2 ^ 64 ∧
  (∀ (i : Nat) (e : StackElement V), s.pushed[i]? = some e →
    e.id = (p.m_id_counter + 1 + i) % 2 ^ 64) ∧
  p.m_basic.length ≤ s.pushed.length ∧
  (∀ (i : Nat) (e : StackElement V), s.pushed[i]? = some e → i < p.m_basic.length →
    e.height = 0 ∧ e.parent_id = 0 ∧ p.m_basic[i]? = some e.domain) ∧
  (∀ (i : Nat) (e : StackElement V), s.pushed[i]? = some e → p.m_basic.length ≤ i →
    ∃ (j : Nat) (parent : StackElement V), j < i ∧ s.pushed[j]? = some parent ∧
      e.height = parent.height + 1 ∧ e.parent_id = parent.id) ∧
  List.Sublist s.m_stack s.pushed.reverse

/-- The conjunction (operator `&`) of the `satisfied` values of all constraints
of a collection on a box, without short-circuit. -/
def conj_all (domain : V) (collection : List (Constraint V)) : IBool :=
  collection.foldl (fun acc c => acc.and (c.satisfied domain)) ⟨true, true⟩

end Prover

/-! ## `basic_variable_set.hpp`: the constructor -/

/-- The constructor of `BasicVariableSet`: the start values and the handlers are
stored, then the handler of every variable is called with `(true, true)`, in
index order. -/
def BasicVariableSet.construct {X : Type} (m_handlers : List (OnChangeHandler X))
    (start_values : List IDouble) (derived : X) : BasicVariableSet X :=
  (List.range start_values.length).foldl
    (fun v i => BasicVariableSet.p_call_handler m_handlers i true true v) ⟨start_values, derived⟩

/-- The midpoint `center()` of the interval lies between its bounds. -/
def IDouble.CenterInside (I : IDouble) : Prop :=
  Dbl.le I.lb I.center = true ∧ Dbl.le I.center I.ub = true

instance (I : IDouble) : Decidable I.CenterInside := by
  unfold IDouble.CenterInside; infer_instance

/-! ## `below_45_isoceles_derivatives.cpp`: the box `(alpha, r1, r2)` -/

namespace VariableSetProofRestweightPartialR1Negative

/-- The class has no member besides the three variables. -/
abbrev Box := BasicVariableSet Unit

/-- The handler `on_alpha_changed`: empty. -/
def on_alpha_changed : OnChangeHandler Unit := fun _ _ v => v

/-- The handler `on_r1_changed`: `if(ub_changed) restrict_r2_ub(get_r1().ub())`;
`hs` is the handler table used by the nested call. -/
def on_r1_changed (hs : List (OnChangeHandler Unit)) : OnChangeHandler Unit :=
  fun _ ub_changed v =>
    if ub_changed then (BasicVariableSet.restrict_ub hs 2 (v.get_value 1).ub v).2 else v

/-- The handler `on_r2_changed`: `if(lb_changed) restrict_r1_lb(get_r2().lb())`;
`hs` is the handler table used by the nested call. -/
def on_r2_changed (hs : List (OnChangeHandler Unit)) : OnChangeHandler Unit :=
  fun lb_changed _ v =>
    if lb_changed then (BasicVariableSet.restrict_lb hs 1 (v.get_value 2).lb v).2 else v

/-- The table `change_handlers`.  The handlers call `restrict`, which calls the
handlers of the table again; `depth` bounds the nesting of these calls (a call
nested deeper than `depth` is dropped).  The nesting never exceeds one level
with an effect, so every table of depth at least one acts alike. -/
def change_handlers : Nat → List (OnChangeHandler Unit)
  | 0 => []
  | depth + 1 =>
    [on_alpha_changed, on_r1_changed (change_handlers depth),
     on_r2_changed (change_handlers depth)]

/-- The array `initial_values`: the doubles nearest to the decimal literals;
`0.48` is `1080863910568919 * 2^(-51)`. -/
def initial_values : List IDouble :=
  [⟨Dbl.fin (3458516234325015 * pow2 1022), Dbl.fin (7074237752028441 * pow2 1021)⟩,
   ⟨Dbl.fin (1080863910568919 * pow2 1023), Dbl.half⟩,
   ⟨Dbl.fin (1080863910568919 * pow2 1023), Dbl.half⟩]

/-- The constructor of the class: `Super(+initial_values, +change_handlers)`. -/
def new (depth : Nat) : Box :=
  BasicVariableSet.construct (change_handlers depth) initial_values ()

/-- The operations of the claim on a box: the members `restrict_lb<Index>`,
`restrict_ub<Index>` and `restrict<Index>` of a variable (reached through
`restrict_alpha_lb`, ..., `restrict_r2`), and `split` at a depth, followed by the
choice of one of the two boxes handed to the callback. -/
inductive Op where
  | restrict_lb (index : Fin 3) (lower_bound : Dbl) : Op
  | restrict_ub (index : Fin 3) (upper_bound : Dbl) : Op
  | restrict (index : Fin 3) (bounds : IDouble) : Op
  | split (depth : Nat) (child : Fin 2) : Op

/-- The box after an operation. -/
def Op.apply (hs : List (OnChangeHandler Unit)) : Op → Box → Box
  | Op.restrict_lb index lower_bound, v =>
    (BasicVariableSet.restrict_lb hs index.val lower_bound v).2
  | Op.restrict_ub index upper_bound, v =>
    (BasicVariableSet.restrict_ub hs index.val upper_bound v).2
  | Op.restrict index bounds, v => (BasicVariableSet.restrict hs index.val bounds v).2
  | Op.split depth child, v => (BasicVariableSet.default_split hs v depth).getD child.val v

/-- The box after a sequence of operations, first operation first. -/
def run (hs : List (OnChangeHandler Unit)) (ops : List Op) (v : Box) : Box :=
  ops.foldl (fun w op => op.apply hs w) v

/-- The coupling `r2 ≤ r1` of the bounds: `r2.ub ≤ r1.ub` and `r2.lb ≤ r1.lb`. -/
def Coupled (v : Box) : Prop :=
  Dbl.le (v.get_value 2).ub (v.get_value 1).ub = true ∧
  Dbl.le (v.get_value 2).lb (v.get_value 1).lb = true

instance (v : Box) : Decidable (Coupled v) := by
  unfold Coupled; infer_instance

/-- The operation is no split, or it splits a variable whose midpoint lies
between its bounds. -/
def Op.SplitInside : Op → Box → Prop
  | Op.split depth _, v => (v.get_value (depth % 3)).CenterInside
  | _, _ => True

instance (op : Op) (v : Box) : Decidable (op.SplitInside v) :=
  match op with
  | Op.split depth _ => inferInstanceAs (Decidable (v.get_value (depth % 3)).CenterInside)
  | Op.restrict_lb _ _ => isTrue trivial
  | Op.restrict_ub _ _ => isTrue trivial
  | Op.restrict _ _ => isTrue trivial

/-- Every split of the sequence is applied to a box in which the midpoint of the
split variable lies between its bounds. -/
def SplitsInside (hs : List (OnChangeHandler Unit)) : List Op → Box → Prop
  | [], _ => True
  | op :: rest, v => op.SplitInside v ∧ SplitsInside hs rest (op.apply hs v)

/-- The condition `SplitsInside` can be evaluated. -/
def SplitsInside.decidable (hs : List (OnChangeHandler Unit)) :
    (ops : List Op) → (v : Box) → Decidable (SplitsInside hs ops v)
  | [], _ => isTrue trivial
  | op :: rest, v =>
    match (inferInstance : Decidable (op.SplitInside v)),
        SplitsInside.decidable hs rest (op.apply hs v) with
    | isTrue h1, isTrue h2 => isTrue ⟨h1, h2⟩
    | isFalse h1, _ => isFalse (fun h => h1 h.1)
    | _, isFalse h2 => isFalse (fun h => h2 h.2)

instance (hs : List (OnChangeHandler Unit)) (ops : List Op) (v : Box) :
    Decidable (SplitsInside hs ops v) := SplitsInside.decidable hs ops v

end VariableSetProofRestweightPartialR1Negative

/-! ## Interval addition and subtraction -/

/-- Modelled from the spec: the function `add_intervald` is defined in
`impl/add_interval.hpp`, which is not among the sources.  The lower bound is the
sum of the lower bounds rounded down, the upper bound is the negated rounded-down
sum of the negated upper bounds, and a NaN in any slot of an input gives the NaN
interval. -/
def add_intervald (a b : IDouble) : IDouble :=
  if a.lb.isNaN || a.ub.isNaN || b.lb.isNaN || b.ub.isNaN then NAN_INTERVAL
  else ⟨Dbl.add a.lb b.lb, (Dbl.add a.ub.neg b.ub.neg).neg⟩

/-- Modelled from the spec: the function `sub_intervald` is defined in
`impl/add_interval.hpp`, which is not among the sources; subtraction is addition
of the negated second operand. -/
def sub_intervald (a b : IDouble) : IDouble := add_intervald a (negate_intervald b)

namespace IDouble

/-- The operator `+`. -/
def add (x other : IDouble) : IDouble := add_intervald x other

/-- The operator `-` (and `-=`). -/
def sub (x other : IDouble) : IDouble := sub_intervald x other

/-- The member `restrict_lb(double value)` of `IDouble`: the returned flag and
the interval. -/
def restrict_lb (x : IDouble) (value : Dbl) : Bool × IDouble :=
  if Dbl.gt value x.lb then (true, { x with lb := value }) else (false, x)

/-- The free function `square`: `x.fixed_pow<2>()`. -/
def square (x : IDouble) : IDouble := x.fixed_pow 2

end IDouble

/-! ## `below_45_isoceles.cpp` -/

/-- What the interval functions of the box depend on besides their arguments:
the point functions of MPFR behind `sin`, `cos` and `tan`, and the value of the
register `MXCSR` read by `sqrt`. -/
structure Machine where
  round_sin : Bool → Dbl → Dbl
  round_cos : Bool → Dbl → Dbl
  round_tan : Bool → Dbl → Dbl
  MXCSR : Nat

namespace Below45IsocelesVariables

/-- The members of the class besides the four variables. -/
structure Derived where
  tan_alpha_half : IDouble
  sin_alpha : IDouble
  cos_alpha : IDouble
  weight : IDouble
  height : IDouble
  goal_efficiency : IDouble
deriving DecidableEq, Repr

/-- The class `Below45IsocelesVariables`: the variables `alpha`, `r1`, `r2`, `r3`
(indices 0 to 3) and the cached members. -/
abbrev Box := BasicVariableSet Derived

/-- The member `raw_goal_efficiency`: `square(sin(alpha)) / tan(0.5 * alpha)`. -/
def raw_goal_efficiency (M : Machine) (alpha : IDouble) : IDouble :=
  IDouble.div (IDouble.square (sin M.round_sin alpha))
    (tan M.round_tan (IDouble.mul alpha (IDouble.ofDbl Dbl.half)))

/-- The handler `on_alpha_changed`; `hs` is the handler table used by the nested
calls of `restrict`. -/
def on_alpha_changed (M : Machine) (hs : List (OnChangeHandler Derived)) :
    OnChangeHandler Derived :=
  fun _ _ v =>
    let tan_alpha_half := tan M.round_tan (IDouble.mul (v.get_value 0) (IDouble.ofDbl Dbl.half))
    let sin_alpha := sin M.round_sin (v.get_value 0)
    let cos_alpha := cos M.round_cos (v.get_value 0)
    let max_r1 := IDouble.div (IDouble.ofDbl Dbl.half) sin_alpha
    let weight := IDouble.square max_r1
    let height := IDouble.div (IDouble.ofDbl Dbl.half) tan_alpha_half
    let goal_efficiency := IDouble.ofBounds
      (raw_goal_efficiency M (IDouble.ofDbl (v.get_value 0).lb)).lb
      (raw_goal_efficiency M (IDouble.ofDbl (v.get_value 0).ub)).ub
    let v : Box := { v with derived :=
      ⟨tan_alpha_half, sin_alpha, cos_alpha, weight, height, goal_efficiency⟩ }
    let v := (BasicVariableSet.restrict_ub hs 1 max_r1.ub v).2
    let v := (BasicVariableSet.restrict_ub hs 2
      (IDouble.sqrt M.MXCSR (IDouble.mul v.derived.weight (IDouble.ofDbl Dbl.half))).ub v).2
    let v := (BasicVariableSet.restrict_ub hs 3
      (IDouble.sqrt M.MXCSR (IDouble.div v.derived.weight (IDouble.ofDbl (Dbl.ofInt 3)))).ub v).2
    v

/-- The handler `on_r1_changed`. -/
def on_r1_changed (hs : List (OnChangeHandler Derived)) : OnChangeHandler Derived :=
  fun _ ub_changed v =>
    if ub_changed then (BasicVariableSet.restrict_ub hs 2 (v.get_value 1).ub v).2 else v

/-- The handler `on_r2_changed`. -/
def on_r2_changed (hs : List (OnChangeHandler Derived)) : OnChangeHandler Derived :=
  fun lb_changed ub_changed v =>
    let v := if lb_changed then (BasicVariableSet.restrict_lb hs 1 (v.get_value 2).lb v).2 else v
    let v := if ub_changed then (BasicVariableSet.restrict_ub hs 3 (v.get_value 2).ub v).2 else v
    v

/-- The handler `on_r3_changed`. -/
def on_r3_changed (hs : List (OnChangeHandler Derived)) : OnChangeHandler Derived :=
  fun lb_changed _ v =>
    if lb_changed then (BasicVariableSet.restrict_lb hs 2 (v.get_value 3).lb v).2 else v

/-- The table `change_handlers`; `depth` bounds the nesting of the handler calls
made through `restrict` (a call nested deeper than `depth` is dropped). -/
def change_handlers (M : Machine) : Nat → List (OnChangeHandler Derived)
  | 0 => []
  | depth + 1 =>
    [on_alpha_changed M (change_handlers M depth), on_r1_changed (change_handlers M depth),
     on_r2_changed (change_handlers M depth), on_r3_changed (change_handlers M depth)]

end Below45IsocelesVariables

namespace Radius123Consistency

open Below45IsocelesVariables

/-- The member `bounds_inconsistent`. -/
def bounds_inconsistent (v : Box) : Bool :=
  Dbl.gt (v.get_value 1).lb (v.get_value 1).ub || Dbl.gt (v.get_value 2).lb (v.get_value 2).ub
    || Dbl.gt (v.get_value 3).lb (v.get_value 3).ub

/-- The member `satisfied`. -/
def satisfied (v : Box) : IBool :=
  if bounds_inconsistent v then ⟨false, false⟩
  else
    (((IDouble.square (v.get_value 1)).add (IDouble.square (v.get_value 2))).add
      (IDouble.square (v.get_value 3))).le v.derived.weight

/-- The member `propagate`, with the box it leaves; `hs` is the handler table of
the box. -/
def propagate (M : Machine) (hs : List (OnChangeHandler Derived)) (vset : Box) :
    PropagateResult × Box :=
  let rem_weight := vset.derived.weight
  let rem_weight := rem_weight.sub (IDouble.square (vset.get_value 1))
  let c := rem_weight.restrict_lb (Dbl.ofInt 0)
  let rem_weight := c.2
  if c.1 && Dbl.lt rem_weight.ub (Dbl.ofInt 0) then (PropagateResult.CHANGED_EMPTY, vset)
  else
    let result := PropagateResult.UNCHANGED
    let r := BasicVariableSet.restrict_ub hs 2 (IDouble.sqrt M.MXCSR rem_weight).ub vset
    let result := if r.1 then result.or PropagateResult.CHANGED else result
    let vset := r.2
    let rem_weight := rem_weight.sub (IDouble.square (vset.get_value 2))
    let c := rem_weight.restrict_lb (Dbl.ofInt 0)
    let rem_weight := c.2
    if c.1 && Dbl.lt rem_weight.ub (Dbl.ofInt 0) then (PropagateResult.CHANGED_EMPTY, vset)
    else
      let r := BasicVariableSet.restrict_ub hs 3 (IDouble.sqrt M.MXCSR rem_weight).ub vset
      let result := if r.1 then result.or PropagateResult.CHANGED else result
      let vset := r.2
      if bounds_inconsistent vset then (PropagateResult.CHANGED_EMPTY, vset)
      else (result, vset)

/-- The constraint as the prover sees it: `can_propagate()` is `true`. -/
def constraint (M : Machine) (hs : List (OnChangeHandler Derived)) : Constraint Box :=
  ⟨true, satisfied, propagate M hs⟩

end Radius123Consistency

end ivarp

namespace ivarp

/-! ## Interval booleans -/

/-- C8: for all `IBool` values `A` and `B`, `A ^ B` is `{false, true}` when `A` or `B`
is indeterminate, and otherwise it is the determinate value of the classical
exclusive-or of the values of `A` and `B`. -/
theorem IBool.xor_spec (A B : IBool) :
    (A.indeterminate = true ∨ B.indeterminate = true → A.xor B = ⟨false, true⟩) ∧
    (A.indeterminate = false → B.indeterminate = false →
      A.xor B = IBool.ofBool (Bool.xor A.definitely B.definitely)) := by
  rcases A with ⟨_ | _, _ | _⟩ <;> rcases B with ⟨_ | _, _ | _⟩ <;> decide

/-- Witness of C8 at `A = {true}`, `B = {false}` and at `A = {false, true}`. -/
theorem IBool.xor_spec_witness :
    IBool.xor ⟨true, true⟩ ⟨false, false⟩ = IBool.ofBool true ∧
    IBool.xor ⟨false, true⟩ ⟨false, false⟩ = ⟨false, true⟩ :=
  ⟨(IBool.xor_spec ⟨true, true⟩ ⟨false, false⟩).2 rfl rfl,
   (IBool.xor_spec ⟨false, true⟩ ⟨false, false⟩).1 (Or.inl rfl)⟩

/-- C9: for all `IBool` values `A` and `B`, `A == B` is the indeterminate value
`{false, true}` when `A` or `B` is indeterminate, and otherwise the determinate
classical equality of their values; in particular `==` is not reflexive, since
comparing the indeterminate value with itself is indeterminate; and `A != B` is
the negation `!(A == B)`. -/
theorem IBool.eq_spec (A B : IBool) :
    (A.indeterminate = true ∨ B.indeterminate = true →
      A.eq B = ⟨false, true⟩ ∧ (A.eq B).indeterminate = true) ∧
    (A.indeterminate = false → B.indeterminate = false →
      A.eq B = IBool.ofBool (A.definitely == B.definitely)) ∧
    (IBool.eq ⟨false, true⟩ ⟨false, true⟩).indeterminate = true ∧
    (IBool.eq ⟨false, true⟩ ⟨false, true⟩).definitely = false ∧
    A.ne B = (A.eq B).not := by
  rcases A with ⟨_ | _, _ | _⟩ <;> rcases B with ⟨_ | _, _ | _⟩ <;> decide

/-- Witness of C9 at `A = B = {true}` and at `A = {false, true}`, `B = {true}`. -/
theorem IBool.eq_spec_witness :
    IBool.eq ⟨true, true⟩ ⟨true, true⟩ = IBool.ofBool true ∧
    IBool.eq ⟨false, true⟩ ⟨true, true⟩ = ⟨false, true⟩ :=
  ⟨(IBool.eq_spec ⟨true, true⟩ ⟨true, true⟩).2.1 rfl rfl,
   ((IBool.eq_spec ⟨false, true⟩ ⟨true, true⟩).1 (Or.inl rfl)).1⟩

/-- C10: the invariant `lb ≤ ub` is preserved by every `IBool` operation: for all
`A`, `B` satisfying it, each of `IBool(bool)`, `!A`, `A & B`, `A | B`, `A && B`,
`A || B`, `A ^ B`, `A == B` and `A != B` satisfies it. -/
theorem IBool.wellFormed_preserved (A B : IBool) (value : Bool)
    (hA : A.WellFormed) (hB : B.WellFormed) :
    (IBool.ofBool value).WellFormed ∧ A.not.WellFormed ∧ (A.and B).WellFormed ∧
    (A.or B).WellFormed ∧ (A.land B).WellFormed ∧ (A.lor B).WellFormed ∧
    (A.xor B).WellFormed ∧ (A.eq B).WellFormed ∧ (A.ne B).WellFormed := by
  rcases A with ⟨_ | _, _ | _⟩ <;> rcases B with ⟨_ | _, _ | _⟩ <;> cases value <;>
    revert hA hB <;> decide

/-- Witness of C10 at `A = {false, true}`, `B = {true}`. -/
theorem IBool.wellFormed_preserved_witness :
    (IBool.mk false true).WellFormed ∧ (IBool.mk true true).WellFormed ∧
    ((IBool.mk false true).xor ⟨true, true⟩).WellFormed ∧
    ((IBool.mk false true).ne ⟨true, true⟩).WellFormed :=
  ⟨by decide, by decide,
   (IBool.wellFormed_preserved ⟨false, true⟩ ⟨true, true⟩ true (by decide) (by decide)).2.2.2.2.2.2.1,
   (IBool.wellFormed_preserved ⟨false, true⟩ ⟨true, true⟩ true (by decide) (by decide)).2.2.2.2.2.2.2.2⟩

/-! ## Interval comparisons -/

theorem broadcast_nan_of_not_hasNaN (a : IDouble) (h : a.hasNaN = false) :
    broadcast_nan_intervald a = a := by
  rcases a with ⟨l, u⟩
  cases l <;> cases u <;> simp_all [IDouble.hasNaN, Dbl.isNaN, broadcast_nan_intervald, or_pd_mask]

theorem broadcast_nan_of_hasNaN (a : IDouble) (h : a.hasNaN = true) :
    broadcast_nan_intervald a = ⟨Dbl.nan, Dbl.nan⟩ := by
  rcases a with ⟨l, u⟩
  cases l <;> cases u <;> simp_all [IDouble.hasNaN, Dbl.isNaN, broadcast_nan_intervald, or_pd_mask]

theorem Dbl.lt_nan_left (y : Dbl) : Dbl.lt Dbl.nan y = false := by cases y <;> rfl
theorem Dbl.lt_nan_right (x : Dbl) : Dbl.lt x Dbl.nan = false := by cases x <;> rfl
theorem Dbl.le_nan_left (y : Dbl) : Dbl.le Dbl.nan y = false := by cases y <;> rfl
theorem Dbl.le_nan_right (x : Dbl) : Dbl.le x Dbl.nan = false := by cases x <;> rfl

theorem broadcast_lt_le (a b : IDouble) (ha : a.hasNaN = false) (hb : b.hasNaN = false) :
    a.lt b = lt_intervald a b ∧ a.le b = le_intervald a b := by
  simp [IDouble.lt, IDouble.le, broadcast_nan_of_not_hasNaN a ha,
    broadcast_nan_of_not_hasNaN b hb]

theorem lt_le_of_hasNaN (a b : IDouble) (h : a.hasNaN = true ∨ b.hasNaN = true) :
    a.lt b = ⟨false, true⟩ ∧ a.le b = ⟨false, true⟩ := by
  rcases h with h | h
  · simp [IDouble.lt, IDouble.le, broadcast_nan_of_hasNaN a h, lt_intervald, le_intervald,
      Dbl.lt_nan_left, Dbl.lt_nan_right, Dbl.le_nan_left, Dbl.le_nan_right]
  · simp [IDouble.lt, IDouble.le, broadcast_nan_of_hasNaN b h, lt_intervald, le_intervald,
      Dbl.lt_nan_left, Dbl.lt_nan_right, Dbl.le_nan_left, Dbl.le_nan_right]

/-- C6: for the interval comparisons `a < b` and `a <= b`: when neither interval
has a NaN endpoint, `definitely(a < b)` is `a.ub < b.lb` and `possibly(a < b)` is
`!(b.ub <= a.lb)`, and `definitely(a <= b)` is `a.ub <= b.lb` and
`possibly(a <= b)` is `!(b.ub < a.lb)`; when any of the four endpoints is NaN,
both results are indeterminate (`definitely = false`, `possibly = true`). -/
theorem IDouble.lt_le_spec (a b : IDouble) :
    (a.hasNaN = false → b.hasNaN = false →
      (a.lt b).definitely = Dbl.lt a.ub b.lb ∧ (a.lt b).possibly = !(Dbl.le b.ub a.lb) ∧
      (a.le b).definitely = Dbl.le a.ub b.lb ∧ (a.le b).possibly = !(Dbl.lt b.ub a.lb)) ∧
    (a.hasNaN = true ∨ b.hasNaN = true →
      a.lt b = ⟨false, true⟩ ∧ a.le b = ⟨false, true⟩ ∧
      (a.lt b).indeterminate = true ∧ (a.le b).indeterminate = true) := by
  constructor
  · intro ha hb
    rw [(broadcast_lt_le a b ha hb).1, (broadcast_lt_le a b ha hb).2]
    exact ⟨rfl, rfl, rfl, rfl⟩
  · intro h
    rw [(lt_le_of_hasNaN a b h).1, (lt_le_of_hasNaN a b h).2]
    exact ⟨rfl, rfl, rfl, rfl⟩

/-- Witness of C6 at `a = [0, 1]`, `b = [2, 3]` and at `a = [NaN, 1]`. -/
theorem IDouble.lt_le_spec_witness :
    (IDouble.lt ⟨Dbl.ofInt 0, Dbl.ofInt 1⟩ ⟨Dbl.ofInt 2, Dbl.ofInt 3⟩).definitely
        = Dbl.lt (Dbl.ofInt 1) (Dbl.ofInt 2) ∧
    IDouble.lt ⟨Dbl.nan, Dbl.ofInt 1⟩ ⟨Dbl.ofInt 2, Dbl.ofInt 3⟩ = ⟨false, true⟩ :=
  ⟨((IDouble.lt_le_spec ⟨Dbl.ofInt 0, Dbl.ofInt 1⟩ ⟨Dbl.ofInt 2, Dbl.ofInt 3⟩).1 rfl rfl).1,
   ((IDouble.lt_le_spec ⟨Dbl.nan, Dbl.ofInt 1⟩ ⟨Dbl.ofInt 2, Dbl.ofInt 3⟩).2 (Or.inl rfl)).1⟩

theorem Dbl.cmp_le_lt {a b c : Dbl} (h1 : Dbl.le a b = true) (h2 : Dbl.lt b c = true) :
    Dbl.lt a c = true := by
  cases a <;> cases b <;> cases c <;> simp_all [Dbl.lt, Dbl.le]
  all_goals omega

theorem Dbl.cmp_lt_le {a b c : Dbl} (h1 : Dbl.lt a b = true) (h2 : Dbl.le b c = true) :
    Dbl.lt a c = true := by
  cases a <;> cases b <;> cases c <;> simp_all [Dbl.lt, Dbl.le]
  all_goals omega

theorem Dbl.cmp_le_le {a b c : Dbl} (h1 : Dbl.le a b = true) (h2 : Dbl.le b c = true) :
    Dbl.le a c = true := by
  cases a <;> cases b <;> cases c <;> simp_all [Dbl.le]
  all_goals omega

theorem Dbl.not_le_eq_lt {a b : Dbl} (ha : a.isNaN = false) (hb : b.isNaN = false) :
    (!Dbl.le b a) = Dbl.lt a b := by
  cases a <;> cases b <;> simp_all [Dbl.lt, Dbl.le, Dbl.isNaN]
  all_goals
    rw [Bool.eq_iff_iff]
    simp

theorem Dbl.not_lt_eq_le {a b : Dbl} (ha : a.isNaN = false) (hb : b.isNaN = false) :
    (!Dbl.lt b a) = Dbl.le a b := by
  cases a <;> cases b <;> simp_all [Dbl.lt, Dbl.le, Dbl.isNaN]
  all_goals
    rw [Bool.eq_iff_iff]
    simp

theorem Dbl.isNaN_of_le_left {a b : Dbl} (h : Dbl.le a b = true) : a.isNaN = false := by
  cases a <;> cases b <;> simp_all [Dbl.le, Dbl.isNaN]

theorem Dbl.isNaN_of_le_right {a b : Dbl} (h : Dbl.le a b = true) : b.isNaN = false := by
  cases a <;> cases b <;> simp_all [Dbl.le, Dbl.isNaN]

theorem exp_of_havenan (xi xj : IDouble) (h : havenan xi xj = true) :
    exp_lt xi xj = ⟨false, true⟩ ∧ exp_le xi xj = ⟨false, true⟩ := by
  simp [exp_lt, exp_le, h]

theorem cmp_of_havenan (xi xj : IDouble) (h : havenan xi xj = true) :
    xi.lt xj = ⟨false, true⟩ ∧ xi.le xj = ⟨false, true⟩ := by
  have h1 : xi.hasNaN = true ∨ xj.hasNaN = true := by
    simp only [havenan, IDouble.hasNaN, Bool.or_eq_true] at h ⊢
    tauto
  exact lt_le_of_hasNaN xi xj h1

/-- C7: for all intervals `xi`, `xj` whose endpoints are ordered (`lb <= ub`) or
contain a NaN, `xi < xj` equals the reference value `exp_lt` of the test (lower
bit: the conjunction of the four endpoint comparisons and no NaN; upper bit:
their disjunction or a NaN), and `xi <= xj` equals the reference `exp_le`. -/
theorem IDouble.lt_le_eq_reference (xi xj : IDouble)
    (hi : xi.OrderedOrNaN) (hj : xj.OrderedOrNaN) :
    xi.lt xj = exp_lt xi xj ∧ xi.le xj = exp_le xi xj := by
  by_cases hn : havenan xi xj = true
  · rw [(cmp_of_havenan xi xj hn).1, (cmp_of_havenan xi xj hn).2,
      (exp_of_havenan xi xj hn).1, (exp_of_havenan xi xj hn).2]
    exact ⟨rfl, rfl⟩
  · have hn0 : havenan xi xj = false := by simpa using hn
    have hn1 := hn0
    simp only [havenan, Bool.or_eq_false_iff] at hn1
    obtain ⟨⟨⟨ha, hb⟩, hc⟩, hd⟩ := hn1
    have hab : Dbl.le xi.lb xi.ub = true := by
      rcases hi with h | h
      · exact h
      · simp [IDouble.hasNaN, ha, hb] at h
    have hcd : Dbl.le xj.lb xj.ub = true := by
      rcases hj with h | h
      · exact h
      · simp [IDouble.hasNaN, hc, hd] at h
    have hxi : xi.hasNaN = false := by simp [IDouble.hasNaN, ha, hb]
    have hxj : xj.hasNaN = false := by simp [IDouble.hasNaN, hc, hd]
    rw [(broadcast_lt_le xi xj hxi hxj).1, (broadcast_lt_le xi xj hxi hxj).2]
    refine ⟨?_, ?_⟩
    · simp only [exp_lt, hn0, lt_intervald, IBool.mk.injEq, Bool.not_false, Bool.and_true,
        Bool.or_false]
      refine ⟨?_, ?_⟩
      · rw [Bool.eq_iff_iff]
        simp only [Bool.and_eq_true]
        constructor
        · intro h
          exact ⟨⟨⟨Dbl.cmp_le_lt hab h,
            Dbl.cmp_lt_le (Dbl.cmp_le_lt hab h) hcd⟩, h⟩, Dbl.cmp_lt_le h hcd⟩
        · intro h
          exact h.1.2
      · rw [Dbl.not_le_eq_lt ha hd, Bool.eq_iff_iff]
        simp only [Bool.or_eq_true]
        constructor
        · intro h
          exact Or.inl (Or.inl (Or.inr h))
        · rintro (((h | h) | h) | h)
          · exact Dbl.cmp_lt_le h hcd
          · exact h
          · exact Dbl.cmp_lt_le (Dbl.cmp_le_lt hab h) hcd
          · exact Dbl.cmp_le_lt hab h
    · simp only [exp_le, hn0, le_intervald, IBool.mk.injEq, Bool.not_false, Bool.and_true,
        Bool.or_false]
      refine ⟨?_, ?_⟩
      · rw [Bool.eq_iff_iff]
        simp only [Bool.and_eq_true]
        constructor
        · intro h
          exact ⟨⟨⟨Dbl.cmp_le_le hab h, Dbl.cmp_le_le (Dbl.cmp_le_le hab h) hcd⟩, h⟩,
            Dbl.cmp_le_le h hcd⟩
        · intro h
          exact h.1.2
      · rw [Dbl.not_lt_eq_le ha hd, Bool.eq_iff_iff]
        simp only [Bool.or_eq_true]
        constructor
        · intro h
          exact Or.inl (Or.inl (Or.inr h))
        · rintro (((h | h) | h) | h)
          · exact Dbl.cmp_le_le h hcd
          · exact h
          · exact Dbl.cmp_le_le (Dbl.cmp_le_le hab h) hcd
          · exact Dbl.cmp_le_le hab h

/-- Witness of C7 at `xi = [-1, 1]`, `xj = [NaN, 10]`. -/
theorem IDouble.lt_le_eq_reference_witness :
    IDouble.lt ⟨Dbl.ofInt (-1), Dbl.ofInt 1⟩ ⟨Dbl.nan, Dbl.ofInt 10⟩
      = exp_lt ⟨Dbl.ofInt (-1), Dbl.ofInt 1⟩ ⟨Dbl.nan, Dbl.ofInt 10⟩ :=
  (IDouble.lt_le_eq_reference ⟨Dbl.ofInt (-1), Dbl.ofInt 1⟩ ⟨Dbl.nan, Dbl.ofInt 10⟩
    (Or.inl (by decide)) (Or.inr (by decide))).1

end ivarp

namespace ivarp

/-! ## The prover: the loop and its invariants -/

namespace Prover

variable {V : Type}

/-- Induction over the iterations of `prove`: a property of the state that every
iteration preserves holds of the final state. -/
theorem prove_loop_induct (p : Prover V) (fuel : Nat) (P : ProofState V → Prop)
    (hstep : ∀ (s : ProofState V) (element : StackElement V) (rest : List (StackElement V))
      (s1 : ProofState V), P s → s.m_stack = element :: rest →
      p.iteration fuel element { s with m_stack := rest } = some s1 → P s1) :
    ∀ (n : Nat) (s out : ProofState V), P s → prove_loop p fuel n s = some out → P out := by
  intro n
  induction n with
  | zero =>
    intro s out hs h
    unfold prove_loop at h
    split at h
    · cases h; exact hs
    · cases h
  | succ n ih =>
    intro s out hs h
    unfold prove_loop at h
    split at h
    · cases h; exact hs
    · rename_i element rest hst
      split at h
      · cases h
      · rename_i s1 hit
        exact ih s1 out (hstep s element rest s1 hs hst hit) h

/-- The final state of `prove_loop` has an empty work stack. -/
theorem prove_loop_stack_empty (p : Prover V) (fuel : Nat) :
    ∀ (n : Nat) (s out : ProofState V), prove_loop p fuel n s = some out → out.m_stack = [] := by
  intro n
  induction n with
  | zero =>
    intro s out h
    unfold prove_loop at h
    split at h
    · cases h; assumption
    · cases h
  | succ n ih =>
    intro s out h
    unfold prove_loop at h
    split at h
    · cases h; assumption
    · split at h
      · cases h
      · exact ih _ out h

theorem push_roots_fields (vs : List V) (s : ProofState V) :
    (push_roots vs s).result = s.result ∧ (push_roots vs s).reported = s.reported ∧
    (push_roots vs s).leaves = s.leaves := by
  induction vs generalizing s with
  | nil => exact ⟨rfl, rfl, rfl⟩
  | cons v vs ih =>
    simp only [push_roots]
    exact ih _

theorem push_children_fields (element : StackElement V) (ds : List V) (s : ProofState V) :
    (push_children element ds s).result = s.result ∧
    (push_children element ds s).reported = s.reported ∧
    (push_children element ds s).leaves = s.leaves := by
  induction ds generalizing s with
  | nil => exact ⟨rfl, rfl, rfl⟩
  | cons d ds ih =>
    simp only [push_children]
    exact ih _

theorem report_result (p : Prover V) (s : ProofState V) (domain : V) (b : Bool) :
    (p.report s domain b).result = false ∧
    (p.report s domain b).reported = s.reported ++ [(domain, b)] := by
  unfold report
  split <;> exact ⟨rfl, rfl⟩

theorem iteration_resultTracksReports (p : Prover V) (fuel : Nat) (element : StackElement V)
    (s s1 : ProofState V) (hs : ResultTracksReports s)
    (h : p.iteration fuel element s = some s1) : ResultTracksReports s1 := by
  unfold iteration at h
  split at h
  · cases h
  · rename_i empty domain hrun
    dsimp only at h
    split at h
    · cases h; exact hs
    · split at h
      · cases h; exact hs
      · cases h
        unfold ResultTracksReports
        rw [(report_result p s domain true).1, (report_result p s domain true).2]
        simp
      · split at h
        · cases h
          unfold ResultTracksReports
          rw [(report_result p s domain false).1, (report_result p s domain false).2]
          simp
        · cases h
          unfold ResultTracksReports
          rw [(push_children_fields _ _ s).1, (push_children_fields _ _ s).2.1]
          exact hs

/-- C1: `prove` returns `true` if and only if the reporter is never called during
the run (no popped frame is reported as definitely satisfiable and none is
reported at the height cutoff), for every prover (roots, constraints, split and
policy flags) and every bound within which the run terminates. -/
theorem prove_true_iff_never_reported (p : Prover V) (fuel : Nat) (result : Bool)
    (reports : List (V × Bool)) (hr : p.prove fuel = some result)
    (hrep : p.prove_reports fuel = some reports) :
    result = true ↔ reports = [] := by
  unfold prove at hr
  unfold prove_reports at hrep
  cases hrun : p.prove_run fuel with
  | none => rw [hrun] at hr; cases hr
  | some out =>
    rw [hrun] at hr hrep
    cases hr; cases hrep
    unfold prove_run at hrun
    have hinit : ResultTracksReports p.setup_proof := by
      unfold ResultTracksReports setup_proof
      rw [(push_roots_fields _ _).1, (push_roots_fields _ _).2.1]
      exact ⟨fun _ => rfl, fun _ => rfl⟩
    exact prove_loop_induct p fuel ResultTracksReports
      (fun s element rest s1 hs _ hit =>
        iteration_resultTracksReports p fuel element { s with m_stack := rest } s1 hs hit)
      fuel _ out hinit hrun

/-- Witness of C1: the run for `x > 2` on `[-1, 1]` returns `true` without a report,
and the run for `x > 0` with `abort_on_satisfiable` returns `false` with a report. -/
theorem prove_true_iff_never_reported_witness :
    (true = true ↔ ([] : List (Box1 × Bool)) = []) ∧
    (false = true ↔ [(box1 Dbl.half (Dbl.ofInt 1), true)] = []) :=
  ⟨prove_true_iff_never_reported (prover_gt 2) 1 true [] (by decide) (by decide),
   prove_true_iff_never_reported ((prover_gt 0).abort_on_satisfiable true) 3 false
     [(box1 Dbl.half (Dbl.ofInt 1), true)] (by decide) (by decide)⟩

end Prover

end ivarp

namespace ivarp

namespace Prover

variable {V : Type}

/-! ## More fuel does not change a finished run -/

theorem run_propagators_mono (ps : List (Constraint V)) :
    ∀ (f f1 : Nat) (v : V) (out : Bool × V), run_propagators ps f v = some out → f ≤ f1 →
      run_propagators ps f1 v = some out := by
  intro f
  induction f with
  | zero => intro f1 v out h; simp [run_propagators] at h
  | succ f ih =>
    intro f1 v out h hle
    obtain ⟨g, rfl⟩ : ∃ g, f1 = g + 1 := ⟨f1 - 1, by omega⟩
    unfold run_propagators at h ⊢
    dsimp only at h ⊢
    split
    · rename_i hc
      rw [if_pos hc] at h
      exact ih g _ out h (by omega)
    · rename_i hc
      rw [if_neg hc] at h
      exact h

theorem iteration_mono (p : Prover V) (f f1 : Nat) (element : StackElement V)
    (s s1 : ProofState V) (h : p.iteration f element s = some s1) (hle : f ≤ f1) :
    p.iteration f1 element s = some s1 := by
  unfold iteration at h ⊢
  cases hr : run_propagators p.m_propagators f element.domain with
  | none => rw [hr] at h; cases h
  | some out =>
    rw [run_propagators_mono p.m_propagators f f1 element.domain out hr hle]
    rw [hr] at h
    exact h

theorem prove_loop_nil (p : Prover V) (f n : Nat) (s : ProofState V) (h : s.m_stack = []) :
    prove_loop p f n s = some s := by
  cases n with
  | zero =>
    unfold prove_loop
    split
    · rfl
    · rename_i heq; rw [h] at heq; cases heq
  | succ n =>
    unfold prove_loop
    split
    · rfl
    · rename_i heq; rw [h] at heq; cases heq

theorem prove_loop_zero_cons (p : Prover V) (f : Nat) (s : ProofState V)
    (element : StackElement V) (rest : List (StackElement V))
    (h : s.m_stack = element :: rest) : prove_loop p f 0 s = none := by
  unfold prove_loop
  split
  · rename_i heq; rw [h] at heq; cases heq
  · rfl

theorem prove_loop_succ_cons (p : Prover V) (f n : Nat) (s : ProofState V)
    (element : StackElement V) (rest : List (StackElement V))
    (h : s.m_stack = element :: rest) :
    prove_loop p f (n + 1) s
      = (p.iteration f element { s with m_stack := rest }).bind (prove_loop p f n) := by
  conv_lhs => unfold prove_loop
  split
  · rename_i heq; rw [h] at heq; cases heq
  · rename_i e r heq
    rw [h] at heq
    cases heq
    cases p.iteration f element { s with m_stack := rest } <;> rfl

theorem run_iterations_nil (p : Prover V) (f k : Nat) (s : ProofState V) (h : s.m_stack = []) :
    run_iterations p f k s = some s := by
  cases k with
  | zero => rfl
  | succ k =>
    unfold run_iterations
    split
    · rfl
    · rename_i heq; rw [h] at heq; cases heq

theorem run_iterations_succ_cons (p : Prover V) (f k : Nat) (s : ProofState V)
    (element : StackElement V) (rest : List (StackElement V))
    (h : s.m_stack = element :: rest) :
    run_iterations p f (k + 1) s
      = (p.iteration f element { s with m_stack := rest }).bind (run_iterations p f k) := by
  conv_lhs => unfold run_iterations
  split
  · rename_i heq; rw [h] at heq; cases heq
  · rename_i e r heq
    rw [h] at heq
    cases heq
    cases p.iteration f element { s with m_stack := rest } <;> rfl

theorem prove_loop_mono (p : Prover V) (f f1 : Nat) (hle : f ≤ f1) :
    ∀ (n n1 : Nat) (s out : ProofState V), prove_loop p f n s = some out → n ≤ n1 →
      prove_loop p f1 n1 s = some out := by
  intro n
  induction n with
  | zero =>
    intro n1 s out h _
    cases hst : s.m_stack with
    | nil =>
      rw [prove_loop_nil p f 0 s hst] at h
      rw [prove_loop_nil p f1 n1 s hst]
      exact h
    | cons element rest =>
      rw [prove_loop_zero_cons p f s element rest hst] at h
      cases h
  | succ n ih =>
    intro n1 s out h hn
    obtain ⟨m, rfl⟩ : ∃ m, n1 = m + 1 := ⟨n1 - 1, by omega⟩
    cases hst : s.m_stack with
    | nil =>
      rw [prove_loop_nil p f _ s hst] at h
      rw [prove_loop_nil p f1 _ s hst]
      exact h
    | cons element rest =>
      rw [prove_loop_succ_cons p f n s element rest hst] at h
      rw [prove_loop_succ_cons p f1 m s element rest hst]
      cases hit : p.iteration f element { s with m_stack := rest } with
      | none => rw [hit] at h; cases h
      | some s1 =>
        rw [hit] at h
        rw [iteration_mono p f f1 element _ s1 hit hle]
        exact ih m s1 out h (by omega)

theorem prove_run_mono (p : Prover V) (f f1 : Nat) (out : ProofState V)
    (h : p.prove_run f = some out) (hle : f ≤ f1) : p.prove_run f1 = some out :=
  prove_loop_mono p f f1 hle f f1 _ out h hle

theorem run_iterations_mono (p : Prover V) (f f1 : Nat) (hle : f ≤ f1) :
    ∀ (k : Nat) (s out : ProofState V), run_iterations p f k s = some out →
      run_iterations p f1 k s = some out := by
  intro k
  induction k with
  | zero => intro s out h; exact h
  | succ k ih =>
    intro s out h
    cases hst : s.m_stack with
    | nil =>
      rw [run_iterations_nil p f _ s hst] at h
      rw [run_iterations_nil p f1 _ s hst]
      exact h
    | cons element rest =>
      rw [run_iterations_succ_cons p f k s element rest hst] at h
      rw [run_iterations_succ_cons p f1 k s element rest hst]
      cases hit : p.iteration f element { s with m_stack := rest } with
      | none => rw [hit] at h; cases h
      | some s1 =>
        rw [hit] at h
        rw [iteration_mono p f f1 element _ s1 hit hle]
        exact ih s1 out h

/-- The loop after `k` iterations is the loop from the state they reach. -/
theorem prove_loop_add (p : Prover V) (f n : Nat) :
    ∀ (k : Nat) (s : ProofState V),
      prove_loop p f (k + n) s = (run_iterations p f k s).bind (prove_loop p f n) := by
  intro k
  induction k with
  | zero => intro s; simp [run_iterations]
  | succ k ih =>
    intro s
    rw [show k + 1 + n = (k + n) + 1 by omega]
    cases hst : s.m_stack with
    | nil =>
      rw [prove_loop_nil p f _ s hst, run_iterations_nil p f _ s hst, Option.some_bind,
        prove_loop_nil p f _ s hst]
    | cons element rest =>
      rw [prove_loop_succ_cons p f _ s element rest hst,
        run_iterations_succ_cons p f k s element rest hst]
      cases hit : p.iteration f element { s with m_stack := rest } with
      | none => rfl
      | some s1 => exact ih s1

theorem iteration_reported_length (p : Prover V) (fuel : Nat) (element : StackElement V)
    (s s1 : ProofState V) (h : p.iteration fuel element s = some s1) :
    s.reported.length ≤ s1.reported.length := by
  unfold iteration at h
  split at h
  · cases h
  · rename_i empty domain hrun
    dsimp only at h
    split at h
    · cases h; exact le_refl _
    · split at h
      · cases h; exact le_refl _
      · cases h
        rw [(report_result p s domain true).2]
        simp
      · split at h
        · cases h
          rw [(report_result p s domain false).2]
          simp
        · cases h
          rw [(push_children_fields _ _ s).2.1]

theorem prover_gt_zero_at_least_two_reports (fuel : Nat) (reps : List (Box1 × Bool))
    (h : (prover_gt 0).prove_reports fuel = some reps) : 2 ≤ reps.length := by
  unfold prove_reports at h
  cases hrun : (prover_gt 0).prove_run fuel with
  | none => rw [hrun] at h; cases h
  | some out =>
    rw [hrun] at h
    cases h
    by_cases hf : fuel < 5
    · exfalso
      have hnone : (prover_gt 0).prove_run fuel = none := by
        interval_cases fuel <;> decide
      rw [hnone] at hrun
      cases hrun
    · obtain ⟨n, rfl⟩ : ∃ n, fuel = 5 + n := ⟨fuel - 5, by omega⟩
      unfold prove_run at hrun
      rw [prove_loop_add] at hrun
      cases h5 : run_iterations (prover_gt 0) 1 5 (prover_gt 0).setup_proof with
      | none =>
        have hsome : run_iterations (prover_gt 0) 1 5 (prover_gt 0).setup_proof ≠ none := by
          decide
        exact absurd h5 hsome
      | some s5 =>
        have hlen : (run_iterations (prover_gt 0) 1 5 (prover_gt 0).setup_proof).map
            (fun s => s.reported.length) = some 2 := by decide
        rw [h5] at hlen
        simp only [Option.map_some', Option.some.injEq] at hlen
        rw [run_iterations_mono (prover_gt 0) 1 (5 + n) (by omega) 5 _ s5 h5] at hrun
        simp only [Option.some_bind] at hrun
        exact prove_loop_induct (prover_gt 0) (5 + n) (fun s => 2 ≤ s.reported.length)
          (fun s element rest s1 hs _ hit =>
            le_trans hs (iteration_reported_length _ _ element { s with m_stack := rest } s1 hit))
          n s5 out (by omega) hrun

/-! ## The concrete scenario -/

/-- C2 as the code has it: with `abort_on_satisfiable` enabled, the prover with the
single checker `x > 0` and the single root `x ∈ [-1, 1]` returns `false` and the
reporter is called exactly once, for the definitely satisfiable descendant box
`[0.5, 1]`; with the single checker `x > 2` on the same root `prove` returns
`true` and the reporter is never called.  Both hold for every bound of at least
3 (respectively 1) iterations. -/
theorem prover_gt_scenario (k : Nat) :
    ((prover_gt 0).abort_on_satisfiable true).prove (3 + k) = some false ∧
    ((prover_gt 0).abort_on_satisfiable true).prove_reports (3 + k)
      = some [(box1 Dbl.half (Dbl.ofInt 1), true)] ∧
    (prover_gt 2).prove (1 + k) = some true ∧
    (prover_gt 2).prove_reports (1 + k) = some [] := by
  have h0 : ((prover_gt 0).abort_on_satisfiable true).prove_run 3 ≠ none := by decide
  have h2 : (prover_gt 2).prove_run 1 ≠ none := by decide
  cases ha : ((prover_gt 0).abort_on_satisfiable true).prove_run 3 with
  | none => exact absurd ha h0
  | some outa =>
    cases hb : (prover_gt 2).prove_run 1 with
    | none => exact absurd hb h2
    | some outb =>
      have ra : ((prover_gt 0).abort_on_satisfiable true).prove 3 = some false := by decide
      have rb : ((prover_gt 0).abort_on_satisfiable true).prove_reports 3
          = some [(box1 Dbl.half (Dbl.ofInt 1), true)] := by decide
      have rc : (prover_gt 2).prove 1 = some true := by decide
      have rd : (prover_gt 2).prove_reports 1 = some [] := by decide
      have ma := prove_run_mono _ 3 (3 + k) outa ha (by omega)
      have mb := prove_run_mono _ 1 (1 + k) outb hb (by omega)
      simp only [prove, prove_reports, ha, hb, ma, mb] at ra rb rc rd ⊢
      exact ⟨ra, rb, rc, rd⟩

/-- Counterexample to C2 as stated: with the default flags the prover for `x > 0`
on `[-1, 1]` has no run in which the reporter is called exactly once; after five
iterations it has already reported the two boxes `[0.5, 1]` and `[0.25, 0.5]`. -/
theorem prover_gt_default_not_one_report :
    (¬ ∃ (fuel : Nat) (r : Box1 × Bool), (prover_gt 0).prove_reports fuel = some [r]) ∧
    (run_iterations (prover_gt 0) 1 5 (prover_gt 0).setup_proof).map (fun s => s.reported)
      = some [(box1 Dbl.half (Dbl.ofInt 1), true),
              (box1 (Dbl.fin (pow2 1072)) Dbl.half, true)] := by
  refine ⟨?_, by decide⟩
  rintro ⟨fuel, r, h⟩
  have := prover_gt_zero_at_least_two_reports fuel [r] h
  simp at this

end Prover

end ivarp

namespace ivarp

namespace Prover

variable {V : Type}

/-! ## Termination of the propagation loop -/

theorem run_propagators_always_changed (fuel : Nat) (v : Box1) :
    run_propagators [constraint_always_changed] fuel v = none := by
  induction fuel with
  | zero => rfl
  | succ f ih =>
    unfold run_propagators
    simpa [propagate_pass, constraint_always_changed, PropagateResult.or,
      PropagateResult.toUnsigned, PropagateResult.ofUnsigned] using ih

/-- Counterexample to C5 as stated: for the propagator that reports `CHANGED` on
every call, the loop of `run_propagators` on the box `x ∈ [-1, 1]` finishes within
no number of passes. -/
theorem run_propagators_may_diverge :
    ¬ ∃ fuel : Nat,
      (run_propagators [constraint_always_changed] fuel
        (box1 (Dbl.ofInt (-1)) (Dbl.ofInt 1))).isSome = true := by
  rintro ⟨fuel, h⟩
  rw [run_propagators_always_changed] at h
  cases h

/-- C5 as the code has it: the loop of `run_propagators` ends with the first pass
whose union of results is not exactly `CHANGED`; hence, for every propagator list
for which some natural-number measure of the box strictly decreases over every
pass that yields `CHANGED` (each such pass narrows a bound of a bounded
representation), the loop finishes on every box `v` within `μ v + 1` passes. -/
theorem run_propagators_terminates_of_measure (ps : List (Constraint V)) (μ : V → Nat)
    (hμ : ∀ v : V, (propagate_pass ps PropagateResult.UNCHANGED v).1 = PropagateResult.CHANGED →
      μ (propagate_pass ps PropagateResult.UNCHANGED v).2 < μ v)
    (v : V) : ∃ out : Bool × V, run_propagators ps (μ v + 1) v = some out := by
  generalize hm : μ v = m
  induction m using Nat.strong_induction_on generalizing v with
  | _ m ih =>
    unfold run_propagators
    dsimp only
    by_cases hc : (propagate_pass ps PropagateResult.UNCHANGED v).1 = PropagateResult.CHANGED
    · rw [if_pos hc]
      have hlt := hμ v hc
      rw [hm] at hlt
      obtain ⟨out, hout⟩ := ih _ hlt (propagate_pass ps PropagateResult.UNCHANGED v).2 rfl
      exact ⟨out, run_propagators_mono ps _ _ _ out hout (by omega)⟩
    · rw [if_neg hc]
      exact ⟨_, rfl⟩

theorem measure_le_zero_decreases (v : Box1) :
    (propagate_pass [constraint_le_zero] PropagateResult.UNCHANGED v).1
        = PropagateResult.CHANGED →
      measure_le_zero (propagate_pass [constraint_le_zero] PropagateResult.UNCHANGED v).2
        < measure_le_zero v := by
  rcases v with ⟨vals, ⟨⟩⟩
  have h00 : Dbl.gt (Dbl.ofInt 0) (Dbl.ofInt 0) = false := by decide
  have hnan : Dbl.gt Dbl.nan (Dbl.ofInt 0) = false := by decide
  cases vals with
  | nil =>
    simp [propagate_pass, constraint_le_zero, BasicVariableSet.restrict_ub,
      BasicVariableSet.get_value, hnan, PropagateResult.or,
      PropagateResult.toUnsigned, PropagateResult.ofUnsigned]
  | cons I rest =>
    by_cases hgt : Dbl.gt I.ub (Dbl.ofInt 0) = true
    · intro _
      simp [propagate_pass, constraint_le_zero, BasicVariableSet.restrict_ub,
        BasicVariableSet.get_value, BasicVariableSet.p_call_handler, box1_handlers, hgt,
        measure_le_zero, h00]
    · simp [propagate_pass, constraint_le_zero, BasicVariableSet.restrict_ub,
        BasicVariableSet.get_value, hgt, PropagateResult.or,
        PropagateResult.toUnsigned, PropagateResult.ofUnsigned]

/-- Witness of C5 (amended): the propagator of `x <= 0` on the box `x ∈ [-1, 1]`. -/
theorem run_propagators_terminates_of_measure_witness :
    ∃ out : Bool × Box1,
      run_propagators [constraint_le_zero]
        (measure_le_zero (box1 (Dbl.ofInt (-1)) (Dbl.ofInt 1)) + 1)
        (box1 (Dbl.ofInt (-1)) (Dbl.ofInt 1)) = some out :=
  run_propagators_terminates_of_measure [constraint_le_zero] measure_le_zero
    measure_le_zero_decreases (box1 (Dbl.ofInt (-1)) (Dbl.ofInt 1))

end Prover

end ivarp

namespace ivarp

namespace Prover

variable {V : Type}

/-! ## Termination of `prove` under a height cutoff -/

theorem push_children_stack (element : StackElement V) (ds : List V) (s : ProofState V) :
    stack_keys (push_children element ds s)
      = ds.reverse.map (fun d => (d, (element.height + 1) % 2 ^ 64)) ++ stack_keys s := by
  induction ds generalizing s with
  | nil => simp [push_children]
  | cons d ds ih =>
    simp only [push_children]
    rw [ih]
    simp [stack_keys, StackElement.child]

theorem push_roots_stack (vs : List V) (s : ProofState V) :
    stack_keys (push_roots vs s) = vs.reverse.map (fun d => (d, 0)) ++ stack_keys s := by
  induction vs generalizing s with
  | nil => simp [push_roots]
  | cons d ds ih =>
    simp only [push_roots]
    rw [ih]
    simp [stack_keys, StackElement.root]

theorem report_stack (p : Prover V) (s : ProofState V) (domain : V) (b : Bool) :
    stack_keys (p.report s domain b) = stack_keys s ∨ stack_keys (p.report s domain b) = [] := by
  unfold report
  split
  · exact Or.inr rfl
  · exact Or.inl rfl

/-- The work stack after one iteration: unchanged, cleared, or extended by the
children of the popped frame, one level higher, which needs the frame to be below
the abort height. -/
theorem iteration_stack (p : Prover V) (fuel : Nat) (element : StackElement V)
    (s s1 : ProofState V) (h : p.iteration fuel element s = some s1) :
    stack_keys s1 = stack_keys s ∨ stack_keys s1 = [] ∨
    (element.height ≠ p.m_abort_height ∧
      ∃ ds : List V, stack_keys s1
        = ds.map (fun d => (d, (element.height + 1) % 2 ^ 64)) ++ stack_keys s) := by
  unfold iteration at h
  split at h
  · cases h
  · rename_i empty domain hrun
    dsimp only at h
    split at h
    · cases h; exact Or.inl rfl
    · split at h
      · cases h; exact Or.inl rfl
      · cases h
        rcases report_stack p s domain true with h1 | h1
        · exact Or.inl h1
        · exact Or.inr (Or.inl h1)
      · split at h
        · cases h
          rcases report_stack p s domain false with h1 | h1
          · exact Or.inl h1
          · exact Or.inr (Or.inl h1)
        · rename_i hne
          cases h
          exact Or.inr (Or.inr ⟨hne, _, push_children_stack _ _ s⟩)

theorem iteration_isSome (p : Prover V) (fuel : Nat) (element : StackElement V)
    (s : ProofState V) (out : Bool × V)
    (h : run_propagators p.m_propagators fuel element.domain = some out) :
    ∃ s1, p.iteration fuel element s = some s1 := by
  unfold iteration
  rw [h]
  dsimp only
  split
  · exact ⟨_, rfl⟩
  · split
    · exact ⟨_, rfl⟩
    · exact ⟨_, rfl⟩
    · split
      · exact ⟨_, rfl⟩
      · exact ⟨_, rfl⟩

theorem terminatesFrom_nil (p : Prover V) : TerminatesFrom p [] := by
  intro s hs
  have hst : s.m_stack = [] := by
    unfold stack_keys at hs
    exact List.map_eq_nil_iff.mp hs
  exact ⟨0, 0, s, prove_loop_nil p 0 0 s hst⟩

/-- One more iteration in front of a finishing loop is a finishing loop. -/
theorem terminates_of_iteration (p : Prover V) (f0 : Nat) (s s1 : ProofState V)
    (element : StackElement V) (rest : List (StackElement V))
    (hst : s.m_stack = element :: rest)
    (hit : p.iteration f0 element { s with m_stack := rest } = some s1)
    (h1 : ∃ (f n : Nat) (out : ProofState V), prove_loop p f n s1 = some out) :
    ∃ (f n : Nat) (out : ProofState V), prove_loop p f n s = some out := by
  obtain ⟨f1, n1, out, hout⟩ := h1
  refine ⟨max f0 f1, n1 + 1, out, ?_⟩
  rw [prove_loop_succ_cons p _ n1 s element rest hst,
    iteration_mono p f0 (max f0 f1) element _ s1 hit (le_max_left _ _)]
  exact prove_loop_mono p f1 (max f0 f1) (le_max_right _ _) n1 n1 s1 out hout (le_refl _)

theorem terminatesFrom_append (p : Prover V) (k : Nat)
    (hk : ∀ (v : V) (restk : List (V × Nat)), TerminatesFrom p restk →
      TerminatesFrom p ((v, k) :: restk)) :
    ∀ (ds : List V) (restk : List (V × Nat)), TerminatesFrom p restk →
      TerminatesFrom p (ds.map (fun d => (d, k)) ++ restk) := by
  intro ds
  induction ds with
  | nil => intro restk h; exact h
  | cons d ds ih =>
    intro restk h
    exact hk d _ (ih restk h)

theorem terminatesFrom_cons (p : Prover V) (hH : p.m_abort_height < 2 ^ 64)
    (hprop : ∀ v : V, ∃ (f : Nat) (out : Bool × V),
      run_propagators p.m_propagators f v = some out) :
    ∀ (d k : Nat), k ≤ p.m_abort_height → p.m_abort_height - k ≤ d →
      ∀ (v : V) (restk : List (V × Nat)), TerminatesFrom p restk →
        TerminatesFrom p ((v, k) :: restk) := by
  intro d
  induction d with
  | zero =>
    intro k hk hd v restk hrest s hs
    obtain ⟨element, rest, hst, hkey, hrestk⟩ :
        ∃ element rest, s.m_stack = element :: rest ∧
          (element.domain, element.height) = (v, k) ∧
          stack_keys { s with m_stack := rest } = restk := by
      unfold stack_keys at hs
      cases hst : s.m_stack with
      | nil => rw [hst] at hs; cases hs
      | cons e r =>
        rw [hst] at hs
        simp only [List.map_cons, List.cons.injEq] at hs
        exact ⟨e, r, rfl, hs.1, hs.2⟩
    have hdom : element.domain = v := congrArg Prod.fst hkey
    have hheight : element.height = k := congrArg Prod.snd hkey
    obtain ⟨f0, out0, hrun⟩ := hprop element.domain
    obtain ⟨s1, hit⟩ := iteration_isSome p f0 element { s with m_stack := rest } out0 hrun
    apply terminates_of_iteration p f0 s s1 element rest hst hit
    rcases iteration_stack p f0 element _ s1 hit with h1 | h1 | ⟨hne, _⟩
    · exact hrest s1 (h1.trans hrestk)
    · exact terminatesFrom_nil p s1 h1
    · omega
  | succ d ih =>
    intro k hk hd v restk hrest s hs
    obtain ⟨element, rest, hst, hkey, hrestk⟩ :
        ∃ element rest, s.m_stack = element :: rest ∧
          (element.domain, element.height) = (v, k) ∧
          stack_keys { s with m_stack := rest } = restk := by
      unfold stack_keys at hs
      cases hst : s.m_stack with
      | nil => rw [hst] at hs; cases hs
      | cons e r =>
        rw [hst] at hs
        simp only [List.map_cons, List.cons.injEq] at hs
        exact ⟨e, r, rfl, hs.1, hs.2⟩
    have hheight : element.height = k := congrArg Prod.snd hkey
    obtain ⟨f0, out0, hrun⟩ := hprop element.domain
    obtain ⟨s1, hit⟩ := iteration_isSome p f0 element { s with m_stack := rest } out0 hrun
    apply terminates_of_iteration p f0 s s1 element rest hst hit
    rcases iteration_stack p f0 element _ s1 hit with h1 | h1 | ⟨hne, ds, h1⟩
    · exact hrest s1 (h1.trans hrestk)
    · exact terminatesFrom_nil p s1 h1
    · have hlt : k < p.m_abort_height := by omega
      have hmod : (element.height + 1) % 2 ^ 64 = k + 1 := by
        rw [hheight]
        exact Nat.mod_eq_of_lt (by omega)
      rw [hmod, hrestk] at h1
      exact terminatesFrom_append p (k + 1)
        (fun v1 restk1 h => ih (k + 1) (by omega) (by omega) v1 restk1 h) ds restk hrest s1 h1

theorem push_children_forall (element : StackElement V) (P : StackElement V → Prop)
    (hc : ∀ (d : V) (id : Nat), P (StackElement.child d element id)) :
    ∀ (ds : List V) (s : ProofState V), (∀ e ∈ s.m_stack, P e) → (∀ e ∈ s.pushed, P e) →
      (∀ e ∈ (push_children element ds s).m_stack, P e) ∧
      (∀ e ∈ (push_children element ds s).pushed, P e) := by
  intro ds
  induction ds with
  | nil => intro s h1 h2; exact ⟨h1, h2⟩
  | cons d ds ih =>
    intro s h1 h2
    simp only [push_children]
    apply ih
    · intro e he
      simp only [List.mem_cons] at he
      rcases he with rfl | he
      · exact hc _ _
      · exact h1 e he
    · intro e he
      simp only [List.mem_append, List.mem_singleton] at he
      rcases he with he | rfl
      · exact h2 e he
      · exact hc _ _

theorem push_roots_forall (P : StackElement V → Prop)
    (hc : ∀ (d : V) (id : Nat), P (StackElement.root d id)) :
    ∀ (vs : List V) (s : ProofState V), (∀ e ∈ s.m_stack, P e) → (∀ e ∈ s.pushed, P e) →
      (∀ e ∈ (push_roots vs s).m_stack, P e) ∧ (∀ e ∈ (push_roots vs s).pushed, P e) := by
  intro vs
  induction vs with
  | nil => intro s h1 h2; exact ⟨h1, h2⟩
  | cons d ds ih =>
    intro s h1 h2
    simp only [push_roots]
    apply ih
    · intro e he
      simp only [List.mem_cons] at he
      rcases he with rfl | he
      · exact hc _ _
      · exact h1 e he
    · intro e he
      simp only [List.mem_append, List.mem_singleton] at he
      rcases he with he | rfl
      · exact h2 e he
      · exact hc _ _

theorem report_forall (p : Prover V) (s : ProofState V) (domain : V) (b : Bool)
    (P : StackElement V → Prop) (h1 : ∀ e ∈ s.m_stack, P e) (h2 : ∀ e ∈ s.pushed, P e) :
    (∀ e ∈ (p.report s domain b).m_stack, P e) ∧ (∀ e ∈ (p.report s domain b).pushed, P e) := by
  unfold report
  split
  · exact ⟨fun e he => (by cases he), h2⟩
  · exact ⟨h1, h2⟩

theorem iteration_heightsBounded (p : Prover V) (hH : p.m_abort_height < 2 ^ 64) (fuel : Nat)
    (element : StackElement V) (s s1 : ProofState V)
    (he : element.height ≤ p.m_abort_height) (hs : HeightsBounded p s)
    (h : p.iteration fuel element s = some s1) : HeightsBounded p s1 := by
  unfold iteration at h
  split at h
  · cases h
  · rename_i empty domain hrun
    dsimp only at h
    split at h
    · cases h; exact hs
    · split at h
      · cases h; exact hs
      · cases h
        exact report_forall p s domain true _ hs.1 hs.2
      · split at h
        · cases h
          exact report_forall p s domain false _ hs.1 hs.2
        · rename_i hne
          cases h
          apply push_children_forall _ (fun e => e.height ≤ p.m_abort_height) _ _ s hs.1 hs.2
          intro d id
          have hlt : element.height + 1 < 2 ^ 64 := by omega
          simp only [StackElement.child, Nat.mod_eq_of_lt hlt]
          omega

/-- C4: termination of `prove` is bounded by `abort_at_height`: for every prover
(finite list of roots, a `split` that hands finitely many children to its
callback) whose abort height `h` is a finite `uint64_t` value and whose
propagation loop finishes on every box, `prove` finishes within some bound, and
no frame of height greater than `h` is ever pushed on the work stack. -/
theorem prove_terminates_within_abort_height (p : Prover V)
    (hH : p.m_abort_height < 2 ^ 64)
    (hprop : ∀ v : V, ∃ (f : Nat) (out : Bool × V),
      run_propagators p.m_propagators f v = some out) :
    ∃ (fuel : Nat) (out : ProofState V), p.prove_run fuel = some out ∧
      p.prove fuel = some out.result ∧
      ∀ e ∈ out.pushed, e.height ≤ p.m_abort_height := by
  have hterm : TerminatesFrom p (stack_keys p.setup_proof) := by
    unfold setup_proof
    rw [push_roots_stack]
    exact terminatesFrom_append p 0
      (fun v restk h => terminatesFrom_cons p hH hprop p.m_abort_height 0 (Nat.zero_le _)
        (by omega) v restk h) _ _ (terminatesFrom_nil p)
  obtain ⟨f, n, out, hout⟩ := hterm p.setup_proof rfl
  have hrun : p.prove_run (max f n) = some out :=
    prove_loop_mono p f (max f n) (le_max_left _ _) n (max f n) _ out hout (le_max_right _ _)
  refine ⟨max f n, out, hrun, by simp [prove, hrun], ?_⟩
  have hinit : HeightsBounded p p.setup_proof := by
    unfold setup_proof
    apply push_roots_forall (fun e => e.height ≤ p.m_abort_height)
    · intro d id
      exact Nat.zero_le _
    · intro e he; cases he
    · intro e he; cases he
  have hfinal : HeightsBounded p out :=
    prove_loop_induct p (max f n) (HeightsBounded p)
      (fun s element rest s1 hs hst hit =>
        iteration_heightsBounded p hH _ element { s with m_stack := rest } s1
          (hs.1 element (by rw [hst]; exact List.mem_cons_self _ _))
          ⟨fun e he => hs.1 e (by rw [hst]; exact List.mem_cons_of_mem _ he), hs.2⟩ hit)
      (max f n) _ out hinit hrun
  exact hfinal.2

theorem run_propagators_nil (fuel : Nat) (v : V) :
    run_propagators ([] : List (Constraint V)) (fuel + 1) v = some (false, v) := by
  simp [run_propagators, propagate_pass, PropagateResult.and, PropagateResult.toUnsigned,
    PropagateResult.ofUnsigned]

theorem prover_gt_no_propagators (c : Int) (h : Nat) :
    ((prover_gt c).abort_at_height h).m_propagators = [] := rfl

/-- Witness of C4: the prover for `x > 0` on `[-1, 1]` with `abort_at_height(3)`. -/
theorem prove_terminates_within_abort_height_witness :
    ∃ (fuel : Nat) (out : ProofState Box1),
      ((prover_gt 0).abort_at_height 3).prove_run fuel = some out ∧
      ((prover_gt 0).abort_at_height 3).prove fuel = some out.result ∧
      ∀ e ∈ out.pushed, e.height ≤ 3 :=
  prove_terminates_within_abort_height ((prover_gt 0).abort_at_height 3) (by decide)
    (fun v => ⟨1, (false, v), by rw [prover_gt_no_propagators]; exact run_propagators_nil 0 v⟩)

end Prover

end ivarp

namespace ivarp

namespace Dbl

/-! ## Rounding toward minus infinity -/

/-- The search `ulpAux` returns the shift `k` with `m < 2^(53+k)` that is `0` or
has `2^(52+k) ≤ m`. -/
theorem ulpAux_spec : ∀ (j m : Nat), m < 2 ^ (52 + 2 ^ j) →
    m < 2 ^ (53 + ulpAux j m) ∧ (ulpAux j m = 0 ∨ 2 ^ (52 + ulpAux j m) ≤ m) := by
  intro j
  induction j with
  | zero =>
    intro m hm
    have h0 : ulpAux 0 m = 0 := rfl
    rw [h0]
    exact ⟨by simpa using hm, Or.inl rfl⟩
  | succ j ih =>
    intro m hm
    simp only [ulpAux]
    have hpow : (2 : Nat) ^ (52 + 2 ^ (j + 1)) = 2 ^ (52 + 2 ^ j) * 2 ^ 2 ^ j := by
      rw [← pow_add]
      congr 1
      rw [pow_succ]
      omega
    have hpos : 0 < 2 ^ 2 ^ j := Nat.pow_pos (by norm_num)
    split
    · rename_i hge
      have hdiv : m / 2 ^ 2 ^ j < 2 ^ (52 + 2 ^ j) := by
        rw [Nat.div_lt_iff_lt_mul hpos, ← hpow]
        exact hm
      obtain ⟨h1, h2⟩ := ih (m / 2 ^ 2 ^ j) hdiv
      constructor
      · rw [Nat.div_lt_iff_lt_mul hpos, ← pow_add] at h1
        rw [show 53 + (2 ^ j + ulpAux j (m / 2 ^ 2 ^ j)) = 53 + ulpAux j (m / 2 ^ 2 ^ j) + 2 ^ j
          by omega]
        exact h1
      · right
        rcases h2 with h2 | h2
        · rw [h2]
          exact hge
        · rw [Nat.le_div_iff_mul_le hpos, ← pow_add] at h2
          rw [show 52 + (2 ^ j + ulpAux j (m / 2 ^ 2 ^ j)) = 52 + ulpAux j (m / 2 ^ 2 ^ j) + 2 ^ j
            by omega]
          exact h2
    · rename_i hlt
      exact ih m (by omega)

theorem ulp_lt {m : Nat} (h : m < 2 ^ 2100) : m < 2 ^ (53 + ulpAux 13 m) :=
  (ulpAux_spec 13 m (lt_of_lt_of_le h (Nat.pow_le_pow_right (by norm_num) (by norm_num)))).1

theorem ulp_ge {m : Nat} (h : m < 2 ^ 2100) :
    ulpAux 13 m = 0 ∨ 2 ^ (52 + ulpAux 13 m) ≤ m :=
  (ulpAux_spec 13 m (lt_of_lt_of_le h (Nat.pow_le_pow_right (by norm_num) (by norm_num)))).2

theorem ulp_le_of_lt {m k : Nat} (h : m < 2 ^ 2100) (hk : m < 2 ^ (53 + k)) :
    ulpAux 13 m ≤ k := by
  rcases ulp_ge h with h0 | hge
  · omega
  · have hlt : 2 ^ (52 + ulpAux 13 m) < 2 ^ (53 + k) := lt_of_le_of_lt hge hk
    have := (Nat.pow_lt_pow_iff_right (by norm_num : 1 < 2)).mp hlt
    omega

theorem ulp_mono {m1 m2 : Nat} (h : m2 < 2 ^ 2100) (h12 : m1 ≤ m2) :
    ulpAux 13 m1 ≤ ulpAux 13 m2 :=
  ulp_le_of_lt (lt_of_le_of_lt h12 h) (lt_of_le_of_lt h12 (ulp_lt h))

theorem pow2_pos (k : Nat) : 0 < pow2 k := by
  unfold pow2
  exact_mod_cast Nat.pow_pos (by norm_num)

theorem pow2_add (a b : Nat) : pow2 (a + b) = pow2 a * pow2 b := by
  unfold pow2
  rw [pow_add]
  push_cast
  rfl

theorem pow2_dvd {a b : Nat} (h : a ≤ b) : pow2 a ∣ pow2 b := by
  obtain ⟨c, rfl⟩ : ∃ c, b = a + c := ⟨b - a, by omega⟩
  rw [pow2_add]
  exact Dvd.intro _ rfl

theorem pow2_le {a b : Nat} (h : a ≤ b) : pow2 a ≤ pow2 b := by
  unfold pow2
  exact_mod_cast Nat.pow_le_pow_right (by norm_num) h

theorem natAbs_lt_pow2 {x : Int} {k : Nat} (h : x.natAbs < 2 ^ k) : x < pow2 k ∧ -pow2 k < x := by
  have h1 : (x.natAbs : Int) < pow2 k := by
    unfold pow2
    exact_mod_cast h
  constructor <;> omega

theorem pow2_le_natAbs {x : Int} {k : Nat} (h : 2 ^ k ≤ x.natAbs) (hx : 0 ≤ x) : pow2 k ≤ x := by
  have h1 : pow2 k ≤ (x.natAbs : Int) := by
    unfold pow2
    exact_mod_cast h
  omega

theorem maxFinite_lt : maxFinite < pow2 2098 := by decide

theorem maxFinite_pos : 0 < maxFinite := by decide

theorem natAbs_lt_of_le_maxFinite {x : Int} (h1 : -(2 * maxFinite) ≤ x) (h2 : x ≤ 2 * maxFinite) :
    x.natAbs < 2 ^ 2100 := by
  have h3 : (x.natAbs : Int) < pow2 2100 := by
    have : pow2 2100 = 4 * pow2 2098 := by decide
    have := maxFinite_lt
    omega
  unfold pow2 at h3
  exact_mod_cast h3

theorem roundDownInt_zero (x : Int) :
    roundDownInt x 0 = x / pow2 (ulpAux 13 x.natAbs) * pow2 (ulpAux 13 x.natAbs) := by
  simp [roundDownInt, ulpShift]

theorem roundDownInt_half (y : Int) :
    roundDownInt (pow2 1073 * y) 1074
      = y / pow2 (ulpAux 13 (y.natAbs / 2) + 1) * pow2 (ulpAux 13 (y.natAbs / 2)) := by
  have hshift : ulpShift (pow2 1073 * y) 1074 = ulpAux 13 (y.natAbs / 2) := by
    unfold ulpShift
    congr 1
    rw [Int.natAbs_mul]
    have h1 : (pow2 1073).natAbs = 2 ^ 1073 := by
      unfold pow2
      exact Int.natAbs_ofNat _
    rw [h1, show (2 : Nat) ^ 1074 = 2 ^ 1073 * 2 by rw [← pow_succ]]
    exact Nat.mul_div_mul_left _ _ (Nat.pow_pos (by norm_num))
  unfold roundDownInt
  rw [hshift]
  congr 1
  rw [show 1074 + ulpAux 13 (y.natAbs / 2) = 1073 + (ulpAux 13 (y.natAbs / 2) + 1) by omega,
    pow2_add]
  exact Int.mul_ediv_mul_of_pos _ _ (pow2_pos _)

theorem representable_dvd {x : Int} (h : Representable x) : pow2 (ulpAux 13 x.natAbs) ∣ x := by
  have h1 := h.1
  rw [roundDownInt_zero] at h1
  exact Dvd.intro_left _ h1

theorem representable_natAbs {x : Int} (h : Representable x) : x.natAbs < 2 ^ 2100 :=
  natAbs_lt_of_le_maxFinite (by have := h.2.1; have := maxFinite_pos; omega)
    (by have := h.2.2; have := maxFinite_pos; omega)

theorem representable_of_dvd {x : Int} (h : pow2 (ulpAux 13 x.natAbs) ∣ x)
    (h1 : -maxFinite ≤ x) (h2 : x ≤ maxFinite) : Representable x := by
  refine ⟨?_, h1, h2⟩
  rw [roundDownInt_zero]
  exact Int.ediv_mul_cancel h

/-- A multiple of `2^k` of magnitude at most `2^(53+k)` is a multiple of its own
unit in the last place. -/
theorem ulp_dvd_of_magnitude {r : Int} {k : Nat} (hd : pow2 k ∣ r)
    (hm : r.natAbs ≤ 2 ^ (53 + k)) (hb : r.natAbs < 2 ^ 2100) :
    pow2 (ulpAux 13 r.natAbs) ∣ r := by
  by_cases hu : ulpAux 13 r.natAbs ≤ k
  · exact dvd_trans (pow2_dvd hu) hd
  · rcases ulp_ge hb with h0 | hge
    · omega
    · have h1 : 2 ^ (52 + ulpAux 13 r.natAbs) ≤ 2 ^ (53 + k) := le_trans hge hm
      have h2 := (Nat.pow_le_pow_iff_right (by norm_num : 1 < 2)).mp h1
      have hu1 : ulpAux 13 r.natAbs = k + 1 := by omega
      rw [hu1] at hge ⊢
      have heq : r.natAbs = 2 ^ (53 + k) := by
        rw [show 52 + (k + 1) = 53 + k by omega] at hge
        omega
      have hdvd : pow2 (k + 1) ∣ pow2 (53 + k) := pow2_dvd (by omega)
      have hcast : (r.natAbs : Int) = pow2 (53 + k) := by
        unfold pow2
        exact_mod_cast heq
      rcases Int.natAbs_eq r with hr | hr
      · rw [hr, hcast]
        exact hdvd
      · rw [hr, hcast]
        exact (Int.dvd_neg).mpr hdvd

/-- Rounding down does not exceed the exact value. -/
theorem roundDownInt_zero_le (q : Int) : roundDownInt q 0 ≤ q := by
  rw [roundDownInt_zero]
  exact Int.ediv_mul_le _ (ne_of_gt (pow2_pos _))

/-- Rounding down is the largest representable number below: a representable
`x ≤ q` is at most the rounded `q`. -/
theorem le_roundDownInt_zero {x q : Int} (hx : Representable x) (hxq : x ≤ q)
    (hq : q.natAbs < 2 ^ 2100) : x ≤ roundDownInt q 0 := by
  rw [roundDownInt_zero]
  have hxb := representable_natAbs hx
  by_cases hk : ulpAux 13 q.natAbs ≤ ulpAux 13 x.natAbs
  · have hd : pow2 (ulpAux 13 q.natAbs) ∣ x := dvd_trans (pow2_dvd hk) (representable_dvd hx)
    calc x = x / pow2 (ulpAux 13 q.natAbs) * pow2 (ulpAux 13 q.natAbs) :=
          (Int.ediv_mul_cancel hd).symm
      _ ≤ q / pow2 (ulpAux 13 q.natAbs) * pow2 (ulpAux 13 q.natAbs) :=
          Int.mul_le_mul_of_nonneg_right (Int.ediv_le_ediv (pow2_pos _) hxq)
            (le_of_lt (pow2_pos _))
  · have hkq : ulpAux 13 x.natAbs < ulpAux 13 q.natAbs := by omega
    by_cases hneg : q < 0
    · have : q.natAbs ≤ x.natAbs := by omega
      have := ulp_mono hxb this
      omega
    · rcases ulp_ge hq with h0 | hge
      · omega
      · have h1 : pow2 (52 + ulpAux 13 q.natAbs) ≤ q := pow2_le_natAbs hge (by omega)
        rw [pow2_add] at h1
        have h2 : pow2 52 ≤ q / pow2 (ulpAux 13 q.natAbs) :=
          (Int.le_ediv_iff_mul_le (pow2_pos _)).mpr h1
        have h3 : pow2 52 * pow2 (ulpAux 13 q.natAbs)
            ≤ q / pow2 (ulpAux 13 q.natAbs) * pow2 (ulpAux 13 q.natAbs) :=
          Int.mul_le_mul_of_nonneg_right h2 (le_of_lt (pow2_pos _))
        have h4 : x < pow2 (53 + ulpAux 13 x.natAbs) := (natAbs_lt_pow2 (ulp_lt hxb)).1
        have h5 : pow2 (53 + ulpAux 13 x.natAbs) ≤ pow2 (52 + ulpAux 13 q.natAbs) :=
          pow2_le (by omega)
        rw [pow2_add 52] at h5
        omega

/-- Halving with rounding down does not exceed the exact half. -/
theorem two_mul_roundDownInt_half_le (y : Int) : 2 * roundDownInt (pow2 1073 * y) 1074 ≤ y := by
  rw [roundDownInt_half]
  have h := Int.ediv_mul_le y (ne_of_gt (pow2_pos (ulpAux 13 (y.natAbs / 2) + 1)))
  have hp : pow2 (ulpAux 13 (y.natAbs / 2) + 1) = pow2 (ulpAux 13 (y.natAbs / 2)) * 2 := by
    rw [pow2_add]
    rfl
  calc 2 * (y / pow2 (ulpAux 13 (y.natAbs / 2) + 1) * pow2 (ulpAux 13 (y.natAbs / 2)))
      = y / pow2 (ulpAux 13 (y.natAbs / 2) + 1) * pow2 (ulpAux 13 (y.natAbs / 2) + 1) := by
        rw [hp]
        ring
    _ ≤ y := h

/-- A representable `l` with `2 l ≤ y` is at most the rounded half of `y`. -/
theorem le_roundDownInt_half {l y : Int} (hl : Representable l) (hly : 2 * l ≤ y)
    (hy : y.natAbs < 2 ^ 2100) : l ≤ roundDownInt (pow2 1073 * y) 1074 := by
  rw [roundDownInt_half]
  have hlb := representable_natAbs hl
  have hyb : y.natAbs / 2 < 2 ^ 2100 := lt_of_le_of_lt (Nat.div_le_self _ _) hy
  have h21 : pow2 1 = 2 := rfl
  by_cases hk : ulpAux 13 (y.natAbs / 2) ≤ ulpAux 13 l.natAbs
  · have hd : pow2 (ulpAux 13 (y.natAbs / 2)) ∣ l :=
      dvd_trans (pow2_dvd hk) (representable_dvd hl)
    obtain ⟨c, hc⟩ := hd
    have hc2 : c * pow2 (ulpAux 13 (y.natAbs / 2) + 1) ≤ y := by
      rw [pow2_add, h21]
      calc c * (pow2 (ulpAux 13 (y.natAbs / 2)) * 2)
          = 2 * (pow2 (ulpAux 13 (y.natAbs / 2)) * c) := by ring
        _ = 2 * l := by rw [hc]
        _ ≤ y := hly
    have hc3 : c ≤ y / pow2 (ulpAux 13 (y.natAbs / 2) + 1) :=
      (Int.le_ediv_iff_mul_le (pow2_pos _)).mpr hc2
    calc l = c * pow2 (ulpAux 13 (y.natAbs / 2)) := by rw [hc]; ring
      _ ≤ y / pow2 (ulpAux 13 (y.natAbs / 2) + 1) * pow2 (ulpAux 13 (y.natAbs / 2)) :=
          Int.mul_le_mul_of_nonneg_right hc3 (le_of_lt (pow2_pos _))
  · have hkl : ulpAux 13 l.natAbs < ulpAux 13 (y.natAbs / 2) := by omega
    by_cases hneg : y < 0
    · have : y.natAbs / 2 ≤ l.natAbs := by omega
      have := ulp_mono hlb this
      omega
    · rcases ulp_ge hyb with h0 | hge
      · omega
      · have hge2 : 2 ^ (52 + ulpAux 13 (y.natAbs / 2) + 1) ≤ y.natAbs := by
          rw [pow_succ]
          omega
        have h1 : pow2 (52 + ulpAux 13 (y.natAbs / 2) + 1) ≤ y := pow2_le_natAbs hge2 (by omega)
        rw [show 52 + ulpAux 13 (y.natAbs / 2) + 1 = 52 + (ulpAux 13 (y.natAbs / 2) + 1) by omega,
          pow2_add] at h1
        have h2 : pow2 52 ≤ y / pow2 (ulpAux 13 (y.natAbs / 2) + 1) :=
          (Int.le_ediv_iff_mul_le (pow2_pos _)).mpr h1
        have h3 : pow2 52 * pow2 (ulpAux 13 (y.natAbs / 2))
            ≤ y / pow2 (ulpAux 13 (y.natAbs / 2) + 1) * pow2 (ulpAux 13 (y.natAbs / 2)) :=
          Int.mul_le_mul_of_nonneg_right h2 (le_of_lt (pow2_pos _))
        have h4 : l < pow2 (53 + ulpAux 13 l.natAbs) := (natAbs_lt_pow2 (ulp_lt hlb)).1
        have h5 : pow2 (53 + ulpAux 13 l.natAbs) ≤ pow2 (52 + ulpAux 13 (y.natAbs / 2)) :=
          pow2_le (by omega)
        rw [pow2_add 52] at h5
        omega

/-- Doubling a representable number within range gives a representable number. -/
theorem representable_two_mul {l : Int} (hl : Representable l) (h1 : -maxFinite ≤ 2 * l)
    (h2 : 2 * l ≤ maxFinite) : Representable (2 * l) := by
  have hlb := representable_natAbs hl
  apply representable_of_dvd _ h1 h2
  have hb : (2 * l).natAbs < 2 ^ 2100 :=
    natAbs_lt_of_le_maxFinite (by have := maxFinite_pos; omega) (by have := maxFinite_pos; omega)
  apply ulp_dvd_of_magnitude (k := ulpAux 13 l.natAbs + 1) _ _ hb
  · have h21 : pow2 1 = 2 := rfl
    rw [pow2_add, h21, mul_comm (pow2 _) 2]
    exact mul_dvd_mul_left 2 (representable_dvd hl)
  · have h3 := ulp_lt hlb
    have h4 : (2 * l).natAbs = 2 * l.natAbs := by omega
    rw [h4, show 53 + (ulpAux 13 l.natAbs + 1) = (53 + ulpAux 13 l.natAbs) + 1 by omega, pow_succ]
    omega

/-- The rounded half is a multiple of its own unit in the last place. -/
theorem roundDownInt_half_dvd {y : Int} (hy : y.natAbs < 2 ^ 2100)
    (hb : (roundDownInt (pow2 1073 * y) 1074).natAbs < 2 ^ 2100) :
    pow2 (ulpAux 13 (roundDownInt (pow2 1073 * y) 1074).natAbs)
      ∣ roundDownInt (pow2 1073 * y) 1074 := by
  have hyb : y.natAbs / 2 < 2 ^ 2100 := lt_of_le_of_lt (Nat.div_le_self _ _) hy
  apply ulp_dvd_of_magnitude (k := ulpAux 13 (y.natAbs / 2)) _ _ hb
  · rw [roundDownInt_half]
    exact Dvd.intro_left _ rfl
  · rw [roundDownInt_half]
    have h1 := ulp_lt hyb
    have h2 : y.natAbs < 2 ^ (53 + ulpAux 13 (y.natAbs / 2) + 1) := by
      rw [pow_succ]
      omega
    obtain ⟨h3, h4⟩ := natAbs_lt_pow2 h2
    rw [show 53 + ulpAux 13 (y.natAbs / 2) + 1 = 53 + (ulpAux 13 (y.natAbs / 2) + 1) by omega,
      pow2_add] at h3 h4
    have h5 : y / pow2 (ulpAux 13 (y.natAbs / 2) + 1) < pow2 53 :=
      Int.ediv_lt_of_lt_mul (pow2_pos _) h3
    have h6 : -pow2 53 ≤ y / pow2 (ulpAux 13 (y.natAbs / 2) + 1) := by
      apply (Int.le_ediv_iff_mul_le (pow2_pos _)).mpr
      rw [neg_mul]
      omega
    have h7 : (y / pow2 (ulpAux 13 (y.natAbs / 2) + 1)).natAbs ≤ 2 ^ 53 := by
      have h8 : ((y / pow2 (ulpAux 13 (y.natAbs / 2) + 1)).natAbs : Int) ≤ pow2 53 := by omega
      unfold pow2 at h8
      exact_mod_cast h8
    rw [Int.natAbs_mul, pow_add]
    have h9 : (pow2 (ulpAux 13 (y.natAbs / 2))).natAbs = 2 ^ ulpAux 13 (y.natAbs / 2) := by
      unfold pow2
      exact Int.natAbs_ofNat _
    rw [h9]
    exact Nat.mul_le_mul_right _ h7

end Dbl

end ivarp

namespace ivarp

/-! ## The midpoint split keeps the points of a box -/

/-- The midpoint of a splittable interval is a representable double between the
endpoints. -/
theorem center_spec {l u : Int} (hl : Dbl.Representable l)
    (hlu : l ≤ u) (hlo : -Dbl.maxFinite ≤ 2 * l) (hhi : 2 * u ≤ Dbl.maxFinite) :
    ∃ mid : Int, IDouble.center ⟨Dbl.fin l, Dbl.fin u⟩ = Dbl.fin mid ∧ l ≤ mid ∧ mid ≤ u ∧
      Dbl.Representable mid := by
  have hpos := Dbl.maxFinite_pos
  have hsum : (l + u).natAbs < 2 ^ 2100 :=
    Dbl.natAbs_lt_of_le_maxFinite (by omega) (by omega)
  have h2l : Dbl.Representable (2 * l) := Dbl.representable_two_mul hl hlo (by omega)
  have hs_le : Dbl.roundDownInt (l + u) 0 ≤ l + u := Dbl.roundDownInt_zero_le _
  have hs_ge : 2 * l ≤ Dbl.roundDownInt (l + u) 0 :=
    Dbl.le_roundDownInt_zero h2l (by omega) hsum
  have hadd : Dbl.add (Dbl.fin l) (Dbl.fin u) = Dbl.fin (Dbl.roundDownInt (l + u) 0) := by
    simp only [Dbl.add, Dbl.roundDown]
    rw [if_neg (by omega), if_neg (by omega)]
  have hs0 : (Dbl.roundDownInt (l + u) 0).natAbs < 2 ^ 2100 :=
    Dbl.natAbs_lt_of_le_maxFinite (by omega) (by omega)
  have hm_le := Dbl.two_mul_roundDownInt_half_le (Dbl.roundDownInt (l + u) 0)
  have hm_ge := Dbl.le_roundDownInt_half hl hs_ge hs0
  have hmb : (Dbl.roundDownInt (pow2 1073 * Dbl.roundDownInt (l + u) 0) 1074).natAbs
      < 2 ^ 2100 := Dbl.natAbs_lt_of_le_maxFinite (by omega) (by omega)
  refine ⟨Dbl.roundDownInt (pow2 1073 * Dbl.roundDownInt (l + u) 0) 1074, ?_, hm_ge, by omega,
    Dbl.representable_of_dvd (Dbl.roundDownInt_half_dvd hs0 hmb) (by omega) (by omega)⟩
  simp only [IDouble.center, hadd, Dbl.half, Dbl.mul, Dbl.roundDown]
  rw [if_neg (by omega), if_neg (by omega)]

/-- The two halves of a splittable interval are splittable and contain together
exactly the points of the interval. -/
theorem split_half_spec {I : IDouble} (h : I.Splittable) :
    (split_half I).1.Splittable ∧ (split_half I).2.Splittable ∧
    ∀ x : ℝ, I.Contains x ↔ (split_half I).1.Contains x ∨ (split_half I).2.Contains x := by
  obtain ⟨l, u, rfl, hl, hu, hlu, hlo, hhi⟩ := h
  obtain ⟨mid, hc, h1, h2, hm⟩ := center_spec hl hlu hlo hhi
  simp only [split_half, hc]
  refine ⟨⟨l, mid, rfl, hl, hm, h1, hlo, by omega⟩, ⟨mid, u, rfl, hm, hu, h2, by omega, hhi⟩, ?_⟩
  intro x
  simp only [IDouble.Contains, Dbl.leReal, Dbl.geReal]
  have h1r : (l : ℝ) ≤ (mid : ℝ) := by exact_mod_cast h1
  have h2r : (mid : ℝ) ≤ (u : ℝ) := by exact_mod_cast h2
  constructor
  · rintro ⟨ha, hb⟩
    rcases le_total x (mid : ℝ) with hx | hx
    · exact Or.inl ⟨ha, hx⟩
    · exact Or.inr ⟨hx, hb⟩
  · rintro (⟨ha, hb⟩ | ⟨ha, hb⟩)
    · exact ⟨ha, le_trans hb h2r⟩
    · exact ⟨le_trans h1r ha, hb⟩

/-- Replacing one entry of a list by either of two entries that together relate to
what the entry relates to. -/
theorem forall₂_set_split {α β : Type} (R : α → β → Prop) (d a b : α) :
    ∀ (vals : List α) (idx : Nat) (xs : List β),
      (∀ y, R (vals.getD idx d) y ↔ R a y ∨ R b y) →
      (List.Forall₂ R vals xs ↔
        List.Forall₂ R (vals.set idx a) xs ∨ List.Forall₂ R (vals.set idx b) xs) := by
  intro vals
  induction vals with
  | nil => intro idx xs _; simp
  | cons v vs ih =>
    intro idx xs h
    cases idx with
    | zero =>
      cases xs with
      | nil => simp
      | cons y ys =>
        have hy := h y
        simp only [List.getD_cons_zero] at hy
        simp only [List.set_cons_zero, List.forall₂_cons, hy]
        tauto
    | succ i =>
      cases xs with
      | nil => simp
      | cons y ys =>
        have hi := ih i ys (fun z => by simpa using h z)
        simp only [List.set_cons_succ, List.forall₂_cons, hi]
        tauto

namespace BasicVariableSet

variable {X : Type}

/-- The two children of `default_split` on a splittable box are splittable and hold
together exactly the points of the box, when the change handlers leave the
variables alone. -/
theorem default_split_spec (hs : List (OnChangeHandler X))
    (hh : ∀ (i : Nat) (a b : Bool) (v : BasicVariableSet X),
      (p_call_handler hs i a b v).m_variable_values = v.m_variable_values)
    (v : BasicVariableSet X) (height : Nat) (hv : v.Splittable) :
    (∀ c ∈ default_split hs v height, c.Splittable) ∧
    ∀ x : List ℝ, (∃ c ∈ default_split hs v height, c.Points x) ↔ v.Points x := by
  by_cases hidx : height % v.num_vars < v.m_variable_values.length
  · have hmem : v.get_value (height % v.num_vars) ∈ v.m_variable_values := by
      unfold get_value
      rw [List.getD_eq_getElem _ _ hidx]
      exact List.getElem_mem _
    obtain ⟨s1, s2, hpts⟩ := split_half_spec (hv _ hmem)
    constructor
    · intro c hc
      simp only [default_split, List.mem_cons, List.mem_singleton, List.not_mem_nil,
        or_false] at hc
      rcases hc with rfl | rfl
      · intro I hI
        rw [Splittable, hh] at *
        rcases List.mem_or_eq_of_mem_set hI with h | h
        · exact hv I h
        · rw [h]; exact s1
      · intro I hI
        rw [hh] at hI
        rcases List.mem_or_eq_of_mem_set hI with h | h
        · exact hv I h
        · rw [h]; exact s2
    · intro x
      simp only [default_split, List.mem_cons, List.mem_singleton, List.not_mem_nil, or_false,
        exists_eq_or_imp, exists_eq_left, Points, hh]
      exact (forall₂_set_split IDouble.Contains ⟨Dbl.nan, Dbl.nan⟩ _ _ v.m_variable_values
        (height % v.num_vars) x hpts).symm
  · have hset : ∀ I : IDouble,
        v.m_variable_values.set (height % v.num_vars) I = v.m_variable_values :=
      fun I => List.set_eq_of_length_le (by omega)
    constructor
    · intro c hc
      simp only [default_split, List.mem_cons, List.mem_singleton, List.not_mem_nil,
        or_false] at hc
      rcases hc with rfl | rfl
      · intro I hI
        rw [hh, hset] at hI
        exact hv I hI
      · intro I hI
        rw [hh, hset] at hI
        exact hv I hI
    · intro x
      simp [default_split, Points, hh, hset]

end BasicVariableSet

end ivarp

namespace ivarp

namespace Prover

variable {V : Type}

/-! ## Coverage -/

theorem push_children_domains (element : StackElement V) (ds : List V) (s : ProofState V) :
    (push_children element ds s).m_stack.map (fun e => e.domain)
      = ds.reverse ++ s.m_stack.map (fun e => e.domain) := by
  induction ds generalizing s with
  | nil => simp [push_children]
  | cons d ds ih =>
    simp only [push_children]
    rw [ih]
    simp [StackElement.child]

theorem push_roots_domains (vs : List V) (s : ProofState V) :
    (push_roots vs s).m_stack.map (fun e => e.domain)
      = vs.reverse ++ s.m_stack.map (fun e => e.domain) := by
  induction vs generalizing s with
  | nil => simp [push_roots]
  | cons d ds ih =>
    simp only [push_roots]
    rw [ih]
    simp [StackElement.root]

theorem propagate_pass_keeps {P : Type} (pts : V → P → Prop) (Inv : V → Prop) :
    ∀ (ps : List (Constraint V)),
      (∀ c ∈ ps, ∀ v, Inv v → Inv (c.propagate v).2 ∧ ∀ x, pts (c.propagate v).2 x ↔ pts v x) →
      ∀ (any_change : PropagateResult) (v : V), Inv v →
        Inv (propagate_pass ps any_change v).2 ∧
        ∀ x, pts (propagate_pass ps any_change v).2 x ↔ pts v x := by
  intro ps
  induction ps with
  | nil => intro _ _ v hv; exact ⟨hv, fun _ => Iff.rfl⟩
  | cons c rest ih =>
    intro h any_change v hv
    obtain ⟨h1, h2⟩ := h c (List.mem_cons_self _ _) v hv
    simp only [propagate_pass]
    split
    · exact ⟨h1, h2⟩
    · obtain ⟨h3, h4⟩ := ih (fun c1 hc1 => h c1 (List.mem_cons_of_mem _ hc1)) _ _ h1
      exact ⟨h3, fun x => (h4 x).trans (h2 x)⟩

theorem run_propagators_keeps {P : Type} (pts : V → P → Prop) (Inv : V → Prop)
    (ps : List (Constraint V))
    (h : ∀ c ∈ ps, ∀ v, Inv v → Inv (c.propagate v).2 ∧ ∀ x, pts (c.propagate v).2 x ↔ pts v x) :
    ∀ (fuel : Nat) (v : V) (out : Bool × V), Inv v → run_propagators ps fuel v = some out →
      Inv out.2 ∧ ∀ x, pts out.2 x ↔ pts v x := by
  intro fuel
  induction fuel with
  | zero => intro v out _ hr; simp [run_propagators] at hr
  | succ f ih =>
    intro v out hv hr
    obtain ⟨h1, h2⟩ := propagate_pass_keeps pts Inv ps h PropagateResult.UNCHANGED v hv
    unfold run_propagators at hr
    dsimp only at hr
    split at hr
    · obtain ⟨h3, h4⟩ := ih _ out h1 hr
      exact ⟨h3, fun x => (h4 x).trans (h2 x)⟩
    · cases hr
      exact ⟨h1, h2⟩

theorem report_covered {P : Type} (pts : V → P → Prop) (Inv : V → Prop) (p : Prover V)
    (s : ProofState V) (domain : V) (b : Bool) (hs : ∀ e ∈ s.m_stack, Inv e.domain) :
    (∀ e ∈ (p.report s domain b).m_stack, Inv e.domain) ∧
    ∀ x, Covered pts (p.report s domain b) x ↔ (Covered pts s x ∨ pts domain x) := by
  unfold report
  split
  · refine ⟨fun e he => (by cases he), fun x => ?_⟩
    simp only [Covered, List.mem_append, List.mem_singleton, List.mem_map, List.not_mem_nil,
      false_and, exists_false, or_false]
    constructor
    · rintro ⟨l, (hl | rfl) | ⟨e, he, rfl⟩, hx⟩
      · exact Or.inl (Or.inl ⟨l, hl, hx⟩)
      · exact Or.inr hx
      · exact Or.inl (Or.inr ⟨e, he, hx⟩)
    · rintro ((⟨l, hl, hx⟩ | ⟨e, he, hx⟩) | hx)
      · exact ⟨l, Or.inl (Or.inl hl), hx⟩
      · exact ⟨e.domain, Or.inr ⟨e, he, rfl⟩, hx⟩
      · exact ⟨domain, Or.inl (Or.inr rfl), hx⟩
  · refine ⟨hs, fun x => ?_⟩
    simp only [Covered, List.mem_append, List.mem_singleton]
    constructor
    · rintro (⟨l, hl | rfl, hx⟩ | h)
      · exact Or.inl (Or.inl ⟨l, hl, hx⟩)
      · exact Or.inr hx
      · exact Or.inl (Or.inr h)
    · rintro ((⟨l, hl, hx⟩ | h) | hx)
      · exact Or.inl ⟨l, Or.inl hl, hx⟩
      · exact Or.inr h
      · exact Or.inl ⟨domain, Or.inr rfl, hx⟩

theorem discard_covered {P : Type} (pts : V → P → Prop) (s : ProofState V) (domain : V) (x : P) :
    Covered pts { s with leaves := s.leaves ++ [domain] } x ↔ (Covered pts s x ∨ pts domain x) := by
  simp only [Covered, List.mem_append, List.mem_singleton]
  constructor
  · rintro (⟨l, hl | rfl, hx⟩ | h)
    · exact Or.inl (Or.inl ⟨l, hl, hx⟩)
    · exact Or.inr hx
    · exact Or.inl (Or.inr h)
  · rintro ((⟨l, hl, hx⟩ | h) | hx)
    · exact Or.inl ⟨l, Or.inl hl, hx⟩
    · exact Or.inr h
    · exact Or.inl ⟨domain, Or.inr rfl, hx⟩

theorem exists_mem_stack_iff (Q : V → Prop) (st : List (StackElement V)) :
    (∃ e ∈ st, Q e.domain) ↔ ∃ d ∈ st.map (fun e => e.domain), Q d := by
  simp

theorem forall_mem_stack_iff (Q : V → Prop) (st : List (StackElement V)) :
    (∀ e ∈ st, Q e.domain) ↔ ∀ d ∈ st.map (fun e => e.domain), Q d := by
  simp

theorem push_children_covered {P : Type} (pts : V → P → Prop) (Inv : V → Prop)
    (element : StackElement V) (ds : List V) (s : ProofState V)
    (hs : ∀ e ∈ s.m_stack, Inv e.domain) (hds : ∀ d ∈ ds, Inv d) :
    (∀ e ∈ (push_children element ds s).m_stack, Inv e.domain) ∧
    ∀ x, Covered pts (push_children element ds s) x ↔ (Covered pts s x ∨ ∃ d ∈ ds, pts d x) := by
  constructor
  · rw [forall_mem_stack_iff, push_children_domains]
    intro d hd
    rcases List.mem_append.mp hd with h | h
    · exact hds d (List.mem_reverse.mp h)
    · exact (forall_mem_stack_iff Inv s.m_stack).mp hs d h
  · intro x
    unfold Covered
    rw [exists_mem_stack_iff (fun d => pts d x), push_children_domains,
      (push_children_fields element ds s).2.2, exists_mem_stack_iff (fun d => pts d x)]
    simp only [List.mem_append, List.mem_reverse]
    constructor
    · rintro (h | ⟨d, hd | hd, hx⟩)
      · exact Or.inl (Or.inl h)
      · exact Or.inr ⟨d, hd, hx⟩
      · exact Or.inl (Or.inr ⟨d, hd, hx⟩)
    · rintro ((h | ⟨d, hd, hx⟩) | ⟨d, hd, hx⟩)
      · exact Or.inl h
      · exact Or.inr ⟨d, Or.inr hd, hx⟩
      · exact Or.inr ⟨d, Or.inl hd, hx⟩

theorem covered_cons {P : Type} (pts : V → P → Prop) (s : ProofState V)
    (element : StackElement V) (rest : List (StackElement V))
    (hst : s.m_stack = element :: rest) (y : P) :
    Covered pts s y ↔ (Covered pts { s with m_stack := rest } y ∨ pts element.domain y) := by
  simp only [Covered, hst, List.mem_cons, exists_eq_or_imp]
  constructor
  · rintro (h | h | h)
    · exact Or.inl (Or.inl h)
    · exact Or.inr h
    · exact Or.inl (Or.inr h)
  · rintro ((h | h) | h)
    · exact Or.inl h
    · exact Or.inr (Or.inr h)
    · exact Or.inr (Or.inl h)

/-- One iteration keeps the points: the new state holds the points of the old
state and of the popped frame. -/
theorem iteration_covered {P : Type} (pts : V → P → Prop) (Inv : V → Prop) (p : Prover V)
    (hprop : ∀ c ∈ p.m_propagators, ∀ v, Inv v →
      Inv (c.propagate v).2 ∧ ∀ x, pts (c.propagate v).2 x ↔ pts v x)
    (hsplit : ∀ (v : V) (k : Nat), Inv v →
      (∀ c ∈ p.split v k, Inv c) ∧ ∀ x, (∃ c ∈ p.split v k, pts c x) ↔ pts v x)
    (fuel : Nat) (element : StackElement V) (s s1 : ProofState V)
    (he : Inv element.domain) (hs : ∀ e ∈ s.m_stack, Inv e.domain)
    (h : p.iteration fuel element s = some s1) :
    (∀ e ∈ s1.m_stack, Inv e.domain) ∧
    ∀ x, Covered pts s1 x ↔ (Covered pts s x ∨ pts element.domain x) := by
  unfold iteration at h
  split at h
  · cases h
  · rename_i empty domain hrun
    obtain ⟨hi, hp⟩ := run_propagators_keeps pts Inv p.m_propagators hprop fuel _ _ he hrun
    dsimp only at h hi hp
    split at h
    · cases h
      exact ⟨hs, fun x => by rw [discard_covered, hp x]⟩
    · split at h
      · cases h
        exact ⟨hs, fun x => by rw [discard_covered, hp x]⟩
      · cases h
        obtain ⟨h1, h2⟩ := report_covered pts Inv p s domain true hs
        exact ⟨h1, fun x => by rw [h2 x, hp x]⟩
      · split at h
        · cases h
          obtain ⟨h1, h2⟩ := report_covered pts Inv p s domain false hs
          exact ⟨h1, fun x => by rw [h2 x, hp x]⟩
        · cases h
          obtain ⟨h3, h4⟩ := hsplit domain element.height hi
          obtain ⟨h1, h2⟩ := push_children_covered pts Inv
            { element with domain := domain } (p.split domain element.height) s hs h3
          exact ⟨h1, fun x => by rw [h2 x, h4 x, hp x]⟩

/-- Coverage for an abstract notion of points: when the propagators and the split
keep the points of the boxes that satisfy an invariant of the roots, the leaves
of every finished run hold exactly the points of the roots. -/
theorem coverage_generic {P : Type} (pts : V → P → Prop) (Inv : V → Prop) (p : Prover V)
    (hprop : ∀ c ∈ p.m_propagators, ∀ v, Inv v →
      Inv (c.propagate v).2 ∧ ∀ x, pts (c.propagate v).2 x ↔ pts v x)
    (hsplit : ∀ (v : V) (k : Nat), Inv v →
      (∀ c ∈ p.split v k, Inv c) ∧ ∀ x, (∃ c ∈ p.split v k, pts c x) ↔ pts v x)
    (hroots : ∀ r ∈ p.m_basic, Inv r) (fuel : Nat) (out : ProofState V)
    (h : p.prove_run fuel = some out) (x : P) :
    (∃ l ∈ out.leaves, pts l x) ↔ ∃ r ∈ p.m_basic, pts r x := by
  have hinit : (∀ e ∈ p.setup_proof.m_stack, Inv e.domain) ∧
      ∀ y, Covered pts p.setup_proof y ↔ ∃ r ∈ p.m_basic, pts r y := by
    unfold setup_proof
    constructor
    · rw [forall_mem_stack_iff, push_roots_domains]
      intro d hd
      simp only [List.map_nil, List.append_nil, List.mem_reverse] at hd
      exact hroots d hd
    · intro y
      unfold Covered
      rw [exists_mem_stack_iff (fun d => pts d y), push_roots_domains,
        (push_roots_fields _ _).2.2]
      simp
  have hfinal := prove_loop_induct p fuel
    (fun s => (∀ e ∈ s.m_stack, Inv e.domain) ∧
      ∀ y, Covered pts s y ↔ ∃ r ∈ p.m_basic, pts r y)
    (fun s element rest s1 hs hst hit => by
      have he : Inv element.domain := hs.1 element (by rw [hst]; exact List.mem_cons_self _ _)
      have hrest : ∀ e ∈ rest, Inv e.domain :=
        fun e he1 => hs.1 e (by rw [hst]; exact List.mem_cons_of_mem _ he1)
      obtain ⟨h1, h2⟩ := iteration_covered pts Inv p hprop hsplit fuel element
        { s with m_stack := rest } s1 he hrest hit
      refine ⟨h1, fun y => ?_⟩
      rw [h2 y, ← hs.2 y, covered_cons pts s element rest hst y])
    fuel _ out hinit h
  have hempty := prove_loop_stack_empty p fuel fuel _ out h
  have := hfinal.2 x
  simp only [Covered, hempty, List.not_mem_nil, false_and, exists_false, or_false] at this
  exact this

end Prover

end ivarp

namespace ivarp

namespace Prover

/-- C3 as the code has it: for every finished run of `prove` on boxes that split
with `default_split`, whose change handlers and propagators leave the values of
the variables unchanged (in particular with checkers only), and whose roots have
finite representable ordered intervals with endpoints of magnitude at most half
the largest double, the union of the boxes of the leaf frames (discarded,
reported, or dropped from the stack and never split further) equals the union of
the root boxes. -/
theorem leaves_cover_roots {X : Type} (p : Prover (BasicVariableSet X))
    (hs : List (OnChangeHandler X))
    (hsplit : p.split = BasicVariableSet.default_split hs)
    (hh : ∀ (i : Nat) (a b : Bool) (v : BasicVariableSet X),
      (BasicVariableSet.p_call_handler hs i a b v).m_variable_values = v.m_variable_values)
    (hprop : ∀ c ∈ p.m_constraints, c.can_propagate = true →
      ∀ v : BasicVariableSet X, (c.propagate v).2.m_variable_values = v.m_variable_values)
    (hroots : ∀ r ∈ p.m_basic, r.Splittable)
    (fuel : Nat) (out : ProofState (BasicVariableSet X)) (h : p.prove_run fuel = some out)
    (x : List ℝ) :
    (∃ l ∈ out.leaves, l.Points x) ↔ ∃ r ∈ p.m_basic, r.Points x := by
  apply coverage_generic (fun (v : BasicVariableSet X) (y : List ℝ) => v.Points y)
    (fun v => v.Splittable) p _ _ hroots fuel out h x
  · intro c hc v hv
    have hc1 := List.mem_filter.mp hc
    have hkeep := hprop c hc1.1 (by simpa using hc1.2) v
    constructor
    · intro I hI
      rw [hkeep] at hI
      exact hv I hI
    · intro y
      show List.Forall₂ IDouble.Contains (c.propagate v).2.m_variable_values y ↔
        List.Forall₂ IDouble.Contains v.m_variable_values y
      rw [hkeep]
  · intro v k hv
    rw [hsplit]
    exact BasicVariableSet.default_split_spec hs hh v k hv

theorem box1_handlers_keep (i : Nat) (a b : Bool) (v : Box1) :
    (BasicVariableSet.p_call_handler box1_handlers i a b v).m_variable_values
      = v.m_variable_values := by
  cases i with
  | zero => rfl
  | succ i => rfl

theorem box1_unit_splittable : (box1 (Dbl.ofInt (-1)) (Dbl.ofInt 1)).Splittable := by
  intro I hI
  simp only [box1, List.mem_singleton] at hI
  rw [hI]
  exact ⟨-1 * pow2 1074, 1 * pow2 1074, rfl, by decide, by decide, by decide, by decide,
    by decide⟩

/-- Witness of C3 (amended): the prover for `x > 0` on `[-1, 1]` with
`abort_at_height(3)`. -/
theorem leaves_cover_roots_witness :
    ∃ out : ProofState Box1, ((prover_gt 0).abort_at_height 3).prove_run 20 = some out ∧
      ∀ x : List ℝ, (∃ l ∈ out.leaves, l.Points x) ↔
        ∃ r ∈ [box1 (Dbl.ofInt (-1)) (Dbl.ofInt 1)], r.Points x := by
  cases hrun : ((prover_gt 0).abort_at_height 3).prove_run 20 with
  | none =>
    have hsome : ((prover_gt 0).abort_at_height 3).prove_run 20 ≠ none := by decide
    exact absurd hrun hsome
  | some out =>
    exact ⟨out, rfl, fun x =>
      leaves_cover_roots ((prover_gt 0).abort_at_height 3) box1_handlers rfl
        box1_handlers_keep
        (fun c hc hcp v => by
          have h1 : c = constraint_gt 0 := by
            simpa [prover_gt, abort_at_height, add_constraint, add_variable_set, Prover.new]
              using hc
          rw [h1]
          rfl)
        (fun r hr => by
          have h1 : r = box1 (Dbl.ofInt (-1)) (Dbl.ofInt 1) := by
            simpa [prover_gt, abort_at_height, add_constraint, add_variable_set, Prover.new]
              using hr
          rw [h1]
          exact box1_unit_splittable)
        20 out hrun x⟩

theorem box1_points (l u : Dbl) (x : ℝ) :
    (box1 l u).Points [x] ↔ Dbl.leReal l x ∧ Dbl.geReal u x := by
  simp [BasicVariableSet.Points, box1, IDouble.Contains]

/-- Counterexample to C3 as stated: (1) with the propagator of `x >= 0` and an
indeterminate checker on the root `[-1, 1]`, cut off at height 1, the leaves are
`[0.5, 1]` and `[0, 0.5]`, and the point `-2^(-1074)` of the root lies in neither;
(2) with the indeterminate checker alone on the root `[-inf, +inf]`, the midpoint is
NaN, the leaves are `[NaN, +inf]` and `[-inf, NaN]`, and the point `0` of the root
lies in neither. -/
theorem leaves_need_not_cover_roots :
    ((prover_box1 (Dbl.ofInt (-1)) (Dbl.ofInt 1)
        [constraint_ge_zero, constraint_indeterminate] 1).prove_run 3).map (fun s => s.leaves)
      = some [box1 Dbl.half (Dbl.ofInt 1), box1 (Dbl.ofInt 0) Dbl.half] ∧
    (box1 (Dbl.ofInt (-1)) (Dbl.ofInt 1)).Points [-1] ∧
    ¬ (box1 Dbl.half (Dbl.ofInt 1)).Points [-1] ∧
    ¬ (box1 (Dbl.ofInt 0) Dbl.half).Points [-1] ∧
    ((prover_box1 Dbl.ninf Dbl.pinf [constraint_indeterminate] 1).prove_run 3).map
        (fun s => s.leaves)
      = some [box1 Dbl.nan Dbl.pinf, box1 Dbl.ninf Dbl.nan] ∧
    (box1 Dbl.ninf Dbl.pinf).Points [0] ∧
    ¬ (box1 Dbl.nan Dbl.pinf).Points [0] ∧
    ¬ (box1 Dbl.ninf Dbl.nan).Points [0] := by
  have h1 : (-1 * pow2 1074 : Int) ≤ -1 := by decide
  have h2 : (-1 : Int) ≤ 1 * pow2 1074 := by decide
  have h3 : ¬ ((pow2 1073 : Int) ≤ -1) := by decide
  refine ⟨by decide, ?_, ?_, ?_, by decide, ?_, ?_, ?_⟩
  · rw [box1_points]
    simp only [Dbl.ofInt, Dbl.leReal, Dbl.geReal]
    exact ⟨by exact_mod_cast h1, by exact_mod_cast h2⟩
  · rw [box1_points]
    simp only [Dbl.half, Dbl.leReal]
    intro h
    exact h3 (by exact_mod_cast h.1)
  · rw [box1_points]
    simp only [Dbl.ofInt, Dbl.leReal]
    intro h
    have h4 : ((0 * pow2 1074 : Int) : ℝ) = 0 := by simp
    rw [h4] at h
    linarith [h.1]
  · rw [box1_points]
    exact ⟨trivial, trivial⟩
  · rw [box1_points]
    exact fun h => h.1
  · rw [box1_points]
    exact fun h => h.2

end Prover

end ivarp

/-! ## NaN propagation, the trivial powers and the lattice operations -/

namespace ivarp

theorem Dbl.neg_neg_eq (x : Dbl) : x.neg.neg = x := by
  cases x <;> simp [Dbl.neg]

theorem Dbl.isNaN_neg (x : Dbl) : x.neg.isNaN = x.isNaN := by
  cases x <;> rfl

theorem Dbl.isNaN_abs (x : Dbl) : x.abs.isNaN = x.isNaN := by
  cases x <;> rfl

theorem Dbl.isNaN_eq_false_iff {x : Dbl} : x.isNaN = false ↔ x ≠ Dbl.nan := by
  cases x <;> simp [Dbl.isNaN]

theorem IDouble.hasNaN_eq_possibly_undefined (a : IDouble) :
    a.hasNaN = a.possibly_undefined := rfl

theorem mm_movemask_pd_ne_zero (m : Bool × Bool) :
    mm_movemask_pd m ≠ 0 ↔ (m.1 = true ∨ m.2 = true) := by
  rcases m with ⟨_ | _, _ | _⟩ <;> simp [mm_movemask_pd]

theorem cmpunord_of_hasNaN {a b : IDouble}
    (h : a.possibly_undefined = true ∨ b.possibly_undefined = true) :
    mm_movemask_pd (mm_cmpunord_pd a b) ≠ 0 := by
  rw [mm_movemask_pd_ne_zero]
  simp only [IDouble.possibly_undefined, mm_cmpunord_pd, Bool.or_eq_true] at h ⊢
  tauto

theorem cmpunord_of_not_hasNaN {a b : IDouble}
    (ha : a.possibly_undefined = false) (hb : b.possibly_undefined = false) :
    ¬ mm_movemask_pd (mm_cmpunord_pd a b) ≠ 0 := by
  rw [mm_movemask_pd_ne_zero]
  simp only [IDouble.possibly_undefined, mm_cmpunord_pd, Bool.or_eq_true, Bool.or_eq_false_iff]
    at ha hb ⊢
  rw [ha.1, ha.2, hb.1, hb.2]
  simp

/-- C13. NaN propagation for multiplication and division: if an endpoint of `a`
or of `b` is NaN (`possibly_undefined`), then both endpoints of `a * b` and of
`a / b` are NaN, and both results are `possibly_undefined`. -/
theorem IDouble.mul_div_nan (a b : IDouble)
    (h : a.possibly_undefined = true ∨ b.possibly_undefined = true) :
    a.mul b = ⟨Dbl.nan, Dbl.nan⟩ ∧ a.div b = ⟨Dbl.nan, Dbl.nan⟩ ∧
    (a.mul b).possibly_undefined = true ∧ (a.div b).possibly_undefined = true := by
  have hm : a.mul b = ⟨Dbl.nan, Dbl.nan⟩ := by
    simp only [IDouble.mul, mul_intervald, mul_intervald_with]
    rw [if_pos (cmpunord_of_hasNaN h)]
    rfl
  have hd : a.div b = ⟨Dbl.nan, Dbl.nan⟩ := by
    simp only [IDouble.div, div_intervald]
    rw [if_pos (cmpunord_of_hasNaN h)]
    rfl
  rw [hm, hd]
  exact ⟨rfl, rfl, rfl, rfl⟩

/-- Witness of C13 at `a = [NaN, 1]`, `b = [1, 1]`. -/
theorem IDouble.mul_div_nan_witness :
    (⟨Dbl.nan, Dbl.ofInt 1⟩ : IDouble).mul ⟨Dbl.ofInt 1, Dbl.ofInt 1⟩ = ⟨Dbl.nan, Dbl.nan⟩ ∧
    (⟨Dbl.nan, Dbl.ofInt 1⟩ : IDouble).div ⟨Dbl.ofInt 1, Dbl.ofInt 1⟩ = ⟨Dbl.nan, Dbl.nan⟩ :=
  ⟨(IDouble.mul_div_nan ⟨Dbl.nan, Dbl.ofInt 1⟩ ⟨Dbl.ofInt 1, Dbl.ofInt 1⟩ (Or.inl rfl)).1,
   (IDouble.mul_div_nan ⟨Dbl.nan, Dbl.ofInt 1⟩ ⟨Dbl.ofInt 1, Dbl.ofInt 1⟩ (Or.inl rfl)).2.1⟩

/-- C17. `fixed_pow<0>(a)` is the singleton `[1, 1]` when no endpoint of `a` is
NaN and the NaN interval when one is; `fixed_pow<1>(a)` is `a` itself. -/
theorem IDouble.fixed_pow_zero_one (a : IDouble) :
    (a.possibly_undefined = false → a.fixed_pow 0 = ⟨Dbl.ofInt 1, Dbl.ofInt 1⟩) ∧
    (a.possibly_undefined = true → a.fixed_pow 0 = ⟨Dbl.nan, Dbl.nan⟩) ∧
    a.fixed_pow 1 = a := by
  refine ⟨?_, ?_, ?_⟩
  · intro h
    simp only [IDouble.possibly_undefined] at h
    simp [IDouble.fixed_pow, ivarp.fixed_pow, h]
  · intro h
    simp only [IDouble.possibly_undefined] at h
    simp [IDouble.fixed_pow, ivarp.fixed_pow, h, NAN_INTERVAL]
  · simp [IDouble.fixed_pow, ivarp.fixed_pow]

/-- Witness of C17 at `a = [5, 7]` and at `a = [1, NaN]`. -/
theorem IDouble.fixed_pow_zero_one_witness :
    (⟨Dbl.ofInt 5, Dbl.ofInt 7⟩ : IDouble).fixed_pow 0 = ⟨Dbl.ofInt 1, Dbl.ofInt 1⟩ ∧
    (⟨Dbl.ofInt 1, Dbl.nan⟩ : IDouble).fixed_pow 0 = ⟨Dbl.nan, Dbl.nan⟩ ∧
    (⟨Dbl.ofInt 5, Dbl.ofInt 7⟩ : IDouble).fixed_pow 1 = ⟨Dbl.ofInt 5, Dbl.ofInt 7⟩ :=
  ⟨(IDouble.fixed_pow_zero_one ⟨Dbl.ofInt 5, Dbl.ofInt 7⟩).1 rfl,
   (IDouble.fixed_pow_zero_one ⟨Dbl.ofInt 1, Dbl.nan⟩).2.1 rfl,
   (IDouble.fixed_pow_zero_one ⟨Dbl.ofInt 5, Dbl.ofInt 7⟩).2.2⟩

end ivarp

namespace ivarp

theorem Dbl.lt_neg_neg (x y : Dbl) : Dbl.lt x.neg y.neg = Dbl.lt y x := by
  cases x <;> cases y <;> simp [Dbl.lt, Dbl.neg]

theorem Dbl.le_neg_neg (x y : Dbl) : Dbl.le x.neg y.neg = Dbl.le y x := by
  cases x <;> cases y <;> simp [Dbl.le, Dbl.neg]

theorem Dbl.lt_eq_not_le {x y : Dbl} (hx : x.isNaN = false) (hy : y.isNaN = false) :
    Dbl.lt x y = !Dbl.le y x := by
  cases x <;> cases y <;> simp_all [Dbl.lt, Dbl.le, Dbl.isNaN]
  rename_i a b
  by_cases h : a < b
  · have h2 : ¬ b ≤ a := by omega
    simp [h, h2]
  · have h2 : b ≤ a := by omega
    simp [h, h2]

theorem Dbl.min_sd_cases (x y : Dbl) : Dbl.min_sd x y = x ∨ Dbl.min_sd x y = y := by
  unfold Dbl.min_sd
  split
  · exact Or.inl rfl
  · exact Or.inr rfl

theorem Dbl.max_sd_cases (x y : Dbl) : Dbl.max_sd x y = x ∨ Dbl.max_sd x y = y := by
  unfold Dbl.max_sd
  split
  · exact Or.inl rfl
  · exact Or.inr rfl

theorem Dbl.min_sd_eq_min {x y : Dbl} (hx : x.isNaN = false) (hy : y.isNaN = false) :
    Dbl.min_sd x y = Dbl.min x y := by
  cases x <;> cases y <;> simp_all [Dbl.min_sd, Dbl.min, Dbl.lt, Dbl.le, Dbl.isNaN]
  rename_i a b
  by_cases h : a < b
  · simp [h, le_of_lt h]
  · by_cases h2 : a ≤ b
    · have : a = b := by omega
      simp [this]
    · simp [h, h2]

theorem Dbl.max_sd_eq_max {x y : Dbl} (hx : x.isNaN = false) (hy : y.isNaN = false) :
    Dbl.max_sd x y = Dbl.max x y := by
  cases x <;> cases y <;> simp_all [Dbl.max_sd, Dbl.max, Dbl.gt, Dbl.lt, Dbl.le, Dbl.isNaN]
  rename_i a b
  by_cases h : b < a
  · have h2 : ¬ a ≤ b := by omega
    simp [h, h2]
  · by_cases h2 : a ≤ b
    · simp [h, h2]
    · omega

theorem Dbl.neg_min_sd_neg (x y : Dbl) :
    (Dbl.min_sd x.neg y.neg).neg = Dbl.max_sd x y := by
  simp only [Dbl.min_sd, Dbl.max_sd, Dbl.gt, Dbl.lt_neg_neg]
  split <;> simp [Dbl.neg_neg_eq]

theorem Dbl.neg_max_sd_neg (x y : Dbl) :
    (Dbl.max_sd x.neg y.neg).neg = Dbl.min_sd x y := by
  simp only [Dbl.min_sd, Dbl.max_sd, Dbl.gt, Dbl.lt_neg_neg]
  split <;> simp [Dbl.neg_neg_eq]

/-- The lanes of `join_intervald`: each lane is NaN when one of its two inputs
is, and the minimum or maximum otherwise. -/
theorem join_intervald_lanes (a b : IDouble) :
    join_intervald a b =
      ⟨or_pd_mask (Dbl.min_sd a.lb b.lb) (a.lb.isNaN || b.lb.isNaN),
       or_pd_mask (Dbl.max_sd a.ub b.ub) (a.ub.isNaN || b.ub.isNaN)⟩ := by
  simp [join_intervald, mm_or_pd, mm_xor_pd, mm_min_pd, mm_cmpunord_pd, SWITCH_UPPER_SIGN128,
    Dbl.xor_sign, Dbl.neg_min_sd_neg]

/-- The lanes of `intersect_intervald`. -/
theorem intersect_intervald_lanes (a b : IDouble) :
    intersect_intervald a b =
      ⟨or_pd_mask (Dbl.max_sd a.lb b.lb) (a.lb.isNaN || b.lb.isNaN),
       or_pd_mask (Dbl.min_sd a.ub b.ub) (a.ub.isNaN || b.ub.isNaN)⟩ := by
  simp [intersect_intervald, mm_or_pd, mm_xor_pd, mm_max_pd, mm_cmpunord_pd,
    SWITCH_UPPER_SIGN128, Dbl.xor_sign, Dbl.neg_max_sd_neg]

/-- C20, as amended.  For `a`, `b` without NaN, `join(a, b)` is
`[min(a.lb, b.lb), max(a.ub, b.ub)]` and `intersection(a, b)` is
`[max(a.lb, b.lb), min(a.ub, b.ub)]`.  NaN is propagated lane by lane: the
lower endpoint of `join` and of `intersection` is NaN exactly when `a.lb` or
`b.lb` is NaN, the upper endpoint exactly when `a.ub` or `b.ub` is NaN, so a
NaN endpoint in an input makes both results `possibly_undefined`; an endpoint
whose two inputs are not NaN is still their minimum or maximum. -/
theorem IDouble.join_intersection_spec (a b : IDouble) :
    (a.possibly_undefined = false → b.possibly_undefined = false →
      a.join b = ⟨Dbl.min a.lb b.lb, Dbl.max a.ub b.ub⟩ ∧
      a.intersection b = ⟨Dbl.max a.lb b.lb, Dbl.min a.ub b.ub⟩) ∧
    ((a.join b).lb.isNaN = (a.lb.isNaN || b.lb.isNaN) ∧
     (a.join b).ub.isNaN = (a.ub.isNaN || b.ub.isNaN) ∧
     (a.intersection b).lb.isNaN = (a.lb.isNaN || b.lb.isNaN) ∧
     (a.intersection b).ub.isNaN = (a.ub.isNaN || b.ub.isNaN)) ∧
    (a.possibly_undefined = true ∨ b.possibly_undefined = true →
      (a.join b).possibly_undefined = true ∧ (a.intersection b).possibly_undefined = true) ∧
    (a.lb.isNaN = false → b.lb.isNaN = false →
      (a.join b).lb = Dbl.min a.lb b.lb ∧ (a.intersection b).lb = Dbl.max a.lb b.lb) ∧
    (a.ub.isNaN = false → b.ub.isNaN = false →
      (a.join b).ub = Dbl.max a.ub b.ub ∧ (a.intersection b).ub = Dbl.min a.ub b.ub) := by
  obtain ⟨al, au⟩ := a
  obtain ⟨bl, bu⟩ := b
  simp only [IDouble.join, IDouble.intersection, join_intervald_lanes, intersect_intervald_lanes,
    IDouble.possibly_undefined]
  have hmin : ∀ x y : Dbl, (or_pd_mask (Dbl.min_sd x y) (x.isNaN || y.isNaN)).isNaN
      = (x.isNaN || y.isNaN) := by
    intro x y
    cases hx : x.isNaN <;> cases hy : y.isNaN <;> simp [or_pd_mask, Dbl.isNaN]
    rcases Dbl.min_sd_cases x y with h | h <;> rw [h] <;> assumption
  have hmax : ∀ x y : Dbl, (or_pd_mask (Dbl.max_sd x y) (x.isNaN || y.isNaN)).isNaN
      = (x.isNaN || y.isNaN) := by
    intro x y
    cases hx : x.isNaN <;> cases hy : y.isNaN <;> simp [or_pd_mask, Dbl.isNaN]
    rcases Dbl.max_sd_cases x y with h | h <;> rw [h] <;> assumption
  have hlo : al.isNaN = false → bl.isNaN = false →
      or_pd_mask (Dbl.min_sd al bl) (al.isNaN || bl.isNaN) = Dbl.min al bl ∧
      or_pd_mask (Dbl.max_sd al bl) (al.isNaN || bl.isNaN) = Dbl.max al bl := by
    intro h1 h2
    simp [or_pd_mask, h1, h2, Dbl.min_sd_eq_min h1 h2, Dbl.max_sd_eq_max h1 h2]
  have hhi : au.isNaN = false → bu.isNaN = false →
      or_pd_mask (Dbl.max_sd au bu) (au.isNaN || bu.isNaN) = Dbl.max au bu ∧
      or_pd_mask (Dbl.min_sd au bu) (au.isNaN || bu.isNaN) = Dbl.min au bu := by
    intro h1 h2
    simp [or_pd_mask, h1, h2, Dbl.min_sd_eq_min h1 h2, Dbl.max_sd_eq_max h1 h2]
  refine ⟨?_, ⟨hmin _ _, hmax _ _, hmax _ _, hmin _ _⟩, ?_, hlo, hhi⟩
  · intro ha hb
    simp only [Bool.or_eq_false_iff] at ha hb
    rw [(hlo ha.1 hb.1).1, (hlo ha.1 hb.1).2, (hhi ha.2 hb.2).1, (hhi ha.2 hb.2).2]
    exact ⟨rfl, rfl⟩
  · intro h
    rw [hmin, hmax, hmax, hmin]
    simp only [Bool.or_eq_true] at h ⊢
    tauto

/-- Witness of C20 as amended, at `a = [0, 3]`, `b = [1, 2]` and at
`a = [0, NaN]`, `b = [1, 2]`. -/
theorem IDouble.join_intersection_spec_witness :
    ((⟨Dbl.ofInt 0, Dbl.ofInt 3⟩ : IDouble).join ⟨Dbl.ofInt 1, Dbl.ofInt 2⟩
        = ⟨Dbl.min (Dbl.ofInt 0) (Dbl.ofInt 1), Dbl.max (Dbl.ofInt 3) (Dbl.ofInt 2)⟩ ∧
     (⟨Dbl.ofInt 0, Dbl.ofInt 3⟩ : IDouble).intersection ⟨Dbl.ofInt 1, Dbl.ofInt 2⟩
        = ⟨Dbl.max (Dbl.ofInt 0) (Dbl.ofInt 1), Dbl.min (Dbl.ofInt 3) (Dbl.ofInt 2)⟩) ∧
    (((⟨Dbl.ofInt 0, Dbl.nan⟩ : IDouble).join ⟨Dbl.ofInt 1, Dbl.ofInt 2⟩).possibly_undefined
        = true ∧
     ((⟨Dbl.ofInt 0, Dbl.nan⟩ : IDouble).intersection
        ⟨Dbl.ofInt 1, Dbl.ofInt 2⟩).possibly_undefined = true) :=
  ⟨(IDouble.join_intersection_spec ⟨Dbl.ofInt 0, Dbl.ofInt 3⟩ ⟨Dbl.ofInt 1, Dbl.ofInt 2⟩).1
      rfl rfl,
   (IDouble.join_intersection_spec ⟨Dbl.ofInt 0, Dbl.nan⟩ ⟨Dbl.ofInt 1, Dbl.ofInt 2⟩).2.2.1
      (Or.inl rfl)⟩

/-- Counterexample to C20 as stated: `a = [0, NaN]` has a NaN endpoint, yet the
lower endpoints of `join(a, [1, 2])` and of `intersection(a, [1, 2])` are the
numbers `0` and `1`, not NaN. -/
theorem IDouble.join_nan_not_both :
    (⟨Dbl.ofInt 0, Dbl.nan⟩ : IDouble).possibly_undefined = true ∧
    (⟨Dbl.ofInt 0, Dbl.nan⟩ : IDouble).join ⟨Dbl.ofInt 1, Dbl.ofInt 2⟩
      = ⟨Dbl.ofInt 0, Dbl.nan⟩ ∧
    (⟨Dbl.ofInt 0, Dbl.nan⟩ : IDouble).intersection ⟨Dbl.ofInt 1, Dbl.ofInt 2⟩
      = ⟨Dbl.ofInt 1, Dbl.nan⟩ ∧
    ¬ (((⟨Dbl.ofInt 0, Dbl.nan⟩ : IDouble).join ⟨Dbl.ofInt 1, Dbl.ofInt 2⟩).lb.isNaN = true ∧
       ((⟨Dbl.ofInt 0, Dbl.nan⟩ : IDouble).join ⟨Dbl.ofInt 1, Dbl.ofInt 2⟩).ub.isNaN = true) := by
  decide

end ivarp

/-! ## Directed rounding: rounding up is the mirror image of rounding down -/

namespace ivarp
namespace Dbl

theorem neg_ediv_neg_eq_ceilDiv (p : Int) {d : Int} (hd : 0 < d) : -((-p) / d) = ceilDiv p d := by
  unfold ceilDiv
  have h1 := Int.emod_add_ediv (-p) d
  have h2 := Int.emod_nonneg (-p) (ne_of_gt hd)
  have h3 := Int.emod_lt_of_pos (-p) hd
  have key : (p + d - 1) / d = -((-p) / d) ∧ (p + d - 1) % d = d - 1 - (-p) % d := by
    rw [Int.ediv_emod_unique hd]
    refine ⟨?_, by omega, by omega⟩
    have : d * -(-p / d) = -(d * (-p / d)) := by ring
    rw [this]
    omega
  exact key.1.symm

theorem ulpShift_neg (p : Int) (s : Nat) : ulpShift (-p) s = ulpShift p s := by
  simp [ulpShift]

theorem roundUpInt_eq (p : Int) (s : Nat) : roundUpInt p s = -roundDownInt (-p) s := by
  unfold roundUpInt roundDownInt
  rw [ulpShift_neg, ← neg_ediv_neg_eq_ceilDiv p (pow2_pos _)]
  ring

/-- Rounding up is rounding down of the negated value, negated: the way the
program obtains an upper bound in the round-down mode. -/
theorem neg_roundDown_neg (p : Int) (s : Nat) : (roundDown (-p) s).neg = roundUp p s := by
  have hpos := maxFinite_pos
  unfold roundDown roundUp
  simp only [roundUpInt_eq]
  by_cases h1 : maxFinite < roundDownInt (-p) s
  · have h2 : ¬ maxFinite < -roundDownInt (-p) s := by omega
    have h3 : -roundDownInt (-p) s < -maxFinite := by omega
    simp [h1, h2, h3, neg]
  · by_cases h2 : roundDownInt (-p) s < -maxFinite
    · have h3 : maxFinite < -roundDownInt (-p) s := by omega
      simp [h1, h2, h3, neg]
    · have h3 : ¬ maxFinite < -roundDownInt (-p) s := by omega
      have h4 : ¬ -roundDownInt (-p) s < -maxFinite := by omega
      simp [h1, h2, h3, h4, neg]

/-- The upward product is the sign switch of the downward product of the
sign-switched operand. -/
theorem neg_mul_neg (x y : Dbl) : (mul x.neg y).neg = mulUp x y := by
  cases x <;> cases y <;> simp only [mul, mulUp, neg]
  · rename_i b
    by_cases h0 : b = 0
    · simp [h0]
    · by_cases h1 : 0 < b <;> simp [h0, h1, neg]
  · rename_i a
    by_cases h0 : a = 0
    · simp [h0, neg]
    · have h0n : ¬ -a = 0 := by omega
      by_cases h1 : 0 < a
      · have : ¬ 0 < -a := by omega
        simp [h0, h0n, h1, this, neg]
      · have : 0 < -a := by omega
        simp [h0, h0n, h1, this, neg]
  · rename_i a b
    rw [show -a * b = -(a * b) by ring]
    exact neg_roundDown_neg _ _
  · rename_i a
    by_cases h0 : a = 0
    · simp [h0, neg]
    · have h0n : ¬ -a = 0 := by omega
      by_cases h1 : 0 < a
      · have : ¬ 0 < -a := by omega
        simp [h0, h0n, h1, this, neg]
      · have : 0 < -a := by omega
        simp [h0, h0n, h1, this, neg]
  · rename_i b
    by_cases h0 : b = 0
    · simp [h0]
    · by_cases h1 : 0 < b <;> simp [h0, h1, neg]

theorem mul_symm (x y : Dbl) : mul x y = mul y x := by
  cases x <;> cases y <;> simp only [mul]
  rw [Int.mul_comm]

theorem roundDown_ne_nan (p : Int) (s : Nat) : (roundDown p s).isNaN = false := by
  unfold roundDown
  simp only
  split
  · rfl
  · split <;> rfl

/-- A product of two doubles that are not NaN is NaN exactly when it has the form
`0 * ∞`. -/
theorem isNaN_mul {x y : Dbl} (hx : x.isNaN = false) (hy : y.isNaN = false) :
    (mul x y).isNaN = zeroTimesInf x y := by
  cases x <;> cases y <;> simp_all [mul, zeroTimesInf, isInf, isNaN]
  · rename_i b
    by_cases h0 : b = 0
    · simp [h0]
    · by_cases h1 : 0 < b <;> simp [h0, h1]
  · rename_i a
    by_cases h0 : a = 0
    · simp [h0]
    · by_cases h1 : 0 < a <;> simp [h0, h1]
  · exact roundDown_ne_nan _ _
  · rename_i a
    by_cases h0 : a = 0
    · simp [h0]
    · by_cases h1 : 0 < a <;> simp [h0, h1]
  · rename_i b
    by_cases h0 : b = 0
    · simp [h0]
    · by_cases h1 : 0 < b <;> simp [h0, h1]

theorem zeroTimesInf_comm (x y : Dbl) : zeroTimesInf x y = zeroTimesInf y x := by
  simp only [zeroTimesInf]
  rw [Bool.or_comm, Bool.and_comm, Bool.and_comm (decide (x = fin 0))]

theorem zeroTimesInf_neg_left (x y : Dbl) : zeroTimesInf x.neg y = zeroTimesInf x y := by
  cases x <;> cases y <;> simp [zeroTimesInf, isInf, neg]

theorem cmp_le_refl {x : Dbl} (hx : x.isNaN = false) : le x x = true := by
  cases x <;> simp_all [le, isNaN]

theorem cmp_le_total {x y : Dbl} (hx : x.isNaN = false) (hy : y.isNaN = false) :
    le x y = true ∨ le y x = true := by
  cases x <;> cases y <;> simp_all [le, isNaN]
  omega

end Dbl
end ivarp

/-! ## Multiplication: the four cross products -/

namespace ivarp
namespace Dbl

theorem isNaN_min_sd {x y : Dbl} (hx : x.isNaN = false) (hy : y.isNaN = false) :
    (min_sd x y).isNaN = false := by
  rcases min_sd_cases x y with h | h <;> rw [h] <;> assumption

theorem min_sd_le_left {x y : Dbl} (hx : x.isNaN = false) (hy : y.isNaN = false) :
    le (min_sd x y) x = true := by
  rw [min_sd_eq_min hx hy]
  unfold min
  by_cases h : le x y = true
  · rw [if_pos h]
    exact cmp_le_refl hx
  · rw [if_neg h]
    rcases cmp_le_total hx hy with h' | h'
    · exact absurd h' h
    · exact h'

theorem min_sd_le_right {x y : Dbl} (hx : x.isNaN = false) (hy : y.isNaN = false) :
    le (min_sd x y) y = true := by
  rw [min_sd_eq_min hx hy]
  unfold min
  by_cases h : le x y = true
  · rw [if_pos h]
    exact h
  · rw [if_neg h]
    exact cmp_le_refl hy

theorem isMinOf_neg {m : Dbl} {l : List Dbl} (h : IsMinOf m (l.map neg)) : IsMaxOf m.neg l := by
  obtain ⟨hm, hle⟩ := h
  constructor
  · obtain ⟨x, hx, rfl⟩ := List.mem_map.1 hm
    rw [neg_neg_eq]
    exact hx
  · intro x hx
    have := hle x.neg (List.mem_map.2 ⟨x, hx, rfl⟩)
    rw [← le_neg_neg]
    rw [neg_neg_eq]
    exact this

end Dbl

theorem horizontal_min_lb (x : M256d) :
    (horizontal_min x).lb = Dbl.min_sd (Dbl.min_sd x.e0 x.e2) (Dbl.min_sd x.e1 x.e3) := rfl

/-- The function `horizontal_min` returns the minimum of its four lanes when none
is NaN. -/
theorem horizontal_min_isMinOf {x0 x1 x2 x3 : Dbl} (h0 : x0.isNaN = false)
    (h1 : x1.isNaN = false) (h2 : x2.isNaN = false) (h3 : x3.isNaN = false) :
    Dbl.IsMinOf (horizontal_min ⟨x0, x1, x2, x3⟩).lb [x0, x1, x2, x3] := by
  rw [horizontal_min_lb]
  simp only
  have h02 := Dbl.isNaN_min_sd h0 h2
  have h13 := Dbl.isNaN_min_sd h1 h3
  constructor
  · rcases Dbl.min_sd_cases (Dbl.min_sd x0 x2) (Dbl.min_sd x1 x3) with h | h <;> rw [h]
    · rcases Dbl.min_sd_cases x0 x2 with h | h <;> rw [h] <;> simp
    · rcases Dbl.min_sd_cases x1 x3 with h | h <;> rw [h] <;> simp
  · intro x hx
    simp only [List.mem_cons, List.mem_singleton, List.not_mem_nil, or_false] at hx
    have hl := Dbl.min_sd_le_left h02 h13
    have hr := Dbl.min_sd_le_right h02 h13
    rcases hx with rfl | rfl | rfl | rfl
    · exact Dbl.cmp_le_le hl (Dbl.min_sd_le_left h0 h2)
    · exact Dbl.cmp_le_le hr (Dbl.min_sd_le_left h1 h3)
    · exact Dbl.cmp_le_le hl (Dbl.min_sd_le_right h0 h2)
    · exact Dbl.cmp_le_le hr (Dbl.min_sd_le_right h1 h3)

/-- The body of `mul_intervald` on intervals without NaN: the two horizontal
minima over the masked products. -/
theorem mul_intervald_with_eq (f : Dbl → Dbl → Dbl) {a b : IDouble}
    (ha : a.possibly_undefined = false) (hb : b.possibly_undefined = false) :
    mul_intervald_with f a b =
      ⟨(horizontal_min
          ⟨Dbl.and_pd_mask (f b.lb a.lb) (!(f b.lb a.lb).isNaN),
           Dbl.and_pd_mask (f b.ub a.lb) (!(f b.ub a.lb).isNaN),
           Dbl.and_pd_mask (f b.lb a.ub) (!(f b.lb a.ub).isNaN),
           Dbl.and_pd_mask (f b.ub a.ub) (!(f b.ub a.ub).isNaN)⟩).lb,
       (horizontal_min
          ⟨Dbl.and_pd_mask (f b.lb a.lb.neg) (!(f b.lb a.lb).isNaN),
           Dbl.and_pd_mask (f b.ub a.lb.neg) (!(f b.ub a.lb).isNaN),
           Dbl.and_pd_mask (f b.lb a.ub.neg) (!(f b.lb a.ub).isNaN),
           Dbl.and_pd_mask (f b.ub a.ub.neg) (!(f b.ub a.ub).isNaN)⟩).lb.neg⟩ := by
  unfold mul_intervald_with
  rw [if_neg (cmpunord_of_not_hasNaN ha hb)]
  simp [M256d.map₂, mm_xor_pd, SWITCH_LOWER_SIGN128, Dbl.xor_sign]

theorem Dbl.lane_down {x y : Dbl} (hx : x.isNaN = false) (hy : y.isNaN = false) :
    Dbl.and_pd_mask (Dbl.mul y x) (!(Dbl.mul y x).isNaN) = Dbl.crossDown x y := by
  rw [Dbl.mul_symm y x, Dbl.isNaN_mul hx hy]
  unfold Dbl.and_pd_mask Dbl.crossDown
  cases Dbl.zeroTimesInf x y <;> simp

theorem Dbl.lane_up {x y : Dbl} (hx : x.isNaN = false) (hy : y.isNaN = false) :
    Dbl.and_pd_mask (Dbl.mul y x.neg) (!(Dbl.mul y x).isNaN) = (Dbl.crossUp x y).neg := by
  rw [Dbl.mul_symm y x, Dbl.isNaN_mul hx hy, Dbl.mul_symm y x.neg]
  unfold Dbl.and_pd_mask Dbl.crossUp
  cases Dbl.zeroTimesInf x y
  · simp only [Bool.not_false, if_true, Bool.false_eq_true, if_false]
    rw [← Dbl.neg_mul_neg, Dbl.neg_neg_eq]
  · simp [Dbl.neg]

theorem Dbl.isNaN_crossDown {x y : Dbl} (hx : x.isNaN = false) (hy : y.isNaN = false) :
    (Dbl.crossDown x y).isNaN = false := by
  unfold Dbl.crossDown
  cases h : Dbl.zeroTimesInf x y
  · simp only [Bool.false_eq_true, if_false]
    rw [Dbl.isNaN_mul hx hy, h]
  · rfl

theorem Dbl.isNaN_crossUp {x y : Dbl} (hx : x.isNaN = false) (hy : y.isNaN = false) :
    (Dbl.crossUp x y).isNaN = false := by
  unfold Dbl.crossUp
  cases h : Dbl.zeroTimesInf x y
  · simp only [Bool.false_eq_true, if_false]
    rw [← Dbl.neg_mul_neg, Dbl.isNaN_neg, Dbl.isNaN_mul (by rw [Dbl.isNaN_neg]; exact hx) hy,
      Dbl.zeroTimesInf_neg_left, h]
  · rfl

/-- The endpoints of a product of intervals without NaN, as the minimum and the
maximum of the four cross products. -/
theorem mul_intervald_minmax {a b : IDouble}
    (ha : a.possibly_undefined = false) (hb : b.possibly_undefined = false) :
    Dbl.IsMinOf (mul_intervald a b).lb
      [Dbl.crossDown a.lb b.lb, Dbl.crossDown a.lb b.ub,
       Dbl.crossDown a.ub b.lb, Dbl.crossDown a.ub b.ub] ∧
    Dbl.IsMaxOf (mul_intervald a b).ub
      [Dbl.crossUp a.lb b.lb, Dbl.crossUp a.lb b.ub,
       Dbl.crossUp a.ub b.lb, Dbl.crossUp a.ub b.ub] := by
  unfold mul_intervald
  rw [mul_intervald_with_eq Dbl.mul ha hb]
  simp only [IDouble.possibly_undefined, Bool.or_eq_false_iff] at ha hb
  obtain ⟨hal, hau⟩ := ha
  obtain ⟨hbl, hbu⟩ := hb
  rw [Dbl.lane_down hal hbl, Dbl.lane_down hal hbu, Dbl.lane_down hau hbl,
    Dbl.lane_down hau hbu, Dbl.lane_up hal hbl, Dbl.lane_up hal hbu, Dbl.lane_up hau hbl,
    Dbl.lane_up hau hbu]
  constructor
  · exact horizontal_min_isMinOf (Dbl.isNaN_crossDown hal hbl) (Dbl.isNaN_crossDown hal hbu)
      (Dbl.isNaN_crossDown hau hbl) (Dbl.isNaN_crossDown hau hbu)
  · apply Dbl.isMinOf_neg
    have hn : ∀ {x y : Dbl}, x.isNaN = false → y.isNaN = false →
        (Dbl.crossUp x y).neg.isNaN = false := by
      intro x y hx hy
      rw [Dbl.isNaN_neg]
      exact Dbl.isNaN_crossUp hx hy
    exact horizontal_min_isMinOf (hn hal hbl) (hn hal hbu) (hn hau hbl) (hn hau hbu)

theorem Dbl.roundDown_zero (s : Nat) : Dbl.roundDown 0 s = Dbl.fin 0 := by
  have hpos := Dbl.maxFinite_pos
  have h1 : ¬ Dbl.maxFinite < 0 := by omega
  have h2 : ¬ (0 : Int) < -Dbl.maxFinite := by omega
  simp [Dbl.roundDown, Dbl.roundDownInt, h1]

theorem Dbl.roundUp_zero (s : Nat) : Dbl.roundUp 0 s = Dbl.fin 0 := by
  rw [← Dbl.neg_roundDown_neg]
  simp [Dbl.roundDown_zero, Dbl.neg]

theorem Dbl.crossDown_zero_left {y : Dbl} (hy : y.isNaN = false) :
    Dbl.crossDown (Dbl.fin 0) y = Dbl.fin 0 := by
  cases y <;> simp_all [Dbl.crossDown, Dbl.zeroTimesInf, Dbl.isInf, Dbl.isNaN, Dbl.mul,
    Dbl.roundDown_zero]

theorem Dbl.crossUp_zero_left {y : Dbl} (hy : y.isNaN = false) :
    Dbl.crossUp (Dbl.fin 0) y = Dbl.fin 0 := by
  cases y <;> simp_all [Dbl.crossUp, Dbl.zeroTimesInf, Dbl.isInf, Dbl.isNaN, Dbl.mulUp,
    Dbl.roundUp_zero]

/-- C11. For operands without NaN, the lower bound of the product is the minimum
of the four cross products of the endpoints rounded toward minus infinity, and
the upper bound is the maximum of the four cross products rounded toward plus
infinity, a cross product of the form `0 * ∞` contributing `0` instead of NaN;
in particular the zero interval `[0, 0]` times any interval without NaN,
`[-∞, +∞]` included, is the zero interval. -/
theorem IDouble.mul_spec (a b : IDouble)
    (ha : a.possibly_undefined = false) (hb : b.possibly_undefined = false) :
    Dbl.IsMinOf (a.mul b).lb
      [Dbl.crossDown a.lb b.lb, Dbl.crossDown a.lb b.ub,
       Dbl.crossDown a.ub b.lb, Dbl.crossDown a.ub b.ub] ∧
    Dbl.IsMaxOf (a.mul b).ub
      [Dbl.crossUp a.lb b.lb, Dbl.crossUp a.lb b.ub,
       Dbl.crossUp a.ub b.lb, Dbl.crossUp a.ub b.ub] ∧
    (IDouble.mk (Dbl.fin 0) (Dbl.fin 0)).mul b = ⟨Dbl.fin 0, Dbl.fin 0⟩ := by
  refine ⟨(mul_intervald_minmax ha hb).1, (mul_intervald_minmax ha hb).2, ?_⟩
  have hz : (IDouble.mk (Dbl.fin 0) (Dbl.fin 0)).possibly_undefined = false := rfl
  obtain ⟨⟨h1, -⟩, ⟨h2, -⟩⟩ := mul_intervald_minmax hz hb
  simp only [IDouble.possibly_undefined, Bool.or_eq_false_iff] at hb
  simp only [Dbl.crossDown_zero_left hb.1, Dbl.crossDown_zero_left hb.2,
    Dbl.crossUp_zero_left hb.1, Dbl.crossUp_zero_left hb.2, List.mem_cons, List.mem_singleton,
    List.not_mem_nil, or_false, or_self] at h1 h2
  show mul_intervald _ _ = _
  generalize mul_intervald ⟨Dbl.fin 0, Dbl.fin 0⟩ b = r at h1 h2
  obtain ⟨l, u⟩ := r
  simp only at h1 h2
  rw [h1, h2]

/-- Witness of C11 at `a = [-2, 3]`, `b = [-∞, +∞]`. -/
theorem IDouble.mul_spec_witness :
    Dbl.IsMinOf ((IDouble.mk (Dbl.ofInt (-2)) (Dbl.ofInt 3)).mul ⟨Dbl.ninf, Dbl.pinf⟩).lb
      [Dbl.crossDown (Dbl.ofInt (-2)) Dbl.ninf, Dbl.crossDown (Dbl.ofInt (-2)) Dbl.pinf,
       Dbl.crossDown (Dbl.ofInt 3) Dbl.ninf, Dbl.crossDown (Dbl.ofInt 3) Dbl.pinf] ∧
    (IDouble.mk (Dbl.fin 0) (Dbl.fin 0)).mul ⟨Dbl.ninf, Dbl.pinf⟩ = ⟨Dbl.fin 0, Dbl.fin 0⟩ :=
  ⟨(IDouble.mul_spec ⟨Dbl.ofInt (-2), Dbl.ofInt 3⟩ ⟨Dbl.ninf, Dbl.pinf⟩ rfl rfl).1,
   (IDouble.mul_spec ⟨Dbl.ofInt (-2), Dbl.ofInt 3⟩ ⟨Dbl.ninf, Dbl.pinf⟩ rfl rfl).2.2⟩

end ivarp

/-! ## Multiplication is enclosing -/

namespace ivarp
namespace Dbl

theorem leReal_mono {d : Dbl} {s t : ℝ} (h : leReal d s) (hst : s ≤ t) : leReal d t := by
  cases d <;> simp_all [leReal]
  exact le_trans h hst

theorem leReal_of_le {d e : Dbl} {r : ℝ} (hde : le d e = true) (h : leReal e r) :
    leReal d r := by
  cases d <;> cases e <;> simp_all [leReal, le]
  rename_i a b
  exact le_trans (by exact_mod_cast hde) h

theorem geReal_neg {d : Dbl} {r : ℝ} : geReal d.neg r ↔ leReal d (-r) := by
  cases d <;> simp [geReal, leReal, neg]
  constructor <;> intro h <;> linarith

theorem leReal_neg {d : Dbl} {r : ℝ} : leReal d.neg r ↔ geReal d (-r) := by
  cases d <;> simp [geReal, leReal, neg]
  constructor <;> intro h <;> linarith

theorem leReal_of_isMinOf {m : Dbl} {l : List Dbl} {r : ℝ} (hm : IsMinOf m l)
    (h : ∃ c ∈ l, leReal c r) : leReal m r := by
  obtain ⟨c, hc, hcr⟩ := h
  exact leReal_of_le (hm.2 c hc) hcr

theorem isNaN_and_pd_mask (v : Dbl) : (and_pd_mask v (!v.isNaN)).isNaN = false := by
  cases v <;> rfl

theorem and_pd_mask_of_ne_nan {v : Dbl} (h : v.isNaN = false) : and_pd_mask v (!v.isNaN) = v := by
  simp [and_pd_mask, h]

/-- First step of the corner argument: for `x` between `al` and `au`, the product
`x * y` is at least the product of `y` with one of the two endpoints. -/
theorem mulLe_endpoint {al au : Dbl} {x y : ℝ} (hl : leReal al x) (hu : geReal au x) :
    mulLe al y (x * y) ∨ mulLe au y (x * y) := by
  rcases le_or_lt 0 y with hy | hy
  · left
    cases al
    · exact hl
    · exact ⟨hy, fun h => by rw [h]; simp⟩
    · exact mul_le_mul_of_nonneg_right hl hy
    · exact False.elim hl
  · right
    cases au
    · exact hu
    · exact False.elim hu
    · simp only [mulLe]
      simp only [geReal] at hu
      nlinarith
    · exact ⟨le_of_lt hy, fun h => by linarith⟩

theorem two_pow_1074_pos : (0 : ℝ) < 2 ^ 1074 := by positivity

/-- Second step of the corner argument: the product of an endpoint `c` with `y`
between `bl` and `bu` is at least one of the two masked lane products. -/
theorem lane_le_of_mulLe {f : Dbl → Dbl → Dbl} (hf : RoundsDownMul f) {c bl bu : Dbl}
    {y r : ℝ} (hc : mulLe c y r) (hl : leReal bl y) (hu : geReal bu y) :
    leReal (and_pd_mask (f bl c) (!(f bl c).isNaN)) (r / 2 ^ 1074) ∨
    leReal (and_pd_mask (f bu c) (!(f bu c).isNaN)) (r / 2 ^ 1074) := by
  have hpos := two_pow_1074_pos
  have fin_case : ∀ (m n : Int), (m : ℝ) * n ≤ r →
      leReal (and_pd_mask (f (fin m) (fin n)) (!(f (fin m) (fin n)).isNaN)) (r / 2 ^ 1074) := by
    intro m n hmn
    have h1 := hf.1 m n
    have hnn : (f (fin m) (fin n)).isNaN = false := by
      cases hv : f (fin m) (fin n) <;> simp_all [leReal, isNaN]
    rw [and_pd_mask_of_ne_nan hnn]
    exact leReal_mono h1 (div_le_div_of_nonneg_right hmn (le_of_lt hpos))
  have zero_case : 0 ≤ r → leReal (and_pd_mask nan (!nan.isNaN)) (r / 2 ^ 1074) := by
    intro h0
    simp only [and_pd_mask, isNaN, leReal]
    simp only [Bool.not_true, Bool.false_eq_true, if_false, Int.cast_zero]
    exact div_nonneg h0 (le_of_lt hpos)
  cases c with
  | nan => exact absurd hc (by simp [mulLe])
  | fin n =>
    simp only [mulLe] at hc
    rcases le_or_lt 0 n with hn | hn
    · left
      cases bl with
      | nan => exact absurd hl (by simp [leReal])
      | pinf => exact absurd hl (by simp [leReal])
      | fin m =>
        apply fin_case
        simp only [leReal] at hl
        have : (0 : ℝ) ≤ n := by exact_mod_cast hn
        nlinarith
      | ninf =>
        rw [hf.2 ninf (fin n) rfl]
        simp only [mul]
        by_cases h0 : n = 0
        · rw [if_pos h0]
          apply zero_case
          rw [h0] at hc
          simpa using hc
        · have hn' : 0 < n := by omega
          rw [if_neg h0, if_pos hn']
          trivial
    · right
      cases bu with
      | nan => exact absurd hu (by simp [geReal])
      | ninf => exact absurd hu (by simp [geReal])
      | fin m =>
        apply fin_case
        simp only [geReal] at hu
        have : (n : ℝ) < 0 := by exact_mod_cast hn
        nlinarith
      | pinf =>
        rw [hf.2 pinf (fin n) rfl]
        simp only [mul]
        have h0 : ¬ n = 0 := by omega
        have hn' : ¬ 0 < n := by omega
        rw [if_neg h0, if_neg hn']
        trivial
  | pinf =>
    obtain ⟨hy, hy0⟩ := hc
    left
    cases bl with
    | nan => exact absurd hl (by simp [leReal])
    | pinf => exact absurd hl (by simp [leReal])
    | ninf =>
      rw [hf.2 ninf pinf rfl]
      trivial
    | fin m =>
      rw [hf.2 (fin m) pinf rfl]
      simp only [mul]
      simp only [leReal] at hl
      by_cases h0 : m = 0
      · rw [if_pos h0]
        apply zero_case
        apply hy0
        rw [h0] at hl
        have : (0 : ℝ) ≤ y := by simpa using hl
        linarith
      · have hm : ¬ 0 < m := by
          intro hm
          have : (0 : ℝ) < m := by exact_mod_cast hm
          linarith
        rw [if_neg h0, if_neg hm]
        trivial
  | ninf =>
    obtain ⟨hy, hy0⟩ := hc
    right
    cases bu with
    | nan => exact absurd hu (by simp [geReal])
    | ninf => exact absurd hu (by simp [geReal])
    | pinf =>
      rw [hf.2 pinf ninf rfl]
      trivial
    | fin m =>
      rw [hf.2 (fin m) ninf rfl]
      simp only [mul]
      simp only [geReal] at hu
      by_cases h0 : m = 0
      · rw [if_pos h0]
        apply zero_case
        apply hy0
        rw [h0] at hu
        have : y ≤ 0 := by simpa using hu
        linarith
      · have hm : 0 < m := by
          have : (0 : ℝ) ≤ m := le_trans hy hu
          have : (0 : Int) ≤ m := by exact_mod_cast this
          omega
        rw [if_neg h0, if_pos hm]
        trivial

end Dbl
end ivarp

namespace ivarp
namespace Dbl

theorem pow2_cast (k : Nat) : ((pow2 k : Int) : ℝ) = 2 ^ k := by
  simp [pow2]

/-- Rounding toward minus infinity returns a double not above the exact value. -/
theorem leReal_roundDown (p : Int) (s : Nat) : leReal (roundDown p s) ((p : ℝ) / 2 ^ s) := by
  have hs : (0 : ℝ) < 2 ^ s := by positivity
  have hr : ((roundDownInt p s : Int) : ℝ) ≤ (p : ℝ) / 2 ^ s := by
    rw [le_div_iff₀ hs]
    have h1 : p / pow2 (s + ulpShift p s) * pow2 (s + ulpShift p s) ≤ p :=
      Int.ediv_mul_le _ (ne_of_gt (pow2_pos _))
    have h2 : roundDownInt p s * pow2 s = p / pow2 (s + ulpShift p s) * pow2 (s + ulpShift p s) := by
      unfold roundDownInt
      rw [pow2_add s]
      ring
    have h3 : roundDownInt p s * pow2 s ≤ p := by rw [h2]; exact h1
    have h4 : ((roundDownInt p s * pow2 s : Int) : ℝ) ≤ (p : ℝ) := by exact_mod_cast h3
    rw [Int.cast_mul, pow2_cast] at h4
    exact h4
  unfold roundDown
  simp only
  split
  · rename_i h
    simp only [leReal]
    have : ((maxFinite : Int) : ℝ) < (roundDownInt p s : ℝ) := by exact_mod_cast h
    linarith
  · split
    · trivial
    · exact hr

/-- The multiplication of the model, `vmulpd` in the round-down mode, meets the
assumption `RoundsDownMul`. -/
theorem roundsDownMul_mul : RoundsDownMul mul := by
  constructor
  · intro a b
    have := leReal_roundDown (a * b) 1074
    simpa [mul] using this
  · intro x y _
    rfl

end Dbl

theorem Dbl.lane_nan_neg {f : Dbl → Dbl → Dbl} (hf : Dbl.RoundsDownMul f) (d c : Dbl)
    (hd : d.isNaN = false) (hc : c.isNaN = false) :
    (f d c).isNaN = (f d c.neg).isNaN := by
  cases hfin : (d.isFinite && c.isFinite)
  · have hfin' : (d.isFinite && c.neg.isFinite) = false := by
      cases d <;> cases c <;> simp_all [Dbl.isFinite, Dbl.neg]
    rw [hf.2 d c hfin, hf.2 d c.neg hfin', Dbl.mul_symm d c, Dbl.mul_symm d c.neg,
      Dbl.isNaN_mul hc hd, Dbl.isNaN_mul (by rw [Dbl.isNaN_neg]; exact hc) hd,
      Dbl.zeroTimesInf_neg_left]
  · cases d <;> cases c <;> simp_all [Dbl.isFinite]
    rename_i m n
    have h1 := hf.1 m n
    have h2 := hf.1 m (-n)
    simp only [Dbl.neg]
    cases hv : f (Dbl.fin m) (Dbl.fin n) <;> cases hw : f (Dbl.fin m) (Dbl.fin (-n)) <;>
      simp_all [Dbl.leReal, Dbl.isNaN]

/-- The lower bound of the product is not above `x * y`. -/
theorem mul_intervald_with_lb {f : Dbl → Dbl → Dbl} (hf : Dbl.RoundsDownMul f) {a b : IDouble}
    {x y : ℝ} (hx : a.Contains x) (hy : b.Contains y) :
    Dbl.leReal
      (horizontal_min
        ⟨Dbl.and_pd_mask (f b.lb a.lb) (!(f b.lb a.lb).isNaN),
         Dbl.and_pd_mask (f b.ub a.lb) (!(f b.ub a.lb).isNaN),
         Dbl.and_pd_mask (f b.lb a.ub) (!(f b.lb a.ub).isNaN),
         Dbl.and_pd_mask (f b.ub a.ub) (!(f b.ub a.ub).isNaN)⟩).lb
      (x * y / 2 ^ 1074) := by
  apply Dbl.leReal_of_isMinOf (horizontal_min_isMinOf (Dbl.isNaN_and_pd_mask _)
    (Dbl.isNaN_and_pd_mask _) (Dbl.isNaN_and_pd_mask _) (Dbl.isNaN_and_pd_mask _))
  rcases Dbl.mulLe_endpoint (y := y) hx.1 hx.2 with h | h
  · rcases Dbl.lane_le_of_mulLe hf h hy.1 hy.2 with h' | h'
    · exact ⟨_, by simp, h'⟩
    · exact ⟨_, by simp, h'⟩
  · rcases Dbl.lane_le_of_mulLe hf h hy.1 hy.2 with h' | h'
    · exact ⟨_, by simp, h'⟩
    · exact ⟨_, by simp, h'⟩

theorem IDouble.not_nan_of_contains {a : IDouble} {x : ℝ} (hx : a.Contains x) :
    a.possibly_undefined = false := by
  obtain ⟨l, u⟩ := a
  obtain ⟨h1, h2⟩ := hx
  cases l <;> cases u <;> simp_all [Dbl.leReal, Dbl.geReal, IDouble.possibly_undefined, Dbl.isNaN]

/-- Multiplication with any instruction that rounds down is enclosing. -/
theorem mul_intervald_with_contains {f : Dbl → Dbl → Dbl} (hf : Dbl.RoundsDownMul f)
    {a b : IDouble} {x y : ℝ} (hx : a.Contains x) (hy : b.Contains y) :
    (mul_intervald_with f a b).Contains (x * y / 2 ^ 1074) := by
  have ha := IDouble.not_nan_of_contains hx
  have hb := IDouble.not_nan_of_contains hy
  rw [mul_intervald_with_eq f ha hb]
  refine ⟨mul_intervald_with_lb hf hx hy, ?_⟩
  simp only [IDouble.possibly_undefined, Bool.or_eq_false_iff] at ha hb
  show Dbl.geReal (Dbl.neg _) _
  rw [Dbl.geReal_neg]
  have hx' : (IDouble.mk a.ub.neg a.lb.neg).Contains (-x) := by
    constructor
    · show Dbl.leReal a.ub.neg (-x)
      rw [Dbl.leReal_neg]
      simpa using hx.2
    · show Dbl.geReal a.lb.neg (-x)
      rw [Dbl.geReal_neg]
      simpa using hx.1
  have hr : -(x * y / 2 ^ 1074) = -x * y / 2 ^ 1074 := by ring
  rw [hr, Dbl.lane_nan_neg hf b.lb a.ub hb.1 ha.2, Dbl.lane_nan_neg hf b.ub a.ub hb.2 ha.2,
    Dbl.lane_nan_neg hf b.lb a.lb hb.1 ha.1, Dbl.lane_nan_neg hf b.ub a.lb hb.2 ha.1]
  apply Dbl.leReal_of_isMinOf (horizontal_min_isMinOf (Dbl.isNaN_and_pd_mask _)
    (Dbl.isNaN_and_pd_mask _) (Dbl.isNaN_and_pd_mask _) (Dbl.isNaN_and_pd_mask _))
  rcases Dbl.mulLe_endpoint (y := y) hx'.1 hx'.2 with h | h
  · rcases Dbl.lane_le_of_mulLe hf h hy.1 hy.2 with h' | h'
    · exact ⟨_, by simp, h'⟩
    · exact ⟨_, by simp, h'⟩
  · rcases Dbl.lane_le_of_mulLe hf h hy.1 hy.2 with h' | h'
    · exact ⟨_, by simp, h'⟩
    · exact ⟨_, by simp, h'⟩

/-- C12. Multiplication is enclosing: for intervals `a`, `b` and finite reals
`x` in `[a.lb, a.ub]` and `y` in `[b.lb, b.ub]` (so `a` and `b` have no NaN
endpoint and are ordered; endpoints may be infinite), the product interval
contains `x * y`, assuming only of the multiplication instruction that on finite
operands it returns a double not above the exact product.  Reals are in units of
`2^(-1074)`, in which the product of `x` and `y` is `x * y / 2^1074`. -/
theorem IDouble.mul_enclosing (vmulpd : Dbl → Dbl → Dbl) (hf : Dbl.RoundsDownMul vmulpd)
    (a b : IDouble) (x y : ℝ) (hx : a.Contains x) (hy : b.Contains y) :
    Dbl.leReal (mul_intervald_with vmulpd a b).lb (x * y / 2 ^ 1074) ∧
    Dbl.geReal (mul_intervald_with vmulpd a b).ub (x * y / 2 ^ 1074) :=
  mul_intervald_with_contains hf hx hy

/-- Witness of C12 for the multiplication of the program, at `a = [-2, 3]`,
`b = [-1, +∞]`, `x = 0`, `y = 0`. -/
theorem IDouble.mul_enclosing_witness :
    Dbl.leReal ((IDouble.mk (Dbl.ofInt (-2)) (Dbl.ofInt 3)).mul ⟨Dbl.ofInt (-1), Dbl.pinf⟩).lb
      (0 * 0 / 2 ^ 1074) ∧
    Dbl.geReal ((IDouble.mk (Dbl.ofInt (-2)) (Dbl.ofInt 3)).mul ⟨Dbl.ofInt (-1), Dbl.pinf⟩).ub
      (0 * 0 / 2 ^ 1074) :=
  IDouble.mul_enclosing Dbl.mul Dbl.roundsDownMul_mul ⟨Dbl.ofInt (-2), Dbl.ofInt 3⟩
    ⟨Dbl.ofInt (-1), Dbl.pinf⟩ 0 0
    ⟨by
      show (((-2 * pow2 1074 : Int)) : ℝ) ≤ 0
      exact_mod_cast (by decide : (-2 * pow2 1074 : Int) ≤ 0),
     by
      show (0 : ℝ) ≤ ((3 * pow2 1074 : Int) : ℝ)
      exact_mod_cast (by decide : (0 : Int) ≤ 3 * pow2 1074)⟩
    ⟨by
      show (((-1 * pow2 1074 : Int)) : ℝ) ≤ 0
      exact_mod_cast (by decide : (-1 * pow2 1074 : Int) ≤ 0),
     trivial⟩

end ivarp

/-! ## Division -/

namespace ivarp
namespace Dbl

/-- Rounding a quotient toward minus infinity returns a double not above the exact
quotient. -/
theorem leReal_roundDownQuot (p : Int) {d : Int} (hd : 0 < d) :
    leReal (roundDownQuot p d) ((p : ℝ) / (d : ℝ)) := by
  have hdr : (0 : ℝ) < (d : ℝ) := by exact_mod_cast hd
  set e := ulpAux 13 (p.natAbs / d.natAbs) with he
  have hde : 0 < d * pow2 e := Int.mul_pos hd (pow2_pos _)
  have hr : (((p / (d * pow2 e)) * pow2 e : Int) : ℝ) ≤ (p : ℝ) / (d : ℝ) := by
    rw [le_div_iff₀ hdr]
    have h1 : p / (d * pow2 e) * (d * pow2 e) ≤ p := Int.ediv_mul_le _ (ne_of_gt hde)
    have h2 : ((p / (d * pow2 e) * (d * pow2 e) : Int) : ℝ) ≤ (p : ℝ) := by exact_mod_cast h1
    push_cast at h2 ⊢
    linarith
  unfold roundDownQuot
  simp only [← he]
  split
  · rename_i h
    simp only [leReal]
    have : ((maxFinite : Int) : ℝ) < ((p / (d * pow2 e) * pow2 e : Int) : ℝ) := by
      exact_mod_cast h
    linarith
  · split
    · trivial
    · exact hr

theorem roundDownQuot_ne_nan (p d : Int) : (roundDownQuot p d).isNaN = false := by
  unfold roundDownQuot
  simp only
  split
  · rfl
  · split <;> rfl

/-- The quotient of two finite doubles, the divisor not zero, is not above the
exact quotient (in units of `2^(-1074)`). -/
theorem leReal_div_fin (a : Int) {b : Int} (hb : b ≠ 0) :
    leReal (div (fin a) (fin b)) ((a : ℝ) / (b : ℝ) * 2 ^ 1074) := by
  simp only [div, if_neg hb]
  by_cases hpos : 0 < b
  · rw [if_pos hpos]
    have h := leReal_roundDownQuot (a * pow2 1074) hpos
    have e : (((a * pow2 1074 : Int)) : ℝ) / (b : ℝ) = (a : ℝ) / (b : ℝ) * 2 ^ 1074 := by
      rw [Int.cast_mul, pow2_cast]
      ring
    rw [e] at h
    exact h
  · rw [if_neg hpos]
    have hneg : 0 < -b := by omega
    have h := leReal_roundDownQuot (-a * pow2 1074) hneg
    have hbr : (b : ℝ) ≠ 0 := by exact_mod_cast hb
    have e : (((-a * pow2 1074 : Int)) : ℝ) / ((-b : Int) : ℝ) = (a : ℝ) / (b : ℝ) * 2 ^ 1074 := by
      rw [Int.cast_mul, pow2_cast]
      push_cast
      field_simp
    rw [e] at h
    exact h

theorem div_fin_ne_nan (a : Int) {b : Int} (hb : b ≠ 0) : (div (fin a) (fin b)).isNaN = false := by
  simp only [div, if_neg hb]
  split <;> exact roundDownQuot_ne_nan _ _

/-- Switching the signs of both operands leaves a quotient unchanged, for a
divisor that is not zero. -/
theorem div_neg_neg (x : Dbl) {y : Dbl} (hy : y ≠ fin 0) : div x.neg y.neg = div x y := by
  cases x <;> cases y <;> simp only [div, neg]
  · rename_i b
    have hb : b ≠ 0 := fun h => hy (by rw [h])
    have hb' : ¬ -b = 0 := by omega
    by_cases h : 0 ≤ b
    · have : ¬ 0 ≤ -b := by omega
      simp [h, this]
    · have : 0 ≤ -b := by omega
      simp [h, this]
  · rename_i a b
    have hb : b ≠ 0 := fun h => hy (by rw [h])
    have hb' : ¬ -b = 0 := by omega
    rw [if_neg hb, if_neg hb']
    by_cases h : 0 < b
    · have : ¬ 0 < -b := by omega
      rw [if_pos h, if_neg this]
      simp
    · have : 0 < -b := by omega
      rw [if_neg h, if_pos this]
  · rename_i b
    have hb : b ≠ 0 := fun h => hy (by rw [h])
    by_cases h : 0 ≤ b
    · have : ¬ 0 ≤ -b := by omega
      simp [h, this]
    · have : 0 ≤ -b := by omega
      simp [h, this]

/-- Quotient of a non-negative numerator endpoint by the upper endpoint of a
positive denominator: a lower bound of `x / y`. -/
theorem div_lower_nonneg {c d : Dbl} {x y : ℝ} (hc : le (fin 0) c = true) (hcx : leReal c x)
    (hy : 0 < y) (hdy : geReal d y) : leReal (div c d) (x / y * 2 ^ 1074) := by
  have hpos := two_pow_1074_pos
  cases c with
  | nan => exact False.elim hcx
  | ninf => simp [le] at hc
  | pinf => exact False.elim hcx
  | fin n =>
    simp only [le, decide_eq_true_eq] at hc
    simp only [leReal] at hcx
    have hn : (0 : ℝ) ≤ n := by exact_mod_cast hc
    have hx : 0 ≤ x := le_trans hn hcx
    cases d with
    | nan => exact False.elim hdy
    | ninf => exact False.elim hdy
    | pinf =>
      simp only [div, leReal, Int.cast_zero]
      positivity
    | fin m =>
      simp only [geReal] at hdy
      have hm : (0 : ℝ) < m := lt_of_lt_of_le hy hdy
      have hm0 : m ≠ 0 := by
        intro h
        rw [h] at hm
        simp at hm
      refine leReal_mono (leReal_div_fin n hm0) ?_
      apply mul_le_mul_of_nonneg_right _ (le_of_lt hpos)
      calc (n : ℝ) / m ≤ n / y := div_le_div_of_nonneg_left hn hy hdy
        _ ≤ x / y := div_le_div_of_nonneg_right hcx (le_of_lt hy)

/-- Quotient of a non-positive numerator endpoint by the lower endpoint of a
positive denominator: a lower bound of `x / y`. -/
theorem div_lower_nonpos {c d : Dbl} {x y : ℝ} (hc : le c (fin 0) = true) (hcx : leReal c x)
    (hd : lt (fin 0) d = true) (hdy : leReal d y) : leReal (div c d) (x / y * 2 ^ 1074) := by
  have hpos := two_pow_1074_pos
  cases d with
  | nan => exact False.elim hdy
  | ninf => simp [lt] at hd
  | pinf => exact False.elim hdy
  | fin m =>
    simp only [lt, decide_eq_true_eq] at hd
    simp only [leReal] at hdy
    have hm : (0 : ℝ) < m := by exact_mod_cast hd
    have hy : 0 < y := lt_of_lt_of_le hm hdy
    have hm0 : m ≠ 0 := by omega
    cases c with
    | nan => exact False.elim hcx
    | pinf => exact False.elim hcx
    | ninf =>
      have : (0 : Int) ≤ m := by omega
      simp only [div, if_pos this]
      trivial
    | fin n =>
      simp only [le, decide_eq_true_eq] at hc
      simp only [leReal] at hcx
      have hn : (n : ℝ) ≤ 0 := by exact_mod_cast hc
      refine leReal_mono (leReal_div_fin n hm0) ?_
      apply mul_le_mul_of_nonneg_right _ (le_of_lt hpos)
      rcases le_or_lt 0 x with hx | hx
      · calc (n : ℝ) / m ≤ 0 := div_nonpos_of_nonpos_of_nonneg hn (le_of_lt hm)
          _ ≤ x / y := div_nonneg hx (le_of_lt hy)
      · calc (n : ℝ) / m ≤ x / m := div_le_div_of_nonneg_right hcx (le_of_lt hm)
          _ ≤ x / y := by
            rw [div_le_div_iff₀ hm hy]
            nlinarith

end Dbl
end ivarp

namespace ivarp
namespace Dbl

theorem neg_roundDownQuot_neg (p d : Int) (hd : 0 < d) :
    (roundDownQuot (-p) d).neg = roundUpQuot p d := by
  have hpos := maxFinite_pos
  unfold roundDownQuot roundUpQuot
  simp only [Int.natAbs_neg]
  set e := ulpAux 13 (p.natAbs / d.natAbs)
  have hde : 0 < d * pow2 e := Int.mul_pos hd (pow2_pos _)
  rw [← neg_ediv_neg_eq_ceilDiv p hde]
  set q := -p / (d * pow2 e) * pow2 e with hq
  have hq' : -(-p / (d * pow2 e)) * pow2 e = -q := by rw [hq]; ring
  rw [hq']
  by_cases h1 : maxFinite < q
  · have h2 : ¬ maxFinite < -q := by omega
    have h3 : -q < -maxFinite := by omega
    simp [h1, h2, h3, neg]
  · by_cases h2 : q < -maxFinite
    · have h3 : maxFinite < -q := by omega
      simp [h1, h2, h3, neg]
    · have h3 : ¬ maxFinite < -q := by omega
      have h4 : ¬ -q < -maxFinite := by omega
      simp [h1, h2, h3, h4, neg]

/-- The upward quotient is the sign switch of the downward quotient of the
sign-switched numerator. -/
theorem neg_div_neg (x y : Dbl) : (div x.neg y).neg = divUp x y := by
  cases x with
  | nan => cases y <;> rfl
  | ninf =>
    cases y with
    | nan => rfl
    | ninf => rfl
    | pinf => rfl
    | fin b =>
      simp only [div, divUp, neg]
      by_cases h : 0 ≤ b <;> simp [h, neg]
  | pinf =>
    cases y with
    | nan => rfl
    | ninf => rfl
    | pinf => rfl
    | fin b =>
      simp only [div, divUp, neg]
      by_cases h : 0 ≤ b <;> simp [h, neg]
  | fin a =>
    cases y with
    | nan => rfl
    | ninf => simp [div, divUp, neg]
    | pinf => simp [div, divUp, neg]
    | fin b =>
      simp only [div, divUp, neg]
      by_cases hb : b = 0
      · rw [if_pos hb, if_pos hb]
        by_cases h0 : a = 0
        · simp [h0, neg]
        · have h0n : ¬ -a = 0 := by omega
          by_cases h1 : 0 < a
          · have : ¬ 0 < -a := by omega
            simp [h0, h0n, h1, this, neg]
          · have : 0 < -a := by omega
            simp [h0, h0n, h1, this, neg]
      · rw [if_neg hb, if_neg hb]
        by_cases h : 0 < b
        · rw [if_pos h, if_pos h]
          have := neg_roundDownQuot_neg (a * pow2 1074) b h
          rw [show -(a * pow2 1074) = -a * pow2 1074 by ring] at this
          exact this
        · have hneg : 0 < -b := by omega
          rw [if_neg h, if_neg h]
          have := neg_roundDownQuot_neg (-a * pow2 1074) (-b) hneg
          rw [show -(-a * pow2 1074) = - -a * pow2 1074 by ring] at this
          exact this

theorem le_zero_of_not_zero_le {c : Dbl} (hc : c.isNaN = false) (h : ¬ le (fin 0) c = true) :
    le c (fin 0) = true := by
  rcases cmp_le_total hc (show (fin 0).isNaN = false from rfl) with h' | h'
  · exact h'
  · exact absurd h' h

theorem zero_le_of_leReal {c d : Dbl} {x : ℝ} (hc : le (fin 0) c = true) (hcx : leReal c x)
    (hdx : geReal d x) : le (fin 0) d = true := by
  cases c <;> cases d <;> simp_all [le, leReal, geReal]
  rename_i n m
  have : (0 : ℝ) ≤ n := by exact_mod_cast hc
  have : (0 : ℝ) ≤ m := by linarith
  exact_mod_cast this

theorem lt_zero_of_not_le {c : Dbl} (hc : c.isNaN = false) (h : ¬ le c (fin 0) = true) :
    lt (fin 0) c = true := by
  cases c <;> simp_all [le, lt, isNaN]

theorem lt_zero_neg {c : Dbl} : lt (fin 0) c.neg = lt c (fin 0) := by
  cases c <;> simp [lt, neg]

theorem le_zero_neg {c : Dbl} : le (fin 0) c.neg = le c (fin 0) := by
  cases c <;> simp [le, neg]

theorem le_neg_zero {c : Dbl} : le c.neg (fin 0) = le (fin 0) c := by
  cases c <;> simp [le, neg]

theorem lt_neg_zero {c : Dbl} : lt c.neg (fin 0) = lt (fin 0) c := by
  cases c <;> simp [lt, neg]

theorem cmp_le_of_lt {c d : Dbl} (h : lt c d = true) : le c d = true := by
  cases c <;> cases d <;> simp_all [lt, le]
  omega

theorem cmp_not_lt_of_le {c d : Dbl} (h : le c d = true) : lt d c = false := by
  cases c <;> cases d <;> simp_all [lt, le]

end Dbl

/-- The lanes of `div_intervald_with_infinities`: the signs of both operands are
switched when `den.lb < 0`; then the lower endpoint of the numerator is divided,
rounding down, and the upper endpoint, rounding up, by the endpoint of the
denominator that the sign case of the numerator selects. -/
theorem div_intervald_with_infinities_eq (num den : IDouble) :
    div_intervald_with_infinities num den =
      (let n := if Dbl.lt den.lb (Dbl.fin 0) then negate_intervald num else num
       let d := if Dbl.lt den.lb (Dbl.fin 0) then negate_intervald den else den
       ⟨Dbl.div n.lb (if Dbl.le (Dbl.fin 0) n.lb then d.ub else d.lb),
        Dbl.divUp n.ub
          (if Dbl.le (Dbl.fin 0) n.lb then d.lb
           else if Dbl.le n.ub (Dbl.fin 0) then d.ub else d.lb)⟩) := by
  unfold div_intervald_with_infinities
  simp only [negate_intervald, vdivpd, mm_xor_pd, SWITCH_UPPER_SIGN128, Dbl.xor_sign,
    if_true, Bool.false_eq_true, if_false]
  cases Dbl.lt den.lb (Dbl.fin 0) <;> simp only [Bool.false_eq_true, if_false, if_true] <;>
    split <;> try split
  all_goals simp only [Dbl.neg_div_neg]

/-- The infinity path is enclosing for a positive denominator. -/
theorem div_infinities_contains_pos {a b : IDouble} {x y : ℝ} (hx : a.Contains x)
    (hy : b.Contains y) (hb : Dbl.lt (Dbl.fin 0) b.lb = true) :
    (div_intervald_with_infinities a b).Contains (x / y * 2 ^ 1074) := by
  have ha := IDouble.not_nan_of_contains hx
  simp only [IDouble.possibly_undefined, Bool.or_eq_false_iff] at ha
  have hflip : Dbl.lt b.lb (Dbl.fin 0) = false := Dbl.cmp_not_lt_of_le (Dbl.cmp_le_of_lt hb)
  have hy0 : 0 < y := by
    obtain ⟨h1, -⟩ := hy
    cases hl : b.lb <;> rw [hl] at hb h1 <;> simp_all [Dbl.lt, Dbl.leReal]
    rename_i m
    have : (0 : ℝ) < m := by exact_mod_cast hb
    linarith
  rw [div_intervald_with_infinities_eq]
  simp only [hflip, Bool.false_eq_true, if_false]
  have hneg : -(x / y * 2 ^ 1074) = -x / y * 2 ^ 1074 := by ring
  have hnx : Dbl.leReal a.ub.neg (-x) := by
    rw [Dbl.leReal_neg]
    simpa using hx.2
  constructor
  · show Dbl.leReal _ _
    by_cases h1 : Dbl.le (Dbl.fin 0) a.lb = true
    · rw [if_pos h1]
      exact Dbl.div_lower_nonneg h1 hx.1 hy0 hy.2
    · rw [if_neg h1]
      exact Dbl.div_lower_nonpos (Dbl.le_zero_of_not_zero_le ha.1 h1) hx.1 hb hy.1
  · show Dbl.geReal _ _
    rw [← Dbl.neg_div_neg, Dbl.geReal_neg, hneg]
    by_cases h1 : Dbl.le (Dbl.fin 0) a.lb = true
    · rw [if_pos h1]
      have h2 : Dbl.le a.ub.neg (Dbl.fin 0) = true := by
        rw [Dbl.le_neg_zero]
        exact Dbl.zero_le_of_leReal h1 hx.1 hx.2
      exact Dbl.div_lower_nonpos h2 hnx hb hy.1
    · rw [if_neg h1]
      by_cases h2 : Dbl.le a.ub (Dbl.fin 0) = true
      · rw [if_pos h2]
        have h3 : Dbl.le (Dbl.fin 0) a.ub.neg = true := by
          rw [Dbl.le_zero_neg]
          exact h2
        exact Dbl.div_lower_nonneg h3 hnx hy0 hy.2
      · rw [if_neg h2]
        have h3 : Dbl.le a.ub.neg (Dbl.fin 0) = true := by
          rw [Dbl.le_neg_zero]
          exact Dbl.cmp_le_of_lt (Dbl.lt_zero_of_not_le ha.2 h2)
        exact Dbl.div_lower_nonpos h3 hnx hb hy.1

end ivarp

namespace ivarp

theorem Dbl.eq_abs_pinf (x : Dbl) : Dbl.eq x.abs Dbl.pinf = x.isInf := by
  cases x <;> rfl

/-- The test `num_inf | den_inf` of `div_intervald`: an endpoint is infinite. -/
theorem inf_test_iff (num den : IDouble) :
    (mm_movemask_pd (mm_cmpeq_pd (mm_andnot_pd SWITCH_BOTH_SIGNS128 num) POSITIVE_INF128) |||
      mm_movemask_pd (mm_cmpeq_pd (mm_andnot_pd SWITCH_BOTH_SIGNS128 den) POSITIVE_INF128) ≠ 0) ↔
    (num.lb.isInf || num.ub.isInf || den.lb.isInf || den.ub.isInf) = true := by
  simp only [mm_cmpeq_pd, mm_andnot_pd, SWITCH_BOTH_SIGNS128, POSITIVE_INF128, if_true,
    Dbl.eq_abs_pinf, mm_movemask_pd]
  cases num.lb.isInf <;> cases num.ub.isInf <;> cases den.lb.isInf <;> cases den.ub.isInf <;>
    decide

/-- The function `div_intervald` on intervals without NaN whose denominator does
not contain zero: the infinity path when an endpoint is infinite, the four
quotients otherwise. -/
theorem div_intervald_eq {num den : IDouble} (hn : num.possibly_undefined = false)
    (hd : den.possibly_undefined = false)
    (h0 : ¬ (Dbl.le den.lb (Dbl.fin 0) = true ∧ Dbl.le (Dbl.fin 0) den.ub = true)) :
    div_intervald num den =
      if (num.lb.isInf || num.ub.isInf || den.lb.isInf || den.ub.isInf) = true then
        div_intervald_with_infinities num den
      else
        ⟨(horizontal_min ⟨Dbl.div num.lb den.lb, Dbl.div num.lb den.ub,
            Dbl.div num.ub den.lb, Dbl.div num.ub den.ub⟩).lb,
         (horizontal_min ⟨Dbl.div num.lb.neg den.lb, Dbl.div num.lb.neg den.ub,
            Dbl.div num.ub.neg den.lb, Dbl.div num.ub.neg den.ub⟩).lb.neg⟩ := by
  unfold div_intervald
  simp only
  rw [if_neg (cmpunord_of_not_hasNaN hn hd)]
  have h0' : ¬ ((Dbl.le den.lb (Dbl.fin 0) && Dbl.le (Dbl.fin 0) den.ub) = true) := by
    simpa using h0
  rw [if_neg h0']
  by_cases hi : (num.lb.isInf || num.ub.isInf || den.lb.isInf || den.ub.isInf) = true
  · rw [if_pos ((inf_test_iff num den).2 hi), if_pos hi]
  · rw [if_neg (fun h => hi ((inf_test_iff num den).1 h)), if_neg hi]
    simp [M256d.map₂, mm_xor_pd, SWITCH_LOWER_SIGN128, Dbl.xor_sign]

/-- An ordered interval that does not contain zero lies on one side of it. -/
theorem IDouble.pos_or_neg_of_not_zero {b : IDouble} (hb : Dbl.le b.lb b.ub = true)
    (h0 : ¬ (Dbl.le b.lb (Dbl.fin 0) = true ∧ Dbl.le (Dbl.fin 0) b.ub = true)) :
    Dbl.lt (Dbl.fin 0) b.lb = true ∨ Dbl.lt b.ub (Dbl.fin 0) = true := by
  obtain ⟨l, u⟩ := b
  cases l <;> cases u <;> simp_all [Dbl.le, Dbl.lt]
  omega

theorem IDouble.le_of_contains {b : IDouble} {y : ℝ} (hy : b.Contains y) :
    Dbl.le b.lb b.ub = true := by
  obtain ⟨l, u⟩ := b
  obtain ⟨h1, h2⟩ := hy
  cases l <;> cases u <;> simp_all [Dbl.le, Dbl.leReal, Dbl.geReal]
  rename_i m n
  have : (m : ℝ) ≤ n := le_trans h1 h2
  exact_mod_cast this

theorem IDouble.contains_neg {a : IDouble} {x : ℝ} (hx : a.Contains x) :
    (negate_intervald a).Contains (-x) := by
  constructor
  · show Dbl.leReal a.ub.neg (-x)
    rw [Dbl.leReal_neg]
    simpa using hx.2
  · show Dbl.geReal a.lb.neg (-x)
    rw [Dbl.geReal_neg]
    simpa using hx.1

/-- The infinity path on a negative denominator is the infinity path on the
sign-switched operands. -/
theorem div_infinities_flip {a b : IDouble} (hl : Dbl.lt b.lb (Dbl.fin 0) = true)
    (hu : Dbl.lt b.ub (Dbl.fin 0) = true) :
    div_intervald_with_infinities a b =
      div_intervald_with_infinities (negate_intervald a) (negate_intervald b) := by
  rw [div_intervald_with_infinities_eq a b, div_intervald_with_infinities_eq]
  have h2 : Dbl.lt (negate_intervald b).lb (Dbl.fin 0) = false := by
    show Dbl.lt b.ub.neg (Dbl.fin 0) = false
    rw [Dbl.lt_neg_zero]
    exact Dbl.cmp_not_lt_of_le (Dbl.cmp_le_of_lt hu)
  simp only [hl, h2, if_true, Bool.false_eq_true, if_false]

/-- The infinity path is enclosing: for a denominator that does not contain zero
and reals `x` in `a`, `y` in `b`, the result contains `x / y`. -/
theorem div_infinities_contains {a b : IDouble} {x y : ℝ} (hx : a.Contains x)
    (hy : b.Contains y)
    (h0 : ¬ (Dbl.le b.lb (Dbl.fin 0) = true ∧ Dbl.le (Dbl.fin 0) b.ub = true)) :
    (div_intervald_with_infinities a b).Contains (x / y * 2 ^ 1074) := by
  rcases IDouble.pos_or_neg_of_not_zero (IDouble.le_of_contains hy) h0 with hp | hn
  · exact div_infinities_contains_pos hx hy hp
  · have hl : Dbl.lt b.lb (Dbl.fin 0) = true :=
      Dbl.cmp_le_lt (IDouble.le_of_contains hy) hn
    rw [div_infinities_flip hl hn]
    have hp : Dbl.lt (Dbl.fin 0) (negate_intervald b).lb = true := by
      show Dbl.lt (Dbl.fin 0) b.ub.neg = true
      rw [Dbl.lt_zero_neg]
      exact hn
    have := div_infinities_contains_pos (IDouble.contains_neg hx) (IDouble.contains_neg hy) hp
    rw [neg_div_neg_eq] at this
    exact this

end ivarp

namespace ivarp

theorem Dbl.ne_zero_of_lt_zero {c : Dbl} (h : Dbl.lt c (Dbl.fin 0) = true) : c ≠ Dbl.fin 0 := by
  intro hc
  rw [hc] at h
  simp [Dbl.lt] at h

/-- The endpoints that the infinity path would return are among the lanes of the
four-quotient path. -/
theorem div_selected_lanes (a : IDouble) {b : IDouble} (hb : Dbl.le b.lb b.ub = true)
    (h0 : ¬ (Dbl.le b.lb (Dbl.fin 0) = true ∧ Dbl.le (Dbl.fin 0) b.ub = true)) :
    (div_intervald_with_infinities a b).lb ∈
      [Dbl.div a.lb b.lb, Dbl.div a.lb b.ub, Dbl.div a.ub b.lb, Dbl.div a.ub b.ub] ∧
    ∃ w ∈ [Dbl.div a.lb.neg b.lb, Dbl.div a.lb.neg b.ub, Dbl.div a.ub.neg b.lb,
        Dbl.div a.ub.neg b.ub], (div_intervald_with_infinities a b).ub = w.neg := by
  rcases IDouble.pos_or_neg_of_not_zero hb h0 with hp | hn
  · have hflip : Dbl.lt b.lb (Dbl.fin 0) = false := Dbl.cmp_not_lt_of_le (Dbl.cmp_le_of_lt hp)
    rw [div_intervald_with_infinities_eq]
    simp only [hflip, Bool.false_eq_true, if_false, ← Dbl.neg_div_neg]
    constructor
    · split <;> simp
    · split
      · exact ⟨_, by simp, rfl⟩
      · split
        · exact ⟨_, by simp, rfl⟩
        · exact ⟨_, by simp, rfl⟩
  · have hl : Dbl.lt b.lb (Dbl.fin 0) = true := Dbl.cmp_le_lt hb hn
    have hl0 := Dbl.ne_zero_of_lt_zero hl
    have hu0 := Dbl.ne_zero_of_lt_zero hn
    rw [div_infinities_flip hl hn, div_intervald_with_infinities_eq]
    have h2 : Dbl.lt b.ub.neg (Dbl.fin 0) = false := by
      rw [Dbl.lt_neg_zero]
      exact Dbl.cmp_not_lt_of_le (Dbl.cmp_le_of_lt hn)
    simp only [negate_intervald, h2, Bool.false_eq_true, if_false, ← Dbl.neg_div_neg]
    constructor
    · split
      · rw [Dbl.div_neg_neg _ hl0]; simp
      · rw [Dbl.div_neg_neg _ hu0]; simp
    · split
      · exact ⟨Dbl.div a.lb.neg b.ub, by simp, by rw [Dbl.div_neg_neg _ hu0]⟩
      · split
        · exact ⟨Dbl.div a.lb.neg b.lb, by simp, by rw [Dbl.div_neg_neg _ hl0]⟩
        · exact ⟨Dbl.div a.lb.neg b.ub, by simp, by rw [Dbl.div_neg_neg _ hu0]⟩

theorem Dbl.div_ne_nan_of_fin {x : Dbl} (hx : x.isNaN = false) {m : Int} (hm : m ≠ 0) :
    (Dbl.div x (Dbl.fin m)).isNaN = false := by
  cases x with
  | nan => simp [Dbl.isNaN] at hx
  | fin a => exact Dbl.div_fin_ne_nan a hm
  | pinf => simp only [Dbl.div]; split <;> rfl
  | ninf => simp only [Dbl.div]; split <;> rfl

theorem Dbl.div_ne_nan_of_isFinite {x y : Dbl} (hx : x.isNaN = false) (hy : y.isFinite = true)
    (h0 : y ≠ Dbl.fin 0) : (Dbl.div x y).isNaN = false := by
  cases y with
  | fin m => exact Dbl.div_ne_nan_of_fin hx (fun h => h0 (by rw [h]))
  | nan => simp [Dbl.isFinite] at hy
  | pinf => simp [Dbl.isFinite] at hy
  | ninf => simp [Dbl.isFinite] at hy

/-- The four quotients of the finite path are not NaN. -/
theorem div_lanes_ne_nan {a b : IDouble} (hb : Dbl.le b.lb b.ub = true)
    (h0 : ¬ (Dbl.le b.lb (Dbl.fin 0) = true ∧ Dbl.le (Dbl.fin 0) b.ub = true))
    (hfin : (a.lb.isInf || a.ub.isInf || b.lb.isInf || b.ub.isInf) = false)
    {x : Dbl} (hx : x.isNaN = false) :
    (Dbl.div x b.lb).isNaN = false ∧ (Dbl.div x b.ub).isNaN = false := by
  have hne : b.lb ≠ Dbl.fin 0 ∧ b.ub ≠ Dbl.fin 0 := by
    obtain ⟨l, u⟩ := b
    cases l <;> cases u <;> simp_all [Dbl.le]
    all_goals omega
  have hf : b.lb.isFinite = true ∧ b.ub.isFinite = true := by
    obtain ⟨l, u⟩ := b
    cases l <;> cases u <;> simp_all [Dbl.le, Dbl.isInf, Dbl.isFinite]
  exact ⟨Dbl.div_ne_nan_of_isFinite hx hf.1 hne.1, Dbl.div_ne_nan_of_isFinite hx hf.2 hne.2⟩

/-- Division is enclosing on both paths. -/
theorem div_intervald_contains {a b : IDouble} {x y : ℝ} (hx : a.Contains x)
    (hy : b.Contains y)
    (h0 : ¬ (Dbl.le b.lb (Dbl.fin 0) = true ∧ Dbl.le (Dbl.fin 0) b.ub = true)) :
    (div_intervald a b).Contains (x / y * 2 ^ 1074) := by
  have ha := IDouble.not_nan_of_contains hx
  have hb := IDouble.not_nan_of_contains hy
  have hord := IDouble.le_of_contains hy
  have hinf := div_infinities_contains hx hy h0
  rw [div_intervald_eq ha hb h0]
  by_cases hi : (a.lb.isInf || a.ub.isInf || b.lb.isInf || b.ub.isInf) = true
  · rw [if_pos hi]
    exact hinf
  · rw [if_neg hi]
    have hi' : (a.lb.isInf || a.ub.isInf || b.lb.isInf || b.ub.isInf) = false := by
      simpa using hi
    simp only [IDouble.possibly_undefined, Bool.or_eq_false_iff] at ha
    have nl := div_lanes_ne_nan hord h0 hi' ha.1
    have nu := div_lanes_ne_nan hord h0 hi' ha.2
    have nl' := div_lanes_ne_nan hord h0 hi' (x := a.lb.neg) (by rw [Dbl.isNaN_neg]; exact ha.1)
    have nu' := div_lanes_ne_nan hord h0 hi' (x := a.ub.neg) (by rw [Dbl.isNaN_neg]; exact ha.2)
    obtain ⟨hsel, w, hw, hwu⟩ := div_selected_lanes a hord h0
    constructor
    · exact Dbl.leReal_of_isMinOf (horizontal_min_isMinOf nl.1 nl.2 nu.1 nu.2) ⟨_, hsel, hinf.1⟩
    · show Dbl.geReal (Dbl.neg _) _
      rw [Dbl.geReal_neg]
      refine Dbl.leReal_of_isMinOf (horizontal_min_isMinOf nl'.1 nl'.2 nu'.1 nu'.2) ⟨w, hw, ?_⟩
      have := hinf.2
      rw [hwu, Dbl.geReal_neg] at this
      exact this

/-- C15. Division is enclosing, on the infinity path too: for intervals `a`, `b`
with `0` not in `[b.lb, b.ub]` and finite reals `x` in `a` and `y` in `b` (so
`a` and `b` have no NaN endpoint and are ordered; endpoints may be infinite),
`(a / b).lb <= x / y <= (a / b).ub`.  When an endpoint is infinite the result is
that of the infinity path, which switches the signs of both operands when
`b.lb < 0` and then divides `a.lb` (rounding down) and `a.ub` (rounding up) by
the endpoint of the denominator selected by the sign case of the numerator:
non-negative, non-positive or mixed.  Reals are in units of `2^(-1074)`, in
which the quotient of `x` and `y` is `x / y * 2^1074`. -/
theorem IDouble.div_enclosing (a b : IDouble) (x y : ℝ) (hx : a.Contains x) (hy : b.Contains y)
    (h0 : ¬ (Dbl.le b.lb (Dbl.fin 0) = true ∧ Dbl.le (Dbl.fin 0) b.ub = true)) :
    Dbl.leReal (a.div b).lb (x / y * 2 ^ 1074) ∧
    Dbl.geReal (a.div b).ub (x / y * 2 ^ 1074) ∧
    ((a.lb.isInf || a.ub.isInf || b.lb.isInf || b.ub.isInf) = true →
      a.div b = div_intervald_with_infinities a b) ∧
    div_intervald_with_infinities a b =
      (let n := if Dbl.lt b.lb (Dbl.fin 0) then a.neg else a
       let d := if Dbl.lt b.lb (Dbl.fin 0) then b.neg else b
       ⟨Dbl.div n.lb (if Dbl.le (Dbl.fin 0) n.lb then d.ub else d.lb),
        Dbl.divUp n.ub
          (if Dbl.le (Dbl.fin 0) n.lb then d.lb
           else if Dbl.le n.ub (Dbl.fin 0) then d.ub else d.lb)⟩) := by
  refine ⟨(div_intervald_contains hx hy h0).1, (div_intervald_contains hx hy h0).2, ?_,
    div_intervald_with_infinities_eq a b⟩
  intro hi
  show div_intervald a b = _
  rw [div_intervald_eq (IDouble.not_nan_of_contains hx) (IDouble.not_nan_of_contains hy) h0,
    if_pos hi]

/-- Witness of C15 at `a = [-∞, -1]`, `b = [-∞, -1]`, `x = -2`, `y = -1` (in units
of `2^(-1074)`: `x = -2^1075`, `y = -2^1074`). -/
theorem IDouble.div_enclosing_witness :
    Dbl.leReal ((IDouble.mk Dbl.ninf (Dbl.ofInt (-1))).div ⟨Dbl.ninf, Dbl.ofInt (-1)⟩).lb
      (-2 ^ 1075 / -2 ^ 1074 * 2 ^ 1074) ∧
    Dbl.geReal ((IDouble.mk Dbl.ninf (Dbl.ofInt (-1))).div ⟨Dbl.ninf, Dbl.ofInt (-1)⟩).ub
      (-2 ^ 1075 / -2 ^ 1074 * 2 ^ 1074) :=
  ⟨(IDouble.div_enclosing ⟨Dbl.ninf, Dbl.ofInt (-1)⟩ ⟨Dbl.ninf, Dbl.ofInt (-1)⟩
      (-2 ^ 1075) (-2 ^ 1074)
      ⟨trivial, by
        show (-2 ^ 1075 : ℝ) ≤ ((-1 * pow2 1074 : Int) : ℝ)
        rw [Int.cast_mul, Dbl.pow2_cast]
        norm_num⟩
      ⟨trivial, by
        show (-2 ^ 1074 : ℝ) ≤ ((-1 * pow2 1074 : Int) : ℝ)
        rw [Int.cast_mul, Dbl.pow2_cast]
        norm_num⟩
      (by decide)).1,
   (IDouble.div_enclosing ⟨Dbl.ninf, Dbl.ofInt (-1)⟩ ⟨Dbl.ninf, Dbl.ofInt (-1)⟩
      (-2 ^ 1075) (-2 ^ 1074)
      ⟨trivial, by
        show (-2 ^ 1075 : ℝ) ≤ ((-1 * pow2 1074 : Int) : ℝ)
        rw [Int.cast_mul, Dbl.pow2_cast]
        norm_num⟩
      ⟨trivial, by
        show (-2 ^ 1074 : ℝ) ≤ ((-1 * pow2 1074 : Int) : ℝ)
        rw [Int.cast_mul, Dbl.pow2_cast]
        norm_num⟩
      (by decide)).2.1⟩

end ivarp

namespace ivarp

theorem Dbl.isNaN_of_isMinOf {m : Dbl} {l : List Dbl} (h : Dbl.IsMinOf m l)
    (hl : ∀ x ∈ l, x.isNaN = false) : m.isNaN = false :=
  hl m h.1

/-- On the four-quotient path no endpoint of the quotient is NaN. -/
theorem div_finite_path_ne_nan {a b : IDouble} (ha : a.possibly_undefined = false)
    (hb : b.possibly_undefined = false) (hord : Dbl.le b.lb b.ub = true)
    (h0 : ¬ (Dbl.le b.lb (Dbl.fin 0) = true ∧ Dbl.le (Dbl.fin 0) b.ub = true))
    (hi : (a.lb.isInf || a.ub.isInf || b.lb.isInf || b.ub.isInf) = false) :
    (div_intervald a b).possibly_undefined = false := by
  rw [div_intervald_eq ha hb h0, if_neg (by rw [hi]; simp)]
  simp only [IDouble.possibly_undefined, Bool.or_eq_false_iff] at ha ⊢
  have nl := div_lanes_ne_nan hord h0 hi ha.1
  have nu := div_lanes_ne_nan hord h0 hi ha.2
  have nl' := div_lanes_ne_nan hord h0 hi (x := a.lb.neg) (by rw [Dbl.isNaN_neg]; exact ha.1)
  have nu' := div_lanes_ne_nan hord h0 hi (x := a.ub.neg) (by rw [Dbl.isNaN_neg]; exact ha.2)
  constructor
  · apply Dbl.isNaN_of_isMinOf (horizontal_min_isMinOf nl.1 nl.2 nu.1 nu.2)
    intro x hx
    simp only [List.mem_cons, List.mem_singleton, List.not_mem_nil, or_false] at hx
    rcases hx with rfl | rfl | rfl | rfl
    · exact nl.1
    · exact nl.2
    · exact nu.1
    · exact nu.2
  · rw [Dbl.isNaN_neg]
    apply Dbl.isNaN_of_isMinOf (horizontal_min_isMinOf nl'.1 nl'.2 nu'.1 nu'.2)
    intro x hx
    simp only [List.mem_cons, List.mem_singleton, List.not_mem_nil, or_false] at hx
    rcases hx with rfl | rfl | rfl | rfl
    · exact nl'.1
    · exact nl'.2
    · exact nu'.1
    · exact nu'.2

/-- On the infinity path with a positive denominator whose lower endpoint is
finite, one endpoint of the quotient is not NaN. -/
theorem div_infinities_pos_not_both_nan {a b : IDouble} (ha : a.possibly_undefined = false)
    (hp : Dbl.lt (Dbl.fin 0) b.lb = true) (hf : b.lb.isFinite = true) :
    ¬ ((div_intervald_with_infinities a b).lb.isNaN = true ∧
       (div_intervald_with_infinities a b).ub.isNaN = true) := by
  have hflip : Dbl.lt b.lb (Dbl.fin 0) = false := Dbl.cmp_not_lt_of_le (Dbl.cmp_le_of_lt hp)
  have hne : b.lb ≠ Dbl.fin 0 := by
    intro h
    rw [h] at hp
    simp [Dbl.lt] at hp
  simp only [IDouble.possibly_undefined, Bool.or_eq_false_iff] at ha
  rw [div_intervald_with_infinities_eq]
  simp only [hflip, Bool.false_eq_true, if_false, ← Dbl.neg_div_neg]
  by_cases h1 : Dbl.le (Dbl.fin 0) a.lb = true
  · simp only [if_pos h1, Dbl.isNaN_neg]
    rw [Dbl.div_ne_nan_of_isFinite (by rw [Dbl.isNaN_neg]; exact ha.2) hf hne]
    simp
  · simp only [if_neg h1]
    rw [Dbl.div_ne_nan_of_isFinite ha.1 hf hne]
    simp

/-- On the infinity path, for an ordered denominator with a finite endpoint that
does not contain zero, one endpoint of the quotient is not NaN. -/
theorem div_infinities_not_both_nan {a b : IDouble} (ha : a.possibly_undefined = false)
    (hord : Dbl.le b.lb b.ub = true)
    (h0 : ¬ (Dbl.le b.lb (Dbl.fin 0) = true ∧ Dbl.le (Dbl.fin 0) b.ub = true))
    (hf : (b.lb.isFinite || b.ub.isFinite) = true) :
    ¬ ((div_intervald_with_infinities a b).lb.isNaN = true ∧
       (div_intervald_with_infinities a b).ub.isNaN = true) := by
  rcases IDouble.pos_or_neg_of_not_zero hord h0 with hp | hn
  · apply div_infinities_pos_not_both_nan ha hp
    obtain ⟨l, u⟩ := b
    cases l <;> cases u <;> simp_all [Dbl.le, Dbl.lt, Dbl.isFinite]
  · have hl : Dbl.lt b.lb (Dbl.fin 0) = true := Dbl.cmp_le_lt hord hn
    rw [div_infinities_flip hl hn]
    have ha' : (negate_intervald a).possibly_undefined = false := by
      simp only [IDouble.possibly_undefined, Bool.or_eq_false_iff, negate_intervald,
        Dbl.isNaN_neg] at ha ⊢
      exact ⟨ha.2, ha.1⟩
    apply div_infinities_pos_not_both_nan ha'
    · show Dbl.lt (Dbl.fin 0) b.ub.neg = true
      rw [Dbl.lt_zero_neg]
      exact hn
    · show b.ub.neg.isFinite = true
      obtain ⟨l, u⟩ := b
      cases l <;> cases u <;> simp_all [Dbl.le, Dbl.lt, Dbl.isFinite, Dbl.neg]

/-- C14, as amended.  For intervals `a`, `b` without NaN: if `b.lb <= 0 <= b.ub`
then `a / b` is the fully undefined interval; for an ordered `b` with a finite
endpoint, `a / b` is fully undefined if and only if `b.lb <= 0 <= b.ub`; and for
finite `a` and finite ordered `b` with `0` not in `b`, no endpoint of `a / b` is
NaN. -/
theorem IDouble.div_undefined_iff (a b : IDouble) (ha : a.possibly_undefined = false)
    (hb : b.possibly_undefined = false) :
    ((Dbl.le b.lb (Dbl.fin 0) = true ∧ Dbl.le (Dbl.fin 0) b.ub = true) →
      a.div b = ⟨Dbl.nan, Dbl.nan⟩) ∧
    (Dbl.le b.lb b.ub = true → (b.lb.isFinite || b.ub.isFinite) = true →
      (a.div b = ⟨Dbl.nan, Dbl.nan⟩ ↔
        (Dbl.le b.lb (Dbl.fin 0) = true ∧ Dbl.le (Dbl.fin 0) b.ub = true))) ∧
    (Dbl.le b.lb b.ub = true →
      (a.lb.isFinite && a.ub.isFinite && b.lb.isFinite && b.ub.isFinite) = true →
      ¬ (Dbl.le b.lb (Dbl.fin 0) = true ∧ Dbl.le (Dbl.fin 0) b.ub = true) →
      (a.div b).possibly_undefined = false) := by
  have h1 : (Dbl.le b.lb (Dbl.fin 0) = true ∧ Dbl.le (Dbl.fin 0) b.ub = true) →
      a.div b = ⟨Dbl.nan, Dbl.nan⟩ := by
    intro h
    show div_intervald a b = _
    unfold div_intervald
    simp only
    rw [if_neg (cmpunord_of_not_hasNaN ha hb), if_pos (by simp [h.1, h.2])]
    rfl
  refine ⟨h1, ?_, ?_⟩
  · intro hord hf
    refine ⟨?_, h1⟩
    intro hnan
    by_contra h0
    by_cases hi : (a.lb.isInf || a.ub.isInf || b.lb.isInf || b.ub.isInf) = true
    · have heq : div_intervald a b = div_intervald_with_infinities a b := by
        rw [div_intervald_eq ha hb h0, if_pos hi]
      apply div_infinities_not_both_nan ha hord h0 hf
      rw [← heq]
      change div_intervald a b = _ at hnan
      rw [hnan]
      exact ⟨rfl, rfl⟩
    · have := div_finite_path_ne_nan ha hb hord h0 (by simpa using hi)
      change div_intervald a b = _ at hnan
      rw [hnan] at this
      simp [IDouble.possibly_undefined, Dbl.isNaN] at this
  · intro hord hfin h0
    apply div_finite_path_ne_nan ha hb hord h0
    obtain ⟨al, au⟩ := a
    obtain ⟨bl, bu⟩ := b
    cases al <;> cases au <;> cases bl <;> cases bu <;> simp_all [Dbl.isFinite, Dbl.isInf]

/-- Witness of C14 as amended, at `a = [1, 2]` with `b = [-1, 1]` and with
`b = [2, 4]`. -/
theorem IDouble.div_undefined_iff_witness :
    (IDouble.mk (Dbl.ofInt 1) (Dbl.ofInt 2)).div ⟨Dbl.ofInt (-1), Dbl.ofInt 1⟩
      = ⟨Dbl.nan, Dbl.nan⟩ ∧
    ((IDouble.mk (Dbl.ofInt 1) (Dbl.ofInt 2)).div ⟨Dbl.ofInt 2, Dbl.ofInt 4⟩).possibly_undefined
      = false :=
  ⟨(IDouble.div_undefined_iff ⟨Dbl.ofInt 1, Dbl.ofInt 2⟩ ⟨Dbl.ofInt (-1), Dbl.ofInt 1⟩
      rfl rfl).1 (by decide),
   (IDouble.div_undefined_iff ⟨Dbl.ofInt 1, Dbl.ofInt 2⟩ ⟨Dbl.ofInt 2, Dbl.ofInt 4⟩
      rfl rfl).2.2 (by decide) (by decide) (by decide)⟩

/-- Counterexample to C14 as stated: `[+∞, +∞] / [+∞, +∞]` is the fully undefined
interval although neither operand has a NaN endpoint and `0` is not in the
denominator (`∞ / ∞` is NaN); and so is `[0, 0] / [1, 0]`, whose denominator is
an empty interval without `0` (`0 / 0` is NaN). -/
theorem IDouble.div_undefined_without_zero :
    (IDouble.mk Dbl.pinf Dbl.pinf).possibly_undefined = false ∧
    (IDouble.mk Dbl.pinf Dbl.pinf).div ⟨Dbl.pinf, Dbl.pinf⟩ = ⟨Dbl.nan, Dbl.nan⟩ ∧
    ¬ (Dbl.le Dbl.pinf (Dbl.fin 0) = true ∧ Dbl.le (Dbl.fin 0) Dbl.pinf = true) ∧
    (IDouble.mk (Dbl.fin 0) (Dbl.fin 0)).div ⟨Dbl.ofInt 1, Dbl.fin 0⟩ = ⟨Dbl.nan, Dbl.nan⟩ ∧
    ¬ (Dbl.le (Dbl.ofInt 1) (Dbl.fin 0) = true ∧ Dbl.le (Dbl.fin 0) (Dbl.fin 0) = true) := by
  decide

end ivarp

/-! ## Square root -/

namespace ivarp
namespace Dbl

/-- The checked Newton iteration is the integer square root. -/
theorem isqrt_eq (n : Nat) : isqrt n = Nat.sqrt n := by
  unfold isqrt
  simp only
  split
  · rename_i h
    exact Nat.eq_sqrt.2 h
  · rfl

theorem sqrt_div_sq (X : Nat) {k : Nat} (hk : 0 < k) :
    Nat.sqrt (X / (k * k)) = Nat.sqrt X / k := by
  symm
  rw [Nat.eq_sqrt]
  have hkk : 0 < k * k := Nat.mul_pos hk hk
  constructor
  · rw [Nat.le_div_iff_mul_le hkk]
    calc Nat.sqrt X / k * (Nat.sqrt X / k) * (k * k)
        = (Nat.sqrt X / k * k) * (Nat.sqrt X / k * k) := by ring
      _ ≤ Nat.sqrt X * Nat.sqrt X :=
        Nat.mul_le_mul (Nat.div_mul_le_self _ _) (Nat.div_mul_le_self _ _)
      _ ≤ X := Nat.sqrt_le X
  · rw [Nat.div_lt_iff_lt_mul hkk]
    have h1 : Nat.sqrt X < (Nat.sqrt X / k + 1) * k := by
      have := Nat.lt_succ_self (Nat.sqrt X / k)
      rw [Nat.div_lt_iff_lt_mul hk] at this
      exact this
    have h2 : Nat.sqrt X + 1 ≤ (Nat.sqrt X / k + 1) * k := h1
    calc X < (Nat.sqrt X + 1) * (Nat.sqrt X + 1) := Nat.lt_succ_sqrt X
      _ ≤ ((Nat.sqrt X / k + 1) * k) * ((Nat.sqrt X / k + 1) * k) := Nat.mul_le_mul h2 h2
      _ = (Nat.sqrt X / k + 1) * (Nat.sqrt X / k + 1) * (k * k) := by ring

theorem four_pow (e : Nat) : 4 ^ e = 2 ^ e * 2 ^ e := by
  rw [← Nat.mul_pow]

theorem sqrt_div_four_pow (X e : Nat) : Nat.sqrt (X / 4 ^ e) = Nat.sqrt X / 2 ^ e := by
  rw [four_pow, sqrt_div_sq X (Nat.pos_of_ne_zero (by positivity))]

/-- Under rounding control `1` the square root of a positive double is the floor
of the exact root in units of the last place. -/
theorem sqrtRound_down (n : Nat) :
    sqrtRound 1 n =
      fin ((Nat.sqrt (n * 2 ^ 1074) / 2 ^ ulpAux 13 (Nat.sqrt (n * 2 ^ 1074)) *
        2 ^ ulpAux 13 (Nat.sqrt (n * 2 ^ 1074)) : Nat) : Int) := by
  unfold sqrtRound
  simp only [isqrt_eq, sqrt_div_four_pow]
  split <;> simp

/-- Under rounding control `2` the square root of a positive double is the exact
root when that is a multiple of the unit in the last place, and the next multiple
above the root otherwise. -/
theorem sqrtRound_up (n : Nat) :
    sqrtRound 2 n =
      (if Nat.sqrt (n * 2 ^ 1074) * Nat.sqrt (n * 2 ^ 1074) = n * 2 ^ 1074 ∧
          Nat.sqrt (n * 2 ^ 1074) % 2 ^ ulpAux 13 (Nat.sqrt (n * 2 ^ 1074)) = 0
       then fin (Nat.sqrt (n * 2 ^ 1074) : Int)
       else fin (((Nat.sqrt (n * 2 ^ 1074) / 2 ^ ulpAux 13 (Nat.sqrt (n * 2 ^ 1074)) + 1) *
          2 ^ ulpAux 13 (Nat.sqrt (n * 2 ^ 1074)) : Nat) : Int)) := by
  unfold sqrtRound
  simp only [isqrt_eq, sqrt_div_four_pow]
  set X := n * 2 ^ 1074
  set r := Nat.sqrt X
  set e := ulpAux 13 r
  have hiff : (r / 2 ^ e * (r / 2 ^ e) * 4 ^ e = X) ↔ (r * r = X ∧ r % 2 ^ e = 0) := by
    constructor
    · intro h
      have h1 : (r / 2 ^ e * 2 ^ e) * (r / 2 ^ e * 2 ^ e) = X := by
        rw [← h, four_pow]; ring
      have h2 : r / 2 ^ e * 2 ^ e = r := by
        have := Nat.sqrt_eq (r / 2 ^ e * 2 ^ e)
        rw [h1] at this
        exact this.symm
      refine ⟨by rw [← h2]; exact h1, ?_⟩
      rw [← h2]
      exact Nat.mul_mod_left _ _
    · rintro ⟨h1, h2⟩
      have h3 : r / 2 ^ e * 2 ^ e = r := Nat.div_mul_cancel (Nat.dvd_of_mod_eq_zero h2)
      calc r / 2 ^ e * (r / 2 ^ e) * 4 ^ e
          = (r / 2 ^ e * 2 ^ e) * (r / 2 ^ e * 2 ^ e) := by rw [four_pow]; ring
        _ = X := by rw [h3, h1]
  by_cases hex : r * r = X ∧ r % 2 ^ e = 0
  · have hex' := hiff.2 hex
    have h3 : r / 2 ^ e * 2 ^ e = r := Nat.div_mul_cancel (Nat.dvd_of_mod_eq_zero hex.2)
    simp [hex, hex', h3]
  · have hex' : ¬ (r / 2 ^ e * (r / 2 ^ e) * 4 ^ e = X) := fun h => hex (hiff.1 h)
    simp [hex, hex']

theorem vsqrtsd_down {m : Nat} (hm : rounding_control m = 1) (x : Dbl) :
    vsqrtsd m x = sqrtDown x := by
  cases x with
  | nan => rfl
  | ninf => rfl
  | pinf => rfl
  | fin n =>
    simp only [vsqrtsd, sqrtDown, hm]
    by_cases h1 : n < 0
    · simp [h1]
    · by_cases h2 : n = 0
      · subst h2
        simp
      · simp only [if_neg h1, if_neg h2]
        exact sqrtRound_down _

theorem vsqrtsd_up {m : Nat} (hm : rounding_control m = 2) (x : Dbl) :
    vsqrtsd m x = sqrtUp x := by
  cases x with
  | nan => rfl
  | ninf => rfl
  | pinf => rfl
  | fin n =>
    simp only [vsqrtsd, sqrtUp, hm]
    by_cases h1 : n < 0
    · simp [h1]
    · by_cases h2 : n = 0
      · subst h2
        simp
      · simp only [if_neg h1, if_neg h2]
        exact sqrtRound_up _

theorem sqrt_radicand_lt {n : Int} (hn : 0 ≤ n) (hmax : n ≤ maxFinite) :
    Nat.sqrt (n.toNat * 2 ^ 1074) < 2 ^ 2100 := by
  rw [Nat.sqrt_lt]
  have h1 : n.toNat < 2 ^ 2098 := by
    have := maxFinite_lt
    have h2 : (n.toNat : Int) < ((2 ^ 2098 : Nat) : Int) := by
      rw [Int.toNat_of_nonneg hn]
      exact lt_of_le_of_lt hmax this
    exact_mod_cast h2
  calc n.toNat * 2 ^ 1074 < 2 ^ 2098 * 2 ^ 1074 :=
        Nat.mul_lt_mul_of_pos_right h1 (by positivity)
    _ ≤ 2 ^ 2100 * 2 ^ 2100 := by
        rw [← Nat.pow_add, ← Nat.pow_add]
        exact Nat.pow_le_pow_right (by decide) (by decide)

/-- The square root rounded downward is the largest multiple of the unit in the
last place whose square is not above the radicand: `r` has at most 53
significant bits, `r^2 <= n * 2^1074 < (r + 2^e)^2` (the exact root of the double
`n * 2^(-1074)` is `√(n * 2^1074)` in units of `2^(-1074)`). -/
theorem sqrtDown_spec {n : Int} (hn : 0 ≤ n) (hmax : n ≤ maxFinite) :
    ∃ r e : Nat, sqrtDown (fin n) = fin (r : Int) ∧ 2 ^ e ∣ r ∧ r / 2 ^ e < 2 ^ 53 ∧
      r * r ≤ n.toNat * 2 ^ 1074 ∧ n.toNat * 2 ^ 1074 < (r + 2 ^ e) * (r + 2 ^ e) := by
  have hn' : ¬ n < 0 := by omega
  set X := n.toNat * 2 ^ 1074 with hX
  set s := Nat.sqrt X with hs
  set e := ulpAux 13 s with he
  have hpos : 0 < 2 ^ e := by positivity
  refine ⟨s / 2 ^ e * 2 ^ e, e, ?_, Nat.dvd_mul_left _ _, ?_, ?_, ?_⟩
  · simp only [sqrtDown, if_neg hn']
  · rw [Nat.mul_div_cancel _ hpos, Nat.div_lt_iff_lt_mul hpos, ← Nat.pow_add]
    exact ulp_lt (sqrt_radicand_lt hn hmax)
  · calc s / 2 ^ e * 2 ^ e * (s / 2 ^ e * 2 ^ e) ≤ s * s :=
          Nat.mul_le_mul (Nat.div_mul_le_self _ _) (Nat.div_mul_le_self _ _)
      _ ≤ X := Nat.sqrt_le X
  · have h1 : s < (s / 2 ^ e + 1) * 2 ^ e := by
      have := Nat.lt_succ_self (s / 2 ^ e)
      rw [Nat.div_lt_iff_lt_mul hpos] at this
      exact this
    have h2 : s + 1 ≤ s / 2 ^ e * 2 ^ e + 2 ^ e := by
      have : (s / 2 ^ e + 1) * 2 ^ e = s / 2 ^ e * 2 ^ e + 2 ^ e := by ring
      omega
    calc X < (s + 1) * (s + 1) := Nat.lt_succ_sqrt X
      _ ≤ _ := Nat.mul_le_mul h2 h2

/-- The square root rounded upward is the smallest multiple of the unit in the
last place whose square is not below the radicand. -/
theorem sqrtUp_spec {n : Int} (hn : 0 ≤ n) :
    ∃ r e : Nat, sqrtUp (fin n) = fin (r : Int) ∧ 2 ^ e ∣ r ∧
      n.toNat * 2 ^ 1074 ≤ r * r ∧
      (r * r = n.toNat * 2 ^ 1074 ∨
        (2 ^ e ≤ r ∧ (r - 2 ^ e) * (r - 2 ^ e) < n.toNat * 2 ^ 1074)) := by
  have hn' : ¬ n < 0 := by omega
  set X := n.toNat * 2 ^ 1074 with hX
  set s := Nat.sqrt X with hs
  set e := ulpAux 13 s with he
  have hpos : 0 < 2 ^ e := by positivity
  by_cases hex : s * s = X ∧ s % 2 ^ e = 0
  · refine ⟨s, e, ?_, Nat.dvd_of_mod_eq_zero hex.2, le_of_eq hex.1.symm, Or.inl hex.1⟩
    simp only [sqrtUp, if_neg hn']
    rw [if_pos hex]
  · have h1 : s < (s / 2 ^ e + 1) * 2 ^ e := by
      have := Nat.lt_succ_self (s / 2 ^ e)
      rw [Nat.div_lt_iff_lt_mul hpos] at this
      exact this
    refine ⟨(s / 2 ^ e + 1) * 2 ^ e, e, ?_, Nat.dvd_mul_left _ _, ?_, Or.inr ⟨?_, ?_⟩⟩
    · simp only [sqrtUp, if_neg hn']
      rw [if_neg hex]
    · have h2 : s + 1 ≤ (s / 2 ^ e + 1) * 2 ^ e := h1
      exact le_of_lt (lt_of_lt_of_le (Nat.lt_succ_sqrt X) (Nat.mul_le_mul h2 h2))
    · calc 2 ^ e = 1 * 2 ^ e := (Nat.one_mul _).symm
        _ ≤ (s / 2 ^ e + 1) * 2 ^ e := Nat.mul_le_mul_right _ (Nat.le_add_left 1 _)
    · have h3 : (s / 2 ^ e + 1) * 2 ^ e - 2 ^ e = s / 2 ^ e * 2 ^ e := by
        have : (s / 2 ^ e + 1) * 2 ^ e = s / 2 ^ e * 2 ^ e + 2 ^ e := by ring
        omega
      rw [h3]
      have hle : s / 2 ^ e * 2 ^ e ≤ s := Nat.div_mul_le_self _ _
      by_cases hsq : s * s = X
      · have hmod : ¬ s % 2 ^ e = 0 := fun h => hex ⟨hsq, h⟩
        have hlt : s / 2 ^ e * 2 ^ e < s := by
          rcases Nat.lt_or_ge (s / 2 ^ e * 2 ^ e) s with h | h
          · exact h
          · exfalso
            apply hmod
            have : s / 2 ^ e * 2 ^ e = s := le_antisymm hle h
            rw [← this]
            exact Nat.mul_mod_left _ _
        calc s / 2 ^ e * 2 ^ e * (s / 2 ^ e * 2 ^ e) < s * s := Nat.mul_lt_mul'' hlt hlt
          _ = X := hsq
      · have : s * s < X := lt_of_le_of_ne (Nat.sqrt_le X) hsq
        exact lt_of_le_of_lt (Nat.mul_le_mul hle hle) this

/-- The instruction `xorl $0x6000` switches both bits of the rounding control. -/
theorem rounding_control_xor (m : Nat) :
    rounding_control (m ^^^ 0x6000) = rounding_control m ^^^ 3 := by
  unfold rounding_control
  rw [← Nat.shiftRight_eq_div_pow, ← Nat.shiftRight_eq_div_pow]
  apply Nat.eq_of_testBit_eq
  intro i
  rw [show (4 : Nat) = 2 ^ 2 from rfl]
  simp only [Nat.testBit_mod_two_pow, Nat.testBit_xor, Nat.testBit_shiftRight]
  have b13 : Nat.testBit 24576 13 = true := by decide
  have b14 : Nat.testBit 24576 14 = true := by decide
  have c0 : Nat.testBit 3 0 = true := by decide
  have c1 : Nat.testBit 3 1 = true := by decide
  by_cases hi : i < 2
  · interval_cases i <;> simp [b13, b14, c0, c1]
  · have h1 : Nat.testBit 3 i = false := by
      apply Nat.testBit_lt_two_pow
      calc 3 < 2 ^ 2 := by decide
        _ ≤ 2 ^ i := Nat.pow_le_pow_right (by decide) (by omega)
    simp [hi, h1]

theorem xor_xor_cancel (m k : Nat) : (m ^^^ k) ^^^ k = m := by
  rw [Nat.xor_assoc, Nat.xor_self, Nat.xor_zero]

theorem isNaN_sqrtDown_of_neg {x : Dbl} (h : lt x (fin 0) = true) : (sqrtDown x).isNaN = true := by
  cases x with
  | nan => rfl
  | ninf => rfl
  | pinf => simp [lt] at h
  | fin n =>
    simp only [lt, decide_eq_true_eq] at h
    simp [sqrtDown, h, isNaN]

theorem isNaN_sqrtDown_of_nonneg {x : Dbl} (h : le (fin 0) x = true) :
    (sqrtDown x).isNaN = false := by
  cases x with
  | nan => simp [le] at h
  | ninf => simp [le] at h
  | pinf => rfl
  | fin n =>
    simp only [le, decide_eq_true_eq] at h
    have h' : ¬ n < 0 := by omega
    simp [sqrtDown, h', isNaN]

theorem isNaN_sqrtUp_of_nonneg {x : Dbl} (h : le (fin 0) x = true) : (sqrtUp x).isNaN = false := by
  cases x with
  | nan => simp [le] at h
  | ninf => simp [le] at h
  | pinf => rfl
  | fin n =>
    simp only [le, decide_eq_true_eq] at h
    have h' : ¬ n < 0 := by omega
    simp only [sqrtUp, if_neg h']
    split <;> rfl

end Dbl

/-- The setup of the floating-point environment selects rounding toward minus
infinity. -/
theorem rounding_control_setup (fpmode : Nat) :
    Dbl.rounding_control (setup_floating_point_environment fpmode) = 1 := by
  unfold Dbl.rounding_control setup_floating_point_environment
  rw [← Nat.shiftRight_eq_div_pow]
  apply Nat.eq_of_testBit_eq
  intro i
  rw [show (4 : Nat) = 2 ^ 2 from rfl]
  simp only [Nat.testBit_mod_two_pow, Nat.testBit_shiftRight, Nat.testBit_or, Nat.testBit_and]
  have a13 : Nat.testBit 4294901760 13 = false := by decide
  have a14 : Nat.testBit 4294901760 14 = false := by decide
  have b13 : Nat.testBit 16256 13 = true := by decide
  have b14 : Nat.testBit 16256 14 = false := by decide
  have c1 : Nat.testBit 1 1 = false := by decide
  by_cases hi : i < 2
  · interval_cases i <;> simp [a13, a14, b13, b14, c1]
  · have h1 : Nat.testBit 1 i = false := by
      apply Nat.testBit_lt_two_pow
      calc 1 < 2 ^ 2 := by decide
        _ ≤ 2 ^ i := Nat.pow_le_pow_right (by decide) (by omega)
    simp [hi, h1]

/-- C16, as amended.  In the round-down mode of the program, `sqrt(a)` is
`[sqrt of a.lb rounded downward, sqrt of a.ub rounded upward]` for every
interval `a`, and the register `MXCSR` is handed back unchanged; for every `a`
with `a.lb >= 0` and `a.ub >= 0` (in particular every interval without NaN with
`0 <= a.lb <= a.ub`) the result is not `possibly_undefined`; for every `a` with
`a.lb < 0` it is `possibly_undefined`. -/
theorem IDouble.sqrt_spec (MXCSR : Nat) (hm : Dbl.rounding_control MXCSR = 1) (a : IDouble) :
    a.sqrt MXCSR = ⟨Dbl.sqrtDown a.lb, Dbl.sqrtUp a.ub⟩ ∧
    (sqrt_intervald MXCSR a).2 = MXCSR ∧
    (Dbl.le (Dbl.fin 0) a.lb = true → Dbl.le (Dbl.fin 0) a.ub = true →
      (a.sqrt MXCSR).possibly_undefined = false) ∧
    (Dbl.lt a.lb (Dbl.fin 0) = true → (a.sqrt MXCSR).possibly_undefined = true) := by
  have hup : Dbl.rounding_control (MXCSR ^^^ 0x6000) = 2 := by
    rw [Dbl.rounding_control_xor, hm]
    decide
  have heq : a.sqrt MXCSR = ⟨Dbl.sqrtDown a.lb, Dbl.sqrtUp a.ub⟩ := by
    simp only [IDouble.sqrt, sqrt_intervald]
    rw [Dbl.vsqrtsd_down hm, Dbl.vsqrtsd_up hup]
  refine ⟨heq, ?_, ?_, ?_⟩
  · simp only [sqrt_intervald]
    exact Dbl.xor_xor_cancel _ _
  · intro h1 h2
    rw [heq]
    simp only [IDouble.possibly_undefined, Dbl.isNaN_sqrtDown_of_nonneg h1,
      Dbl.isNaN_sqrtUp_of_nonneg h2]
    rfl
  · intro h1
    rw [heq]
    simp only [IDouble.possibly_undefined, Dbl.isNaN_sqrtDown_of_neg h1]
    rfl

/-- Witness of C16 as amended, in the mode set by
`setup_floating_point_environment`, at `a = [2, 3]` and at `a = [-1, 1]`. -/
theorem IDouble.sqrt_spec_witness :
    ((IDouble.mk (Dbl.ofInt 2) (Dbl.ofInt 3)).sqrt
        (setup_floating_point_environment 0x1f80)).possibly_undefined = false ∧
    ((IDouble.mk (Dbl.ofInt (-1)) (Dbl.ofInt 1)).sqrt
        (setup_floating_point_environment 0x1f80)).possibly_undefined = true :=
  ⟨(IDouble.sqrt_spec (setup_floating_point_environment 0x1f80) (by decide)
      ⟨Dbl.ofInt 2, Dbl.ofInt 3⟩).2.2.1 (by decide) (by decide),
   (IDouble.sqrt_spec (setup_floating_point_environment 0x1f80) (by decide)
      ⟨Dbl.ofInt (-1), Dbl.ofInt 1⟩).2.2.2 (by decide)⟩

/-- Counterexample to C16 as stated: the empty interval `[1, -1]` has `lb >= 0`
and no NaN endpoint, yet its square root `[1, NaN]` is `possibly_undefined`. -/
theorem IDouble.sqrt_undefined_with_nonneg_lb :
    Dbl.le (Dbl.fin 0) (IDouble.mk (Dbl.ofInt 1) (Dbl.ofInt (-1))).lb = true ∧
    (IDouble.mk (Dbl.ofInt 1) (Dbl.ofInt (-1))).possibly_undefined = false ∧
    (IDouble.mk (Dbl.ofInt 1) (Dbl.ofInt (-1))).sqrt (setup_floating_point_environment 0x1f80)
      = ⟨Dbl.ofInt 1, Dbl.nan⟩ ∧
    ((IDouble.mk (Dbl.ofInt 1) (Dbl.ofInt (-1))).sqrt
        (setup_floating_point_environment 0x1f80)).possibly_undefined = true := by
  decide

end ivarp

/-! ## Integer powers -/

namespace ivarp

/-- More fuel than the exponent changes nothing in `PowInterval<N>::compute`. -/
theorem PowInterval_compute_fuel (x : IDouble) (s : Bool × Bool) :
    ∀ (N fuel : Nat), N ≤ fuel → PowInterval_compute fuel N x s = PowInterval_compute N N x s := by
  intro N
  induction N using Nat.strong_induction_on with
  | _ N ih =>
    intro fuel hf
    match N, fuel, hf with
    | 0, fuel, _ => cases fuel <;> rfl
    | 1, fuel, _ => cases fuel <;> rfl
    | N + 2, fuel + 1, hf =>
      simp only [PowInterval_compute]
      rw [ih ((N + 2) / 2) (by omega) fuel (by omega),
        ih ((N + 2) / 2) (by omega) (N + 1) (by omega)]

/-- The recursion of `PowInterval<N>::compute` for `N >= 2`. -/
theorem PowInterval_compute_eq {N : Nat} (hN : 2 ≤ N) (x : IDouble) (s : Bool × Bool) :
    PowInterval_compute N N x s =
      (let xsq := PowInterval_compute (N / 2) (N / 2) x s
       let xsq := vmulpd (mm_xor_pd xsq s) xsq
       if N % 2 = 1 then vmulpd x xsq else xsq) := by
  match N, hN with
  | N + 2, _ =>
    simp only [PowInterval_compute]
    rw [PowInterval_compute_fuel x s ((N + 2) / 2) (N + 1) (by omega)]

theorem PowSingle_compute_fuel (x : Dbl) :
    ∀ (N fuel : Nat), N ≤ fuel → PowSingle_compute fuel N x = PowSingle_compute N N x := by
  intro N
  induction N using Nat.strong_induction_on with
  | _ N ih =>
    intro fuel hf
    match N, fuel, hf with
    | 0, fuel, _ => cases fuel <;> rfl
    | 1, fuel, _ => cases fuel <;> rfl
    | N + 2, fuel + 1, hf =>
      simp only [PowSingle_compute]
      rw [ih ((N + 2) / 2) (by omega) fuel (by omega),
        ih ((N + 2) / 2) (by omega) (N + 1) (by omega)]

/-- The recursion of `PowSingle<N>::compute` for `N >= 2`. -/
theorem pow_ru_single_eq {N : Nat} (hN : 2 ≤ N) (x : Dbl) :
    pow_ru_single N x =
      (if N % 2 = 1 then
        (Dbl.mul x (Dbl.mul (pow_ru_single (N / 2) x).neg (pow_ru_single (N / 2) x))).neg
       else (Dbl.mul (pow_ru_single (N / 2) x).neg (pow_ru_single (N / 2) x)).neg) := by
  unfold pow_ru_single
  match N, hN with
  | N + 2, _ =>
    simp only [PowSingle_compute]
    rw [PowSingle_compute_fuel x ((N + 2) / 2) (N + 1) (by omega)]

namespace Dbl

theorem PowLane_fuel (x : Dbl) (s : Bool) :
    ∀ (N fuel : Nat), N ≤ fuel → PowLane fuel N x s = PowLane N N x s := by
  intro N
  induction N using Nat.strong_induction_on with
  | _ N ih =>
    intro fuel hf
    match N, fuel, hf with
    | 0, fuel, _ => cases fuel <;> rfl
    | 1, fuel, _ => cases fuel <;> rfl
    | N + 2, fuel + 1, hf =>
      simp only [PowLane]
      rw [ih ((N + 2) / 2) (by omega) fuel (by omega),
        ih ((N + 2) / 2) (by omega) (N + 1) (by omega)]

theorem PowLane_eq {N : Nat} (hN : 2 ≤ N) (x : Dbl) (s : Bool) :
    PowLane N N x s =
      (if N % 2 = 1 then mul x (mul (xor_sign (PowLane (N / 2) (N / 2) x s) s)
          (PowLane (N / 2) (N / 2) x s))
       else mul (xor_sign (PowLane (N / 2) (N / 2) x s) s) (PowLane (N / 2) (N / 2) x s)) := by
  match N, hN with
  | N + 2, _ =>
    simp only [PowLane]
    rw [PowLane_fuel x s ((N + 2) / 2) (N + 1) (by omega)]

theorem powWith_fuel (m : Dbl → Dbl → Dbl) (x : Dbl) :
    ∀ (N fuel : Nat), N ≤ fuel → powWith m fuel N x = powWith m N N x := by
  intro N
  induction N using Nat.strong_induction_on with
  | _ N ih =>
    intro fuel hf
    match N, fuel, hf with
    | 0, fuel, _ => cases fuel <;> rfl
    | 1, fuel, _ => cases fuel <;> rfl
    | N + 2, fuel + 1, hf =>
      simp only [powWith]
      rw [ih ((N + 2) / 2) (by omega) fuel (by omega),
        ih ((N + 2) / 2) (by omega) (N + 1) (by omega)]

theorem powWith_eq (m : Dbl → Dbl → Dbl) {N : Nat} (hN : 2 ≤ N) (x : Dbl) :
    powWith m N N x =
      (if N % 2 = 1 then m (m (powWith m (N / 2) (N / 2) x) (powWith m (N / 2) (N / 2) x)) x
       else m (powWith m (N / 2) (N / 2) x) (powWith m (N / 2) (N / 2) x)) := by
  match N, hN with
  | N + 2, _ =>
    simp only [powWith]
    rw [powWith_fuel m x ((N + 2) / 2) (N + 1) (by omega)]

end Dbl

/-- The two lanes of `PowInterval<N>::compute` are computed independently. -/
theorem PowInterval_compute_lanes (x : IDouble) (s : Bool × Bool) :
    ∀ N : Nat, PowInterval_compute N N x s =
      ⟨Dbl.PowLane N N x.lb s.1, Dbl.PowLane N N x.ub s.2⟩ := by
  intro N
  induction N using Nat.strong_induction_on with
  | _ N ih =>
    match N with
    | 0 => rfl
    | 1 => rfl
    | N + 2 =>
      rw [PowInterval_compute_eq (by omega), ih ((N + 2) / 2) (by omega),
        Dbl.PowLane_eq (N := N + 2) (by omega) x.lb s.1,
        Dbl.PowLane_eq (N := N + 2) (by omega) x.ub s.2]
      simp only [vmulpd, mm_xor_pd]
      split <;> rfl

end ivarp

namespace ivarp
namespace Dbl

theorem mul_neg_self (P : Dbl) : mul P.neg P = (mulUp P P).neg := by
  rw [← neg_mul_neg, neg_neg_eq]

theorem mul_neg_left (s x : Dbl) : mul s.neg x = (mulUp s x).neg := by
  rw [← neg_mul_neg, neg_neg_eq]

end Dbl

/-- The function `pow_ru_single<N>` is the power with every product rounded
toward plus infinity. -/
theorem pow_ru_single_eq_powUp (x : Dbl) : ∀ N : Nat, pow_ru_single N x = Dbl.powUp N x := by
  intro N
  induction N using Nat.strong_induction_on with
  | _ N ih =>
    match N with
    | 0 => rfl
    | 1 => rfl
    | N + 2 =>
      rw [pow_ru_single_eq (N := N + 2) (by omega) x, ih ((N + 2) / 2) (by omega)]
      unfold Dbl.powUp
      rw [Dbl.powWith_eq Dbl.mulUp (N := N + 2) (by omega) x]
      split
      · rw [Dbl.mul_neg_self, Dbl.mul_symm, Dbl.mul_neg_left, Dbl.neg_neg_eq]
      · rw [Dbl.mul_neg_self, Dbl.neg_neg_eq]

/-- Lane 0 of `PowInterval<N>::compute` under the mask `SWITCH_UPPER_SIGN128` is
the power with every product rounded toward minus infinity. -/
theorem PowLane_false (x : Dbl) : ∀ N : Nat, Dbl.PowLane N N x false = Dbl.powDown N x := by
  intro N
  induction N using Nat.strong_induction_on with
  | _ N ih =>
    match N with
    | 0 => rfl
    | 1 => rfl
    | N + 2 =>
      rw [Dbl.PowLane_eq (N := N + 2) (by omega) x false, ih ((N + 2) / 2) (by omega)]
      unfold Dbl.powDown
      rw [Dbl.powWith_eq Dbl.mul (N := N + 2) (by omega) x]
      simp only [Dbl.xor_sign, Bool.false_eq_true, if_false]
      split
      · rw [Dbl.mul_symm]
      · rfl

/-- Lane 1 of `PowInterval<N>::compute` under the mask `SWITCH_UPPER_SIGN128`
holds, for `N >= 2`, the sign-switched power with every product rounded toward
plus infinity. -/
theorem PowLane_true (x : Dbl) :
    ∀ N : Nat, 2 ≤ N → Dbl.PowLane N N x true = (Dbl.powUp N x).neg := by
  intro N
  induction N using Nat.strong_induction_on with
  | _ N ih =>
    intro hN
    have hsq : Dbl.mul (Dbl.xor_sign (Dbl.PowLane (N / 2) (N / 2) x true) true)
        (Dbl.PowLane (N / 2) (N / 2) x true)
        = (Dbl.mulUp (Dbl.powUp (N / 2) x) (Dbl.powUp (N / 2) x)).neg := by
      simp only [Dbl.xor_sign, if_true]
      by_cases h1 : N / 2 = 1
      · rw [h1]
        exact Dbl.mul_neg_self x
      · rw [ih (N / 2) (by omega) (by omega), Dbl.neg_neg_eq, Dbl.mul_symm]
        exact Dbl.mul_neg_self _
    rw [Dbl.PowLane_eq hN, hsq]
    unfold Dbl.powUp
    rw [Dbl.powWith_eq Dbl.mulUp (N := N) hN x]
    split
    · rw [Dbl.mul_symm, Dbl.mul_neg_left]
    · rfl

namespace Dbl

theorem roundDown_nonneg {p : Int} (hp : 0 ≤ p) (s : Nat) :
    ∃ k : Int, 0 ≤ k ∧ roundDown p s = fin k := by
  have hpos := maxFinite_pos
  have hr : 0 ≤ roundDownInt p s := by
    unfold roundDownInt
    exact Int.mul_nonneg (Int.ediv_nonneg hp (le_of_lt (pow2_pos _))) (le_of_lt (pow2_pos _))
  unfold roundDown
  simp only
  split
  · exact ⟨maxFinite, le_of_lt hpos, rfl⟩
  · split
    · omega
    · exact ⟨_, hr, rfl⟩

/-- A power, rounded down, of a double that is not negative is not negative. -/
theorem powDown_nonneg {x : Dbl} (hx : le (fin 0) x = true) :
    ∀ N : Nat, 1 ≤ N → (x = pinf → powDown N x = pinf) ∧
      (∀ n : Int, x = fin n → ∃ k : Int, 0 ≤ k ∧ powDown N x = fin k) := by
  intro N
  induction N using Nat.strong_induction_on with
  | _ N ih =>
    intro hN
    match N, hN with
    | 1, _ =>
      refine ⟨fun h => ?_, fun n h => ?_⟩
      · rw [h]; rfl
      · subst h
        simp only [le, decide_eq_true_eq] at hx
        exact ⟨n, hx, rfl⟩
    | N + 2, _ =>
      obtain ⟨ih1, ih2⟩ := ih ((N + 2) / 2) (by omega) (by omega)
      unfold powDown at ih1 ih2 ⊢
      rw [powWith_eq mul (N := N + 2) (by omega) x]
      refine ⟨fun h => ?_, fun n h => ?_⟩
      · rw [ih1 h, h]
        split <;> rfl
      · obtain ⟨k, hk, hk'⟩ := ih2 n h
        rw [hk']
        subst h
        simp only [le, decide_eq_true_eq] at hx
        obtain ⟨k2, hk2, hk2'⟩ := roundDown_nonneg (Int.mul_nonneg hk hk) 1074
        have hsq : mul (fin k) (fin k) = fin k2 := hk2'
        rw [hsq]
        split
        · exact roundDown_nonneg (Int.mul_nonneg hk2 hx) 1074
        · exact ⟨k2, hk2, rfl⟩

theorem zero_le_powDown {x : Dbl} (hx : le (fin 0) x = true) {N : Nat} (hN : 1 ≤ N) :
    le (fin 0) (powDown N x) = true := by
  obtain ⟨h1, h2⟩ := powDown_nonneg hx N hN
  cases x with
  | nan => simp [le] at hx
  | ninf => simp [le] at hx
  | pinf => rw [h1 rfl]; rfl
  | fin n =>
    obtain ⟨k, hk, hk'⟩ := h2 n rfl
    rw [hk']
    simpa [le] using hk

theorem zero_le_abs {x : Dbl} (hx : x.isNaN = false) : le (fin 0) x.abs = true := by
  cases x <;> simp_all [le, abs, isNaN]

theorem abs_neg_eq (x : Dbl) : x.neg.abs = x.abs := by
  cases x <;> simp [abs, neg]

theorem zero_le_min_sd {x y : Dbl} (hx : le (fin 0) x = true) (hy : le (fin 0) y = true) :
    le (fin 0) (min_sd x y) = true := by
  rcases min_sd_cases x y with h | h <;> rw [h] <;> assumption

theorem min_sd_comm {x y : Dbl} (hx : x.isNaN = false) (hy : y.isNaN = false) :
    min_sd x y = min_sd y x := by
  cases x <;> cases y <;> simp_all [min_sd, lt, isNaN]
  rename_i a b
  by_cases h1 : a < b
  · have h2 : ¬ b < a := by omega
    simp [h1, h2]
  · by_cases h2 : b < a
    · simp [h1, h2]
    · have : a = b := by omega
      simp [this]

theorem max_sd_comm {x y : Dbl} (hx : x.isNaN = false) (hy : y.isNaN = false) :
    max_sd x y = max_sd y x := by
  cases x <;> cases y <;> simp_all [max_sd, gt, lt, isNaN]
  rename_i a b
  by_cases h1 : b < a
  · have h2 : ¬ a < b := by omega
    simp [h1, h2]
  · by_cases h2 : a < b
    · simp [h1, h2]
    · have : a = b := by omega
      simp [this]

end Dbl

/-- The function `fixed_pow<N>` for even `N >= 2` on an interval without NaN. -/
theorem fixed_pow_of_even {N : Nat} (hN : 2 ≤ N) (heven : N % 2 = 0) {a : IDouble}
    (ha : a.possibly_undefined = false) :
    fixed_pow N a =
      if Dbl.le a.lb (Dbl.fin 0) = true ∧ Dbl.le (Dbl.fin 0) a.ub = true then
        ⟨Dbl.fin 0, Dbl.powUp N (Dbl.max a.lb.abs a.ub.abs)⟩
      else
        ⟨Dbl.powDown N (Dbl.min a.lb.abs a.ub.abs), Dbl.powUp N (Dbl.max a.lb.abs a.ub.abs)⟩ := by
  have h0 : ¬ N = 0 := by omega
  have h1 : ¬ N = 1 := by omega
  simp only [IDouble.possibly_undefined, Bool.or_eq_false_iff] at ha
  have hal : a.lb.abs.isNaN = false := by rw [Dbl.isNaN_abs]; exact ha.1
  have hau : a.ub.abs.isNaN = false := by rw [Dbl.isNaN_abs]; exact ha.2
  have hmax : Dbl.max_sd a.ub.abs a.lb.abs = Dbl.max a.lb.abs a.ub.abs := by
    rw [Dbl.max_sd_comm hau hal, Dbl.max_sd_eq_max hal hau]
  unfold fixed_pow
  simp only [if_neg h0, if_neg h1, if_pos heven, ha.1, ha.2, Bool.or_self, Bool.false_eq_true,
    if_false, mm_andnot_pd, SWITCH_BOTH_SIGNS128, if_true, Bool.and_eq_true]
  split
  · simp only [horizontal_max128, mm_max_sd, mm_unpackhi_pd, pow_ru_single_eq_powUp, hmax]
  · simp only [horizontal_sort, mm_min_sd, mm_max_sd, mm_unpackhi_pd, SWITCH_UPPER_SIGN128,
      PowInterval_compute_lanes, mm_xor_pd, Dbl.xor_sign, Bool.false_eq_true, if_false, if_true,
      PowLane_false, PowLane_true _ N hN, Dbl.neg_neg_eq, Dbl.min_sd_eq_min hal hau,
      Dbl.max_sd_eq_max hal hau]

/-- C18. For every even `N >= 2` and every interval `a` without NaN (ordered or
not), the lower bound of `fixed_pow<N>(a)` is not negative; if `a` straddles zero
(`a.lb <= 0 <= a.ub`) the result is `[0, max(|a.lb|, |a.ub|)^N rounded upward]`,
and otherwise it is `[min(|a.lb|, |a.ub|)^N rounded downward,
max(|a.lb|, |a.ub|)^N rounded upward]`, the powers being computed by repeated
squaring with every product rounded in the stated direction. -/
theorem IDouble.fixed_pow_even (N : Nat) (hN : 2 ≤ N) (heven : N % 2 = 0) (a : IDouble)
    (ha : a.possibly_undefined = false) :
    Dbl.le (Dbl.fin 0) (a.fixed_pow N).lb = true ∧
    ((Dbl.le a.lb (Dbl.fin 0) = true ∧ Dbl.le (Dbl.fin 0) a.ub = true) →
      a.fixed_pow N = ⟨Dbl.fin 0, Dbl.powUp N (Dbl.max a.lb.abs a.ub.abs)⟩) ∧
    (¬ (Dbl.le a.lb (Dbl.fin 0) = true ∧ Dbl.le (Dbl.fin 0) a.ub = true) →
      a.fixed_pow N =
        ⟨Dbl.powDown N (Dbl.min a.lb.abs a.ub.abs), Dbl.powUp N (Dbl.max a.lb.abs a.ub.abs)⟩) := by
  have heq := fixed_pow_of_even hN heven ha
  simp only [IDouble.possibly_undefined, Bool.or_eq_false_iff] at ha
  refine ⟨?_, ?_, ?_⟩
  · show Dbl.le (Dbl.fin 0) (ivarp.fixed_pow N a).lb = true
    rw [heq]
    split
    · rfl
    · have hal : a.lb.abs.isNaN = false := by rw [Dbl.isNaN_abs]; exact ha.1
      have hau : a.ub.abs.isNaN = false := by rw [Dbl.isNaN_abs]; exact ha.2
      rw [← Dbl.min_sd_eq_min hal hau]
      exact Dbl.zero_le_powDown
        (Dbl.zero_le_min_sd (Dbl.zero_le_abs ha.1) (Dbl.zero_le_abs ha.2)) (by omega)
  · intro h
    show ivarp.fixed_pow N a = _
    rw [heq, if_pos h]
  · intro h
    show ivarp.fixed_pow N a = _
    rw [heq, if_neg h]

/-- Witness of C18 at `N = 6`, `a = [-1.5, 0.5]` and `a = [5, 7]`. -/
theorem IDouble.fixed_pow_even_witness :
    (IDouble.mk (Dbl.fin (-3 * pow2 1073)) (Dbl.fin (pow2 1073))).fixed_pow 6
      = ⟨Dbl.fin 0, Dbl.powUp 6 (Dbl.max (Dbl.fin (-3 * pow2 1073)).abs (Dbl.fin (pow2 1073)).abs)⟩ ∧
    (IDouble.mk (Dbl.ofInt 5) (Dbl.ofInt 7)).fixed_pow 6
      = ⟨Dbl.powDown 6 (Dbl.min (Dbl.ofInt 5).abs (Dbl.ofInt 7).abs),
         Dbl.powUp 6 (Dbl.max (Dbl.ofInt 5).abs (Dbl.ofInt 7).abs)⟩ :=
  ⟨(IDouble.fixed_pow_even 6 (by decide) (by decide)
      ⟨Dbl.fin (-3 * pow2 1073), Dbl.fin (pow2 1073)⟩ rfl).2.1 (by decide),
   (IDouble.fixed_pow_even 6 (by decide) (by decide)
      ⟨Dbl.ofInt 5, Dbl.ofInt 7⟩ rfl).2.2 (by decide)⟩

end ivarp

namespace ivarp
namespace Dbl

theorem max_symm {x y : Dbl} (hx : x.isNaN = false) (hy : y.isNaN = false) :
    Dbl.max x y = Dbl.max y x := by
  rw [← max_sd_eq_max hx hy, ← max_sd_eq_max hy hx, max_sd_comm hx hy]

theorem min_symm {x y : Dbl} (hx : x.isNaN = false) (hy : y.isNaN = false) :
    Dbl.min x y = Dbl.min y x := by
  rw [← min_sd_eq_min hx hy, ← min_sd_eq_min hy hx, min_sd_comm hx hy]

/-- A lane that holds zero stays zero, whatever the sign mask: the sign bit of
a zero does not reach the result. -/
theorem PowLane_zero (s : Bool) : ∀ N : Nat, 1 ≤ N → PowLane N N (fin 0) s = fin 0 := by
  intro N
  induction N using Nat.strong_induction_on with
  | _ N ih =>
    intro hN
    match N, hN with
    | 1, _ => rfl
    | N + 2, _ =>
      rw [PowLane_eq (N := N + 2) (by omega) (fin 0) s, ih ((N + 2) / 2) (by omega) (by omega)]
      have h1 : xor_sign (fin 0) s = fin 0 := by
        cases s <;> simp [xor_sign, neg]
      have h2 : mul (fin 0) (fin 0) = fin 0 := by
        simp [mul, roundDown_zero]
      rw [h1, h2]
      split
      · exact h2
      · rfl

theorem signbit_neg {x : Dbl} (hx : x.isNaN = false) (h0 : x ≠ fin 0) :
    x.neg.signbit = !x.signbit := by
  cases x with
  | nan => simp [isNaN] at hx
  | ninf => rfl
  | pinf => rfl
  | fin n =>
    have hn : n ≠ 0 := fun h => h0 (by rw [h])
    simp only [neg, signbit]
    by_cases h : n < 0
    · have : ¬ -n < 0 := by omega
      simp [h, this]
    · have : -n < 0 := by omega
      simp [h, this]

/-- The lane of `-x` under the sign of `-x` is the lane of `x` under the switched
sign of `x`. -/
theorem PowLane_neg_sign {x : Dbl} (hx : x.isNaN = false) {N : Nat} (hN : 1 ≤ N) :
    PowLane N N x.neg.abs x.neg.signbit = PowLane N N x.abs (!x.signbit) := by
  rw [abs_neg_eq]
  by_cases h0 : x = fin 0
  · subst h0
    have : (fin 0).abs = fin 0 := rfl
    rw [this, PowLane_zero _ N hN, PowLane_zero _ N hN]
  · rw [signbit_neg hx h0]

theorem PowLane_neg_sign_not {x : Dbl} (hx : x.isNaN = false) {N : Nat} (hN : 1 ≤ N) :
    PowLane N N x.neg.abs (!x.neg.signbit) = PowLane N N x.abs x.signbit := by
  rw [abs_neg_eq]
  by_cases h0 : x = fin 0
  · subst h0
    have : (fin 0).abs = fin 0 := rfl
    rw [this, PowLane_zero _ N hN, PowLane_zero _ N hN]
  · rw [signbit_neg hx h0, Bool.not_not]

end Dbl

/-- The function `fixed_pow<N>` for odd `N >= 3`. -/
theorem fixed_pow_of_odd {N : Nat} (hN : 3 ≤ N) (hodd : N % 2 = 1) (a : IDouble) :
    fixed_pow N a =
      ⟨Dbl.PowLane N N a.lb.abs a.lb.signbit,
       (Dbl.PowLane N N a.ub.abs (!a.ub.signbit)).neg⟩ := by
  have h0 : ¬ N = 0 := by omega
  have h1 : ¬ N = 1 := by omega
  have h2 : ¬ N % 2 = 0 := by omega
  unfold fixed_pow
  simp only [if_neg h0, if_neg h1, if_neg h2, PowInterval_compute_lanes, mm_andnot_pd,
    mm_and_pd, mm_xor_mask, mm_xor_pd, SWITCH_BOTH_SIGNS128, SWITCH_UPPER_SIGN128, if_true,
    Bool.true_and, Bool.false_xor, Bool.true_xor, Dbl.xor_sign, Bool.false_eq_true, if_false]

/-- C19. Parity symmetry of `fixed_pow`: for every interval `a` without NaN and
every odd `N`, `fixed_pow<N>(-a)` is `-fixed_pow<N>(a)`, endpoint for endpoint;
for every even `N`, `fixed_pow<N>(-a)` is `fixed_pow<N>(a)`; here `-a` swaps the
endpoints of `a` and switches their signs. -/
theorem IDouble.fixed_pow_parity (N : Nat) (a : IDouble) (ha : a.possibly_undefined = false) :
    (N % 2 = 1 → a.neg.fixed_pow N = (a.fixed_pow N).neg) ∧
    (N % 2 = 0 → a.neg.fixed_pow N = a.fixed_pow N) := by
  have hna : (negate_intervald a).possibly_undefined = false := by
    simp only [IDouble.possibly_undefined, Bool.or_eq_false_iff, negate_intervald,
      Dbl.isNaN_neg] at ha ⊢
    exact ⟨ha.2, ha.1⟩
  have ha' := ha
  simp only [IDouble.possibly_undefined, Bool.or_eq_false_iff] at ha'
  constructor
  · intro hodd
    show ivarp.fixed_pow N (negate_intervald a) = negate_intervald (ivarp.fixed_pow N a)
    by_cases h1 : N = 1
    · subst h1
      simp [ivarp.fixed_pow]
    · have hN : 3 ≤ N := by omega
      rw [fixed_pow_of_odd hN hodd, fixed_pow_of_odd hN hodd]
      simp only [negate_intervald, Dbl.neg_neg_eq]
      rw [Dbl.PowLane_neg_sign ha'.2 (by omega), Dbl.PowLane_neg_sign_not ha'.1 (by omega)]
  · intro heven
    show ivarp.fixed_pow N (negate_intervald a) = ivarp.fixed_pow N a
    by_cases h0 : N = 0
    · subst h0
      simp only [IDouble.possibly_undefined] at ha hna
      simp [ivarp.fixed_pow, ha, hna]
    · have hN : 2 ≤ N := by omega
      have hal : a.lb.abs.isNaN = false := by rw [Dbl.isNaN_abs]; exact ha'.1
      have hau : a.ub.abs.isNaN = false := by rw [Dbl.isNaN_abs]; exact ha'.2
      rw [fixed_pow_of_even hN heven hna, fixed_pow_of_even hN heven ha]
      simp only [negate_intervald, Dbl.abs_neg_eq, Dbl.le_neg_zero, Dbl.le_zero_neg,
        Dbl.max_symm hau hal, Dbl.min_symm hau hal]
      by_cases hc : Dbl.le a.lb (Dbl.fin 0) = true ∧ Dbl.le (Dbl.fin 0) a.ub = true
      · rw [if_pos hc, if_pos ⟨hc.2, hc.1⟩]
      · rw [if_neg hc, if_neg (fun h => hc ⟨h.2, h.1⟩)]

/-- Witness of C19 at `N = 5` and `N = 6`, `a = [-1.5, 0.5]`. -/
theorem IDouble.fixed_pow_parity_witness :
    (IDouble.mk (Dbl.fin (-3 * pow2 1073)) (Dbl.fin (pow2 1073))).neg.fixed_pow 5
      = ((IDouble.mk (Dbl.fin (-3 * pow2 1073)) (Dbl.fin (pow2 1073))).fixed_pow 5).neg ∧
    (IDouble.mk (Dbl.fin (-3 * pow2 1073)) (Dbl.fin (pow2 1073))).neg.fixed_pow 6
      = (IDouble.mk (Dbl.fin (-3 * pow2 1073)) (Dbl.fin (pow2 1073))).fixed_pow 6 :=
  ⟨(IDouble.fixed_pow_parity 5 ⟨Dbl.fin (-3 * pow2 1073), Dbl.fin (pow2 1073)⟩ rfl).1 (by decide),
   (IDouble.fixed_pow_parity 6 ⟨Dbl.fin (-3 * pow2 1073), Dbl.fin (pow2 1073)⟩ rfl).2 (by decide)⟩

end ivarp

/-! ## The directed powers bound the exact power -/

namespace ivarp
namespace Dbl

/-- The exact power of the double `n * 2^(-1074)` in units of `2^(-1074)`. -/
theorem exactPow_sq (n : ℝ) {k : Nat} (hk : 1 ≤ k) :
    n ^ (2 * k) / (2 ^ 1074) ^ (2 * k - 1) =
      (n ^ k / (2 ^ 1074) ^ (k - 1)) * (n ^ k / (2 ^ 1074) ^ (k - 1)) / 2 ^ 1074 := by
  have h2 : (2 : ℝ) ^ 1074 ≠ 0 := by positivity
  have e1 : 2 * k - 1 = (k - 1) + (k - 1) + 1 := by omega
  rw [e1, pow_succ, pow_add, two_mul, pow_add]
  field_simp

theorem exactPow_succ (n : ℝ) {k : Nat} (hk : 1 ≤ k) :
    n ^ (k + 1) / (2 ^ 1074) ^ (k + 1 - 1) = (n ^ k / (2 ^ 1074) ^ (k - 1)) * n / 2 ^ 1074 := by
  have h2 : (2 : ℝ) ^ 1074 ≠ 0 := by positivity
  have e1 : k + 1 - 1 = (k - 1) + 1 := by omega
  rw [e1, pow_succ, pow_succ]
  field_simp

/-- Rounding toward plus infinity returns a double not below the exact value. -/
theorem geReal_roundUp (p : Int) (s : Nat) : geReal (roundUp p s) ((p : ℝ) / 2 ^ s) := by
  rw [← neg_roundDown_neg, geReal_neg]
  have := leReal_roundDown (-p) s
  rw [Int.cast_neg, neg_div] at this
  exact this

theorem geReal_mono {d : Dbl} {s t : ℝ} (h : geReal d s) (hst : t ≤ s) : geReal d t := by
  cases d <;> simp_all [geReal]
  exact le_trans hst h

/-- A product rounded up of two doubles above `S >= 0` and `T >= 0` is above
`S * T`, when the second factor is not zero against an infinity. -/
theorem geReal_mulUp {x y : Dbl} {S T : ℝ} (hx : geReal x S) (hy : geReal y T) (hS : 0 ≤ S)
    (hT : 0 ≤ T) (h0 : zeroTimesInf x y = false) : geReal (mulUp x y) (S * T / 2 ^ 1074) := by
  have hpos := two_pow_1074_pos
  cases x with
  | nan => exact False.elim hx
  | ninf => exact False.elim hx
  | pinf =>
    cases y with
    | nan => exact False.elim hy
    | ninf => exact False.elim hy
    | pinf => trivial
    | fin b =>
      simp only [geReal] at hy
      have hb0 : b ≠ 0 := by
        intro h
        rw [h] at h0
        simp [zeroTimesInf, isInf] at h0
      have hb : 0 < b := by
        have : (0 : ℝ) ≤ b := le_trans hT hy
        have : (0 : Int) ≤ b := by exact_mod_cast this
        omega
      simp only [mulUp, if_neg hb0, if_pos hb]
      trivial
  | fin a =>
    simp only [geReal] at hx
    cases y with
    | nan => exact False.elim hy
    | ninf => exact False.elim hy
    | pinf =>
      have ha0 : a ≠ 0 := by
        intro h
        rw [h] at h0
        simp [zeroTimesInf, isInf] at h0
      have ha : 0 < a := by
        have : (0 : ℝ) ≤ a := le_trans hS hx
        have : (0 : Int) ≤ a := by exact_mod_cast this
        omega
      simp only [mulUp, if_neg ha0, if_pos ha]
      trivial
    | fin b =>
      simp only [geReal] at hy
      simp only [mulUp]
      refine geReal_mono (geReal_roundUp (a * b) 1074) ?_
      rw [Int.cast_mul]
      apply div_le_div_of_nonneg_right _ (le_of_lt hpos)
      exact mul_le_mul hx hy hT (le_trans hS hx)

theorem zeroTimesInf_self (x : Dbl) : zeroTimesInf x x = false := by
  cases x <;> simp [zeroTimesInf, isInf]

theorem zeroTimesInf_fin_ne {x : Dbl} {n : Int} (hn : n ≠ 0) :
    zeroTimesInf x (fin n) = false := by
  cases x <;> simp [zeroTimesInf, isInf, hn]

theorem mulUp_zero : mulUp (fin 0) (fin 0) = fin 0 := by
  simp [mulUp, roundUp_zero]

theorem powUp_zero : ∀ N : Nat, 1 ≤ N → powUp N (fin 0) = fin 0 := by
  intro N
  induction N using Nat.strong_induction_on with
  | _ N ih =>
    intro hN
    match N, hN with
    | 1, _ => rfl
    | N + 2, _ =>
      have := ih ((N + 2) / 2) (by omega) (by omega)
      unfold powUp at this ⊢
      rw [powWith_eq mulUp (N := N + 2) (by omega) (fin 0), this, mulUp_zero]
      split
      · exact mulUp_zero
      · rfl

/-- The power with every product rounded up is not below the exact power: for
the double `n * 2^(-1074)` with `n >= 0`, the exact power is
`n^N / (2^1074)^(N - 1)` in units of `2^(-1074)`. -/
theorem geReal_powUp {n : Int} (hn : 0 ≤ n) :
    ∀ N : Nat, 1 ≤ N → geReal (powUp N (fin n)) ((n : ℝ) ^ N / (2 ^ 1074) ^ (N - 1)) := by
  intro N
  have hnr : (0 : ℝ) ≤ n := by exact_mod_cast hn
  by_cases h0 : n = 0
  · intro hN
    subst h0
    rw [powUp_zero N hN]
    simp only [geReal, Int.cast_zero]
    rw [zero_pow (by omega), zero_div]
  induction N using Nat.strong_induction_on with
  | _ N ih =>
    intro hN
    match N, hN with
    | 1, _ => simp [powUp, powWith, geReal]
    | N + 2, _ =>
      have hk : 1 ≤ (N + 2) / 2 := by omega
      have ihk := ih ((N + 2) / 2) (by omega) hk
      have hT : (0 : ℝ) ≤ (n : ℝ) ^ ((N + 2) / 2) / (2 ^ 1074) ^ ((N + 2) / 2 - 1) := by positivity
      have hsq := geReal_mulUp ihk ihk hT hT (zeroTimesInf_self _)
      rw [← exactPow_sq (n : ℝ) hk] at hsq
      unfold powUp at ihk hsq ⊢
      rw [powWith_eq mulUp (N := N + 2) (by omega) (fin n)]
      split
      · rename_i hodd
        have hT2 : (0 : ℝ) ≤ (n : ℝ) ^ (2 * ((N + 2) / 2)) / (2 ^ 1074) ^ (2 * ((N + 2) / 2) - 1) := by
          positivity
        have hx : geReal (fin n) (n : ℝ) := by simp [geReal]
        have := geReal_mulUp hsq hx hT2 hnr (zeroTimesInf_fin_ne h0)
        rw [← exactPow_succ (n : ℝ) (by omega)] at this
        have e : 2 * ((N + 2) / 2) + 1 = N + 2 := by omega
        rw [e] at this
        exact this
      · rename_i heven
        have e : 2 * ((N + 2) / 2) = N + 2 := by omega
        rw [e] at hsq
        exact hsq

theorem leReal_mul_fin {a b : Int} {S T : ℝ} (ha : 0 ≤ a) (hb : 0 ≤ b) (haS : (a : ℝ) ≤ S)
    (hbT : (b : ℝ) ≤ T) : leReal (mul (fin a) (fin b)) (S * T / 2 ^ 1074) := by
  have hpos := two_pow_1074_pos
  have har : (0 : ℝ) ≤ a := by exact_mod_cast ha
  have hbr : (0 : ℝ) ≤ b := by exact_mod_cast hb
  simp only [mul]
  refine leReal_mono (leReal_roundDown (a * b) 1074) ?_
  rw [Int.cast_mul]
  apply div_le_div_of_nonneg_right _ (le_of_lt hpos)
  exact mul_le_mul haS hbT hbr (le_trans har haS)

/-- The power with every product rounded down is not above the exact power. -/
theorem leReal_powDown {n : Int} (hn : 0 ≤ n) :
    ∀ N : Nat, 1 ≤ N → leReal (powDown N (fin n)) ((n : ℝ) ^ N / (2 ^ 1074) ^ (N - 1)) := by
  intro N
  have hnr : (0 : ℝ) ≤ n := by exact_mod_cast hn
  have hx0 : le (fin 0) (fin n) = true := by simpa [le] using hn
  induction N using Nat.strong_induction_on with
  | _ N ih =>
    intro hN
    match N, hN with
    | 1, _ => simp [powDown, powWith, leReal]
    | N + 2, _ =>
      have hk : 1 ≤ (N + 2) / 2 := by omega
      have ihk := ih ((N + 2) / 2) (by omega) hk
      obtain ⟨k, hk0, hkeq⟩ := (powDown_nonneg hx0 ((N + 2) / 2) hk).2 n rfl
      rw [hkeq] at ihk
      simp only [leReal] at ihk
      have hsq := leReal_mul_fin hk0 hk0 ihk ihk
      rw [← exactPow_sq (n : ℝ) hk] at hsq
      obtain ⟨k2, hk2, hk2eq⟩ := roundDown_nonneg (Int.mul_nonneg hk0 hk0) 1074
      have hmul : mul (fin k) (fin k) = fin k2 := hk2eq
      unfold powDown at hkeq ⊢
      rw [powWith_eq mul (N := N + 2) (by omega) (fin n), hkeq]
      split
      · rename_i hodd
        rw [hmul] at hsq ⊢
        simp only [leReal] at hsq
        have := leReal_mul_fin hk2 hn hsq (le_refl (n : ℝ))
        rw [← exactPow_succ (n : ℝ) (by omega)] at this
        have e : 2 * ((N + 2) / 2) + 1 = N + 2 := by omega
        rw [e] at this
        exact this
      · rename_i heven
        have e : 2 * ((N + 2) / 2) = N + 2 := by omega
        rw [e] at hsq
        exact hsq

end Dbl
end ivarp

namespace ivarp

/-! ## Writes to a variable set and the change handlers -/

namespace BasicVariableSet

/-- Calling the handler of variable `i` of a box with recording handlers appends
the call to the record and leaves the variables alone. -/
theorem p_call_handler_recording (n i : Nat) (hi : i < n) (a b : Bool)
    (v : BasicVariableSet (List HandlerCall)) :
    p_call_handler (recordingHandlers n) i a b v
      = { v with derived := v.derived ++ [(i, a, b)] } := by
  simp [p_call_handler, recordingHandlers, recordingHandler, List.getElem?_map,
    List.getElem?_range hi]

/-- Writing an entry of a list back to its place changes nothing. -/
theorem list_set_getD_self {α : Type} (d : α) :
    ∀ (l : List α) (i : Nat), l.set i (l.getD i d) = l := by
  intro l
  induction l with
  | nil => intro i; rfl
  | cons a l ih =>
    intro i
    cases i with
    | zero => rfl
    | succ i => simpa using ih i

/-- Writing back the value of a variable changes nothing. -/
theorem set_get_value {X : Type} (v : BasicVariableSet X) (i : Nat) :
    v.m_variable_values.set i (v.get_value i) = v.m_variable_values :=
  list_set_getD_self _ _ _

/-- The value of a variable after it is written. -/
theorem get_value_set {X : Type} (v : BasicVariableSet X) (i : Nat) (hi : i < v.num_vars)
    (I : IDouble) (d : X) :
    get_value ⟨v.m_variable_values.set i I, d⟩ i = I := by
  unfold get_value
  unfold num_vars at hi
  simp [List.getD_eq_getElem?_getD, hi]

/-- C29: on a box whose handlers record their calls, for every variable `i`:
`restrict_lb(x)` returns `true`, sets the lower bound of variable `i` to `x` and
calls the handler of `i` once with `(true, false)` when the current lower bound
is `< x`, and otherwise returns `false` and leaves the box, record included, as
it is; `restrict_ub(x)` does the same for the upper bound with `ub > x` and the
flags `(false, true)`; `restrict(bounds)` leaves the variables as `restrict_lb`
followed by `restrict_ub` does, returns whether one of the two tightened, and
calls the handler once with the two flags when one is set and not at all
otherwise.  For arbitrary handlers the returned flags are the same. -/
theorem restrict_notifies {X : Type} (hs : List (OnChangeHandler X)) (w : BasicVariableSet X)
    (t : BasicVariableSet (List HandlerCall)) (i : Nat) (hi : i < t.num_vars)
    (x : Dbl) (bounds : IDouble) :
    (Dbl.lt (t.get_value i).lb x = true →
      restrict_lb (recordingHandlers t.num_vars) i x t
        = (true, ⟨t.m_variable_values.set i ⟨x, (t.get_value i).ub⟩,
            t.derived ++ [(i, true, false)]⟩)) ∧
    (Dbl.lt (t.get_value i).lb x = false →
      restrict_lb (recordingHandlers t.num_vars) i x t = (false, t)) ∧
    (Dbl.gt (t.get_value i).ub x = true →
      restrict_ub (recordingHandlers t.num_vars) i x t
        = (true, ⟨t.m_variable_values.set i ⟨(t.get_value i).lb, x⟩,
            t.derived ++ [(i, false, true)]⟩)) ∧
    (Dbl.gt (t.get_value i).ub x = false →
      restrict_ub (recordingHandlers t.num_vars) i x t = (false, t)) ∧
    restrict (recordingHandlers t.num_vars) i bounds t
      = (Dbl.lt (t.get_value i).lb bounds.lb || Dbl.gt (t.get_value i).ub bounds.ub,
          ⟨t.m_variable_values.set i
              ⟨if Dbl.lt (t.get_value i).lb bounds.lb then bounds.lb else (t.get_value i).lb,
               if Dbl.gt (t.get_value i).ub bounds.ub then bounds.ub else (t.get_value i).ub⟩,
            if Dbl.lt (t.get_value i).lb bounds.lb || Dbl.gt (t.get_value i).ub bounds.ub then
              t.derived ++ [(i, Dbl.lt (t.get_value i).lb bounds.lb,
                Dbl.gt (t.get_value i).ub bounds.ub)]
            else t.derived⟩) ∧
    (restrict (recordingHandlers t.num_vars) i bounds t).2.m_variable_values
      = (restrict_ub (recordingHandlers t.num_vars) i bounds.ub
          (restrict_lb (recordingHandlers t.num_vars) i bounds.lb t).2).2.m_variable_values ∧
    (restrict_lb hs i x w).1 = Dbl.lt (w.get_value i).lb x ∧
    (restrict_ub hs i x w).1 = Dbl.gt (w.get_value i).ub x ∧
    (restrict hs i bounds w).1
      = (Dbl.lt (w.get_value i).lb bounds.lb || Dbl.gt (w.get_value i).ub bounds.ub) ∧
    (Dbl.lt (w.get_value i).lb x = false → restrict_lb hs i x w = (false, w)) ∧
    (Dbl.gt (w.get_value i).ub x = false → restrict_ub hs i x w = (false, w)) := by
  have hrec := p_call_handler_recording t.num_vars i hi
  have hback := set_get_value t i
  refine ⟨?_, ?_, ?_, ?_, ?_, ?_, ?_, ?_, ?_, ?_, ?_⟩
  · intro h
    simp [restrict_lb, h, hrec]
  · intro h
    simp [restrict_lb, h]
  · intro h
    simp [restrict_ub, h, hrec]
  · intro h
    simp [restrict_ub, h]
  · cases h1 : Dbl.lt (t.get_value i).lb bounds.lb <;>
      cases h2 : Dbl.gt (t.get_value i).ub bounds.ub <;>
      simp [restrict, h1, h2, hrec, hback]
  · cases h1 : Dbl.lt (t.get_value i).lb bounds.lb <;>
      cases h2 : Dbl.gt (t.get_value i).ub bounds.ub <;>
      simp [restrict, restrict_lb, restrict_ub, h1, h2, hrec, hback, get_value_set t i hi]
  · cases h : Dbl.lt (w.get_value i).lb x <;> simp [restrict_lb, h]
  · cases h : Dbl.gt (w.get_value i).ub x <;> simp [restrict_ub, h]
  · cases h1 : Dbl.lt (w.get_value i).lb bounds.lb <;>
      cases h2 : Dbl.gt (w.get_value i).ub bounds.ub <;>
      simp [restrict, h1, h2]
  · intro h
    simp [restrict_lb, h]
  · intro h
    simp [restrict_ub, h]

/-- Witness of C29: the box with the variables `[0, 4]` and `[-1, 1]` and an empty
record; `restrict_lb<0>(1)` tightens and records `(0, true, false)`,
`restrict_ub<0>(5)` changes nothing, and `restrict<0>([1, 3])` tightens both
bounds with one call `(0, true, true)`. -/
theorem restrict_notifies_witness :
    restrict_lb (recordingHandlers 2) 0 (Dbl.ofInt 1)
        ⟨[⟨Dbl.ofInt 0, Dbl.ofInt 4⟩, ⟨Dbl.ofInt (-1), Dbl.ofInt 1⟩], []⟩
      = (true, ⟨[⟨Dbl.ofInt 1, Dbl.ofInt 4⟩, ⟨Dbl.ofInt (-1), Dbl.ofInt 1⟩], [(0, true, false)]⟩) ∧
    restrict_ub (recordingHandlers 2) 0 (Dbl.ofInt 5)
        ⟨[⟨Dbl.ofInt 0, Dbl.ofInt 4⟩, ⟨Dbl.ofInt (-1), Dbl.ofInt 1⟩], []⟩
      = (false, ⟨[⟨Dbl.ofInt 0, Dbl.ofInt 4⟩, ⟨Dbl.ofInt (-1), Dbl.ofInt 1⟩], []⟩) ∧
    restrict (recordingHandlers 2) 0 ⟨Dbl.ofInt 1, Dbl.ofInt 3⟩
        ⟨[⟨Dbl.ofInt 0, Dbl.ofInt 4⟩, ⟨Dbl.ofInt (-1), Dbl.ofInt 1⟩], []⟩
      = (true, ⟨[⟨Dbl.ofInt 1, Dbl.ofInt 3⟩, ⟨Dbl.ofInt (-1), Dbl.ofInt 1⟩], [(0, true, true)]⟩) :=
  ⟨(restrict_notifies (X := Unit) [] ⟨[], ()⟩
      ⟨[⟨Dbl.ofInt 0, Dbl.ofInt 4⟩, ⟨Dbl.ofInt (-1), Dbl.ofInt 1⟩], []⟩ 0 (by decide)
      (Dbl.ofInt 1) ⟨Dbl.ofInt 1, Dbl.ofInt 3⟩).1 (by decide),
   (restrict_notifies (X := Unit) [] ⟨[], ()⟩
      ⟨[⟨Dbl.ofInt 0, Dbl.ofInt 4⟩, ⟨Dbl.ofInt (-1), Dbl.ofInt 1⟩], []⟩ 0 (by decide)
      (Dbl.ofInt 5) ⟨Dbl.ofInt 1, Dbl.ofInt 3⟩).2.2.2.1 (by decide),
   (restrict_notifies (X := Unit) [] ⟨[], ()⟩
      ⟨[⟨Dbl.ofInt 0, Dbl.ofInt 4⟩, ⟨Dbl.ofInt (-1), Dbl.ofInt 1⟩], []⟩ 0 (by decide)
      (Dbl.ofInt 1) ⟨Dbl.ofInt 1, Dbl.ofInt 3⟩).2.2.2.2.1⟩

end BasicVariableSet

end ivarp

namespace ivarp

/-! ## The default split -/

namespace Dbl

/-- Rounding down is the largest multiple of a unit in the last place below: a
number `x ≤ q` that is a multiple of its own unit in the last place is at most
the rounded `q`, whether or not it is in the range of the doubles. -/
theorem le_roundDownInt_zero_of_dvd {x q : Int} (hxd : pow2 (ulpAux 13 x.natAbs) ∣ x)
    (hxb : x.natAbs < 2 ^ 2100) (hxq : x ≤ q) (hq : q.natAbs < 2 ^ 2100) :
    x ≤ roundDownInt q 0 := by
  rw [roundDownInt_zero]
  by_cases hk : ulpAux 13 q.natAbs ≤ ulpAux 13 x.natAbs
  · have hd : pow2 (ulpAux 13 q.natAbs) ∣ x := dvd_trans (pow2_dvd hk) hxd
    calc x = x / pow2 (ulpAux 13 q.natAbs) * pow2 (ulpAux 13 q.natAbs) :=
          (Int.ediv_mul_cancel hd).symm
      _ ≤ q / pow2 (ulpAux 13 q.natAbs) * pow2 (ulpAux 13 q.natAbs) :=
          Int.mul_le_mul_of_nonneg_right (Int.ediv_le_ediv (pow2_pos _) hxq)
            (le_of_lt (pow2_pos _))
  · have hkq : ulpAux 13 x.natAbs < ulpAux 13 q.natAbs := by omega
    by_cases hneg : q < 0
    · have : q.natAbs ≤ x.natAbs := by omega
      have := ulp_mono hxb this
      omega
    · rcases ulp_ge hq with h0 | hge
      · omega
      · have h1 : pow2 (52 + ulpAux 13 q.natAbs) ≤ q := pow2_le_natAbs hge (by omega)
        rw [pow2_add] at h1
        have h2 : pow2 52 ≤ q / pow2 (ulpAux 13 q.natAbs) :=
          (Int.le_ediv_iff_mul_le (pow2_pos _)).mpr h1
        have h3 : pow2 52 * pow2 (ulpAux 13 q.natAbs)
            ≤ q / pow2 (ulpAux 13 q.natAbs) * pow2 (ulpAux 13 q.natAbs) :=
          Int.mul_le_mul_of_nonneg_right h2 (le_of_lt (pow2_pos _))
        have h4 : x < pow2 (53 + ulpAux 13 x.natAbs) := (natAbs_lt_pow2 (ulp_lt hxb)).1
        have h5 : pow2 (53 + ulpAux 13 x.natAbs) ≤ pow2 (52 + ulpAux 13 q.natAbs) :=
          pow2_le (by omega)
        rw [pow2_add 52] at h5
        omega

/-- The double of a representable number is a multiple of its own unit in the
last place. -/
theorem two_mul_ulp_dvd {l : Int} (hl : Representable l) :
    pow2 (ulpAux 13 (2 * l).natAbs) ∣ 2 * l := by
  have hlb := representable_natAbs hl
  have hM := maxFinite_pos
  have hb : (2 * l).natAbs < 2 ^ 2100 :=
    natAbs_lt_of_le_maxFinite (by have := hl.2.1; omega) (by have := hl.2.2; omega)
  apply ulp_dvd_of_magnitude (k := ulpAux 13 l.natAbs + 1) _ _ hb
  · have h21 : pow2 1 = 2 := rfl
    rw [pow2_add, h21, mul_comm (pow2 _) 2]
    exact mul_dvd_mul_left 2 (representable_dvd hl)
  · have h3 := ulp_lt hlb
    have h4 : (2 * l).natAbs = 2 * l.natAbs := by omega
    rw [h4, show 53 + (ulpAux 13 l.natAbs + 1) = (53 + ulpAux 13 l.natAbs) + 1 by omega, pow_succ]
    omega

theorem representable_maxFinite : Representable maxFinite := by decide

theorem representable_neg_maxFinite : Representable (-maxFinite) := by decide

end Dbl

/-- The midpoint of an interval with representable endpoints `l ≤ u` whose sum
is in the range of the doubles is a representable double between the
endpoints. -/
theorem center_of_sum {l u : Int} (hl : Dbl.Representable l) (hu : Dbl.Representable u)
    (hlu : l ≤ u) (hlo : -Dbl.maxFinite ≤ l + u) (hhi : l + u ≤ Dbl.maxFinite) :
    ∃ mid : Int, IDouble.center ⟨Dbl.fin l, Dbl.fin u⟩ = Dbl.fin mid ∧ l ≤ mid ∧ mid ≤ u ∧
      Dbl.Representable mid := by
  have hpos := Dbl.maxFinite_pos
  have hsum : (l + u).natAbs < 2 ^ 2100 :=
    Dbl.natAbs_lt_of_le_maxFinite (by omega) (by omega)
  have h2lb : (2 * l).natAbs < 2 ^ 2100 :=
    Dbl.natAbs_lt_of_le_maxFinite (by have := hl.2.1; omega) (by have := hl.2.2; omega)
  have hs_le : Dbl.roundDownInt (l + u) 0 ≤ l + u := Dbl.roundDownInt_zero_le _
  have hs_ge : 2 * l ≤ Dbl.roundDownInt (l + u) 0 :=
    Dbl.le_roundDownInt_zero_of_dvd (Dbl.two_mul_ulp_dvd hl) h2lb (by omega) hsum
  have hs_lo : -Dbl.maxFinite ≤ Dbl.roundDownInt (l + u) 0 :=
    Dbl.le_roundDownInt_zero Dbl.representable_neg_maxFinite hlo hsum
  have hadd : Dbl.add (Dbl.fin l) (Dbl.fin u) = Dbl.fin (Dbl.roundDownInt (l + u) 0) := by
    simp only [Dbl.add, Dbl.roundDown]
    rw [if_neg (by omega), if_neg (by omega)]
  have hs0 : (Dbl.roundDownInt (l + u) 0).natAbs < 2 ^ 2100 :=
    Dbl.natAbs_lt_of_le_maxFinite (by omega) (by omega)
  have hm_le := Dbl.two_mul_roundDownInt_half_le (Dbl.roundDownInt (l + u) 0)
  have hm_ge := Dbl.le_roundDownInt_half hl hs_ge hs0
  have hlr := hl.2.1
  have hur := hu.2.2
  have hmb : (Dbl.roundDownInt (pow2 1073 * Dbl.roundDownInt (l + u) 0) 1074).natAbs
      < 2 ^ 2100 := Dbl.natAbs_lt_of_le_maxFinite (by omega) (by omega)
  refine ⟨Dbl.roundDownInt (pow2 1073 * Dbl.roundDownInt (l + u) 0) 1074, ?_, hm_ge, by omega,
    Dbl.representable_of_dvd (Dbl.roundDownInt_half_dvd hs0 hmb) (by omega) (by omega)⟩
  simp only [IDouble.center, hadd, Dbl.half, Dbl.mul, Dbl.roundDown]
  rw [if_neg (by omega), if_neg (by omega)]

namespace BasicVariableSet

/-- The value of another variable after a variable is written. -/
theorem get_value_set_ne {X : Type} (v : BasicVariableSet X) (i j : Nat) (hij : i ≠ j)
    (I : IDouble) (d : X) :
    get_value ⟨v.m_variable_values.set i I, d⟩ j = v.get_value j := by
  unfold get_value
  simp [List.getD_eq_getElem?_getD, List.getElem?_set_ne hij]

/-- C30 as the code has it: on a box with `N > 0` variables whose handlers record
their calls, `default_split` at height `h` hands over exactly two boxes; with
`[lb, ub]` the interval of variable `h mod N` and `mid = 0.5 * (lb + ub)` (in
double arithmetic), the first has that variable set to `[lb, mid]` and one
further handler call `(h mod N, false, true)`, the second has it set to
`[mid, ub]` and one further call `(h mod N, true, false)`, and every other
variable is the parent's.  When `lb ≤ ub` are finite doubles whose sum `lb + ub`
is in the range of the doubles, `mid` is a double with `lb ≤ mid ≤ ub`, it lies
in both halves, and a real lies in the parent's interval exactly when it lies in
one of the halves. -/
theorem default_split_children (t : BasicVariableSet (List HandlerCall)) (h : Nat)
    (hN : 0 < t.num_vars) :
    default_split (recordingHandlers t.num_vars) t h
      = [⟨t.m_variable_values.set (h % t.num_vars)
            ⟨(t.get_value (h % t.num_vars)).lb, (t.get_value (h % t.num_vars)).center⟩,
          t.derived ++ [(h % t.num_vars, false, true)]⟩,
         ⟨t.m_variable_values.set (h % t.num_vars)
            ⟨(t.get_value (h % t.num_vars)).center, (t.get_value (h % t.num_vars)).ub⟩,
          t.derived ++ [(h % t.num_vars, true, false)]⟩] ∧
    (t.get_value (h % t.num_vars)).center
      = Dbl.mul Dbl.half
          (Dbl.add (t.get_value (h % t.num_vars)).lb (t.get_value (h % t.num_vars)).ub) ∧
    (∀ c ∈ default_split (recordingHandlers t.num_vars) t h, ∀ j : Nat,
      j ≠ h % t.num_vars → c.get_value j = t.get_value j) ∧
    (∀ l u : Int, t.get_value (h % t.num_vars) = ⟨Dbl.fin l, Dbl.fin u⟩ →
      Dbl.Representable l → Dbl.Representable u → l ≤ u →
      -Dbl.maxFinite ≤ l + u → l + u ≤ Dbl.maxFinite →
      ∃ mid : Int, (t.get_value (h % t.num_vars)).center = Dbl.fin mid ∧
        Dbl.Representable mid ∧ l ≤ mid ∧ mid ≤ u ∧
        IDouble.Contains ⟨Dbl.fin l, Dbl.fin mid⟩ (mid : ℝ) ∧
        IDouble.Contains ⟨Dbl.fin mid, Dbl.fin u⟩ (mid : ℝ) ∧
        ∀ x : ℝ, IDouble.Contains ⟨Dbl.fin l, Dbl.fin u⟩ x ↔
          IDouble.Contains ⟨Dbl.fin l, Dbl.fin mid⟩ x ∨
          IDouble.Contains ⟨Dbl.fin mid, Dbl.fin u⟩ x) := by
  have hidx : h % t.num_vars < t.num_vars := Nat.mod_lt _ hN
  have hrec := p_call_handler_recording t.num_vars (h % t.num_vars) hidx
  have hsplit : default_split (recordingHandlers t.num_vars) t h
      = [⟨t.m_variable_values.set (h % t.num_vars)
            ⟨(t.get_value (h % t.num_vars)).lb, (t.get_value (h % t.num_vars)).center⟩,
          t.derived ++ [(h % t.num_vars, false, true)]⟩,
         ⟨t.m_variable_values.set (h % t.num_vars)
            ⟨(t.get_value (h % t.num_vars)).center, (t.get_value (h % t.num_vars)).ub⟩,
          t.derived ++ [(h % t.num_vars, true, false)]⟩] := by
    simp [default_split, split_half, hrec]
  refine ⟨hsplit, rfl, ?_, ?_⟩
  · intro c hc j hj
    rw [hsplit] at hc
    simp only [List.mem_cons, List.mem_singleton, List.not_mem_nil, or_false] at hc
    rcases hc with rfl | rfl
    · exact get_value_set_ne t _ _ (Ne.symm hj) _ _
    · exact get_value_set_ne t _ _ (Ne.symm hj) _ _
  · intro l u hI hl hu hlu hlo hhi
    obtain ⟨mid, hc, h1, h2, hm⟩ := center_of_sum hl hu hlu hlo hhi
    rw [hI]
    refine ⟨mid, hc, hm, h1, h2, ?_, ?_, ?_⟩
    · exact ⟨by simp only [Dbl.leReal]; exact_mod_cast h1, by simp [Dbl.geReal]⟩
    · exact ⟨by simp [Dbl.leReal], by simp only [Dbl.geReal]; exact_mod_cast h2⟩
    · intro x
      simp only [IDouble.Contains, Dbl.leReal, Dbl.geReal]
      have h1r : (l : ℝ) ≤ (mid : ℝ) := by exact_mod_cast h1
      have h2r : (mid : ℝ) ≤ (u : ℝ) := by exact_mod_cast h2
      constructor
      · rintro ⟨ha, hb⟩
        rcases le_total x (mid : ℝ) with hx | hx
        · exact Or.inl ⟨ha, hx⟩
        · exact Or.inr ⟨hx, hb⟩
      · rintro (⟨ha, hb⟩ | ⟨ha, hb⟩)
        · exact ⟨ha, le_trans hb h2r⟩
        · exact ⟨le_trans h1r ha, hb⟩

/-- Witness of C30 (amended): the box with the variables `[0, 4]` and `[-1, 1]`
split at height `3`, which selects variable `1`; its midpoint is a double
between `-1` and `1` that lies in both halves. -/
theorem default_split_children_witness :
    default_split (recordingHandlers 2)
        ⟨[⟨Dbl.ofInt 0, Dbl.ofInt 4⟩, ⟨Dbl.ofInt (-1), Dbl.ofInt 1⟩], []⟩ 3
      = [⟨[⟨Dbl.ofInt 0, Dbl.ofInt 4⟩, ⟨Dbl.ofInt (-1), Dbl.ofInt 0⟩], [(1, false, true)]⟩,
         ⟨[⟨Dbl.ofInt 0, Dbl.ofInt 4⟩, ⟨Dbl.ofInt 0, Dbl.ofInt 1⟩], [(1, true, false)]⟩] ∧
    ∃ mid : Int, IDouble.center ⟨Dbl.ofInt (-1), Dbl.ofInt 1⟩ = Dbl.fin mid ∧
      Dbl.Representable mid ∧ -1 * pow2 1074 ≤ mid ∧ mid ≤ 1 * pow2 1074 ∧
      IDouble.Contains ⟨Dbl.fin (-1 * pow2 1074), Dbl.fin mid⟩ (mid : ℝ) ∧
      IDouble.Contains ⟨Dbl.fin mid, Dbl.fin (1 * pow2 1074)⟩ (mid : ℝ) ∧
      ∀ x : ℝ, IDouble.Contains ⟨Dbl.fin (-1 * pow2 1074), Dbl.fin (1 * pow2 1074)⟩ x ↔
        IDouble.Contains ⟨Dbl.fin (-1 * pow2 1074), Dbl.fin mid⟩ x ∨
        IDouble.Contains ⟨Dbl.fin mid, Dbl.fin (1 * pow2 1074)⟩ x :=
  ⟨(default_split_children
      ⟨[⟨Dbl.ofInt 0, Dbl.ofInt 4⟩, ⟨Dbl.ofInt (-1), Dbl.ofInt 1⟩], []⟩ 3 (by decide)).1.trans
      (by decide),
   (default_split_children
      ⟨[⟨Dbl.ofInt 0, Dbl.ofInt 4⟩, ⟨Dbl.ofInt (-1), Dbl.ofInt 1⟩], []⟩ 3 (by decide)).2.2.2
      (-1 * pow2 1074) (1 * pow2 1074) rfl (by decide) (by decide) (by decide) (by decide)
      (by decide)⟩

/-- Counterexample to C30 as stated: the interval `[M, M]` with `M` the largest
finite double has `lb ≤ ub`, but `lb + ub` overflows and rounds down to `M`, so
`mid = M / 2 < lb`.  The default split of the box with this one variable hands
over `[M, M/2]` and `[M/2, M]`: the split point `M / 2` is not in the first half,
and it is in the second half but not in the parent's interval. -/
theorem default_split_overflow :
    Dbl.le (Dbl.fin Dbl.maxFinite) (Dbl.fin Dbl.maxFinite) = true ∧
    default_split (recordingHandlers 1)
        ⟨[⟨Dbl.fin Dbl.maxFinite, Dbl.fin Dbl.maxFinite⟩], []⟩ 0
      = [⟨[⟨Dbl.fin Dbl.maxFinite, Dbl.fin (Dbl.maxFinite / 2)⟩], [(0, false, true)]⟩,
         ⟨[⟨Dbl.fin (Dbl.maxFinite / 2), Dbl.fin Dbl.maxFinite⟩], [(0, true, false)]⟩] ∧
    ¬ IDouble.Contains ⟨Dbl.fin Dbl.maxFinite, Dbl.fin (Dbl.maxFinite / 2)⟩
        ((Dbl.maxFinite / 2 : Int) : ℝ) ∧
    IDouble.Contains ⟨Dbl.fin (Dbl.maxFinite / 2), Dbl.fin Dbl.maxFinite⟩
        ((Dbl.maxFinite / 2 : Int) : ℝ) ∧
    ¬ IDouble.Contains ⟨Dbl.fin Dbl.maxFinite, Dbl.fin Dbl.maxFinite⟩
        ((Dbl.maxFinite / 2 : Int) : ℝ) := by
  have h1 : ¬ (Dbl.maxFinite ≤ Dbl.maxFinite / 2) := by decide
  have h2 : Dbl.maxFinite / 2 ≤ Dbl.maxFinite := by decide
  refine ⟨by decide, by decide, ?_, ?_, ?_⟩
  · intro h
    have h3 : ((Dbl.maxFinite : Int) : ℝ) ≤ ((Dbl.maxFinite / 2 : Int) : ℝ) := h.1
    exact h1 (by exact_mod_cast h3)
  · exact ⟨le_refl _, by simp only [Dbl.geReal]; exact_mod_cast h2⟩
  · intro h
    have h3 : ((Dbl.maxFinite : Int) : ℝ) ≤ ((Dbl.maxFinite / 2 : Int) : ℝ) := h.1
    exact h1 (by exact_mod_cast h3)

end BasicVariableSet

end ivarp

namespace ivarp

/-! ## The stored constants -/

namespace Dbl

/-- No double lies strictly between two neighbouring multiples of the unit in
the last place of a binade. -/
theorem not_representable_between {N k : Int} {s : Nat} (hN : pow2 52 ≤ N)
    (h1 : N * pow2 s < k) (h2 : k < (N + 1) * pow2 s) : ¬ Representable k := by
  intro hk
  have hd := representable_dvd hk
  have hb := representable_natAbs hk
  have hps := pow2_pos s
  have hkpos : 0 < k := lt_of_le_of_lt
    (mul_nonneg (le_trans (le_of_lt (pow2_pos 52)) hN) (le_of_lt hps)) h1
  have hlow : pow2 (52 + s) ≤ k := by
    rw [pow2_add]
    exact le_trans (Int.mul_le_mul_of_nonneg_right hN (le_of_lt hps)) (le_of_lt h1)
  have hup := (natAbs_lt_pow2 (ulp_lt hb)).1
  have hlt : pow2 (52 + s) < pow2 (53 + ulpAux 13 k.natAbs) := lt_of_le_of_lt hlow hup
  have hexp : s ≤ ulpAux 13 k.natAbs := by
    by_contra hcon
    have := pow2_le (show 53 + ulpAux 13 k.natAbs ≤ 52 + s by omega)
    omega
  obtain ⟨j, hj⟩ := dvd_trans (pow2_dvd hexp) hd
  rw [hj, mul_comm (pow2 s) j] at h1 h2
  have h3 : N < j := lt_of_mul_lt_mul_right h1 (le_of_lt hps)
  have h4 : j < N + 1 := lt_of_mul_lt_mul_right h2 (le_of_lt hps)
  omega

/-- Two neighbouring multiples of the unit in the last place of a binade are
consecutive doubles, when they are doubles. -/
theorem consecutive_of_neighbours {N : Int} {s : Nat} (hN : pow2 52 ≤ N)
    (hl : Representable (N * pow2 s)) (hu : Representable ((N + 1) * pow2 s)) :
    Consecutive (N * pow2 s) ((N + 1) * pow2 s) := by
  refine ⟨hl, hu, ?_, fun k h1 h2 => not_representable_between hN h1 h2⟩
  have := pow2_pos s
  nlinarith

end Dbl

theorem pi_gt_lb : ((7074237752028440 * pow2 1023 : Int) : ℝ) < 2 ^ 1074 * Real.pi := by
  have h := Real.pi_gt_d20
  have h1 : (7074237752028440 : ℝ) < 2 ^ 51 * 3.14159265358979323846 := by norm_num
  have h2 : (7074237752028440 : ℝ) < 2 ^ 51 * Real.pi := by nlinarith
  have h3 : (2 : ℝ) ^ 1074 = 2 ^ 1023 * 2 ^ 51 := by rw [← pow_add]
  have h4 : (0 : ℝ) < 2 ^ 1023 := by positivity
  push_cast
  rw [Dbl.pow2_cast, h3]
  nlinarith

theorem pi_lt_ub : 2 ^ 1074 * Real.pi < ((7074237752028441 * pow2 1023 : Int) : ℝ) := by
  have h := Real.pi_lt_d20
  have h1 : 2 ^ 51 * (3.14159265358979323847 : ℝ) < 7074237752028441 := by norm_num
  have h2 : 2 ^ 51 * Real.pi < (7074237752028441 : ℝ) := by nlinarith
  have h3 : (2 : ℝ) ^ 1074 = 2 ^ 1023 * 2 ^ 51 := by rw [← pow_add]
  have h4 : (0 : ℝ) < 2 ^ 1023 := by positivity
  push_cast
  rw [Dbl.pow2_cast, h3]
  nlinarith

theorem pi_half_gt_lb :
    ((7074237752028440 * pow2 1022 : Int) : ℝ) < 2 ^ 1074 * (Real.pi / 2) := by
  have h := Real.pi_gt_d20
  have h1 : (7074237752028440 : ℝ) < 2 ^ 51 * 3.14159265358979323846 := by norm_num
  have h2 : (7074237752028440 : ℝ) < 2 ^ 51 * Real.pi := by nlinarith
  have h3 : (2 : ℝ) ^ 1074 = 2 ^ 1022 * 2 ^ 52 := by rw [← pow_add]
  have h4 : (0 : ℝ) < 2 ^ 1022 := by positivity
  push_cast
  rw [Dbl.pow2_cast, h3]
  nlinarith

theorem pi_half_lt_ub :
    2 ^ 1074 * (Real.pi / 2) < ((7074237752028441 * pow2 1022 : Int) : ℝ) := by
  have h := Real.pi_lt_d20
  have h1 : 2 ^ 51 * (3.14159265358979323847 : ℝ) < 7074237752028441 := by norm_num
  have h2 : 2 ^ 51 * Real.pi < (7074237752028441 : ℝ) := by nlinarith
  have h3 : (2 : ℝ) ^ 1074 = 2 ^ 1022 * 2 ^ 52 := by rw [← pow_add]
  have h4 : (0 : ℝ) < 2 ^ 1022 := by positivity
  push_cast
  rw [Dbl.pow2_cast, h3]
  nlinarith

theorem rec_2pi_gt_lb :
    ((5734161139222658 * pow2 1019 : Int) : ℝ) < 2 ^ 1074 * (1 / (2 * Real.pi)) := by
  have h := Real.pi_lt_d20
  have hpi := Real.pi_pos
  have h1 : (5734161139222658 : ℝ) * (2 * 3.14159265358979323847) < 2 ^ 55 := by norm_num
  have h2 : (5734161139222658 : ℝ) * (2 * Real.pi) < 2 ^ 55 := by nlinarith
  have h3 : (2 : ℝ) ^ 1074 = 2 ^ 1019 * 2 ^ 55 := by rw [← pow_add]
  have h4 : (0 : ℝ) < 2 ^ 1019 := by positivity
  have h5 : (5734161139222658 : ℝ) < 2 ^ 55 * (1 / (2 * Real.pi)) := by
    rw [mul_one_div, lt_div_iff₀ (by positivity)]
    exact h2
  push_cast
  rw [Dbl.pow2_cast, h3]
  nlinarith

theorem rec_2pi_lt_ub :
    2 ^ 1074 * (1 / (2 * Real.pi)) < ((5734161139222659 * pow2 1019 : Int) : ℝ) := by
  have h := Real.pi_gt_d20
  have hpi := Real.pi_pos
  have h1 : (2 : ℝ) ^ 55 < 5734161139222659 * (2 * 3.14159265358979323846) := by norm_num
  have h2 : (2 : ℝ) ^ 55 < 5734161139222659 * (2 * Real.pi) := by nlinarith
  have h3 : (2 : ℝ) ^ 1074 = 2 ^ 1019 * 2 ^ 55 := by rw [← pow_add]
  have h4 : (0 : ℝ) < 2 ^ 1019 := by positivity
  have h5 : 2 ^ 55 * (1 / (2 * Real.pi)) < (5734161139222659 : ℝ) := by
    rw [mul_one_div, div_lt_iff₀ (by positivity)]
    exact h2
  push_cast
  rw [Dbl.pow2_cast, h3]
  nlinarith

/-- The stored `1/(2π)` contains the exact value. -/
theorem rec_2pi_contains : ConstantCache.rec_2pi.Contains (2 ^ 1074 * (1 / (2 * Real.pi))) :=
  ⟨le_of_lt rec_2pi_gt_lb, le_of_lt rec_2pi_lt_ub⟩

namespace ConstantCache

/-- C28: each of the stored pairs `pi`, `pi_half` and `rec_2pi` consists of two
finite doubles `lb`, `ub` with `lb < π < ub`, `lb < π/2 < ub` and
`lb < 1/(2π) < ub` respectively as exact reals (all values in units of
`2^(-1074)`), and `lb`, `ub` are consecutive doubles. -/
theorem constants_bracket :
    (∃ l u : Int, pi = ⟨Dbl.fin l, Dbl.fin u⟩ ∧
      (l : ℝ) < 2 ^ 1074 * Real.pi ∧ 2 ^ 1074 * Real.pi < (u : ℝ) ∧ Dbl.Consecutive l u) ∧
    (∃ l u : Int, pi_half = ⟨Dbl.fin l, Dbl.fin u⟩ ∧
      (l : ℝ) < 2 ^ 1074 * (Real.pi / 2) ∧ 2 ^ 1074 * (Real.pi / 2) < (u : ℝ) ∧
      Dbl.Consecutive l u) ∧
    (∃ l u : Int, rec_2pi = ⟨Dbl.fin l, Dbl.fin u⟩ ∧
      (l : ℝ) < 2 ^ 1074 * (1 / (2 * Real.pi)) ∧ 2 ^ 1074 * (1 / (2 * Real.pi)) < (u : ℝ) ∧
      Dbl.Consecutive l u) :=
  ⟨⟨7074237752028440 * pow2 1023, 7074237752028441 * pow2 1023, rfl, pi_gt_lb, pi_lt_ub,
      Dbl.consecutive_of_neighbours (N := 7074237752028440) (by decide) (by decide) (by decide)⟩,
   ⟨7074237752028440 * pow2 1022, 7074237752028441 * pow2 1022, rfl, pi_half_gt_lb,
      pi_half_lt_ub,
      Dbl.consecutive_of_neighbours (N := 7074237752028440) (by decide) (by decide) (by decide)⟩,
   ⟨5734161139222658 * pow2 1019, 5734161139222659 * pow2 1019, rfl, rec_2pi_gt_lb,
      rec_2pi_lt_ub,
      Dbl.consecutive_of_neighbours (N := 5734161139222658) (by decide) (by decide) (by decide)⟩⟩

end ConstantCache

end ivarp

namespace ivarp

/-! ## Sine, cosine and tangent outside their domain of computation -/

/-- C26 as the code has it: for every interval that is not finite or is
NaN-tagged, and whatever the point functions, `sin` and `cos` return the
interval with lower bound `-1` whose upper bound is `1` when the input is
NaN-free and NaN when the input is NaN-tagged: the result is NaN-tagged exactly
when the input is. -/
theorem sin_cos_nonfinite (round_sin round_cos : Bool → Dbl → Dbl) (a : IDouble)
    (h : a.is_finite = false ∨ a.possibly_undefined = true) :
    sin round_sin a
      = ⟨Dbl.ofInt (-1), if a.possibly_undefined then Dbl.nan else Dbl.ofInt 1⟩ ∧
    cos round_cos a
      = ⟨Dbl.ofInt (-1), if a.possibly_undefined then Dbl.nan else Dbl.ofInt 1⟩ ∧
    (sin round_sin a).possibly_undefined = a.possibly_undefined ∧
    (cos round_cos a).possibly_undefined = a.possibly_undefined := by
  have hc : (!a.is_finite || a.possibly_undefined) = true := by
    rcases h with h | h <;> simp [h]
  have hs : sin round_sin a
      = ⟨Dbl.ofInt (-1), if a.possibly_undefined then Dbl.nan else Dbl.ofInt 1⟩ := by
    simp only [sin, interval_sin_symm, hc, if_true, IDouble.ofBoundsUndef, mm_set_pd]
  have hcos : cos round_cos a
      = ⟨Dbl.ofInt (-1), if a.possibly_undefined then Dbl.nan else Dbl.ofInt 1⟩ := by
    simp only [cos, interval_cos_symm, hc, if_true, IDouble.ofBoundsUndef, mm_set_pd]
  refine ⟨hs, hcos, ?_, ?_⟩
  · rw [hs]
    cases hp : a.possibly_undefined <;> simp [IDouble.possibly_undefined, Dbl.isNaN, Dbl.ofInt]
  · rw [hcos]
    cases hp : a.possibly_undefined <;> simp [IDouble.possibly_undefined, Dbl.isNaN, Dbl.ofInt]

/-- Witness of C26 (amended): the NaN-tagged interval `[0, NaN]`, with point
functions that return `0`. -/
theorem sin_cos_nonfinite_witness :
    sin (fun _ _ => Dbl.fin 0) ⟨Dbl.fin 0, Dbl.nan⟩ = ⟨Dbl.ofInt (-1), Dbl.nan⟩ ∧
    cos (fun _ _ => Dbl.fin 0) ⟨Dbl.fin 0, Dbl.nan⟩ = ⟨Dbl.ofInt (-1), Dbl.nan⟩ :=
  ⟨(sin_cos_nonfinite (fun _ _ => Dbl.fin 0) (fun _ _ => Dbl.fin 0) ⟨Dbl.fin 0, Dbl.nan⟩
      (Or.inr rfl)).1,
   (sin_cos_nonfinite (fun _ _ => Dbl.fin 0) (fun _ _ => Dbl.fin 0) ⟨Dbl.fin 0, Dbl.nan⟩
      (Or.inr rfl)).2.1⟩

/-- Counterexample to C26 as stated: the interval `[0, +inf]` is not finite, and
for every choice of the point functions its sine and its cosine are `[-1, 1]`,
which is not NaN-tagged. -/
theorem sin_cos_infinite_defined :
    IDouble.is_finite ⟨Dbl.fin 0, Dbl.pinf⟩ = false ∧
    (∀ round_sin : Bool → Dbl → Dbl,
      sin round_sin ⟨Dbl.fin 0, Dbl.pinf⟩ = ⟨Dbl.ofInt (-1), Dbl.ofInt 1⟩) ∧
    (∀ round_cos : Bool → Dbl → Dbl,
      cos round_cos ⟨Dbl.fin 0, Dbl.pinf⟩ = ⟨Dbl.ofInt (-1), Dbl.ofInt 1⟩) ∧
    IDouble.possibly_undefined ⟨Dbl.ofInt (-1), Dbl.ofInt 1⟩ = false :=
  ⟨rfl, fun _ => rfl, fun _ => rfl, rfl⟩

/-- C27: for every interval `a` and whatever the point function, with `L` the
lower endpoint of the stored `π/2`: `tan(a)` is the undefined value, both
endpoints NaN, when `a.lb < -L` or `a.ub > L`, and otherwise it is
`[round_tan<false>(a.lb), round_tan<true>(a.ub)]`.  The double `L` is below the
exact `π/2`, so that every real of an interval on which the tangent is computed
lies strictly between `-π/2` and `π/2` (values in units of `2^(-1074)`). -/
theorem interval_tan_spec (round_tan : Bool → Dbl → Dbl) (a : IDouble) :
    ((Dbl.lt a.lb ConstantCache.pi_half.lb.neg = true ∨
        Dbl.gt a.ub ConstantCache.pi_half.lb = true) →
      tan round_tan a = ⟨Dbl.nan, Dbl.nan⟩) ∧
    (Dbl.lt a.lb ConstantCache.pi_half.lb.neg = false →
      Dbl.gt a.ub ConstantCache.pi_half.lb = false →
      tan round_tan a = ⟨round_tan false a.lb, round_tan true a.ub⟩) ∧
    (∃ L : Int, ConstantCache.pi_half.lb = Dbl.fin L ∧ (L : ℝ) < 2 ^ 1074 * (Real.pi / 2) ∧
      ∀ l u : Int, a = ⟨Dbl.fin l, Dbl.fin u⟩ →
        ((Dbl.lt a.lb ConstantCache.pi_half.lb.neg = true ∨
            Dbl.gt a.ub ConstantCache.pi_half.lb = true) ↔ (l < -L ∨ L < u))) ∧
    (∀ x : ℝ, a.Contains x →
      Dbl.lt a.lb ConstantCache.pi_half.lb.neg = false →
      Dbl.gt a.ub ConstantCache.pi_half.lb = false →
      -(2 ^ 1074 * (Real.pi / 2)) < x ∧ x < 2 ^ 1074 * (Real.pi / 2)) := by
  refine ⟨?_, ?_, ?_, ?_⟩
  · intro h
    have hc : (Dbl.lt a.lb ConstantCache.pi_half.lb.neg ||
        Dbl.gt a.ub ConstantCache.pi_half.lb) = true := by
      rcases h with h | h <;> simp [h]
    simp only [tan, interval_tan, hc, if_true, IDouble.undefined_value, IDouble.ofBounds,
      mm_set_pd]
  · intro h1 h2
    simp [tan, interval_tan, h1, h2, IDouble.ofBounds, mm_set_pd]
  · refine ⟨7074237752028440 * pow2 1022, rfl, pi_half_gt_lb, ?_⟩
    intro l u ha
    rw [ha]
    simp [ConstantCache.pi_half, IDouble.ofBounds, mm_set_pd, Dbl.neg, Dbl.lt, Dbl.gt]
  · intro x hx h1 h2
    have hL := pi_half_gt_lb
    obtain ⟨hxl, hxu⟩ := hx
    constructor
    · cases hlb : a.lb with
      | nan => rw [hlb] at hxl; exact False.elim hxl
      | pinf => rw [hlb] at hxl; exact False.elim hxl
      | ninf =>
        rw [hlb] at h1
        simp [ConstantCache.pi_half, IDouble.ofBounds, mm_set_pd, Dbl.neg, Dbl.lt] at h1
      | fin l =>
        rw [hlb] at h1 hxl
        simp only [ConstantCache.pi_half, IDouble.ofBounds, mm_set_pd, Dbl.neg, Dbl.lt,
          decide_eq_false_iff_not, not_lt] at h1
        have h3 : ((-(7074237752028440 * pow2 1022) : Int) : ℝ) ≤ (l : ℝ) := by
          exact_mod_cast h1
        have h4 : (l : ℝ) ≤ x := hxl
        push_cast at h3 hL
        linarith
    · cases hub : a.ub with
      | nan => rw [hub] at hxu; exact False.elim hxu
      | ninf => rw [hub] at hxu; exact False.elim hxu
      | pinf =>
        rw [hub] at h2
        simp [ConstantCache.pi_half, IDouble.ofBounds, mm_set_pd, Dbl.gt, Dbl.lt] at h2
      | fin u =>
        rw [hub] at h2 hxu
        simp only [ConstantCache.pi_half, IDouble.ofBounds, mm_set_pd, Dbl.gt, Dbl.lt,
          decide_eq_false_iff_not, not_lt] at h2
        have h3 : (u : ℝ) ≤ ((7074237752028440 * pow2 1022 : Int) : ℝ) := by
          exact_mod_cast h2
        have h4 : x ≤ (u : ℝ) := hxu
        linarith

end ivarp

namespace ivarp

/-! ## Conversion of 64-bit integers -/

namespace Dbl

/-- Rounding leaves a double unchanged. -/
theorem roundDown_exact {n : Int} (h : Representable n) : roundDown n 0 = fin n := by
  have h1 := h.1
  have h2 := h.2.1
  have h3 := h.2.2
  unfold roundDown
  simp only [h1]
  rw [if_neg (by omega), if_neg (by omega)]

theorem pow2_2097_le_maxFinite : pow2 2097 ≤ maxFinite := by decide

theorem natAbs_mul_pow2 (z : Int) (k : Nat) : (z * pow2 k).natAbs = z.natAbs * 2 ^ k := by
  rw [Int.natAbs_mul]
  congr 1

/-- An integer of at most 53 bits times a power of two in range is a double. -/
theorem representable_int_mul {z : Int} {k : Nat} (hz : z.natAbs ≤ 2 ^ 53)
    (hk : 53 + k ≤ 2097) : Representable (z * pow2 k) := by
  have hmag : (z * pow2 k).natAbs ≤ 2 ^ (53 + k) := by
    rw [natAbs_mul_pow2, pow_add]
    exact Nat.mul_le_mul_right _ hz
  have hle : (2 : Nat) ^ (53 + k) ≤ 2 ^ 2097 := Nat.pow_le_pow_right (by norm_num) hk
  have hb : (z * pow2 k).natAbs < 2 ^ 2100 :=
    lt_of_le_of_lt (le_trans hmag hle) (Nat.pow_lt_pow_right (by norm_num) (by norm_num))
  have hM := pow2_2097_le_maxFinite
  have hcast : ((z * pow2 k).natAbs : Int) ≤ pow2 2097 := by
    unfold pow2
    exact_mod_cast le_trans hmag hle
  apply representable_of_dvd (ulp_dvd_of_magnitude (Dvd.intro_left z rfl) hmag hb)
  · omega
  · omega

/-- The double with a normal bit pattern and a clear sign bit. -/
theorem ofBits_normal_pos (e m : Nat) (he : 0 < e) (he2 : e < 2047) (hm : m < 2 ^ 52) :
    ofBits (e * 2 ^ 52 + m) = fin (((2 ^ 52 + m : Nat) : Int) * pow2 (e - 1)) := by
  have h1 : (e * 2 ^ 52 + m) / 2 ^ 63 % 2 = 0 := by omega
  have h2 : (e * 2 ^ 52 + m) / 2 ^ 52 % 2 ^ 11 = e := by omega
  have h3 : (e * 2 ^ 52 + m) % 2 ^ 52 = m := by omega
  have hne0 : ¬ e = 0 := by omega
  have hne : ¬ e = 2047 := by omega
  unfold ofBits
  simp only [h1, h2, h3, if_neg hne0, if_neg hne]
  rfl

/-- The double with a normal bit pattern and a set sign bit. -/
theorem ofBits_normal_neg (e m : Nat) (he : 0 < e) (he2 : e < 2047) (hm : m < 2 ^ 52) :
    ofBits (2 ^ 63 + e * 2 ^ 52 + m) = fin (-(((2 ^ 52 + m : Nat) : Int) * pow2 (e - 1))) := by
  have h0 : (2 ^ 63 + e * 2 ^ 52 + m) / 2 ^ 52 = 2 ^ 11 + e := by omega
  have h1 : (2 ^ 63 + e * 2 ^ 52 + m) / 2 ^ 63 % 2 = 1 := by omega
  have h2 : (2 ^ 63 + e * 2 ^ 52 + m) / 2 ^ 52 % 2 ^ 11 = e := by
    rw [h0]
    omega
  have h3 : (2 ^ 63 + e * 2 ^ 52 + m) % 2 ^ 52 = m := by omega
  have hne0 : ¬ e = 0 := by omega
  have hne : ¬ e = 2047 := by omega
  unfold ofBits
  simp only [h1, h2, h3, if_neg hne0, if_neg hne]
  rfl

end Dbl

theorem word16_zero (v : Nat) : word16 v 0 = v % 2 ^ 16 := by simp [word16]

theorem word16_one (v : Nat) : word16 v 1 = v / 2 ^ 16 % 2 ^ 16 := by simp [word16]

theorem word16_two (v : Nat) : word16 v 2 = v / 2 ^ 32 % 2 ^ 16 := by simp [word16]

theorem word16_three (v : Nat) : word16 v 3 = v / 2 ^ 48 % 2 ^ 16 := by simp [word16]

/-- The blend with mask `0x3` of a lane takes the upper half of the lane from
the first operand and the lower half from the second. -/
theorem blend_lane_three (a b : Nat) (ha : a < 2 ^ 64) :
    blend_lane a b 3 = b % 2 ^ 32 + 2 ^ 32 * (a / 2 ^ 32) := by
  have t0 : Nat.testBit 3 0 = true := by decide
  have t1 : Nat.testBit 3 1 = true := by decide
  have t2 : Nat.testBit 3 2 = false := by decide
  have t3 : Nat.testBit 3 3 = false := by decide
  simp only [blend_lane, word16_zero, word16_one, word16_two, word16_three, t0, t1, t2, t3,
    if_true, Bool.false_eq_true, if_false]
  omega

/-- The blend with mask `0x8` of a lane takes the top word of the lane from the
second operand. -/
theorem blend_lane_eight (a b : Nat) :
    blend_lane a b 8 = a % 2 ^ 48 + 2 ^ 48 * (b / 2 ^ 48 % 2 ^ 16) := by
  have t0 : Nat.testBit 8 0 = false := by decide
  have t1 : Nat.testBit 8 1 = false := by decide
  have t2 : Nat.testBit 8 2 = false := by decide
  have t3 : Nat.testBit 8 3 = true := by decide
  simp only [blend_lane, word16_zero, word16_one, word16_two, word16_three, t0, t1, t2, t3,
    if_true, Bool.false_eq_true, if_false]
  omega

/-- The blend with mask `0xc` of a lane takes the upper half of the lane from
the second operand. -/
theorem blend_lane_twelve (a b : Nat) :
    blend_lane a b 12 = a % 2 ^ 32 + 2 ^ 32 * (b / 2 ^ 32 % 2 ^ 32) := by
  have t0 : Nat.testBit 12 0 = false := by decide
  have t1 : Nat.testBit 12 1 = false := by decide
  have t2 : Nat.testBit 12 2 = true := by decide
  have t3 : Nat.testBit 12 3 = true := by decide
  simp only [blend_lane, word16_zero, word16_one, word16_two, word16_three, t0, t1, t2, t3,
    if_true, Bool.false_eq_true, if_false]
  omega

theorem i64_bits_high (j : Int) (h1 : -(2 ^ 63) ≤ j) (h2 : j < 2 ^ 63) :
    ∃ t : Nat, t < 2 ^ 16 ∧
      (blend_lane
        (srai32 ((j % 2 ^ 64).toNat % 2 ^ 32) 16 + 2 ^ 32 * srai32 ((j % 2 ^ 64).toNat / 2 ^ 32) 16)
        0 3 + 4915678993274896384) % 2 ^ 64 = 1091 * 2 ^ 52 + (2111062325329920 + t * 2 ^ 32) ∧
      j = ((t : Int) - 2 ^ 15) * 2 ^ 48 + (((j % 2 ^ 64).toNat % 2 ^ 48 : Nat) : Int) := by
  have hv : (j % 2 ^ 64).toNat < 2 ^ 64 := by omega
  have hlo : srai32 ((j % 2 ^ 64).toNat % 2 ^ 32) 16 < 2 ^ 32 := by
    unfold srai32
    split_ifs <;> omega
  have hhi : srai32 ((j % 2 ^ 64).toNat / 2 ^ 32) 16 < 2 ^ 32 := by
    unfold srai32
    split_ifs <;> omega
  rw [blend_lane_three _ _ (by omega)]
  by_cases hj : 0 ≤ j
  · refine ⟨(j % 2 ^ 64).toNat / 2 ^ 48 + 2 ^ 15, by omega, ?_, by omega⟩
    have hs : srai32 ((j % 2 ^ 64).toNat / 2 ^ 32) 16 = (j % 2 ^ 64).toNat / 2 ^ 48 := by
      unfold srai32
      split_ifs <;> omega
    omega
  · refine ⟨(j % 2 ^ 64).toNat / 2 ^ 48 - 2 ^ 15, by omega, ?_, by omega⟩
    have hs : srai32 ((j % 2 ^ 64).toNat / 2 ^ 32) 16
        = (j % 2 ^ 64).toNat / 2 ^ 48 + (2 ^ 32 - 2 ^ 16) := by
      unfold srai32
      split_ifs <;> omega
    omega

theorem pow2_1090 : pow2 1090 = 65536 * pow2 1074 := by decide

theorem pow2_1122 : pow2 1122 = 281474976710656 * pow2 1074 := by decide

/-- One lane of `i64_to_intervald`: the register holding the 64-bit integer `j`
in two's complement is converted to `j` rounded toward minus infinity. -/
theorem i64_lane (j : Int) (h1 : -(2 ^ 63) ≤ j) (h2 : j < 2 ^ 63) :
    ((Dbl.ofBits ((blend_lane
        (srai32 ((j % 2 ^ 64).toNat % 2 ^ 32) 16 + 2 ^ 32 * srai32 ((j % 2 ^ 64).toNat / 2 ^ 32) 16)
        0 3 + 4915678993274896384) % 2 ^ 64)).sub (Dbl.ofInt 442726361368656609280)).add
      (Dbl.ofBits (blend_lane (j % 2 ^ 64).toNat 4841369599423283200 8))
    = Dbl.roundDown (j * pow2 1074) 0 := by
  obtain ⟨t, ht, hbits, hj⟩ := i64_bits_high j h1 h2
  have hlow : blend_lane (j % 2 ^ 64).toNat 4841369599423283200 8
      = 1075 * 2 ^ 52 + (j % 2 ^ 64).toNat % 2 ^ 48 := by
    rw [blend_lane_eight]
    omega
  rw [hbits, hlow, Dbl.ofBits_normal_pos 1091 _ (by norm_num) (by norm_num) (by omega),
    Dbl.ofBits_normal_pos 1075 _ (by norm_num) (by norm_num) (by omega)]
  have hz : Dbl.Representable (((t : Int) - 2 ^ 15 - 16) * pow2 1122) :=
    Dbl.representable_int_mul (by omega) (by norm_num)
  have hsub : ((2 ^ 52 + (2111062325329920 + t * 2 ^ 32) : Nat) : Int) * pow2 (1091 - 1)
      + -(442726361368656609280 * pow2 1074) = ((t : Int) - 2 ^ 15 - 16) * pow2 1122 := by
    rw [show 1091 - 1 = 1090 from rfl, pow2_1090, pow2_1122]
    push_cast
    ring
  have hadd : ((t : Int) - 2 ^ 15 - 16) * pow2 1122
      + ((2 ^ 52 + (j % 2 ^ 64).toNat % 2 ^ 48 : Nat) : Int) * pow2 (1075 - 1)
      = j * pow2 1074 := by
    rw [show 1075 - 1 = 1074 from rfl, pow2_1122]
    conv_rhs => rw [hj]
    push_cast
    ring
  simp only [Dbl.sub, Dbl.ofInt, Dbl.neg, Dbl.add]
  rw [hsub, Dbl.roundDown_exact hz]
  simp only [Dbl.add]
  rw [hadd]

theorem bits_magic1 : (Dbl.ofInt 442721857769029238784).toBits = 0x4438000000000000 := by decide
theorem bits_two52 : (Dbl.ofInt 0x0010000000000000).toBits = 0x4330000000000000 := by decide
theorem bits_two52_pos : (Dbl.ofInt 4503599627370496).toBits = 0x4330000000000000 := by decide
theorem bits_two52_neg : (Dbl.ofInt (-4503599627370496)).toBits = 0xc330000000000000 := by decide
theorem bits_two84_pos :
    (Dbl.ofInt 19342813113834066795298816).toBits = 0x4530000000000000 := by decide
theorem bits_two84_neg :
    (Dbl.ofInt (-19342813113834066795298816)).toBits = 0xc530000000000000 := by decide

theorem pow2_1106 : pow2 1106 = 4294967296 * pow2 1074 := by decide

/-- The `or` of the upper half of a register with a pattern whose lower half is
clear is their sum. -/
theorem or_high_pattern (h a : Nat) (hh : h < 2 ^ 32) :
    h ||| 2 ^ 32 * a = 2 ^ 32 * a + h := by
  rw [Nat.lor_comm]
  exact (Nat.mul_add_lt_is_or hh a).symm

/-- Lane 0 of `u64_to_intervald`: the register value `u` is converted to `u`
rounded toward minus infinity. -/
theorem u64_lane_lb (u : Nat) (hu : u < 2 ^ 64) :
    ((Dbl.ofBits (u / 2 ^ 32 ||| 4985484787499139072)).sub
        (Dbl.ofInt 19342813118337666422669312)).add
      (Dbl.ofBits (blend_lane u 4841369599423283200 12))
    = Dbl.roundDown ((u : Int) * pow2 1074) 0 := by
  have hor : u / 2 ^ 32 ||| 4985484787499139072 = 1107 * 2 ^ 52 + u / 2 ^ 32 := by
    rw [show (4985484787499139072 : Nat) = 2 ^ 32 * 1160773632 by norm_num,
      or_high_pattern _ _ (by omega)]
    omega
  have hlow : blend_lane u 4841369599423283200 12 = 1075 * 2 ^ 52 + u % 2 ^ 32 := by
    rw [blend_lane_twelve]
    omega
  rw [hor, hlow, Dbl.ofBits_normal_pos 1107 _ (by norm_num) (by norm_num) (by omega),
    Dbl.ofBits_normal_pos 1075 _ (by norm_num) (by norm_num) (by omega)]
  have hz : Dbl.Representable ((((u / 2 ^ 32 : Nat) : Int) - 2 ^ 20) * pow2 1106) :=
    Dbl.representable_int_mul (by omega) (by norm_num)
  have hsub : ((2 ^ 52 + u / 2 ^ 32 : Nat) : Int) * pow2 (1107 - 1)
      + -(19342813118337666422669312 * pow2 1074)
      = (((u / 2 ^ 32 : Nat) : Int) - 2 ^ 20) * pow2 1106 := by
    rw [show 1107 - 1 = 1106 from rfl, pow2_1106]
    push_cast
    ring
  have hsplit : (u : Int) = ((u / 2 ^ 32 : Nat) : Int) * 2 ^ 32 + ((u % 2 ^ 32 : Nat) : Int) := by
    omega
  have hadd : (((u / 2 ^ 32 : Nat) : Int) - 2 ^ 20) * pow2 1106
      + ((2 ^ 52 + u % 2 ^ 32 : Nat) : Int) * pow2 (1075 - 1) = (u : Int) * pow2 1074 := by
    rw [show 1075 - 1 = 1074 from rfl, pow2_1106]
    conv_rhs => rw [hsplit]
    push_cast
    ring
  simp only [Dbl.sub, Dbl.ofInt, Dbl.neg, Dbl.add]
  rw [hsub, Dbl.roundDown_exact hz]
  simp only [Dbl.add]
  rw [hadd]

/-- Lane 1 of `u64_to_intervald` before the sign switch: the register value `u`
is converted to `-u` rounded toward minus infinity. -/
theorem u64_lane_ub (u : Nat) (hu : u < 2 ^ 64) :
    ((Dbl.ofBits (u / 2 ^ 32 ||| 14208856824353914880)).sub
        (Dbl.ofInt (-19342813118337666422669312))).add
      (Dbl.ofBits (blend_lane u 14064741636278059008 12))
    = Dbl.roundDown (-((u : Int) * pow2 1074)) 0 := by
  have hor : u / 2 ^ 32 ||| 14208856824353914880 = 2 ^ 63 + 1107 * 2 ^ 52 + u / 2 ^ 32 := by
    rw [show (14208856824353914880 : Nat) = 2 ^ 32 * 3308257280 by norm_num,
      or_high_pattern _ _ (by omega)]
    omega
  have hlow : blend_lane u 14064741636278059008 12 = 2 ^ 63 + 1075 * 2 ^ 52 + u % 2 ^ 32 := by
    rw [blend_lane_twelve]
    omega
  rw [hor, hlow, Dbl.ofBits_normal_neg 1107 _ (by norm_num) (by norm_num) (by omega),
    Dbl.ofBits_normal_neg 1075 _ (by norm_num) (by norm_num) (by omega)]
  have hz : Dbl.Representable (((2 ^ 20 : Int) - ((u / 2 ^ 32 : Nat) : Int)) * pow2 1106) :=
    Dbl.representable_int_mul (by omega) (by norm_num)
  have hsub : -(((2 ^ 52 + u / 2 ^ 32 : Nat) : Int) * pow2 (1107 - 1))
      + -(-19342813118337666422669312 * pow2 1074)
      = ((2 ^ 20 : Int) - ((u / 2 ^ 32 : Nat) : Int)) * pow2 1106 := by
    rw [show 1107 - 1 = 1106 from rfl, pow2_1106]
    push_cast
    ring
  have hsplit : (u : Int) = ((u / 2 ^ 32 : Nat) : Int) * 2 ^ 32 + ((u % 2 ^ 32 : Nat) : Int) := by
    omega
  have hadd : ((2 ^ 20 : Int) - ((u / 2 ^ 32 : Nat) : Int)) * pow2 1106
      + -(((2 ^ 52 + u % 2 ^ 32 : Nat) : Int) * pow2 (1075 - 1)) = -((u : Int) * pow2 1074) := by
    rw [show 1075 - 1 = 1074 from rfl, pow2_1106]
    conv_rhs => rw [hsplit]
    push_cast
    ring
  simp only [Dbl.sub, Dbl.ofInt, Dbl.neg, Dbl.add]
  rw [hsub, Dbl.roundDown_exact hz]
  simp only [Dbl.add]
  rw [hadd]

/-- The function `i64_to_intervald` returns the integer rounded toward minus
infinity and the wrapped negation of the integer rounded toward minus infinity,
negated. -/
theorem i64_to_intervald_lanes (i j : Int) (h1 : -(2 ^ 63) ≤ i) (h2 : i < 2 ^ 63)
    (hj1 : -(2 ^ 63) ≤ j) (hj2 : j < 2 ^ 63) (hij : (-i) % 2 ^ 64 = j % 2 ^ 64) :
    i64_to_intervald i
      = ⟨Dbl.roundDown (i * pow2 1074) 0, (Dbl.roundDown (j * pow2 1074) 0).neg⟩ := by
  simp only [i64_to_intervald, mm_srai_epi32, mm_blend_epi16, mm_setzero_si128, mm_add_epi64,
    mm_castpd_si128, mm_set1_pd, mm_sub_pd, mm_castsi128_pd, mm_add_pd, mm_xor_pd,
    SWITCH_UPPER_SIGN128, Dbl.xor_sign, bits_magic1, bits_two52, if_true, Bool.false_eq_true,
    if_false, show (51 % 16 : Nat) = 3 from rfl, show (51 / 16 : Nat) = 3 from rfl,
    show (136 % 16 : Nat) = 8 from rfl, show (136 / 16 : Nat) = 8 from rfl]
  rw [hij, i64_lane i h1 h2, i64_lane j hj1 hj2]

/-- The function `u64_to_intervald` returns the integer rounded toward minus
infinity and toward plus infinity. -/
theorem u64_to_intervald_eq (u : Nat) (hu : u < 2 ^ 64) :
    u64_to_intervald u
      = ⟨Dbl.roundDown ((u : Int) * pow2 1074) 0, Dbl.roundUp ((u : Int) * pow2 1074) 0⟩ := by
  simp only [u64_to_intervald, mm_srli_epi64, mm_or_si128, mm_blend_epi16, mm_set_pd,
    mm_castpd_si128, mm_sub_pd, mm_castsi128_pd, mm_add_pd, mm_xor_pd,
    SWITCH_UPPER_SIGN128, Dbl.xor_sign, bits_two52_pos, bits_two52_neg, bits_two84_pos,
    bits_two84_neg, if_true, Bool.false_eq_true, if_false,
    show (204 % 16 : Nat) = 12 from rfl, show (204 / 16 : Nat) = 12 from rfl,
    Nat.mod_eq_of_lt hu]
  rw [u64_lane_lb u hu, u64_lane_ub u hu, Dbl.neg_roundDown_neg]

/-- The function `i64_to_intervald` on an integer other than the least one
returns the integer rounded toward minus infinity and toward plus infinity. -/
theorem i64_to_intervald_eq (i : Int) (h1 : -(2 ^ 63) < i) (h2 : i < 2 ^ 63) :
    i64_to_intervald i
      = ⟨Dbl.roundDown (i * pow2 1074) 0, Dbl.roundUp (i * pow2 1074) 0⟩ := by
  rw [i64_to_intervald_lanes i (-i) (by omega) h2 (by omega) (by omega) rfl,
    show -i * pow2 1074 = -(i * pow2 1074) by ring, Dbl.neg_roundDown_neg]

end ivarp

namespace ivarp

/-! ## The conversion of 64-bit integers is the directed rounding -/

namespace Dbl

theorem representable_neg {n : Int} (h : Representable n) : Representable (-n) := by
  have hd := representable_dvd h
  apply representable_of_dvd
  · rw [Int.natAbs_neg]
    exact (Int.dvd_neg).mpr hd
  · have := h.2.2
    omega
  · have := h.2.1
    omega

/-- Rounding a number in the range of the doubles toward minus infinity gives a
double. -/
theorem representable_roundDownInt_zero {q : Int} (h1 : -maxFinite ≤ q) (h2 : q ≤ maxFinite) :
    Representable (roundDownInt q 0) := by
  have hM := maxFinite_pos
  have hb : q.natAbs < 2 ^ 2100 := natAbs_lt_of_le_maxFinite (by omega) (by omega)
  have hle := roundDownInt_zero_le q
  have hge : -maxFinite ≤ roundDownInt q 0 :=
    le_roundDownInt_zero representable_neg_maxFinite h1 hb
  have hrb : (roundDownInt q 0).natAbs < 2 ^ 2100 :=
    natAbs_lt_of_le_maxFinite (by omega) (by omega)
  refine representable_of_dvd ?_ hge (by omega)
  have hq := natAbs_lt_pow2 (ulp_lt hb)
  have hp := pow2_pos (ulpAux 13 q.natAbs)
  have hlow : -pow2 (53 + ulpAux 13 q.natAbs) ≤ roundDownInt q 0 := by
    rw [roundDownInt_zero, pow2_add, ← neg_mul]
    apply Int.mul_le_mul_of_nonneg_right _ (le_of_lt hp)
    apply (Int.le_ediv_iff_mul_le hp).mpr
    have := hq.2
    rw [pow2_add] at this
    linarith
  have hmag : (roundDownInt q 0).natAbs ≤ 2 ^ (53 + ulpAux 13 q.natAbs) := by
    have hc : ((roundDownInt q 0).natAbs : Int) ≤ pow2 (53 + ulpAux 13 q.natAbs) := by
      have := hq.1
      omega
    unfold pow2 at hc
    exact_mod_cast hc
  apply ulp_dvd_of_magnitude (k := ulpAux 13 q.natAbs) _ hmag hrb
  rw [roundDownInt_zero]
  exact Dvd.intro_left _ rfl

/-- In the range of the doubles, `roundDown` is the rounding toward minus
infinity: the result is the largest double not above the value. -/
theorem isRoundDown_roundDown {q : Int} (h1 : -maxFinite ≤ q) (h2 : q ≤ maxFinite) :
    roundDown q 0 = fin (roundDownInt q 0) ∧ IsRoundDown (q : ℝ) (roundDown q 0) := by
  have hM := maxFinite_pos
  have hb : q.natAbs < 2 ^ 2100 := natAbs_lt_of_le_maxFinite (by omega) (by omega)
  have hr := representable_roundDownInt_zero h1 h2
  have hle := roundDownInt_zero_le q
  have heq : roundDown q 0 = fin (roundDownInt q 0) := by
    unfold roundDown
    simp only
    rw [if_neg (by omega), if_neg (by have := hr.2.1; omega)]
  refine ⟨heq, roundDownInt q 0, heq, hr, by exact_mod_cast hle, ?_⟩
  intro m hm hmq
  exact le_roundDownInt_zero hm (by exact_mod_cast hmq) hb

/-- In the range of the doubles, `roundUp` is the rounding toward plus infinity:
the result is the smallest double not below the value. -/
theorem isRoundUp_roundUp {q : Int} (h1 : -maxFinite ≤ q) (h2 : q ≤ maxFinite) :
    roundUp q 0 = fin (-roundDownInt (-q) 0) ∧ IsRoundUp (q : ℝ) (roundUp q 0) := by
  obtain ⟨heq, n, hn, hrep, hle, hmax⟩ :=
    isRoundDown_roundDown (q := -q) (by omega) (by omega)
  have heq2 : roundUp q 0 = fin (-roundDownInt (-q) 0) := by
    rw [← neg_roundDown_neg, heq]
    rfl
  rw [heq] at hn
  injection hn with hn
  refine ⟨heq2, -roundDownInt (-q) 0, heq2, representable_neg (hn ▸ hrep), ?_, ?_⟩
  · rw [hn]
    push_cast at hle ⊢
    linarith
  · intro m hm hqm
    have := hmax (-m) (representable_neg hm) (by push_cast; linarith)
    omega

theorem two_pow_63_le_maxFinite : 2 ^ 63 * pow2 1074 ≤ maxFinite := by decide

theorem two_pow_64_le_maxFinite : 2 ^ 64 * pow2 1074 ≤ maxFinite := by decide

theorem representable_int64_min : Representable (-(2 ^ 63) * pow2 1074) := by decide

end Dbl

/-- The conversion of an integer `z` of magnitude at most `2^64` whose two lanes
are the directed roundings: the enclosure, the singleton on a double, and the
strict bracket otherwise. -/
theorem conversion_of_roundings (z : Int) (I : IDouble) (hz1 : -(2 ^ 64) ≤ z) (hz2 : z ≤ 2 ^ 64)
    (hI : I = ⟨Dbl.roundDown (z * pow2 1074) 0, Dbl.roundUp (z * pow2 1074) 0⟩) :
    Dbl.IsRoundDown ((z * pow2 1074 : Int) : ℝ) I.lb ∧
    Dbl.IsRoundUp ((z * pow2 1074 : Int) : ℝ) I.ub ∧
    I.Contains ((z * pow2 1074 : Int) : ℝ) ∧
    (Dbl.Representable (z * pow2 1074) →
      I = ⟨Dbl.fin (z * pow2 1074), Dbl.fin (z * pow2 1074)⟩ ∧ singleton I = true) ∧
    (z.natAbs ≤ 2 ^ 53 → Dbl.Representable (z * pow2 1074)) ∧
    (¬ Dbl.Representable (z * pow2 1074) →
      2 ^ 53 < z.natAbs ∧ singleton I = false ∧
      ∃ l u : Int, I = ⟨Dbl.fin l, Dbl.fin u⟩ ∧ l < z * pow2 1074 ∧ z * pow2 1074 < u) := by
  have hp := Dbl.pow2_pos 1074
  have h64 := Dbl.two_pow_64_le_maxFinite
  have hr1 : -Dbl.maxFinite ≤ z * pow2 1074 := by nlinarith
  have hr2 : z * pow2 1074 ≤ Dbl.maxFinite := by nlinarith
  obtain ⟨hd, hdown⟩ := Dbl.isRoundDown_roundDown hr1 hr2
  obtain ⟨hu, hup⟩ := Dbl.isRoundUp_roundUp hr1 hr2
  have hle := Dbl.roundDownInt_zero_le (z * pow2 1074)
  have hle2 := Dbl.roundDownInt_zero_le (-(z * pow2 1074))
  have hsmall : z.natAbs ≤ 2 ^ 53 → Dbl.Representable (z * pow2 1074) :=
    fun h => Dbl.representable_int_mul h (by norm_num)
  subst hI
  refine ⟨hdown, hup, ?_, ?_, hsmall, ?_⟩
  · simp only [IDouble.Contains, hd, hu, Dbl.leReal, Dbl.geReal]
    constructor
    · exact_mod_cast hle
    · have : z * pow2 1074 ≤ -Dbl.roundDownInt (-(z * pow2 1074)) 0 := by omega
      exact_mod_cast this
  · intro hrep
    have hrep2 := Dbl.representable_neg hrep
    have e1 : Dbl.roundDownInt (z * pow2 1074) 0 = z * pow2 1074 := hrep.1
    have e2 : Dbl.roundDownInt (-(z * pow2 1074)) 0 = -(z * pow2 1074) := hrep2.1
    rw [hd, hu, e1, e2, neg_neg]
    exact ⟨rfl, by simp [singleton, Dbl.eq]⟩
  · intro hnr
    have hbig : 2 ^ 53 < z.natAbs := by
      by_contra hcon
      exact hnr (hsmall (by omega))
    have hlt : Dbl.roundDownInt (z * pow2 1074) 0 < z * pow2 1074 := by
      rcases lt_or_eq_of_le hle with h | h
      · exact h
      · exact False.elim (hnr ⟨h, hr1, hr2⟩)
    have hgt : z * pow2 1074 < -Dbl.roundDownInt (-(z * pow2 1074)) 0 := by
      rcases lt_or_eq_of_le hle2 with h | h
      · omega
      · have hrn : Dbl.Representable (-(z * pow2 1074)) := ⟨h, by omega, by omega⟩
        have := Dbl.representable_neg hrn
        rw [neg_neg] at this
        exact False.elim (hnr this)
    refine ⟨hbig, ?_, _, _, by rw [hd, hu], hlt, hgt⟩
    rw [hd, hu]
    simp only [singleton, Dbl.eq, decide_eq_false_iff_not]
    omega

end ivarp

namespace ivarp

namespace IDouble

/-- C21 on the code: for every `std::int64_t` `i` other than the least one,
`-2^63`, and for every `std::uint64_t` `u`, the lower bound of the interval
constructed from the integer is the integer rounded toward minus infinity, the
upper bound is the integer rounded toward plus infinity, the integer lies
between them, and the interval is the singleton of the integer whenever the
integer is a double, in particular whenever its magnitude is at most `2^53`.
For `i = -2^63`, which is a double, `negq` wraps and the interval is
`[-2^63, 2^63]`: it contains the integer but is not a singleton.  Values are in
units of `2^(-1074)`. -/
theorem ofInt64_spec :
    (∀ i : Int, -(2 ^ 63) < i → i < 2 ^ 63 →
      Dbl.IsRoundDown ((i * pow2 1074 : Int) : ℝ) (ofInt64 i).lb ∧
      Dbl.IsRoundUp ((i * pow2 1074 : Int) : ℝ) (ofInt64 i).ub ∧
      (ofInt64 i).Contains ((i * pow2 1074 : Int) : ℝ) ∧
      (Dbl.Representable (i * pow2 1074) →
        ofInt64 i = ⟨Dbl.fin (i * pow2 1074), Dbl.fin (i * pow2 1074)⟩ ∧
        singleton (ofInt64 i) = true) ∧
      (i.natAbs ≤ 2 ^ 53 → Dbl.Representable (i * pow2 1074))) ∧
    (∀ u : Nat, u < 2 ^ 64 →
      Dbl.IsRoundDown (((u : Int) * pow2 1074 : Int) : ℝ) (ofUInt64 u).lb ∧
      Dbl.IsRoundUp (((u : Int) * pow2 1074 : Int) : ℝ) (ofUInt64 u).ub ∧
      (ofUInt64 u).Contains (((u : Int) * pow2 1074 : Int) : ℝ) ∧
      (Dbl.Representable ((u : Int) * pow2 1074) →
        ofUInt64 u = ⟨Dbl.fin ((u : Int) * pow2 1074), Dbl.fin ((u : Int) * pow2 1074)⟩ ∧
        singleton (ofUInt64 u) = true) ∧
      (u ≤ 2 ^ 53 → Dbl.Representable ((u : Int) * pow2 1074))) ∧
    (Dbl.Representable (-(2 ^ 63) * pow2 1074) ∧
      ofInt64 (-(2 ^ 63)) = ⟨Dbl.ofInt (-(2 ^ 63)), Dbl.ofInt (2 ^ 63)⟩ ∧
      singleton (ofInt64 (-(2 ^ 63))) = false ∧
      (ofInt64 (-(2 ^ 63))).Contains ((-(2 ^ 63) * pow2 1074 : Int) : ℝ)) := by
  refine ⟨?_, ?_, Dbl.representable_int64_min, by decide, by decide, ?_⟩
  · intro i h1 h2
    obtain ⟨a, b, c, d, e, _⟩ := conversion_of_roundings i (ofInt64 i) (by omega) (by omega)
      (i64_to_intervald_eq i h1 h2)
    exact ⟨a, b, c, d, e⟩
  · intro u hu
    obtain ⟨a, b, c, d, e, _⟩ := conversion_of_roundings (u : Int) (ofUInt64 u) (by omega)
      (by omega) (u64_to_intervald_eq u hu)
    exact ⟨a, b, c, d, fun h => e (by omega)⟩
  · have h : ofInt64 (-(2 ^ 63)) = ⟨Dbl.ofInt (-(2 ^ 63)), Dbl.ofInt (2 ^ 63)⟩ := by decide
    rw [h]
    have h1 : (-(2 ^ 63) * pow2 1074 : Int) ≤ 2 ^ 63 * pow2 1074 := by decide
    exact ⟨le_refl _, by simp only [Dbl.ofInt, Dbl.geReal]; exact_mod_cast h1⟩

/-- C22 as the code has it: for every `std::int64_t` `i` and every
`std::uint64_t` `u`, an integer that is not exactly a double has magnitude
above `2^53`, and the interval constructed from it is not a singleton and has
finite endpoints strictly below and strictly above the integer; an integer
other than `-2^63` that is exactly a double gives a singleton, whatever its
magnitude. -/
theorem ofInt64_bracket (i : Int) (u : Nat) (h1 : -(2 ^ 63) ≤ i) (h2 : i < 2 ^ 63)
    (hu : u < 2 ^ 64) :
    (¬ Dbl.Representable (i * pow2 1074) →
      2 ^ 53 < i.natAbs ∧ singleton (ofInt64 i) = false ∧
      ∃ l r : Int, ofInt64 i = ⟨Dbl.fin l, Dbl.fin r⟩ ∧ l < i * pow2 1074 ∧ i * pow2 1074 < r) ∧
    (¬ Dbl.Representable ((u : Int) * pow2 1074) →
      2 ^ 53 < u ∧ singleton (ofUInt64 u) = false ∧
      ∃ l r : Int, ofUInt64 u = ⟨Dbl.fin l, Dbl.fin r⟩ ∧
        l < (u : Int) * pow2 1074 ∧ (u : Int) * pow2 1074 < r) ∧
    (Dbl.Representable (i * pow2 1074) → -(2 ^ 63) < i → singleton (ofInt64 i) = true) ∧
    (Dbl.Representable ((u : Int) * pow2 1074) → singleton (ofUInt64 u) = true) := by
  refine ⟨?_, ?_, ?_, ?_⟩
  · intro hnr
    have hne : i ≠ -(2 ^ 63) := by
      rintro rfl
      exact hnr Dbl.representable_int64_min
    exact (conversion_of_roundings i (ofInt64 i) (by omega) (by omega)
      (i64_to_intervald_eq i (by omega) h2)).2.2.2.2.2 hnr
  · intro hnr
    obtain ⟨a, b, c⟩ := (conversion_of_roundings (u : Int) (ofUInt64 u) (by omega) (by omega)
      (u64_to_intervald_eq u hu)).2.2.2.2.2 hnr
    exact ⟨by omega, b, c⟩
  · intro hrep hi
    exact ((conversion_of_roundings i (ofInt64 i) (by omega) (by omega)
      (i64_to_intervald_eq i hi h2)).2.2.2.1 hrep).2
  · intro hrep
    exact ((conversion_of_roundings (u : Int) (ofUInt64 u) (by omega) (by omega)
      (u64_to_intervald_eq u hu)).2.2.2.1 hrep).2

/-- Witness of C22 (amended): the integers `2^61 + 33` and `2^64 - 1` of the
conversion test are not doubles, and their intervals are not singletons. -/
theorem ofInt64_bracket_witness :
    singleton (ofInt64 (2 ^ 61 + 33)) = false ∧ singleton (ofUInt64 (2 ^ 64 - 1)) = false :=
  ⟨((ofInt64_bracket (2 ^ 61 + 33) (2 ^ 64 - 1) (by decide) (by decide) (by decide)).1
      (by decide)).2.1,
   ((ofInt64_bracket (2 ^ 61 + 33) (2 ^ 64 - 1) (by decide) (by decide) (by decide)).2.1
      (by decide)).2.1⟩

/-- Counterexample to C22 as stated: `2^54`, `-2^62` (the value `i641` of the
conversion test) and the unsigned `2^63` have magnitude above `2^53`, and the
intervals constructed from them are singletons. -/
theorem ofInt64_singleton_above_two_pow_53 :
    (2 : Int) ^ 53 < 2 ^ 54 ∧
    ofInt64 (2 ^ 54) = ⟨Dbl.ofInt (2 ^ 54), Dbl.ofInt (2 ^ 54)⟩ ∧
    singleton (ofInt64 (2 ^ 54)) = true ∧
    singleton (ofInt64 (-(2 ^ 62))) = true ∧
    singleton (ofUInt64 (2 ^ 63)) = true := by
  refine ⟨by decide, by decide, by decide, by decide, by decide⟩

end IDouble

end ivarp

namespace ivarp

/-! ## Sine and cosine on the quarters of a period

The reals `y` are arguments in units of `u = 2^(-1074)` (written `c = 1 / u`),
and `y / (2π)` is the number of periods in the same units, which is what the
period reduction bounds. -/

theorem sin_quarter_inc {c : ℝ} (hc : 0 < c) (k : ℤ) {y1 y2 : ℝ}
    (h1 : k * c - c / 4 ≤ y1 / (2 * Real.pi)) (h12 : y1 ≤ y2)
    (h2 : y2 / (2 * Real.pi) ≤ k * c + c / 4) :
    Real.sin (y1 / c) ≤ Real.sin (y2 / c) := by
  have hpi := Real.pi_pos
  have h2pi : (0 : ℝ) < 2 * Real.pi := by positivity
  rw [le_div_iff₀ h2pi] at h1
  rw [div_le_iff₀ h2pi] at h2
  rw [← Real.sin_sub_int_mul_two_pi (y1 / c) k, ← Real.sin_sub_int_mul_two_pi (y2 / c) k]
  apply Real.sin_le_sin_of_le_of_le_pi_div_two
  · rw [le_sub_iff_add_le, le_div_iff₀ hc]
    nlinarith
  · rw [sub_le_iff_le_add, div_le_iff₀ hc]
    nlinarith
  · have := div_le_div_of_nonneg_right h12 (le_of_lt hc)
    linarith

theorem sin_quarter_dec {c : ℝ} (hc : 0 < c) (k : ℤ) {y1 y2 : ℝ}
    (h1 : k * c + c / 4 ≤ y1 / (2 * Real.pi)) (h12 : y1 ≤ y2)
    (h2 : y2 / (2 * Real.pi) ≤ k * c + 3 * c / 4) :
    Real.sin (y2 / c) ≤ Real.sin (y1 / c) := by
  have hpi := Real.pi_pos
  have h2pi : (0 : ℝ) < 2 * Real.pi := by positivity
  rw [le_div_iff₀ h2pi] at h1
  rw [div_le_iff₀ h2pi] at h2
  have e1 : Real.sin (y1 / c) = -Real.sin (y1 / c - Real.pi - k * (2 * Real.pi)) := by
    rw [Real.sin_sub_int_mul_two_pi, Real.sin_sub_pi, neg_neg]
  have e2 : Real.sin (y2 / c) = -Real.sin (y2 / c - Real.pi - k * (2 * Real.pi)) := by
    rw [Real.sin_sub_int_mul_two_pi, Real.sin_sub_pi, neg_neg]
  rw [e1, e2, neg_le_neg_iff]
  apply Real.sin_le_sin_of_le_of_le_pi_div_two
  · rw [le_sub_iff_add_le, le_sub_iff_add_le, le_div_iff₀ hc]
    nlinarith
  · rw [sub_le_iff_le_add, sub_le_iff_le_add, div_le_iff₀ hc]
    nlinarith
  · have := div_le_div_of_nonneg_right h12 (le_of_lt hc)
    linarith

theorem cos_half_dec {c : ℝ} (hc : 0 < c) (k : ℤ) {y1 y2 : ℝ}
    (h1 : k * c ≤ y1 / (2 * Real.pi)) (h12 : y1 ≤ y2)
    (h2 : y2 / (2 * Real.pi) ≤ k * c + c / 2) :
    Real.cos (y2 / c) ≤ Real.cos (y1 / c) := by
  have hpi := Real.pi_pos
  have h2pi : (0 : ℝ) < 2 * Real.pi := by positivity
  rw [le_div_iff₀ h2pi] at h1
  rw [div_le_iff₀ h2pi] at h2
  rw [← Real.cos_sub_int_mul_two_pi (y1 / c) k, ← Real.cos_sub_int_mul_two_pi (y2 / c) k]
  apply Real.cos_le_cos_of_nonneg_of_le_pi
  · rw [le_sub_iff_add_le, le_div_iff₀ hc]
    nlinarith
  · rw [sub_le_iff_le_add, div_le_iff₀ hc]
    nlinarith
  · have := div_le_div_of_nonneg_right h12 (le_of_lt hc)
    linarith

theorem cos_half_inc {c : ℝ} (hc : 0 < c) (k : ℤ) {y1 y2 : ℝ}
    (h1 : k * c + c / 2 ≤ y1 / (2 * Real.pi)) (h12 : y1 ≤ y2)
    (h2 : y2 / (2 * Real.pi) ≤ k * c + c) :
    Real.cos (y1 / c) ≤ Real.cos (y2 / c) := by
  have hpi := Real.pi_pos
  have h2pi : (0 : ℝ) < 2 * Real.pi := by positivity
  rw [le_div_iff₀ h2pi] at h1
  rw [div_le_iff₀ h2pi] at h2
  have e1 : Real.cos (y1 / c) = -Real.cos (y1 / c - Real.pi - k * (2 * Real.pi)) := by
    rw [Real.cos_sub_int_mul_two_pi, Real.cos_sub_pi, neg_neg]
  have e2 : Real.cos (y2 / c) = -Real.cos (y2 / c - Real.pi - k * (2 * Real.pi)) := by
    rw [Real.cos_sub_int_mul_two_pi, Real.cos_sub_pi, neg_neg]
  rw [e1, e2, neg_le_neg_iff]
  apply Real.cos_le_cos_of_nonneg_of_le_pi
  · rw [le_sub_iff_add_le, le_sub_iff_add_le, le_div_iff₀ hc]
    nlinarith
  · rw [sub_le_iff_le_add, sub_le_iff_le_add, div_le_iff₀ hc]
    nlinarith
  · have := div_le_div_of_nonneg_right h12 (le_of_lt hc)
    linarith

end ivarp

namespace ivarp

/-! ## The period reduction of a non-negative interval -/

namespace Dbl

theorem leReal_std_min {a b : Dbl} {A B v : ℝ} (ha : leReal a A) (hb : leReal b B)
    (h : A ≤ v ∨ B ≤ v) : leReal (std_min a b) v := by
  unfold std_min
  cases a with
  | nan => exact False.elim ha
  | pinf => exact False.elim ha
  | ninf =>
    cases b with
    | nan => exact False.elim hb
    | pinf => exact False.elim hb
    | ninf => simp [lt, leReal]
    | fin n => simp [lt, leReal]
  | fin m =>
    cases b with
    | nan => exact False.elim hb
    | pinf => exact False.elim hb
    | ninf => simp [lt, leReal]
    | fin n =>
      simp only [leReal] at ha hb
      simp only [lt]
      by_cases hnm : n < m
      · simp only [hnm, decide_True, if_true, leReal]
        have : (n : ℝ) ≤ (m : ℝ) := by exact_mod_cast le_of_lt hnm
        rcases h with h | h <;> linarith
      · simp only [hnm, decide_False, Bool.false_eq_true, if_false, leReal]
        have : (m : ℝ) ≤ (n : ℝ) := by exact_mod_cast not_lt.mp hnm
        rcases h with h | h <;> linarith

theorem geReal_std_max {a b : Dbl} {A B v : ℝ} (ha : geReal a A) (hb : geReal b B)
    (h : v ≤ A ∨ v ≤ B) : geReal (std_max a b) v := by
  unfold std_max
  cases a with
  | nan => exact False.elim ha
  | ninf => exact False.elim ha
  | pinf =>
    cases b with
    | nan => exact False.elim hb
    | ninf => exact False.elim hb
    | pinf => simp [lt, geReal]
    | fin n => simp [lt, geReal]
  | fin m =>
    cases b with
    | nan => exact False.elim hb
    | ninf => exact False.elim hb
    | pinf => simp [lt, geReal]
    | fin n =>
      simp only [geReal] at ha hb
      simp only [lt]
      by_cases hnm : m < n
      · simp only [hnm, decide_True, if_true, geReal]
        have : (m : ℝ) ≤ (n : ℝ) := by exact_mod_cast le_of_lt hnm
        rcases h with h | h <;> linarith
      · simp only [hnm, decide_False, Bool.false_eq_true, if_false, geReal]
        have : (n : ℝ) ≤ (m : ℝ) := by exact_mod_cast not_lt.mp hnm
        rcases h with h | h <;> linarith

theorem leReal_neg_one {v : ℝ} (h : -(2 ^ 1074) ≤ v) : leReal (ofInt (-1)) v := by
  simp only [ofInt, leReal]
  push_cast
  rw [pow2_cast]
  linarith

theorem geReal_one {v : ℝ} (h : v ≤ 2 ^ 1074) : geReal (ofInt 1) v := by
  simp only [ofInt, geReal]
  push_cast
  rw [pow2_cast]
  linarith

end Dbl

/-- The interval `[-1, 1]` contains every value of a function bounded by `1`. -/
theorem contains_unit {s : ℝ} (h1 : -1 ≤ s) (h2 : s ≤ 1) :
    IDouble.Contains (IDouble.ofBounds (Dbl.ofInt (-1)) (Dbl.ofInt 1)) (2 ^ 1074 * s) := by
  have hc := Dbl.two_pow_1074_pos
  exact ⟨Dbl.leReal_neg_one (by nlinarith), Dbl.geReal_one (by nlinarith)⟩

/-- The function `modf` on a non-negative double: the floor and the rest. -/
theorem modf_nonneg {n : Int} (hn : 0 ≤ n) :
    modf (Dbl.fin n) = (Dbl.fin (n / pow2 1074 * pow2 1074), Dbl.fin (n % pow2 1074)) := by
  have hp := le_of_lt (Dbl.pow2_pos 1074)
  simp only [modf, Int.tdiv_eq_ediv hn hp, Int.tmod_eq_emod hn hp]

/-- A cross product of non-negative finite doubles is a non-negative finite
double. -/
theorem crossDown_nonneg {a b : Int} (ha : 0 ≤ a) (hb : 0 ≤ b) :
    ∃ k : Int, 0 ≤ k ∧ Dbl.crossDown (Dbl.fin a) (Dbl.fin b) = Dbl.fin k := by
  have hz : Dbl.zeroTimesInf (Dbl.fin a) (Dbl.fin b) = false := by
    simp [Dbl.zeroTimesInf, Dbl.isInf]
  simp only [Dbl.crossDown, hz, Bool.false_eq_true, if_false, Dbl.mul]
  exact Dbl.roundDown_nonneg (mul_nonneg ha hb) 1074

/-- The bounds of the period reduction of a non-negative interval `[l, u]`: the
lower bound is a non-negative double at most `l / (2π)`, and the upper bound is
plus infinity or a double at least `u / (2π)`. -/
theorem period_bounds {l u : Int} (hl : 0 ≤ l) (hlu : l ≤ u) :
    ∃ pl : Int, 0 ≤ pl ∧
      (IDouble.mul ⟨Dbl.fin l, Dbl.fin u⟩ ConstantCache.rec_2pi).lb = Dbl.fin pl ∧
      (pl : ℝ) ≤ (l : ℝ) / (2 * Real.pi) ∧
      ((IDouble.mul ⟨Dbl.fin l, Dbl.fin u⟩ ConstantCache.rec_2pi).ub = Dbl.pinf ∨
        ∃ pu : Int, (IDouble.mul ⟨Dbl.fin l, Dbl.fin u⟩ ConstantCache.rec_2pi).ub = Dbl.fin pu ∧
          (u : ℝ) / (2 * Real.pi) ≤ (pu : ℝ)) := by
  have hpi := Real.pi_pos
  have hc := Dbl.two_pow_1074_pos
  have hlur : (l : ℝ) ≤ (u : ℝ) := by exact_mod_cast hlu
  have hxl : IDouble.Contains ⟨Dbl.fin l, Dbl.fin u⟩ (l : ℝ) := ⟨le_refl _, hlur⟩
  have hxu : IDouble.Contains ⟨Dbl.fin l, Dbl.fin u⟩ (u : ℝ) := ⟨hlur, le_refl _⟩
  have e : ∀ y : ℝ, y * (2 ^ 1074 * (1 / (2 * Real.pi))) / 2 ^ 1074 = y / (2 * Real.pi) := by
    intro y
    field_simp
    ring
  have hcl := mul_intervald_with_contains Dbl.roundsDownMul_mul hxl rec_2pi_contains
  have hcu := mul_intervald_with_contains Dbl.roundsDownMul_mul hxu rec_2pi_contains
  rw [e] at hcl hcu
  have hmin := (mul_intervald_minmax (a := ⟨Dbl.fin l, Dbl.fin u⟩) (b := ConstantCache.rec_2pi)
    rfl rfl).1.1
  have hnn : ∃ pl : Int, 0 ≤ pl ∧
      (mul_intervald ⟨Dbl.fin l, Dbl.fin u⟩ ConstantCache.rec_2pi).lb = Dbl.fin pl := by
    have hu0 : 0 ≤ u := le_trans hl hlu
    simp only [List.mem_cons, List.mem_singleton, List.not_mem_nil, or_false] at hmin
    rcases hmin with h | h | h | h <;> rw [h]
    · exact crossDown_nonneg hl (by decide)
    · exact crossDown_nonneg hl (by decide)
    · exact crossDown_nonneg hu0 (by decide)
    · exact crossDown_nonneg hu0 (by decide)
  obtain ⟨pl, hpl0, hpl⟩ := hnn
  refine ⟨pl, hpl0, hpl, ?_, ?_⟩
  · have h := hcl.1
    change Dbl.leReal (mul_intervald ⟨Dbl.fin l, Dbl.fin u⟩ ConstantCache.rec_2pi).lb _ at h
    rw [hpl] at h
    exact h
  · have h := hcu.2
    change Dbl.geReal (mul_intervald ⟨Dbl.fin l, Dbl.fin u⟩ ConstantCache.rec_2pi).ub _ at h
    change (mul_intervald ⟨Dbl.fin l, Dbl.fin u⟩ ConstantCache.rec_2pi).ub = Dbl.pinf ∨ _
    cases hub : (mul_intervald ⟨Dbl.fin l, Dbl.fin u⟩ ConstantCache.rec_2pi).ub with
    | nan => rw [hub] at h; exact False.elim h
    | ninf => rw [hub] at h; exact False.elim h
    | pinf => exact Or.inl rfl
    | fin pu =>
      rw [hub] at h
      exact Or.inr ⟨pu, hub, h⟩

end ivarp

namespace ivarp

/-! ## The case tables of the interval sine -/

namespace Dbl

theorem le_fin (a b : Int) : le (fin a) (fin b) = decide (a ≤ b) := rfl

theorem lt_fin (a b : Int) : lt (fin a) (fin b) = decide (a < b) := rfl

theorem eq_fin (a b : Int) : eq (fin a) (fin b) = decide (a = b) := rfl

theorem quarter_cast : ((pow2 1072 : Int) : ℝ) = 2 ^ 1074 / 4 := by
  rw [pow2_cast]
  norm_num

theorem three_quarter_cast : ((3 * pow2 1072 : Int) : ℝ) = 3 * 2 ^ 1074 / 4 := by
  push_cast
  rw [pow2_cast]
  norm_num

theorem half_cast : ((pow2 1073 : Int) : ℝ) = 2 ^ 1074 / 2 := by
  rw [pow2_cast]
  norm_num

end Dbl

/-- The case table `interval_sin_nowrap` is enclosing: `k` is the common
integral part of the bounds of the period reduction, `fl` and `fu` are their
fractional parts. -/
theorem interval_sin_nowrap_contains (round_sin : Bool → Dbl → Dbl)
    (hs : RoundsOutward Real.sin round_sin) (P : IDouble) (I1 I2 : Dbl) {l u k fl fu : Int}
    {y : ℝ} (hly : (l : ℝ) ≤ y) (hyu : y ≤ (u : ℝ)) (hfl : 0 ≤ fl) (hfu : fu < pow2 1074)
    (hL : (k : ℝ) * 2 ^ 1074 + (fl : ℝ) ≤ (l : ℝ) / (2 * Real.pi))
    (hU : (u : ℝ) / (2 * Real.pi) ≤ (k : ℝ) * 2 ^ 1074 + (fu : ℝ)) :
    (interval_sin_nowrap round_sin ⟨P, Dbl.fin fl, Dbl.fin fu, I1, I2⟩
      ⟨Dbl.fin l, Dbl.fin u⟩).Contains (2 ^ 1074 * Real.sin (y / 2 ^ 1074)) := by
  have hq := Dbl.quarter_cast
  have h3q := Dbl.three_quarter_cast
  have hfl' : (0 : ℝ) ≤ (fl : ℝ) := by exact_mod_cast hfl
  have hfu' : (fu : ℝ) < 2 ^ 1074 := by
    have : (fu : ℝ) < ((pow2 1074 : Int) : ℝ) := by exact_mod_cast hfu
    rwa [Dbl.pow2_cast] at this
  obtain ⟨hsl1, hsl2⟩ := hs l
  obtain ⟨hsu1, hsu2⟩ := hs u
  have hunit := contains_unit (Real.neg_one_le_sin (y / 2 ^ 1074)) (Real.sin_le_one (y / 2 ^ 1074))
  have hone : Real.sin (y / 2 ^ 1074) ≤ 1 := Real.sin_le_one _
  have hmone : -1 ≤ Real.sin (y / 2 ^ 1074) := Real.neg_one_le_sin _
  have hpi := Real.pi_pos
  have hyL : (l : ℝ) / (2 * Real.pi) ≤ y / (2 * Real.pi) :=
    div_le_div_of_nonneg_right hly (by positivity)
  have hyU : y / (2 * Real.pi) ≤ (u : ℝ) / (2 * Real.pi) :=
    div_le_div_of_nonneg_right hyu (by positivity)
  have hlu : (l : ℝ) ≤ (u : ℝ) := le_trans hly hyu
  generalize (2 : ℝ) ^ 1074 = c at *
  have hc : 0 < c := by linarith
  simp only [interval_sin_nowrap, Dbl.le_fin, Dbl.lt_fin, decide_eq_true_eq, IDouble.ofBounds,
    mm_set_pd]
  by_cases h1 : fl ≤ pow2 1072
  · have h1r : (fl : ℝ) ≤ c / 4 := by rw [← hq]; exact_mod_cast h1
    rw [if_pos h1]
    by_cases h2 : fu < pow2 1072
    · have h2r : (fu : ℝ) < c / 4 := by rw [← hq]; exact_mod_cast h2
      rw [if_pos h2]
      exact ⟨Dbl.leReal_mono hsl1 (mul_le_mul_of_nonneg_left
          (sin_quarter_inc hc k (by linarith) hly (by linarith)) hc.le),
        Dbl.geReal_mono hsu2 (mul_le_mul_of_nonneg_left
          (sin_quarter_inc hc k (by linarith) hyu (by linarith)) hc.le)⟩
    · have h2r : c / 4 ≤ (fu : ℝ) := by rw [← hq]; exact_mod_cast not_lt.mp h2
      rw [if_neg h2]
      by_cases h3 : fu < 3 * pow2 1072
      · have h3r : (fu : ℝ) < 3 * c / 4 := by rw [← h3q]; exact_mod_cast h3
        rw [if_pos h3]
        refine ⟨Dbl.leReal_std_min hsl1 hsu1 ?_, hunit.2⟩
        rcases le_total (y / (2 * Real.pi)) ((k : ℝ) * c + c / 4) with hy | hy
        · exact Or.inl (mul_le_mul_of_nonneg_left
            (sin_quarter_inc hc k (by linarith) hly hy) hc.le)
        · exact Or.inr (mul_le_mul_of_nonneg_left
            (sin_quarter_dec hc k hy hyu (by linarith)) hc.le)
      · rw [if_neg h3]
        exact hunit
  · have h1r : c / 4 < (fl : ℝ) := by rw [← hq]; exact_mod_cast not_le.mp h1
    rw [if_neg h1]
    by_cases h3 : fu < 3 * pow2 1072
    · have h3r : (fu : ℝ) < 3 * c / 4 := by rw [← h3q]; exact_mod_cast h3
      rw [if_pos h3]
      exact ⟨Dbl.leReal_mono hsu1 (mul_le_mul_of_nonneg_left
          (sin_quarter_dec hc k (by linarith) hyu (by linarith)) hc.le),
        Dbl.geReal_mono hsl2 (mul_le_mul_of_nonneg_left
          (sin_quarter_dec hc k (by linarith) hly (by linarith)) hc.le)⟩
    · have h3r : 3 * c / 4 ≤ (fu : ℝ) := by rw [← h3q]; exact_mod_cast not_lt.mp h3
      rw [if_neg h3]
      by_cases h4 : fl ≤ 3 * pow2 1072
      · rw [if_pos h4]
        refine ⟨hunit.1, Dbl.geReal_std_max hsl2 hsu2 ?_⟩
        rcases le_total (y / (2 * Real.pi)) ((k : ℝ) * c + 3 * c / 4) with hy | hy
        · exact Or.inl (mul_le_mul_of_nonneg_left
            (sin_quarter_dec hc k (by linarith) hly hy) hc.le)
        · refine Or.inr (mul_le_mul_of_nonneg_left
            (sin_quarter_inc hc (k + 1) ?_ hyu ?_) hc.le)
          · push_cast
            linarith
          · push_cast
            linarith
      · have h4r : 3 * c / 4 < (fl : ℝ) := by rw [← h3q]; exact_mod_cast not_le.mp h4
        rw [if_neg h4]
        refine ⟨Dbl.leReal_mono hsl1 (mul_le_mul_of_nonneg_left
            (sin_quarter_inc hc (k + 1) ?_ hly ?_) hc.le),
          Dbl.geReal_mono hsu2 (mul_le_mul_of_nonneg_left
            (sin_quarter_inc hc (k + 1) ?_ hyu ?_) hc.le)⟩
        · push_cast
          linarith
        · push_cast
          linarith
        · push_cast
          linarith
        · push_cast
          linarith

/-- The case table `interval_sin_wrap` is enclosing: `k` and `k + 1` are the
integral parts of the bounds of the period reduction, `fl` and `fu` are their
fractional parts. -/
theorem interval_sin_wrap_contains (round_sin : Bool → Dbl → Dbl)
    (hs : RoundsOutward Real.sin round_sin) (P : IDouble) (I1 I2 : Dbl) {l u k fl fu : Int}
    {y : ℝ} (hly : (l : ℝ) ≤ y) (hyu : y ≤ (u : ℝ)) (hfl : 0 ≤ fl) (hfu : fu < pow2 1074)
    (hL : (k : ℝ) * 2 ^ 1074 + (fl : ℝ) ≤ (l : ℝ) / (2 * Real.pi))
    (hU : (u : ℝ) / (2 * Real.pi) ≤ ((k : ℝ) + 1) * 2 ^ 1074 + (fu : ℝ)) :
    (interval_sin_wrap round_sin ⟨P, Dbl.fin fl, Dbl.fin fu, I1, I2⟩
      ⟨Dbl.fin l, Dbl.fin u⟩).Contains (2 ^ 1074 * Real.sin (y / 2 ^ 1074)) := by
  have hq := Dbl.quarter_cast
  have h3q := Dbl.three_quarter_cast
  have hhalf := Dbl.half_cast
  have hfl' : (0 : ℝ) ≤ (fl : ℝ) := by exact_mod_cast hfl
  have hfu' : (fu : ℝ) < 2 ^ 1074 := by
    have : (fu : ℝ) < ((pow2 1074 : Int) : ℝ) := by exact_mod_cast hfu
    rwa [Dbl.pow2_cast] at this
  obtain ⟨hsl1, hsl2⟩ := hs l
  obtain ⟨hsu1, hsu2⟩ := hs u
  have hunit := contains_unit (Real.neg_one_le_sin (y / 2 ^ 1074)) (Real.sin_le_one (y / 2 ^ 1074))
  have hpi := Real.pi_pos
  have hyL : (l : ℝ) / (2 * Real.pi) ≤ y / (2 * Real.pi) :=
    div_le_div_of_nonneg_right hly (by positivity)
  have hyU : y / (2 * Real.pi) ≤ (u : ℝ) / (2 * Real.pi) :=
    div_le_div_of_nonneg_right hyu (by positivity)
  have hlu : (l : ℝ) ≤ (u : ℝ) := le_trans hly hyu
  generalize (2 : ℝ) ^ 1074 = c at *
  have hc : 0 < c := by linarith
  simp only [interval_sin_wrap, Dbl.le_fin, Dbl.lt_fin, decide_eq_true_eq, IDouble.ofBounds,
    mm_set_pd]
  by_cases h1 : fl ≤ pow2 1072
  · rw [if_pos h1]
    exact hunit
  · have h1r : c / 4 < (fl : ℝ) := by rw [← hq]; exact_mod_cast not_le.mp h1
    rw [if_neg h1]
    by_cases h4 : fl ≤ 3 * pow2 1072
    · rw [if_pos h4]
      by_cases h2 : fu < pow2 1072
      · have h2r : (fu : ℝ) < c / 4 := by rw [← hq]; exact_mod_cast h2
        rw [if_pos h2]
        refine ⟨hunit.1, Dbl.geReal_std_max hsl2 hsu2 ?_⟩
        rcases le_total (y / (2 * Real.pi)) ((k : ℝ) * c + 3 * c / 4) with hy | hy
        · exact Or.inl (mul_le_mul_of_nonneg_left
            (sin_quarter_dec hc k (by linarith) hly hy) hc.le)
        · refine Or.inr (mul_le_mul_of_nonneg_left
            (sin_quarter_inc hc (k + 1) ?_ hyu ?_) hc.le)
          · push_cast
            linarith
          · push_cast
            linarith
      · rw [if_neg h2]
        exact hunit
    · have h4r : 3 * c / 4 < (fl : ℝ) := by rw [← h3q]; exact_mod_cast not_le.mp h4
      rw [if_neg h4]
      by_cases h2 : fu < pow2 1072
      · have h2r : (fu : ℝ) < c / 4 := by rw [← hq]; exact_mod_cast h2
        rw [if_pos h2]
        refine ⟨Dbl.leReal_mono hsl1 (mul_le_mul_of_nonneg_left
            (sin_quarter_inc hc (k + 1) ?_ hly ?_) hc.le),
          Dbl.geReal_mono hsu2 (mul_le_mul_of_nonneg_left
            (sin_quarter_inc hc (k + 1) ?_ hyu ?_) hc.le)⟩
        · push_cast
          linarith
        · push_cast
          linarith
        · push_cast
          linarith
        · push_cast
          linarith
      · have h2r : c / 4 ≤ (fu : ℝ) := by rw [← hq]; exact_mod_cast not_lt.mp h2
        rw [if_neg h2]
        by_cases h3 : fu < 3 * pow2 1072
        · have h3r : (fu : ℝ) < 3 * c / 4 := by rw [← h3q]; exact_mod_cast h3
          rw [if_pos h3]
          refine ⟨Dbl.leReal_std_min hsl1 hsu1 ?_, hunit.2⟩
          rcases le_total (y / (2 * Real.pi)) (((k : ℝ) + 1) * c + c / 4) with hy | hy
          · refine Or.inl (mul_le_mul_of_nonneg_left
              (sin_quarter_inc hc (k + 1) ?_ hly ?_) hc.le)
            · push_cast
              linarith
            · push_cast
              linarith
          · refine Or.inr (mul_le_mul_of_nonneg_left
              (sin_quarter_dec hc (k + 1) ?_ hyu ?_) hc.le)
            · push_cast
              linarith
            · push_cast
              linarith
        · rw [if_neg h3]
          exact hunit

/-! ## The case tables of the interval cosine -/

/-- The case table `interval_cos_nowrap` is enclosing. -/
theorem interval_cos_nowrap_contains (round_cos : Bool → Dbl → Dbl)
    (hs : RoundsOutward Real.cos round_cos) (P : IDouble) (I1 I2 : Dbl) {l u k fl fu : Int}
    {y : ℝ} (hly : (l : ℝ) ≤ y) (hyu : y ≤ (u : ℝ)) (hfl : 0 ≤ fl) (hfu : fu < pow2 1074)
    (hL : (k : ℝ) * 2 ^ 1074 + (fl : ℝ) ≤ (l : ℝ) / (2 * Real.pi))
    (hU : (u : ℝ) / (2 * Real.pi) ≤ (k : ℝ) * 2 ^ 1074 + (fu : ℝ)) :
    (interval_cos_nowrap round_cos ⟨P, Dbl.fin fl, Dbl.fin fu, I1, I2⟩
      ⟨Dbl.fin l, Dbl.fin u⟩).Contains (2 ^ 1074 * Real.cos (y / 2 ^ 1074)) := by
  have hq := Dbl.quarter_cast
  have h3q := Dbl.three_quarter_cast
  have hhalf := Dbl.half_cast
  have hfl' : (0 : ℝ) ≤ (fl : ℝ) := by exact_mod_cast hfl
  have hfu' : (fu : ℝ) < 2 ^ 1074 := by
    have : (fu : ℝ) < ((pow2 1074 : Int) : ℝ) := by exact_mod_cast hfu
    rwa [Dbl.pow2_cast] at this
  obtain ⟨hsl1, hsl2⟩ := hs l
  obtain ⟨hsu1, hsu2⟩ := hs u
  have hunit := contains_unit (Real.neg_one_le_cos (y / 2 ^ 1074)) (Real.cos_le_one (y / 2 ^ 1074))
  have hpi := Real.pi_pos
  have hyL : (l : ℝ) / (2 * Real.pi) ≤ y / (2 * Real.pi) :=
    div_le_div_of_nonneg_right hly (by positivity)
  have hyU : y / (2 * Real.pi) ≤ (u : ℝ) / (2 * Real.pi) :=
    div_le_div_of_nonneg_right hyu (by positivity)
  have hlu : (l : ℝ) ≤ (u : ℝ) := le_trans hly hyu
  generalize (2 : ℝ) ^ 1074 = c at *
  have hc : 0 < c := by linarith
  simp only [interval_cos_nowrap, Dbl.half, Dbl.le_fin, Dbl.lt_fin, decide_eq_true_eq,
    IDouble.ofBounds, mm_set_pd]
  by_cases h1 : fl ≤ pow2 1073
  · have h1r : (fl : ℝ) ≤ c / 2 := by rw [← hhalf]; exact_mod_cast h1
    rw [if_pos h1]
    by_cases h2 : fu ≤ pow2 1073
    · have h2r : (fu : ℝ) ≤ c / 2 := by rw [← hhalf]; exact_mod_cast h2
      rw [if_pos h2]
      exact ⟨Dbl.leReal_mono hsu1 (mul_le_mul_of_nonneg_left
          (cos_half_dec hc k (by linarith) hyu (by linarith)) hc.le),
        Dbl.geReal_mono hsl2 (mul_le_mul_of_nonneg_left
          (cos_half_dec hc k (by linarith) hly (by linarith)) hc.le)⟩
    · have h2r : c / 2 < (fu : ℝ) := by rw [← hhalf]; exact_mod_cast not_le.mp h2
      rw [if_neg h2]
      refine ⟨hunit.1, Dbl.geReal_std_max hsu2 hsl2 ?_⟩
      rcases le_total (y / (2 * Real.pi)) ((k : ℝ) * c + c / 2) with hy | hy
      · exact Or.inr (mul_le_mul_of_nonneg_left
          (cos_half_dec hc k (by linarith) hly hy) hc.le)
      · exact Or.inl (mul_le_mul_of_nonneg_left
          (cos_half_inc hc k hy hyu (by linarith)) hc.le)
  · have h1r : c / 2 < (fl : ℝ) := by rw [← hhalf]; exact_mod_cast not_le.mp h1
    rw [if_neg h1]
    exact ⟨Dbl.leReal_mono hsl1 (mul_le_mul_of_nonneg_left
        (cos_half_inc hc k (by linarith) hly (by linarith)) hc.le),
      Dbl.geReal_mono hsu2 (mul_le_mul_of_nonneg_left
        (cos_half_inc hc k (by linarith) hyu (by linarith)) hc.le)⟩

/-- The case table `interval_cos_wrap` is enclosing. -/
theorem interval_cos_wrap_contains (round_cos : Bool → Dbl → Dbl)
    (hs : RoundsOutward Real.cos round_cos) (P : IDouble) (I1 I2 : Dbl) {l u k fl fu : Int}
    {y : ℝ} (hly : (l : ℝ) ≤ y) (hyu : y ≤ (u : ℝ)) (hfl : 0 ≤ fl) (hfu : fu < pow2 1074)
    (hL : (k : ℝ) * 2 ^ 1074 + (fl : ℝ) ≤ (l : ℝ) / (2 * Real.pi))
    (hU : (u : ℝ) / (2 * Real.pi) ≤ ((k : ℝ) + 1) * 2 ^ 1074 + (fu : ℝ)) :
    (interval_cos_wrap round_cos ⟨P, Dbl.fin fl, Dbl.fin fu, I1, I2⟩
      ⟨Dbl.fin l, Dbl.fin u⟩).Contains (2 ^ 1074 * Real.cos (y / 2 ^ 1074)) := by
  have hq := Dbl.quarter_cast
  have h3q := Dbl.three_quarter_cast
  have hhalf := Dbl.half_cast
  have hfl' : (0 : ℝ) ≤ (fl : ℝ) := by exact_mod_cast hfl
  have hfu' : (fu : ℝ) < 2 ^ 1074 := by
    have : (fu : ℝ) < ((pow2 1074 : Int) : ℝ) := by exact_mod_cast hfu
    rwa [Dbl.pow2_cast] at this
  obtain ⟨hsl1, hsl2⟩ := hs l
  obtain ⟨hsu1, hsu2⟩ := hs u
  have hunit := contains_unit (Real.neg_one_le_cos (y / 2 ^ 1074)) (Real.cos_le_one (y / 2 ^ 1074))
  have hpi := Real.pi_pos
  have hyL : (l : ℝ) / (2 * Real.pi) ≤ y / (2 * Real.pi) :=
    div_le_div_of_nonneg_right hly (by positivity)
  have hyU : y / (2 * Real.pi) ≤ (u : ℝ) / (2 * Real.pi) :=
    div_le_div_of_nonneg_right hyu (by positivity)
  have hlu : (l : ℝ) ≤ (u : ℝ) := le_trans hly hyu
  generalize (2 : ℝ) ^ 1074 = c at *
  have hc : 0 < c := by linarith
  simp only [interval_cos_wrap, Dbl.half, Dbl.le_fin, Dbl.lt_fin, Bool.or_eq_true,
    decide_eq_true_eq, IDouble.ofBounds, mm_set_pd]
  by_cases h1 : fl ≤ pow2 1073 ∨ pow2 1073 ≤ fu
  · rw [if_pos h1]
    exact hunit
  · rw [if_neg h1]
    push_neg at h1
    have h1r : c / 2 < (fl : ℝ) := by rw [← hhalf]; exact_mod_cast h1.1
    have h2r : (fu : ℝ) < c / 2 := by rw [← hhalf]; exact_mod_cast h1.2
    refine ⟨Dbl.leReal_std_min hsl1 hsu1 ?_, hunit.2⟩
    rcases le_total (y / (2 * Real.pi)) ((k : ℝ) * c + c) with hy | hy
    · exact Or.inl (mul_le_mul_of_nonneg_left
        (cos_half_inc hc k (by linarith) hly hy) hc.le)
    · refine Or.inr (mul_le_mul_of_nonneg_left
        (cos_half_dec hc (k + 1) ?_ hyu ?_) hc.le)
      · push_cast
        linarith
      · push_cast
        linarith

end ivarp

namespace ivarp

/-! ## Sine and cosine of a non-negative interval -/

namespace Dbl

/-- Rounding a non-negative number down gives a double not above it. -/
theorem roundDown_le_of_nonneg {p : Int} (hp : 0 ≤ p) :
    ∃ k : Int, roundDown p 0 = fin k ∧ k ≤ p := by
  have hM := maxFinite_pos
  have hle := roundDownInt_zero_le p
  have hr : 0 ≤ roundDownInt p 0 := by
    unfold roundDownInt
    exact Int.mul_nonneg (Int.ediv_nonneg hp (le_of_lt (pow2_pos _))) (le_of_lt (pow2_pos _))
  unfold roundDown
  simp only
  by_cases h1 : maxFinite < roundDownInt p 0
  · rw [if_pos h1]
    exact ⟨maxFinite, rfl, by omega⟩
  · rw [if_neg h1, if_neg (by omega)]
    exact ⟨_, rfl, hle⟩

end Dbl

/-- The test `add_rd(lb_integral, 1) < ub_integral` fails only when the integral
parts are at most one apart. -/
theorem add_rd_test_false {kl ku : Int} (hkl : 0 ≤ kl)
    (h : Dbl.lt (add_rd (Dbl.fin (kl * pow2 1074)) (Dbl.ofInt 1)) (Dbl.fin (ku * pow2 1074))
      = false) : ku ≤ kl + 1 := by
  have hp := Dbl.pow2_pos 1074
  obtain ⟨r, hr, hle⟩ := Dbl.roundDown_le_of_nonneg
    (p := kl * pow2 1074 + 1 * pow2 1074) (by nlinarith)
  simp only [add_rd, Dbl.ofInt, Dbl.add, hr, Dbl.lt_fin, decide_eq_false_iff_not, not_lt] at h
  have h2 : ku * pow2 1074 ≤ (kl + 1) * pow2 1074 := by linarith
  exact le_of_mul_le_mul_right h2 hp

/-- The test `add_rd(lb_integral, 1) < ub_integral` succeeds when the upper
integral part is plus infinity. -/
theorem add_rd_test_pinf {kl : Int} (hkl : 0 ≤ kl) :
    Dbl.lt (add_rd (Dbl.fin (kl * pow2 1074)) (Dbl.ofInt 1)) Dbl.pinf = true := by
  have hp := Dbl.pow2_pos 1074
  obtain ⟨r, hr, _⟩ := Dbl.roundDown_le_of_nonneg
    (p := kl * pow2 1074 + 1 * pow2 1074) (by nlinarith)
  simp only [add_rd, Dbl.ofInt, Dbl.add, hr, Dbl.lt]

/-- The test `add_rd(lb_integral, 1) < ub_integral` succeeds when the integral
parts are more than one apart. -/
theorem add_rd_test_true {kl ku : Int} (hkl : 0 ≤ kl) (h : kl + 1 < ku) :
    Dbl.lt (add_rd (Dbl.fin (kl * pow2 1074)) (Dbl.ofInt 1)) (Dbl.fin (ku * pow2 1074))
      = true := by
  have hp := Dbl.pow2_pos 1074
  obtain ⟨r, hr, hle⟩ := Dbl.roundDown_le_of_nonneg
    (p := kl * pow2 1074 + 1 * pow2 1074) (by nlinarith)
  simp only [add_rd, Dbl.ofInt, Dbl.add, hr, Dbl.lt_fin, decide_eq_true_eq]
  have h2 : (kl + 1) * pow2 1074 < ku * pow2 1074 := mul_lt_mul_of_pos_right h hp
  linarith

/-- The period reduction of a non-negative interval `[l, u]`: either the first
test of the interval sine and cosine succeeds, or the bounds of the reduced
interval have integral parts `k` and `k` or `k` and `k + 1` and fractional
parts `fl`, `fu` that bound `l / (2π)` from below and `u / (2π)` from above. -/
theorem period_reduction_cases {l u : Int} (hl : 0 ≤ l) (hlu : l ≤ u) :
    Dbl.lt (add_rd (positive_period_reduction ⟨Dbl.fin l, Dbl.fin u⟩
        ConstantCache.rec_2pi).lb_period_integral (Dbl.ofInt 1))
      (positive_period_reduction ⟨Dbl.fin l, Dbl.fin u⟩
        ConstantCache.rec_2pi).ub_period_integral = true ∨
    ∃ k fl fu : Int, 0 ≤ fl ∧ fu < pow2 1074 ∧
      (k : ℝ) * 2 ^ 1074 + (fl : ℝ) ≤ (l : ℝ) / (2 * Real.pi) ∧
      ((positive_period_reduction ⟨Dbl.fin l, Dbl.fin u⟩ ConstantCache.rec_2pi
          = ⟨IDouble.mul ⟨Dbl.fin l, Dbl.fin u⟩ ConstantCache.rec_2pi, Dbl.fin fl, Dbl.fin fu,
              Dbl.fin (k * pow2 1074), Dbl.fin (k * pow2 1074)⟩ ∧
        (u : ℝ) / (2 * Real.pi) ≤ (k : ℝ) * 2 ^ 1074 + (fu : ℝ)) ∨
       (positive_period_reduction ⟨Dbl.fin l, Dbl.fin u⟩ ConstantCache.rec_2pi
          = ⟨IDouble.mul ⟨Dbl.fin l, Dbl.fin u⟩ ConstantCache.rec_2pi, Dbl.fin fl, Dbl.fin fu,
              Dbl.fin (k * pow2 1074), Dbl.fin ((k + 1) * pow2 1074)⟩ ∧
        (u : ℝ) / (2 * Real.pi) ≤ ((k : ℝ) + 1) * 2 ^ 1074 + (fu : ℝ))) := by
  have hp := Dbl.pow2_pos 1074
  have hpi := Real.pi_pos
  obtain ⟨pl, hpl0, hplb, hple, hub⟩ := period_bounds hl hlu
  have hkl : 0 ≤ pl / pow2 1074 := Int.ediv_nonneg hpl0 (le_of_lt hp)
  rcases hub with hinf | ⟨pu, hpub, hpue⟩
  · left
    simp only [positive_period_reduction, hplb, hinf]
    rw [modf_nonneg hpl0]
    exact add_rd_test_pinf hkl
  · have hlur : (l : ℝ) / (2 * Real.pi) ≤ (u : ℝ) / (2 * Real.pi) :=
      div_le_div_of_nonneg_right (by exact_mod_cast hlu) (by positivity)
    have hplpu : pl ≤ pu := by
      have : (pl : ℝ) ≤ (pu : ℝ) := by linarith
      exact_mod_cast this
    have hpu0 : 0 ≤ pu := le_trans hpl0 hplpu
    have hred : positive_period_reduction ⟨Dbl.fin l, Dbl.fin u⟩ ConstantCache.rec_2pi
        = ⟨IDouble.mul ⟨Dbl.fin l, Dbl.fin u⟩ ConstantCache.rec_2pi,
            Dbl.fin (pl % pow2 1074), Dbl.fin (pu % pow2 1074),
            Dbl.fin (pl / pow2 1074 * pow2 1074), Dbl.fin (pu / pow2 1074 * pow2 1074)⟩ := by
      simp only [positive_period_reduction, hplb, hpub, modf_nonneg hpl0, modf_nonneg hpu0]
    by_cases htest : Dbl.lt (add_rd (Dbl.fin (pl / pow2 1074 * pow2 1074)) (Dbl.ofInt 1))
        (Dbl.fin (pu / pow2 1074 * pow2 1074)) = true
    · left
      rw [hred]
      exact htest
    · right
      have hku := add_rd_test_false hkl (by simpa using htest)
      have hklu : pl / pow2 1074 ≤ pu / pow2 1074 := Int.ediv_le_ediv hp hplpu
      have hsplit1 : (pl : ℝ) = ((pl / pow2 1074 : Int) : ℝ) * 2 ^ 1074
          + ((pl % pow2 1074 : Int) : ℝ) := by
        rw [← Dbl.pow2_cast]
        have := Int.ediv_add_emod pl (pow2 1074)
        exact_mod_cast by linarith
      have hsplit2 : (pu : ℝ) = ((pu / pow2 1074 : Int) : ℝ) * 2 ^ 1074
          + ((pu % pow2 1074 : Int) : ℝ) := by
        rw [← Dbl.pow2_cast]
        have := Int.ediv_add_emod pu (pow2 1074)
        exact_mod_cast by linarith
      refine ⟨pl / pow2 1074, pl % pow2 1074, pu % pow2 1074,
        Int.emod_nonneg _ (ne_of_gt hp), Int.emod_lt_of_pos _ hp, by linarith, ?_⟩
      rcases (by omega : pu / pow2 1074 = pl / pow2 1074 ∨ pu / pow2 1074 = pl / pow2 1074 + 1)
        with hk | hk
      · left
        rw [hk] at hred hsplit2
        exact ⟨hred, by linarith⟩
      · right
        rw [hk] at hred hsplit2
        refine ⟨hred, ?_⟩
        push_cast at hsplit2
        linarith

/-- The interval sine of a non-negative interval `[l, u]` is enclosing. -/
theorem interval_sin_nonnegative_contains (round_sin : Bool → Dbl → Dbl)
    (hs : RoundsOutward Real.sin round_sin) {l u : Int} (hl : 0 ≤ l) {y : ℝ}
    (hly : (l : ℝ) ≤ y) (hyu : y ≤ (u : ℝ)) :
    (interval_sin_nonnegative round_sin ⟨Dbl.fin l, Dbl.fin u⟩).Contains
      (2 ^ 1074 * Real.sin (y / 2 ^ 1074)) := by
  have hlu : l ≤ u := by exact_mod_cast le_trans hly hyu
  have hunit := contains_unit (Real.neg_one_le_sin (y / 2 ^ 1074)) (Real.sin_le_one (y / 2 ^ 1074))
  unfold interval_sin_nonnegative
  simp only
  by_cases htest : Dbl.lt (add_rd (positive_period_reduction ⟨Dbl.fin l, Dbl.fin u⟩
        ConstantCache.rec_2pi).lb_period_integral (Dbl.ofInt 1))
      (positive_period_reduction ⟨Dbl.fin l, Dbl.fin u⟩
        ConstantCache.rec_2pi).ub_period_integral = true
  · rw [if_pos htest]
    exact hunit
  · rw [if_neg htest]
    rcases period_reduction_cases hl hlu with h | ⟨k, fl, fu, hfl, hfu, hL, ⟨hp, hU⟩ | ⟨hp, hU⟩⟩
    · exact False.elim (htest h)
    · rw [hp]
      simp only [Dbl.eq_fin, decide_True, if_true]
      exact interval_sin_nowrap_contains round_sin hs _ _ _ hly hyu hfl hfu hL hU
    · rw [hp]
      have hne : ¬ k * pow2 1074 = (k + 1) * pow2 1074 := by
        have := Dbl.pow2_pos 1074
        intro h
        nlinarith
      simp only [Dbl.eq_fin, hne, decide_False, Bool.false_eq_true, if_false]
      exact interval_sin_wrap_contains round_sin hs _ _ _ hly hyu hfl hfu hL hU

/-- The interval cosine of a non-negative interval `[l, u]` is enclosing. -/
theorem interval_cos_nonnegative_contains (round_cos : Bool → Dbl → Dbl)
    (hs : RoundsOutward Real.cos round_cos) {l u : Int} (hl : 0 ≤ l) {y : ℝ}
    (hly : (l : ℝ) ≤ y) (hyu : y ≤ (u : ℝ)) :
    (interval_cos_nonnegative round_cos ⟨Dbl.fin l, Dbl.fin u⟩).Contains
      (2 ^ 1074 * Real.cos (y / 2 ^ 1074)) := by
  have hlu : l ≤ u := by exact_mod_cast le_trans hly hyu
  have hunit := contains_unit (Real.neg_one_le_cos (y / 2 ^ 1074)) (Real.cos_le_one (y / 2 ^ 1074))
  unfold interval_cos_nonnegative
  simp only
  by_cases htest : Dbl.lt (add_rd (positive_period_reduction ⟨Dbl.fin l, Dbl.fin u⟩
        ConstantCache.rec_2pi).lb_period_integral (Dbl.ofInt 1))
      (positive_period_reduction ⟨Dbl.fin l, Dbl.fin u⟩
        ConstantCache.rec_2pi).ub_period_integral = true
  · rw [if_pos htest]
    exact hunit
  · rw [if_neg htest]
    rcases period_reduction_cases hl hlu with h | ⟨k, fl, fu, hfl, hfu, hL, ⟨hp, hU⟩ | ⟨hp, hU⟩⟩
    · exact False.elim (htest h)
    · rw [hp]
      simp only [Dbl.eq_fin, decide_True, if_true]
      exact interval_cos_nowrap_contains round_cos hs _ _ _ hly hyu hfl hfu hL hU
    · rw [hp]
      have hne : ¬ k * pow2 1074 = (k + 1) * pow2 1074 := by
        have := Dbl.pow2_pos 1074
        intro h
        nlinarith
      simp only [Dbl.eq_fin, hne, decide_False, Bool.false_eq_true, if_false]
      exact interval_cos_wrap_contains round_cos hs _ _ _ hly hyu hfl hfu hL hU

end ivarp

namespace ivarp

/-! ## Sine and cosine are enclosing -/

namespace Dbl

theorem leReal_min_sd {a b : Dbl} {v : ℝ} (ha : a.isNaN = false) (hb : b.isNaN = false)
    (h : leReal a v ∨ leReal b v) : leReal (min_sd a b) v := by
  rcases h with h | h
  · exact leReal_of_le (min_sd_le_left ha hb) h
  · exact leReal_of_le (min_sd_le_right ha hb) h

theorem geReal_max_sd {a b : Dbl} {v : ℝ} (ha : a.isNaN = false) (hb : b.isNaN = false)
    (h : geReal a v ∨ geReal b v) : geReal (max_sd a b) v := by
  rw [← neg_min_sd_neg, geReal_neg]
  apply leReal_min_sd (by rw [isNaN_neg]; exact ha) (by rw [isNaN_neg]; exact hb)
  rcases h with h | h
  · exact Or.inl (leReal_neg.mpr (by simpa using h))
  · exact Or.inr (leReal_neg.mpr (by simpa using h))

end Dbl

/-- The join of two intervals without NaN contains what either contains. -/
theorem join_contains {a b : IDouble} {v : ℝ} (ha : a.possibly_undefined = false)
    (hb : b.possibly_undefined = false) (h : a.Contains v ∨ b.Contains v) :
    (a.join b).Contains v := by
  simp only [IDouble.possibly_undefined, Bool.or_eq_false_iff] at ha hb
  simp only [IDouble.join, join_intervald_lanes, ha.1, ha.2, hb.1, hb.2, Bool.or_false,
    or_pd_mask, Bool.false_eq_true, if_false]
  constructor
  · apply Dbl.leReal_min_sd ha.1 hb.1
    rcases h with h | h
    · exact Or.inl h.1
    · exact Or.inr h.1
  · apply Dbl.geReal_max_sd ha.2 hb.2
    rcases h with h | h
    · exact Or.inl h.2
    · exact Or.inr h.2

/-- A finite interval has two finite endpoints. -/
theorem IDouble.eq_fin_of_is_finite {a : IDouble} (h : a.is_finite = true) :
    ∃ l u : Int, a = ⟨Dbl.fin l, Dbl.fin u⟩ := by
  obtain ⟨lb, ub⟩ := a
  cases lb <;> cases ub <;> simp [IDouble.is_finite, Dbl.isFinite] at h
  exact ⟨_, _, rfl⟩

/-- C23: for point functions that return a double at most the sine (cosine)
when rounding down and at least the sine (cosine) when rounding up, for every
finite interval `a` (which is then NaN-free) and every real `x` between its
endpoints (so that `a.lb ≤ a.ub`), the sine of `x` lies in `sin(a)` and the cosine
of `x` lies in `cos(a)`.  Values are in units of `2^(-1074)`; the stored `1/(2π)`
brackets the exact value by `rec_2pi_contains`. -/
theorem sin_cos_enclosing (round_sin round_cos : Bool → Dbl → Dbl)
    (hs : RoundsOutward Real.sin round_sin) (hc : RoundsOutward Real.cos round_cos)
    (a : IDouble) (hfin : a.is_finite = true) (x : ℝ) (hx : a.Contains x) :
    (sin round_sin a).Contains (2 ^ 1074 * Real.sin (x / 2 ^ 1074)) ∧
    (cos round_cos a).Contains (2 ^ 1074 * Real.cos (x / 2 ^ 1074)) := by
  obtain ⟨l, u, rfl⟩ := IDouble.eq_fin_of_is_finite hfin
  have hlx : (l : ℝ) ≤ x := hx.1
  have hxu : x ≤ (u : ℝ) := hx.2
  have hguard : (!IDouble.is_finite ⟨Dbl.fin l, Dbl.fin u⟩ ||
      IDouble.possibly_undefined ⟨Dbl.fin l, Dbl.fin u⟩) = false := rfl
  have e0 : ((0 : Int) : ℝ) = 0 := Int.cast_zero
  constructor
  · simp only [sin, interval_sin_symm, hguard, Bool.false_eq_true, if_false, Dbl.le_fin,
      Dbl.lt_fin, decide_eq_true_eq, IDouble.neg, negate_intervald, Dbl.neg, IDouble.ofBounds,
      mm_set_pd]
    by_cases hu0 : u ≤ 0
    · rw [if_pos hu0]
      have hu0r : (u : ℝ) ≤ 0 := by exact_mod_cast hu0
      have h := interval_sin_nonnegative_contains round_sin hs (l := -u) (u := -l) (y := -x)
        (by omega) (by push_cast; linarith) (by push_cast; linarith)
      have h2 := IDouble.contains_neg h
      rw [neg_div, Real.sin_neg, mul_neg, neg_neg] at h2
      exact h2
    · rw [if_neg hu0]
      have hu0r : (0 : ℝ) < (u : ℝ) := by exact_mod_cast not_le.mp hu0
      by_cases hl0 : l < 0
      · rw [if_pos hl0]
        have hl0r : (l : ℝ) < 0 := by exact_mod_cast hl0
        have hpos0 := interval_sin_nonnegative_contains round_sin hs (l := 0) (u := u) (y := 0)
          (le_refl _) (by rw [e0]) (by linarith)
        have hneg0 := IDouble.contains_neg
          (interval_sin_nonnegative_contains round_sin hs (l := 0) (u := -l) (y := 0)
            (le_refl _) (by rw [e0]) (by push_cast; linarith))
        apply join_contains (IDouble.not_nan_of_contains hpos0)
          (IDouble.not_nan_of_contains hneg0)
        rcases le_total 0 x with h0x | hx0
        · exact Or.inl (interval_sin_nonnegative_contains round_sin hs (l := 0) (u := u)
            (le_refl _) (by rw [e0]; exact h0x) hxu)
        · have h := IDouble.contains_neg
            (interval_sin_nonnegative_contains round_sin hs (l := 0) (u := -l) (y := -x)
              (le_refl _) (by rw [e0]; linarith) (by push_cast; linarith))
          rw [neg_div, Real.sin_neg, mul_neg, neg_neg] at h
          exact Or.inr h
      · rw [if_neg hl0]
        exact interval_sin_nonnegative_contains round_sin hs (by omega) hlx hxu
  · simp only [cos, interval_cos_symm, hguard, Bool.false_eq_true, if_false, Dbl.le_fin,
      Dbl.lt_fin, decide_eq_true_eq, IDouble.neg, negate_intervald, Dbl.neg, IDouble.ofBounds,
      mm_set_pd]
    by_cases hu0 : u ≤ 0
    · rw [if_pos hu0]
      have h := interval_cos_nonnegative_contains round_cos hc (l := -u) (u := -l) (y := -x)
        (by omega) (by push_cast; linarith) (by push_cast; linarith)
      rw [neg_div, Real.cos_neg] at h
      exact h
    · rw [if_neg hu0]
      by_cases hl0 : l < 0
      · rw [if_pos hl0]
        have hl0r : (l : ℝ) < 0 := by exact_mod_cast hl0
        have habs : Real.cos (|x| / 2 ^ 1074) = Real.cos (x / 2 ^ 1074) := by
          rcases abs_cases x with ⟨h, _⟩ | ⟨h, _⟩
          · rw [h]
          · rw [h, neg_div, Real.cos_neg]
        rw [← habs]
        by_cases hm : -l < u
        · simp only [hm, decide_True, if_true]
          apply interval_cos_nonnegative_contains round_cos hc (le_refl _)
          · rw [e0]
            exact abs_nonneg x
          · have hmr : -(l : ℝ) < (u : ℝ) := by exact_mod_cast hm
            exact abs_le.mpr ⟨by linarith, hxu⟩
        · simp only [hm, decide_False, Bool.false_eq_true, if_false]
          apply interval_cos_nonnegative_contains round_cos hc (le_refl _)
          · rw [e0]
            exact abs_nonneg x
          · have hmr : (u : ℝ) ≤ -(l : ℝ) := by exact_mod_cast not_lt.mp hm
            push_cast
            exact abs_le.mpr ⟨by linarith, by linarith⟩
      · rw [if_neg hl0]
        exact interval_cos_nonnegative_contains round_cos hc (by omega) hlx hxu

/-- The point functions that return `-1` when rounding down and `1` when
rounding up bound every function with values in `[-1, 1]`. -/
theorem roundsOutward_unit (f : ℝ → ℝ) (h : ∀ t, -1 ≤ f t ∧ f t ≤ 1) :
    RoundsOutward f (fun b _ => if b then Dbl.ofInt 1 else Dbl.ofInt (-1)) := by
  intro n
  have hc := Dbl.two_pow_1074_pos
  have h1 := (h ((n : ℝ) / 2 ^ 1074)).1
  have h2 := (h ((n : ℝ) / 2 ^ 1074)).2
  exact ⟨Dbl.leReal_neg_one (by nlinarith), Dbl.geReal_one (by nlinarith)⟩

/-- Witness of C23: the interval `[0, 1]` and the point `1/2`, with point
functions that return `-1` and `1`. -/
theorem sin_cos_enclosing_witness :
    (sin (fun b _ => if b then Dbl.ofInt 1 else Dbl.ofInt (-1))
        ⟨Dbl.fin 0, Dbl.ofInt 1⟩).Contains (2 ^ 1074 * Real.sin (2 ^ 1073 / 2 ^ 1074)) ∧
    (cos (fun b _ => if b then Dbl.ofInt 1 else Dbl.ofInt (-1))
        ⟨Dbl.fin 0, Dbl.ofInt 1⟩).Contains (2 ^ 1074 * Real.cos (2 ^ 1073 / 2 ^ 1074)) :=
  sin_cos_enclosing _ _
    (roundsOutward_unit Real.sin (fun t => ⟨Real.neg_one_le_sin t, Real.sin_le_one t⟩))
    (roundsOutward_unit Real.cos (fun t => ⟨Real.neg_one_le_cos t, Real.cos_le_one t⟩))
    ⟨Dbl.fin 0, Dbl.ofInt 1⟩ rfl (2 ^ 1073)
    ⟨by simp only [Dbl.leReal, Int.cast_zero]; positivity,
     Dbl.geReal_one (pow_le_pow_right₀ (by norm_num) (by norm_num))⟩

end ivarp

namespace ivarp

/-! ## Sine and cosine at zero and over more than a period -/

namespace Dbl

/-- The rounding toward minus infinity of a double is the double. -/
theorem isRoundDown_int {z : Int} (hz : Representable z) {d : Dbl}
    (h : IsRoundDown (z : ℝ) d) : d = fin z := by
  obtain ⟨n, rfl, _, hle, hmax⟩ := h
  have h1 : n ≤ z := by exact_mod_cast hle
  have h2 := hmax z hz (le_refl _)
  rw [show n = z by omega]

/-- The rounding toward plus infinity of a double is the double. -/
theorem isRoundUp_int {z : Int} (hz : Representable z) {d : Dbl}
    (h : IsRoundUp (z : ℝ) d) : d = fin z := by
  obtain ⟨n, rfl, _, hle, hmin⟩ := h
  have h1 : z ≤ n := by exact_mod_cast hle
  have h2 := hmin z hz (le_refl _)
  rw [show n = z by omega]

theorem sin_zero_units : (2 : ℝ) ^ 1074 * Real.sin 0 = ((0 : Int) : ℝ) := by
  simp

theorem cos_zero_units : (2 : ℝ) ^ 1074 * Real.cos 0 = ((1 * pow2 1074 : Int) : ℝ) := by
  rw [Real.cos_zero]
  push_cast
  rw [pow2_cast]
  ring

end Dbl

/-- The interval sine of `[0, 0]` before the symmetry step: the two point values
at `0`. -/
theorem interval_sin_nonnegative_zero (round_sin : Bool → Dbl → Dbl) :
    interval_sin_nonnegative round_sin ⟨Dbl.fin 0, Dbl.fin 0⟩
      = ⟨round_sin false (Dbl.fin 0), round_sin true (Dbl.fin 0)⟩ := by
  have hp : positive_period_reduction ⟨Dbl.fin 0, Dbl.fin 0⟩ ConstantCache.rec_2pi
      = ⟨⟨Dbl.fin 0, Dbl.fin 0⟩, Dbl.fin 0, Dbl.fin 0, Dbl.fin 0, Dbl.fin 0⟩ := by decide
  have h1 : Dbl.lt (add_rd (Dbl.fin 0) (Dbl.ofInt 1)) (Dbl.fin 0) = false := by decide
  have h2 : Dbl.eq (Dbl.fin 0) (Dbl.fin 0) = true := by decide
  have h3 : Dbl.le (Dbl.fin 0) (Dbl.fin (pow2 1072)) = true := by decide
  have h4 : Dbl.lt (Dbl.fin 0) (Dbl.fin (pow2 1072)) = true := by decide
  simp only [interval_sin_nonnegative, hp, h1, h2, interval_sin_nowrap, h3, h4, if_true,
    Bool.false_eq_true, if_false, IDouble.ofBounds, mm_set_pd]

/-- The interval cosine of `[0, 0]` before the symmetry step: the two point
values at `0`. -/
theorem interval_cos_nonnegative_zero (round_cos : Bool → Dbl → Dbl) :
    interval_cos_nonnegative round_cos ⟨Dbl.fin 0, Dbl.fin 0⟩
      = ⟨round_cos false (Dbl.fin 0), round_cos true (Dbl.fin 0)⟩ := by
  have hp : positive_period_reduction ⟨Dbl.fin 0, Dbl.fin 0⟩ ConstantCache.rec_2pi
      = ⟨⟨Dbl.fin 0, Dbl.fin 0⟩, Dbl.fin 0, Dbl.fin 0, Dbl.fin 0, Dbl.fin 0⟩ := by decide
  have h1 : Dbl.lt (add_rd (Dbl.fin 0) (Dbl.ofInt 1)) (Dbl.fin 0) = false := by decide
  have h2 : Dbl.eq (Dbl.fin 0) (Dbl.fin 0) = true := by decide
  have h3 : Dbl.le (Dbl.fin 0) Dbl.half = true := by decide
  simp only [interval_cos_nonnegative, hp, h1, h2, interval_cos_nowrap, h3, if_true,
    Bool.false_eq_true, if_false, IDouble.ofBounds, mm_set_pd]

theorem sin_zero_interval (round_sin : Bool → Dbl → Dbl) :
    sin round_sin ⟨Dbl.fin 0, Dbl.fin 0⟩
      = ⟨(round_sin true (Dbl.fin 0)).neg, (round_sin false (Dbl.fin 0)).neg⟩ := by
  have hg : (!IDouble.is_finite ⟨Dbl.fin 0, Dbl.fin 0⟩ ||
      IDouble.possibly_undefined ⟨Dbl.fin 0, Dbl.fin 0⟩) = false := rfl
  have hle : Dbl.le (Dbl.fin 0) (Dbl.fin 0) = true := by decide
  have hn : IDouble.neg ⟨Dbl.fin 0, Dbl.fin 0⟩ = ⟨Dbl.fin 0, Dbl.fin 0⟩ := by decide
  simp only [sin, interval_sin_symm, hg, hle, if_true, Bool.false_eq_true, if_false]
  rw [hn, interval_sin_nonnegative_zero]
  rfl

theorem cos_zero_interval (round_cos : Bool → Dbl → Dbl) :
    cos round_cos ⟨Dbl.fin 0, Dbl.fin 0⟩
      = ⟨round_cos false (Dbl.fin 0), round_cos true (Dbl.fin 0)⟩ := by
  have hg : (!IDouble.is_finite ⟨Dbl.fin 0, Dbl.fin 0⟩ ||
      IDouble.possibly_undefined ⟨Dbl.fin 0, Dbl.fin 0⟩) = false := rfl
  have hle : Dbl.le (Dbl.fin 0) (Dbl.fin 0) = true := by decide
  have hn : IDouble.neg ⟨Dbl.fin 0, Dbl.fin 0⟩ = ⟨Dbl.fin 0, Dbl.fin 0⟩ := by decide
  simp only [cos, interval_cos_symm, hg, hle, if_true, Bool.false_eq_true, if_false]
  rw [hn, interval_cos_nonnegative_zero]

/-- The interval sine and cosine of a non-negative interval whose reduced bounds
have integral parts more than one apart. -/
theorem nonnegative_of_periodsApart (round_sin round_cos : Bool → Dbl → Dbl) {l u : Int}
    (hl : 0 ≤ l) (hlu : l ≤ u)
    (hp : PeriodsApart (IDouble.mul ⟨Dbl.fin l, Dbl.fin u⟩ ConstantCache.rec_2pi).lb
      (IDouble.mul ⟨Dbl.fin l, Dbl.fin u⟩ ConstantCache.rec_2pi).ub) :
    interval_sin_nonnegative round_sin ⟨Dbl.fin l, Dbl.fin u⟩
      = ⟨Dbl.ofInt (-1), Dbl.ofInt 1⟩ ∧
    interval_cos_nonnegative round_cos ⟨Dbl.fin l, Dbl.fin u⟩
      = ⟨Dbl.ofInt (-1), Dbl.ofInt 1⟩ := by
  have hC := Dbl.pow2_pos 1074
  obtain ⟨pl, hpl0, hplb, _, hub⟩ := period_bounds hl hlu
  rw [hplb] at hp
  rcases hub with hinf | ⟨pu, hpub, _⟩
  · rw [hinf] at hp
    exact False.elim hp
  · rw [hpub] at hp
    have hp' : pl / pow2 1074 + 1 < pu / pow2 1074 := hp
    have hkl : 0 ≤ pl / pow2 1074 := Int.ediv_nonneg hpl0 (le_of_lt hC)
    have hpu0 : 0 ≤ pu := by
      by_contra hcon
      have : pu / pow2 1074 < 0 := Int.ediv_neg' (by omega) hC
      omega
    have htest := add_rd_test_true hkl hp'
    have hred : positive_period_reduction ⟨Dbl.fin l, Dbl.fin u⟩ ConstantCache.rec_2pi
        = ⟨IDouble.mul ⟨Dbl.fin l, Dbl.fin u⟩ ConstantCache.rec_2pi,
            Dbl.fin (pl % pow2 1074), Dbl.fin (pu % pow2 1074),
            Dbl.fin (pl / pow2 1074 * pow2 1074), Dbl.fin (pu / pow2 1074 * pow2 1074)⟩ := by
      simp only [positive_period_reduction, hplb, hpub, modf_nonneg hpl0, modf_nonneg hpu0]
    constructor
    · simp only [interval_sin_nonnegative, hred, htest, if_true, IDouble.ofBounds, mm_set_pd]
    · simp only [interval_cos_nonnegative, hred, htest, if_true, IDouble.ofBounds, mm_set_pd]

namespace Dbl

theorem isRoundDown_self {z : Int} (hz : Representable z) : IsRoundDown (z : ℝ) (fin z) :=
  ⟨z, rfl, hz, le_refl _, fun _ _ h => by exact_mod_cast h⟩

theorem isRoundUp_self {z : Int} (hz : Representable z) : IsRoundUp (z : ℝ) (fin z) :=
  ⟨z, rfl, hz, le_refl _, fun _ _ h => by exact_mod_cast h⟩

theorem isRoundDown_sin_zero : IsRoundDown (2 ^ 1074 * Real.sin 0) (fin 0) := by
  rw [sin_zero_units]
  exact isRoundDown_self (by decide)

theorem isRoundUp_sin_zero : IsRoundUp (2 ^ 1074 * Real.sin 0) (fin 0) := by
  rw [sin_zero_units]
  exact isRoundUp_self (by decide)

theorem isRoundDown_cos_zero : IsRoundDown (2 ^ 1074 * Real.cos 0) (ofInt 1) := by
  rw [cos_zero_units]
  exact isRoundDown_self (by decide)

theorem isRoundUp_cos_zero : IsRoundUp (2 ^ 1074 * Real.cos 0) (ofInt 1) := by
  rw [cos_zero_units]
  exact isRoundUp_self (by decide)

end Dbl

/-- C24 as the code has it: with point functions that return the correctly
rounded sine and cosine at `0`, `sin([0,0]) = [0,0]` and `cos([0,0]) = [1,1]`;
with any point functions, for every finite interval `a` with `0 ≤ a.lb ≤ a.ub`
whose reduced bounds `p = a * (1/(2π))` have `floor(p.lb) + 1 < floor(p.ub)`,
`sin(a)` and `cos(a)` are exactly `[-1, 1]`; and `sin([0,8])` and `cos([0,8])` are
exactly `[-1, 1]` as well (through the wrap-around tables: `[0,8]` has
`floor(p.lb) + 1 = floor(p.ub) = 1`). -/
theorem sin_cos_special_values (round_sin round_cos : Bool → Dbl → Dbl)
    (hsd : Dbl.IsRoundDown (2 ^ 1074 * Real.sin 0) (round_sin false (Dbl.fin 0)))
    (hsu : Dbl.IsRoundUp (2 ^ 1074 * Real.sin 0) (round_sin true (Dbl.fin 0)))
    (hcd : Dbl.IsRoundDown (2 ^ 1074 * Real.cos 0) (round_cos false (Dbl.fin 0)))
    (hcu : Dbl.IsRoundUp (2 ^ 1074 * Real.cos 0) (round_cos true (Dbl.fin 0))) :
    sin round_sin ⟨Dbl.fin 0, Dbl.fin 0⟩ = ⟨Dbl.fin 0, Dbl.fin 0⟩ ∧
    cos round_cos ⟨Dbl.fin 0, Dbl.fin 0⟩ = ⟨Dbl.ofInt 1, Dbl.ofInt 1⟩ ∧
    (∀ a : IDouble, a.is_finite = true → Dbl.le (Dbl.fin 0) a.lb = true →
      Dbl.le a.lb a.ub = true →
      PeriodsApart (a.mul ConstantCache.rec_2pi).lb (a.mul ConstantCache.rec_2pi).ub →
      sin round_sin a = ⟨Dbl.ofInt (-1), Dbl.ofInt 1⟩ ∧
      cos round_cos a = ⟨Dbl.ofInt (-1), Dbl.ofInt 1⟩) ∧
    sin round_sin ⟨Dbl.fin 0, Dbl.ofInt 8⟩ = ⟨Dbl.ofInt (-1), Dbl.ofInt 1⟩ ∧
    cos round_cos ⟨Dbl.fin 0, Dbl.ofInt 8⟩ = ⟨Dbl.ofInt (-1), Dbl.ofInt 1⟩ := by
  rw [Dbl.sin_zero_units] at hsd hsu
  rw [Dbl.cos_zero_units] at hcd hcu
  have e1 := Dbl.isRoundDown_int (by decide) hsd
  have e2 := Dbl.isRoundUp_int (by decide) hsu
  have e3 := Dbl.isRoundDown_int (by decide) hcd
  have e4 := Dbl.isRoundUp_int (by decide) hcu
  refine ⟨?_, ?_, ?_, ?_, ?_⟩
  · rw [sin_zero_interval, e1, e2]
    rfl
  · rw [cos_zero_interval, e3, e4]
    rfl
  · intro a hfin hnn hord hp
    obtain ⟨l, u, rfl⟩ := IDouble.eq_fin_of_is_finite hfin
    have hl : 0 ≤ l := by simpa [Dbl.le_fin] using hnn
    have hlu : l ≤ u := by simpa [Dbl.le_fin] using hord
    have hguard : (!IDouble.is_finite ⟨Dbl.fin l, Dbl.fin u⟩ ||
        IDouble.possibly_undefined ⟨Dbl.fin l, Dbl.fin u⟩) = false := rfl
    have hu0 : ¬ u ≤ 0 := by
      intro hu0
      have hl0 : l = 0 := by omega
      have hu0' : u = 0 := by omega
      subst hl0
      subst hu0'
      have hno : ¬ PeriodsApart
          (IDouble.mul ⟨Dbl.fin 0, Dbl.fin 0⟩ ConstantCache.rec_2pi).lb
          (IDouble.mul ⟨Dbl.fin 0, Dbl.fin 0⟩ ConstantCache.rec_2pi).ub := by decide
      exact hno hp
    have hl0 : ¬ l < 0 := by omega
    obtain ⟨h1, h2⟩ := nonnegative_of_periodsApart round_sin round_cos hl hlu hp
    constructor
    · simp only [sin, interval_sin_symm, hguard, Dbl.le_fin, Dbl.lt_fin, hu0, hl0, decide_False,
        Bool.false_eq_true, if_false, h1]
    · simp only [cos, interval_cos_symm, hguard, Dbl.le_fin, Dbl.lt_fin, hu0, hl0, decide_False,
        Bool.false_eq_true, if_false, h2]
  · have hg : (!IDouble.is_finite ⟨Dbl.fin 0, Dbl.ofInt 8⟩ ||
        IDouble.possibly_undefined ⟨Dbl.fin 0, Dbl.ofInt 8⟩) = false := rfl
    have hle : Dbl.le (Dbl.ofInt 8) (Dbl.fin 0) = false := by decide
    have hlt : Dbl.lt (Dbl.fin 0) (Dbl.fin 0) = false := by decide
    have h1 : Dbl.lt (add_rd (positive_period_reduction ⟨Dbl.fin 0, Dbl.ofInt 8⟩
          ConstantCache.rec_2pi).lb_period_integral (Dbl.ofInt 1))
        (positive_period_reduction ⟨Dbl.fin 0, Dbl.ofInt 8⟩
          ConstantCache.rec_2pi).ub_period_integral = false := by decide
    have h2 : Dbl.eq (positive_period_reduction ⟨Dbl.fin 0, Dbl.ofInt 8⟩
          ConstantCache.rec_2pi).lb_period_integral
        (positive_period_reduction ⟨Dbl.fin 0, Dbl.ofInt 8⟩
          ConstantCache.rec_2pi).ub_period_integral = false := by decide
    have h3 : Dbl.le (positive_period_reduction ⟨Dbl.fin 0, Dbl.ofInt 8⟩
          ConstantCache.rec_2pi).lb_period_fractional (Dbl.fin (pow2 1072)) = true := by decide
    simp only [sin, interval_sin_symm, hg, hle, hlt, interval_sin_nonnegative, h1, h2,
      interval_sin_wrap, h3, if_true, Bool.false_eq_true, if_false, IDouble.ofBounds, mm_set_pd]
  · have hg : (!IDouble.is_finite ⟨Dbl.fin 0, Dbl.ofInt 8⟩ ||
        IDouble.possibly_undefined ⟨Dbl.fin 0, Dbl.ofInt 8⟩) = false := rfl
    have hle : Dbl.le (Dbl.ofInt 8) (Dbl.fin 0) = false := by decide
    have hlt : Dbl.lt (Dbl.fin 0) (Dbl.fin 0) = false := by decide
    have h1 : Dbl.lt (add_rd (positive_period_reduction ⟨Dbl.fin 0, Dbl.ofInt 8⟩
          ConstantCache.rec_2pi).lb_period_integral (Dbl.ofInt 1))
        (positive_period_reduction ⟨Dbl.fin 0, Dbl.ofInt 8⟩
          ConstantCache.rec_2pi).ub_period_integral = false := by decide
    have h2 : Dbl.eq (positive_period_reduction ⟨Dbl.fin 0, Dbl.ofInt 8⟩
          ConstantCache.rec_2pi).lb_period_integral
        (positive_period_reduction ⟨Dbl.fin 0, Dbl.ofInt 8⟩
          ConstantCache.rec_2pi).ub_period_integral = false := by decide
    have h3 : (Dbl.le (positive_period_reduction ⟨Dbl.fin 0, Dbl.ofInt 8⟩
          ConstantCache.rec_2pi).lb_period_fractional Dbl.half ||
        Dbl.le Dbl.half (positive_period_reduction ⟨Dbl.fin 0, Dbl.ofInt 8⟩
          ConstantCache.rec_2pi).ub_period_fractional) = true := by decide
    simp only [cos, interval_cos_symm, hg, hle, hlt, interval_cos_nonnegative, h1, h2,
      interval_cos_wrap, h3, if_true, Bool.false_eq_true, if_false, IDouble.ofBounds, mm_set_pd]

/-- Witness of C24 (amended): point functions that return `0` for the sine and
`1` for the cosine are correctly rounded at `0`; the interval `[0, 100]` spans
more than a period. -/
theorem sin_cos_special_values_witness :
    sin (fun _ _ => Dbl.fin 0) ⟨Dbl.fin 0, Dbl.fin 0⟩ = ⟨Dbl.fin 0, Dbl.fin 0⟩ ∧
    cos (fun _ _ => Dbl.ofInt 1) ⟨Dbl.fin 0, Dbl.fin 0⟩ = ⟨Dbl.ofInt 1, Dbl.ofInt 1⟩ ∧
    sin (fun _ _ => Dbl.fin 0) ⟨Dbl.fin 0, Dbl.ofInt 100⟩ = ⟨Dbl.ofInt (-1), Dbl.ofInt 1⟩ ∧
    cos (fun _ _ => Dbl.ofInt 1) ⟨Dbl.fin 0, Dbl.ofInt 100⟩ = ⟨Dbl.ofInt (-1), Dbl.ofInt 1⟩ :=
  ⟨(sin_cos_special_values (fun _ _ => Dbl.fin 0) (fun _ _ => Dbl.ofInt 1)
      Dbl.isRoundDown_sin_zero Dbl.isRoundUp_sin_zero Dbl.isRoundDown_cos_zero
      Dbl.isRoundUp_cos_zero).1,
   (sin_cos_special_values (fun _ _ => Dbl.fin 0) (fun _ _ => Dbl.ofInt 1)
      Dbl.isRoundDown_sin_zero Dbl.isRoundUp_sin_zero Dbl.isRoundDown_cos_zero
      Dbl.isRoundUp_cos_zero).2.1,
   ((sin_cos_special_values (fun _ _ => Dbl.fin 0) (fun _ _ => Dbl.ofInt 1)
      Dbl.isRoundDown_sin_zero Dbl.isRoundUp_sin_zero Dbl.isRoundDown_cos_zero
      Dbl.isRoundUp_cos_zero).2.2.1 ⟨Dbl.fin 0, Dbl.ofInt 100⟩ rfl (by decide) (by decide)
      (by decide)).1,
   ((sin_cos_special_values (fun _ _ => Dbl.fin 0) (fun _ _ => Dbl.ofInt 1)
      Dbl.isRoundDown_sin_zero Dbl.isRoundUp_sin_zero Dbl.isRoundDown_cos_zero
      Dbl.isRoundUp_cos_zero).2.2.1 ⟨Dbl.fin 0, Dbl.ofInt 100⟩ rfl (by decide) (by decide)
      (by decide)).2⟩

/-- Counterexample to C24 as stated: the interval `[0, 8]` is not an instance of
the condition `floor(p.lb) + 1 < floor(p.ub)`.  Its reduced bounds are
`p = [0, 8 * 0x1.45f306dc9c883p-3]`, about `[0, 1.27]`, with integral parts `0`
and `1`, and `0 + 1 < 1` is false. -/
theorem sin_cos_example_not_apart :
    IDouble.mul ⟨Dbl.fin 0, Dbl.ofInt 8⟩ ConstantCache.rec_2pi
      = ⟨Dbl.fin 0, Dbl.fin (5734161139222659 * pow2 1022)⟩ ∧
    (0 : Int) / pow2 1074 = 0 ∧
    (5734161139222659 * pow2 1022) / pow2 1074 = 1 ∧
    ¬ PeriodsApart (IDouble.mul ⟨Dbl.fin 0, Dbl.ofInt 8⟩ ConstantCache.rec_2pi).lb
      (IDouble.mul ⟨Dbl.fin 0, Dbl.ofInt 8⟩ ConstantCache.rec_2pi).ub := by
  refine ⟨by decide, by decide, by decide, by decide⟩

end ivarp

namespace ivarp

/-! ## The symmetry of the interval sine -/

theorem IDouble.neg_neg_interval (x : IDouble) : x.neg.neg = x := by
  simp [IDouble.neg, negate_intervald, Dbl.neg_neg_eq]

namespace Dbl

theorem neg_or_pd_mask (x : Dbl) (m : Bool) : (or_pd_mask x m).neg = or_pd_mask x.neg m := by
  cases m <;> rfl

theorem or_pd_mask_congr {x y : Dbl} {m : Bool} (h : m = false → x = y) :
    or_pd_mask x m = or_pd_mask y m := by
  cases m
  · simp [or_pd_mask, h rfl]
  · rfl

/-- The lower lane of the negated join. -/
theorem neg_join_lane_lb (p q : Dbl) :
    (or_pd_mask (max_sd p q.neg) (p.isNaN || q.neg.isNaN)).neg
      = or_pd_mask (min_sd q p.neg) (q.isNaN || p.neg.isNaN) := by
  rw [neg_or_pd_mask, isNaN_neg, isNaN_neg, Bool.or_comm]
  apply or_pd_mask_congr
  intro h
  simp only [Bool.or_eq_false_iff] at h
  have e : (max_sd p q.neg).neg = min_sd p.neg q := by
    have := neg_max_sd_neg p.neg q
    rwa [neg_neg_eq] at this
  rw [e]
  exact min_sd_comm (by rw [isNaN_neg]; exact h.2) h.1

/-- The upper lane of the negated join. -/
theorem neg_join_lane_ub (p q : Dbl) :
    (or_pd_mask (min_sd p q.neg) (p.isNaN || q.neg.isNaN)).neg
      = or_pd_mask (max_sd q p.neg) (q.isNaN || p.neg.isNaN) := by
  rw [neg_or_pd_mask, isNaN_neg, isNaN_neg, Bool.or_comm]
  apply or_pd_mask_congr
  intro h
  simp only [Bool.or_eq_false_iff] at h
  have e : (min_sd p q.neg).neg = max_sd p.neg q := by
    have := neg_min_sd_neg p.neg q
    rwa [neg_neg_eq] at this
  rw [e]
  exact max_sd_comm (by rw [isNaN_neg]; exact h.2) h.1

end Dbl

/-- Negation turns the join of `A` and `-B` into the join of `B` and `-A`. -/
theorem neg_join_neg (A B : IDouble) : (A.join B.neg).neg = B.join A.neg := by
  simp only [IDouble.join, join_intervald_lanes, IDouble.neg, negate_intervald]
  rw [Dbl.neg_join_lane_lb, Dbl.neg_join_lane_ub]

/-- The sine of a finite interval, by the sign of its endpoints. -/
theorem sin_fin (round_sin : Bool → Dbl → Dbl) (l u : Int) :
    sin round_sin ⟨Dbl.fin l, Dbl.fin u⟩ =
      if u ≤ 0 then (interval_sin_nonnegative round_sin ⟨Dbl.fin (-u), Dbl.fin (-l)⟩).neg
      else if l < 0 then
        (interval_sin_nonnegative round_sin ⟨Dbl.fin 0, Dbl.fin u⟩).join
          (interval_sin_nonnegative round_sin ⟨Dbl.fin 0, Dbl.fin (-l)⟩).neg
      else interval_sin_nonnegative round_sin ⟨Dbl.fin l, Dbl.fin u⟩ := by
  have hguard : (!IDouble.is_finite ⟨Dbl.fin l, Dbl.fin u⟩ ||
      IDouble.possibly_undefined ⟨Dbl.fin l, Dbl.fin u⟩) = false := rfl
  simp only [sin, interval_sin_symm, hguard, Bool.false_eq_true, if_false, Dbl.le_fin,
    Dbl.lt_fin, decide_eq_true_eq, IDouble.ofBounds, mm_set_pd, Dbl.neg]
  rfl

/-- C25 as the code has it: with point functions that return the correctly
rounded sine at `0`, for every interval `a` without NaN whose endpoints are
ordered, `a.lb ≤ a.ub`, the intervals `sin(-a)` and `-sin(a)` are the same: equal
lower bounds and equal upper bounds. -/
theorem sin_neg_eq (round_sin : Bool → Dbl → Dbl)
    (hsd : Dbl.IsRoundDown (2 ^ 1074 * Real.sin 0) (round_sin false (Dbl.fin 0)))
    (hsu : Dbl.IsRoundUp (2 ^ 1074 * Real.sin 0) (round_sin true (Dbl.fin 0)))
    (a : IDouble) (hnan : a.possibly_undefined = false) (hord : Dbl.le a.lb a.ub = true) :
    sin round_sin a.neg = (sin round_sin a).neg := by
  rw [Dbl.sin_zero_units] at hsd hsu
  have e1 := Dbl.isRoundDown_int (by decide) hsd
  have e2 := Dbl.isRoundUp_int (by decide) hsu
  have hunit : IDouble.neg ⟨Dbl.ofInt (-1), Dbl.ofInt 1⟩ = ⟨Dbl.ofInt (-1), Dbl.ofInt 1⟩ := by
    decide
  obtain ⟨lb, ub⟩ := a
  cases lb with
  | nan => simp [IDouble.possibly_undefined, Dbl.isNaN] at hnan
  | ninf =>
    cases ub with
    | nan => simp [IDouble.possibly_undefined, Dbl.isNaN] at hnan
    | ninf => exact hunit.symm
    | pinf => exact hunit.symm
    | fin u => exact hunit.symm
  | pinf =>
    cases ub with
    | nan => simp [IDouble.possibly_undefined, Dbl.isNaN] at hnan
    | ninf => exact hunit.symm
    | pinf => exact hunit.symm
    | fin u => exact hunit.symm
  | fin l =>
    cases ub with
    | nan => simp [IDouble.possibly_undefined, Dbl.isNaN] at hnan
    | ninf => exact hunit.symm
    | pinf => exact hunit.symm
    | fin u =>
      have hlu : l ≤ u := by simpa [Dbl.le_fin] using hord
      have hneg : IDouble.neg ⟨Dbl.fin l, Dbl.fin u⟩ = ⟨Dbl.fin (-u), Dbl.fin (-l)⟩ := rfl
      rw [hneg, sin_fin, sin_fin]
      by_cases hu0 : u ≤ 0
      · rw [if_pos hu0]
        by_cases hl0 : l < 0
        · rw [if_neg (by omega), if_neg (by omega), IDouble.neg_neg_interval]
        · have hl : l = 0 := by omega
          have hu : u = 0 := by omega
          subst hl
          subst hu
          rw [if_pos (by omega)]
          simp only [neg_zero, neg_neg, interval_sin_nonnegative_zero, e1, e2]
          decide
      · rw [if_neg hu0]
        by_cases hl0 : l < 0
        · rw [if_neg (by omega), if_pos (by omega), if_pos hl0, neg_neg, neg_join_neg]
        · rw [if_pos (by omega), if_neg hl0, neg_neg, neg_neg]

/-- Witness of C25 (amended): the interval `[-1, 2]`, with a point function that
returns `0`, which is the correctly rounded sine at `0`. -/
theorem sin_neg_eq_witness :
    sin (fun _ _ => Dbl.fin 0) (IDouble.neg ⟨Dbl.ofInt (-1), Dbl.ofInt 2⟩)
      = (sin (fun _ _ => Dbl.fin 0) ⟨Dbl.ofInt (-1), Dbl.ofInt 2⟩).neg :=
  sin_neg_eq (fun _ _ => Dbl.fin 0) Dbl.isRoundDown_sin_zero Dbl.isRoundUp_sin_zero
    ⟨Dbl.ofInt (-1), Dbl.ofInt 2⟩ rfl (by decide)

/-- The interval sine of the pair `[1, -3]` before the symmetry step. -/
theorem interval_sin_nonnegative_one_neg_three (round_sin : Bool → Dbl → Dbl) :
    interval_sin_nonnegative round_sin ⟨Dbl.fin (pow2 1074), Dbl.fin (-(3 * pow2 1074))⟩
      = ⟨round_sin false (Dbl.fin (pow2 1074)), round_sin true (Dbl.fin (-(3 * pow2 1074)))⟩ := by
  have h1 : Dbl.lt (add_rd (positive_period_reduction
        ⟨Dbl.fin (pow2 1074), Dbl.fin (-(3 * pow2 1074))⟩
        ConstantCache.rec_2pi).lb_period_integral (Dbl.ofInt 1))
      (positive_period_reduction ⟨Dbl.fin (pow2 1074), Dbl.fin (-(3 * pow2 1074))⟩
        ConstantCache.rec_2pi).ub_period_integral = false := by decide
  have h2 : Dbl.eq (positive_period_reduction ⟨Dbl.fin (pow2 1074), Dbl.fin (-(3 * pow2 1074))⟩
        ConstantCache.rec_2pi).lb_period_integral
      (positive_period_reduction ⟨Dbl.fin (pow2 1074), Dbl.fin (-(3 * pow2 1074))⟩
        ConstantCache.rec_2pi).ub_period_integral = true := by decide
  have h3 : Dbl.le (positive_period_reduction ⟨Dbl.fin (pow2 1074), Dbl.fin (-(3 * pow2 1074))⟩
        ConstantCache.rec_2pi).lb_period_fractional (Dbl.fin (pow2 1072)) = true := by decide
  have h4 : Dbl.lt (positive_period_reduction ⟨Dbl.fin (pow2 1074), Dbl.fin (-(3 * pow2 1074))⟩
        ConstantCache.rec_2pi).ub_period_fractional (Dbl.fin (pow2 1072)) = true := by decide
  simp only [interval_sin_nonnegative, h1, h2, interval_sin_nowrap, h3, h4, if_true,
    Bool.false_eq_true, if_false, IDouble.ofBounds, mm_set_pd]

/-- The interval sine of the pair `[3, -1]` before the symmetry step. -/
theorem interval_sin_nonnegative_three_neg_one (round_sin : Bool → Dbl → Dbl) :
    interval_sin_nonnegative round_sin ⟨Dbl.fin (3 * pow2 1074), Dbl.fin (-(pow2 1074))⟩
      = ⟨std_min (round_sin false (Dbl.fin (3 * pow2 1074)))
            (round_sin false (Dbl.fin (-(pow2 1074)))), Dbl.ofInt 1⟩ := by
  have h1 : Dbl.lt (add_rd (positive_period_reduction
        ⟨Dbl.fin (3 * pow2 1074), Dbl.fin (-(pow2 1074))⟩
        ConstantCache.rec_2pi).lb_period_integral (Dbl.ofInt 1))
      (positive_period_reduction ⟨Dbl.fin (3 * pow2 1074), Dbl.fin (-(pow2 1074))⟩
        ConstantCache.rec_2pi).ub_period_integral = false := by decide
  have h2 : Dbl.eq (positive_period_reduction ⟨Dbl.fin (3 * pow2 1074), Dbl.fin (-(pow2 1074))⟩
        ConstantCache.rec_2pi).lb_period_integral
      (positive_period_reduction ⟨Dbl.fin (3 * pow2 1074), Dbl.fin (-(pow2 1074))⟩
        ConstantCache.rec_2pi).ub_period_integral = true := by decide
  have h3 : Dbl.le (positive_period_reduction ⟨Dbl.fin (3 * pow2 1074), Dbl.fin (-(pow2 1074))⟩
        ConstantCache.rec_2pi).lb_period_fractional (Dbl.fin (pow2 1072)) = true := by decide
  have h4 : Dbl.lt (positive_period_reduction ⟨Dbl.fin (3 * pow2 1074), Dbl.fin (-(pow2 1074))⟩
        ConstantCache.rec_2pi).ub_period_fractional (Dbl.fin (pow2 1072)) = false := by decide
  have h5 : Dbl.lt (positive_period_reduction ⟨Dbl.fin (3 * pow2 1074), Dbl.fin (-(pow2 1074))⟩
        ConstantCache.rec_2pi).ub_period_fractional (Dbl.fin (3 * pow2 1072)) = true := by
    decide
  simp only [interval_sin_nonnegative, h1, h2, interval_sin_nowrap, h3, h4, h5, if_true,
    Bool.false_eq_true, if_false, IDouble.ofBounds, mm_set_pd]

/-- The sine of `1` is positive, so its rounding toward minus infinity is not
`-1`. -/
theorem round_sin_one_ne (d : Dbl) (h : Dbl.IsRoundDown (2 ^ 1074 * Real.sin 1) d) :
    d ≠ Dbl.ofInt (-1) := by
  obtain ⟨n, rfl, _, _, hmax⟩ := h
  have hpos : 0 < Real.sin 1 :=
    Real.sin_pos_of_pos_of_lt_pi (by norm_num) (by linarith [Real.pi_gt_three])
  have h0 : ((0 : Int) : ℝ) ≤ 2 ^ 1074 * Real.sin 1 := by
    rw [Int.cast_zero]
    positivity
  have hn := hmax 0 (by decide) h0
  intro heq
  simp only [Dbl.ofInt, Dbl.fin.injEq] at heq
  have hneg : (-1 * pow2 1074 : Int) < 0 := by decide
  omega

/-- Counterexample to C25 as stated.  (1) For the NaN-tagged interval
`[NaN, NaN]` and every point function, `sin(-a) = [-1, NaN]` and
`-sin(a) = [NaN, 1]`: the lower bounds differ.  (2) For the pair `a = [3, -1]`,
whose endpoints are not ordered, and every point function that returns the
correctly rounded sine of `1` at `1`, the lower bound of `sin(-a)` is `-1` and
the lower bound of `-sin(a)` is the sine of `1` rounded down, which is not
`-1`. -/
theorem sin_neg_differs :
    (∀ round_sin : Bool → Dbl → Dbl,
      sin round_sin (IDouble.neg ⟨Dbl.nan, Dbl.nan⟩) = ⟨Dbl.ofInt (-1), Dbl.nan⟩ ∧
      (sin round_sin ⟨Dbl.nan, Dbl.nan⟩).neg = ⟨Dbl.nan, Dbl.ofInt 1⟩) ∧
    (⟨Dbl.ofInt (-1), Dbl.nan⟩ : IDouble) ≠ ⟨Dbl.nan, Dbl.ofInt 1⟩ ∧
    (∀ round_sin : Bool → Dbl → Dbl,
      Dbl.IsRoundDown (2 ^ 1074 * Real.sin 1) (round_sin false (Dbl.ofInt 1)) →
      (sin round_sin (IDouble.neg ⟨Dbl.ofInt 3, Dbl.ofInt (-1)⟩)).lb = Dbl.ofInt (-1) ∧
      (sin round_sin ⟨Dbl.ofInt 3, Dbl.ofInt (-1)⟩).neg.lb = round_sin false (Dbl.ofInt 1) ∧
      round_sin false (Dbl.ofInt 1) ≠ Dbl.ofInt (-1)) := by
  have hnn : IDouble.neg ⟨Dbl.ofInt (-1), Dbl.nan⟩ = ⟨Dbl.nan, Dbl.ofInt 1⟩ := by decide
  refine ⟨fun round_sin => ⟨rfl, hnn⟩, by decide, ?_⟩
  intro round_sin h
  have ha : (⟨Dbl.ofInt 3, Dbl.ofInt (-1)⟩ : IDouble)
      = ⟨Dbl.fin (3 * pow2 1074), Dbl.fin (-(pow2 1074))⟩ := by decide
  have hna : IDouble.neg ⟨Dbl.ofInt 3, Dbl.ofInt (-1)⟩
      = ⟨Dbl.fin (pow2 1074), Dbl.fin (-(3 * pow2 1074))⟩ := by decide
  have h1 : Dbl.ofInt 1 = Dbl.fin (pow2 1074) := by decide
  have hc1 : -(pow2 1074) ≤ 0 := by decide
  have hc3 : -(3 * pow2 1074) ≤ 0 := by decide
  have hm1 : (Dbl.ofInt 1).neg = Dbl.ofInt (-1) := by decide
  refine ⟨?_, ?_, round_sin_one_ne _ h⟩
  · rw [hna, sin_fin, if_pos hc3, neg_neg, interval_sin_nonnegative_three_neg_one]
    exact hm1
  · rw [ha, sin_fin, if_pos hc1, neg_neg, interval_sin_nonnegative_one_neg_three,
      IDouble.neg_neg_interval, h1]

end ivarp

namespace ivarp

/-! ## Soundness of the connectives and consistency of the comparisons -/

/-- C38: the connectives of `IBool` are a sound abstraction of classical logic:
for all well-formed `A`, `B` and all classical booleans `p`, `q` such that `p` is
a possible value of `A` and `q` is a possible value of `B`, the negation of `p`
is a possible value of `!A`, `p ∧ q` of `A & B` (and of `A && B`), `p ∨ q` of
`A | B` (and of `A || B`), `p xor q` of `A ^ B`, and `p = q` of `A == B`. -/
theorem IBool.connectives_sound (A B : IBool) (p q : Bool)
    (hA : A.WellFormed) (hB : B.WellFormed)
    (hp : A.PossibleValue p) (hq : B.PossibleValue q) :
    A.not.PossibleValue (!p) ∧ (A.and B).PossibleValue (p && q) ∧
    (A.land B).PossibleValue (p && q) ∧ (A.or B).PossibleValue (p || q) ∧
    (A.lor B).PossibleValue (p || q) ∧ (A.xor B).PossibleValue (Bool.xor p q) ∧
    (A.eq B).PossibleValue (p == q) := by
  rcases A with ⟨_ | _, _ | _⟩ <;> rcases B with ⟨_ | _, _ | _⟩ <;> cases p <;> cases q <;>
    revert hA hB hp hq <;> decide

/-- Witness of C38 at the indeterminate `A = {false, true}` with `p = true` and the
determinate `B = {false}` with `q = false`. -/
theorem IBool.connectives_sound_witness :
    (IBool.mk false true).PossibleValue true ∧ (IBool.mk false false).PossibleValue false ∧
    ((IBool.mk false true).xor ⟨false, false⟩).PossibleValue true ∧
    ((IBool.mk false true).eq ⟨false, false⟩).PossibleValue false :=
  ⟨by decide, by decide,
   (IBool.connectives_sound ⟨false, true⟩ ⟨false, false⟩ true false (by decide) (by decide)
      (by decide) (by decide)).2.2.2.2.2.1,
   (IBool.connectives_sound ⟨false, true⟩ ⟨false, false⟩ true false (by decide) (by decide)
      (by decide) (by decide)).2.2.2.2.2.2⟩

/-- C39: the four interval comparisons are mutually consistent for all inputs,
NaN-tagged and empty (`lb > ub`) intervals included: `a > b` is the same `IBool`
as `b < a`, `a >= b` is the same `IBool` as `b <= a`, and the three-valued
negation `!(a < b)` is the same `IBool` as `a >= b`; equal values are also
`same` in the sense of the free function on `IBool`. -/
theorem IDouble.comparisons_consistent (a b : IDouble) :
    a.gt b = b.lt a ∧ a.ge b = b.le a ∧ (a.lt b).not = a.ge b ∧
    IBool.same (a.gt b) (b.lt a) = true ∧ IBool.same (a.ge b) (b.le a) = true ∧
    IBool.same (a.lt b).not (a.ge b) = true := by
  have h1 : a.gt b = b.lt a := rfl
  have h2 : a.ge b = b.le a := rfl
  have h3 : (a.lt b).not = a.ge b := by
    simp [IDouble.lt, IDouble.ge, lt_intervald, le_intervald, IBool.not]
  refine ⟨h1, h2, h3, ?_, ?_, ?_⟩
  · rw [h1]; simp [IBool.same]
  · rw [h2]; simp [IBool.same]
  · rw [h3]; simp [IBool.same]

end ivarp

namespace ivarp

namespace Prover

variable {V : Type}

/-! ## The outcome of one iteration of `prove` -/

/-- One iteration of `prove` on a frame for which `run_propagators` returns the
flag `empty` and the box `domain`. -/
theorem iteration_of_run (p : Prover V) (fuel : Nat) (element : StackElement V)
    (s : ProofState V) (empty : Bool) (domain : V)
    (hrun : run_propagators p.m_propagators fuel element.domain = some (empty, domain)) :
    p.iteration fuel element s = some
      (if empty then { s with leaves := s.leaves ++ [domain] }
       else match p.check_element domain with
        | none => { s with leaves := s.leaves ++ [domain] }
        | some true => p.report s domain true
        | some false =>
          if element.height = p.m_abort_height then p.report s domain false
          else push_children { element with domain := domain }
            (p.split domain element.height) s) := by
  unfold iteration
  rw [hrun]
  dsimp only
  cases empty with
  | true => simp
  | false =>
    simp only [Bool.false_eq_true, if_false]
    cases p.check_element domain with
    | none => rfl
    | some b =>
      cases b with
      | true => rfl
      | false =>
        dsimp only
        split <;> rfl

/-- An iteration keeps the calls to the reporter and the result, or it is one of
the two reporting branches. -/
theorem iteration_report_cases (p : Prover V) (fuel : Nat) (element : StackElement V)
    (s s1 : ProofState V) (h : p.iteration fuel element s = some s1) :
    (s1.reported = s.reported ∧ s1.result = s.result) ∨
    ∃ (domain : V) (b : Bool), s1 = p.report s domain b := by
  cases hrun : run_propagators p.m_propagators fuel element.domain with
  | none =>
    unfold iteration at h
    rw [hrun] at h
    cases h
  | some r =>
    obtain ⟨empty, domain⟩ := r
    rw [iteration_of_run p fuel element s empty domain hrun] at h
    cases empty with
    | true =>
      simp only [if_true, Option.some.injEq] at h
      subst h
      exact Or.inl ⟨rfl, rfl⟩
    | false =>
      simp only [Bool.false_eq_true, if_false, Option.some.injEq] at h
      cases hc : p.check_element domain with
      | none =>
        rw [hc] at h
        subst h
        exact Or.inl ⟨rfl, rfl⟩
      | some b =>
        rw [hc] at h
        cases b with
        | true =>
          exact Or.inr ⟨domain, true, h.symm⟩
        | false =>
          dsimp only at h
          split at h
          · exact Or.inr ⟨domain, false, h.symm⟩
          · subst h
            exact Or.inl ⟨(push_children_fields _ _ s).2.1, (push_children_fields _ _ s).1⟩

theorem report_abort_stack (p : Prover V) (h : p.m_abort_satisfiable = true)
    (s : ProofState V) (domain : V) (b : Bool) : (p.report s domain b).m_stack = [] := by
  unfold report
  rw [if_pos h]

/-! ## Abort on the first report -/

/-- C37: with `abort_on_satisfiable` enabled, a call to the reporter (for a
definitely satisfiable frame or a frame at the height cutoff) empties the work
stack and sets the result to `false`, the loop of `prove` started in the state
after that call returns this state at once, without another iteration; so an
iteration that calls the reporter is the last one, and in every finished run of
`prove` the reporter is called at most once, and `prove` returns `false` when it
was called. -/
theorem abort_on_satisfiable_reports_once (p : Prover V) (h : p.m_abort_satisfiable = true) :
    (∀ (s : ProofState V) (domain : V) (b : Bool),
      (p.report s domain b).m_stack = [] ∧ (p.report s domain b).result = false ∧
      (p.report s domain b).reported = s.reported ++ [(domain, b)] ∧
      ∀ f n : Nat, prove_loop p f n (p.report s domain b) = some (p.report s domain b)) ∧
    (∀ (fuel : Nat) (element : StackElement V) (s s1 : ProofState V),
      p.iteration fuel element s = some s1 → s1.reported ≠ s.reported →
      s1.m_stack = [] ∧ s1.result = false ∧ s1.reported.length = s.reported.length + 1 ∧
      ∀ f n : Nat, prove_loop p f n s1 = some s1) ∧
    (∀ (fuel : Nat) (out : ProofState V), p.prove_run fuel = some out →
      out.reported.length ≤ 1 ∧ (out.reported ≠ [] → out.result = false ∧ p.prove fuel = some false)) := by
  have hrep : ∀ (s : ProofState V) (domain : V) (b : Bool),
      (p.report s domain b).m_stack = [] ∧ (p.report s domain b).result = false ∧
      (p.report s domain b).reported = s.reported ++ [(domain, b)] ∧
      ∀ f n : Nat, prove_loop p f n (p.report s domain b) = some (p.report s domain b) := by
    intro s domain b
    exact ⟨report_abort_stack p h s domain b, (report_result p s domain b).1,
      (report_result p s domain b).2,
      fun f n => prove_loop_nil p f n _ (report_abort_stack p h s domain b)⟩
  have hit : ∀ (fuel : Nat) (element : StackElement V) (s s1 : ProofState V),
      p.iteration fuel element s = some s1 → s1.reported ≠ s.reported →
      s1.m_stack = [] ∧ s1.result = false ∧ s1.reported.length = s.reported.length + 1 ∧
      ∀ f n : Nat, prove_loop p f n s1 = some s1 := by
    intro fuel element s s1 h1 hne
    rcases iteration_report_cases p fuel element s s1 h1 with h2 | ⟨domain, b, h2⟩
    · exact absurd h2.1 hne
    · subst h2
      obtain ⟨a1, a2, a3, a4⟩ := hrep s domain b
      exact ⟨a1, a2, by rw [a3]; simp, a4⟩
  refine ⟨hrep, hit, ?_⟩
  intro fuel out hout
  have hinv : (out.reported = [] ∨
      (out.reported.length = 1 ∧ out.m_stack = [] ∧ out.result = false)) := by
    unfold prove_run at hout
    refine prove_loop_induct p fuel
      (fun s => s.reported = [] ∨ (s.reported.length = 1 ∧ s.m_stack = [] ∧ s.result = false))
      ?_ fuel _ out ?_ hout
    · intro s element rest s1 hs hst h1
      rcases hs with hs | hs
      · by_cases hne : s1.reported = s.reported
        · exact Or.inl (by rw [hne, hs])
        · obtain ⟨a1, a2, a3, _⟩ := hit fuel element { s with m_stack := rest } s1 h1 hne
          refine Or.inr ⟨?_, a1, a2⟩
          rw [a3]
          simp [hs]
      · rw [hs.2.1] at hst
        cases hst
    · left
      unfold setup_proof
      rw [(push_roots_fields _ _).2.1]
  rcases hinv with h0 | ⟨h1, _, h3⟩
  · exact ⟨by rw [h0]; simp, fun hne => absurd h0 hne⟩
  · refine ⟨by omega, fun _ => ⟨h3, ?_⟩⟩
    unfold prove
    rw [hout]
    simp [h3]

/-- Witness of C37: the prover for `x > 0` on `[-1, 1]` with `abort_on_satisfiable`
finishes within three iterations with one call to the reporter and the result
`false`. -/
theorem abort_on_satisfiable_reports_once_witness :
    ((prover_gt 0).abort_on_satisfiable true).m_abort_satisfiable = true ∧
    ∃ out : ProofState Box1, ((prover_gt 0).abort_on_satisfiable true).prove_run 3 = some out ∧
      out.reported.length ≤ 1 ∧
      (out.reported ≠ [] → out.result = false ∧
        ((prover_gt 0).abort_on_satisfiable true).prove 3 = some false) := by
  obtain ⟨out, hout⟩ := Option.isSome_iff_exists.mp
    (show (((prover_gt 0).abort_on_satisfiable true).prove_run 3).isSome = true by decide)
  exact ⟨rfl, out, hout,
    (abort_on_satisfiable_reports_once ((prover_gt 0).abort_on_satisfiable true) rfl).2.2 3 out hout⟩

end Prover

end ivarp

namespace ivarp

namespace Prover

variable {V : Type}

/-! ## The height cutoff -/

theorem report_fields (p : Prover V) (s : ProofState V) (domain : V) (b : Bool) :
    (p.report s domain b).pushed = s.pushed ∧
    (p.report s domain b).m_id_counter = s.m_id_counter ∧
    ((p.report s domain b).m_stack = s.m_stack ∨ (p.report s domain b).m_stack = []) := by
  unfold report
  split
  · exact ⟨rfl, rfl, Or.inr rfl⟩
  · exact ⟨rfl, rfl, Or.inl rfl⟩

/-- An iteration on a frame at the abort height does not read the `split` member. -/
theorem iteration_split_irrelevant (p : Prover V) (sp : V → Nat → List V) (fuel : Nat)
    (element : StackElement V) (s : ProofState V) (hh : element.height = p.m_abort_height) :
    iteration { p with split := sp } fuel element s = iteration p fuel element s := by
  cases hrun : run_propagators p.m_propagators fuel element.domain with
  | none =>
    have h2 : run_propagators ({ p with split := sp } : Prover V).m_propagators fuel
        element.domain = none := hrun
    unfold iteration
    rw [hrun, h2]
  | some r =>
    obtain ⟨empty, domain⟩ := r
    have h2 : run_propagators ({ p with split := sp } : Prover V).m_propagators fuel
        element.domain = some (empty, domain) := hrun
    rw [iteration_of_run p fuel element s empty domain hrun,
      iteration_of_run _ fuel element s empty domain h2]
    have hc : ({ p with split := sp } : Prover V).check_element domain
        = p.check_element domain := rfl
    have hr : ∀ b, ({ p with split := sp } : Prover V).report s domain b
        = p.report s domain b := fun _ => rfl
    rw [hc, hr, hr]
    cases empty with
    | true => rfl
    | false =>
      cases p.check_element domain with
      | none => rfl
      | some b =>
        cases b with
        | true => rfl
        | false =>
          have h3 : element.height = ({ p with split := sp } : Prover V).m_abort_height := hh
          simp only [Bool.false_eq_true, if_false, if_pos hh, if_pos h3]

/-- An iteration on a frame at the abort height pushes no frame. -/
theorem iteration_at_cutoff (p : Prover V) (fuel : Nat) (element : StackElement V)
    (s s1 : ProofState V) (hh : element.height = p.m_abort_height)
    (h : p.iteration fuel element s = some s1) :
    (s1.m_stack = s.m_stack ∨ s1.m_stack = []) ∧ s1.pushed = s.pushed ∧
    s1.m_id_counter = s.m_id_counter := by
  cases hrun : run_propagators p.m_propagators fuel element.domain with
  | none =>
    unfold iteration at h
    rw [hrun] at h
    cases h
  | some r =>
    obtain ⟨empty, domain⟩ := r
    rw [iteration_of_run p fuel element s empty domain hrun] at h
    cases empty with
    | true =>
      simp only [if_true, Option.some.injEq] at h
      subst h
      exact ⟨Or.inl rfl, rfl, rfl⟩
    | false =>
      simp only [Bool.false_eq_true, if_false, Option.some.injEq] at h
      cases hc : p.check_element domain with
      | none =>
        rw [hc] at h
        subst h
        exact ⟨Or.inl rfl, rfl, rfl⟩
      | some b =>
        rw [hc] at h
        cases b with
        | true =>
          dsimp only at h
          subst h
          obtain ⟨a1, a2, a3⟩ := report_fields p s domain true
          exact ⟨a3, a1, a2⟩
        | false =>
          simp only [if_pos hh] at h
          subst h
          obtain ⟨a1, a2, a3⟩ := report_fields p s domain false
          exact ⟨a3, a1, a2⟩

/-- The result of `prove` is never set back to `true`. -/
theorem prove_loop_result_false (p : Prover V) (f : Nat) :
    ∀ (n : Nat) (s out : ProofState V), s.result = false → prove_loop p f n s = some out →
      out.result = false := by
  intro n s out hs hout
  refine prove_loop_induct p f (fun s => s.result = false) ?_ n s out hs hout
  intro s element rest s1 hs _ hit
  rcases iteration_report_cases p f element { s with m_stack := rest } s1 hit with h | ⟨d, b, h⟩
  · rw [h.2]; exact hs
  · rw [h]; exact (report_result p _ d b).1

/-- With abort height zero the loop of `prove` does not read the `split` member
from a state whose frames all have height zero. -/
theorem prove_loop_split_irrelevant (p : Prover V) (sp : V → Nat → List V) (f : Nat)
    (h0 : p.m_abort_height = 0) :
    ∀ (n : Nat) (s : ProofState V), (∀ e ∈ s.m_stack, e.height = 0) →
      prove_loop { p with split := sp } f n s = prove_loop p f n s := by
  intro n
  induction n with
  | zero => intro s _; rfl
  | succ n ih =>
    intro s hs
    cases hst : s.m_stack with
    | nil => rw [prove_loop_nil _ f _ s hst, prove_loop_nil _ f _ s hst]
    | cons element rest =>
      have hel : element.height = p.m_abort_height := by
        rw [h0]; exact hs element (by rw [hst]; exact List.mem_cons_self _ _)
      rw [prove_loop_succ_cons _ f n s element rest hst,
        prove_loop_succ_cons _ f n s element rest hst,
        iteration_split_irrelevant p sp f element _ hel]
      cases hit : p.iteration f element { s with m_stack := rest } with
      | none => rfl
      | some s1 =>
        simp only [Option.some_bind]
        apply ih
        intro e he
        rcases (iteration_at_cutoff p f element _ s1 hel hit).1 with h1 | h1
        · rw [h1] at he
          exact hs e (by rw [hst]; exact List.mem_cons_of_mem _ he)
        · rw [h1] at he
          cases he

/-- With abort height zero the loop of `prove` finishes within as many iterations
as there are frames, when the propagation loop finishes on each of them; no
frame is pushed. -/
theorem prove_loop_cutoff_total (p : Prover V) (f : Nat) (h0 : p.m_abort_height = 0) :
    ∀ (n : Nat) (s : ProofState V),
      (∀ e ∈ s.m_stack, e.height = 0 ∧ (run_propagators p.m_propagators f e.domain).isSome = true) →
      s.m_stack.length ≤ n →
      ∃ out, prove_loop p f n s = some out ∧ out.pushed = s.pushed := by
  intro n
  induction n with
  | zero =>
    intro s _ hlen
    have hnil : s.m_stack = [] := List.length_eq_zero.mp (by omega)
    exact ⟨s, prove_loop_nil p f 0 s hnil, rfl⟩
  | succ n ih =>
    intro s hs hlen
    cases hst : s.m_stack with
    | nil => exact ⟨s, prove_loop_nil p f _ s hst, rfl⟩
    | cons element rest =>
      have hmem : element ∈ s.m_stack := by rw [hst]; exact List.mem_cons_self _ _
      have hel : element.height = p.m_abort_height := by rw [h0]; exact (hs element hmem).1
      obtain ⟨r, hr⟩ := Option.isSome_iff_exists.mp (hs element hmem).2
      obtain ⟨s1, hit⟩ := iteration_isSome p f element { s with m_stack := rest } r hr
      rw [prove_loop_succ_cons p f n s element rest hst, hit]
      simp only [Option.some_bind]
      obtain ⟨a1, a2, _⟩ := iteration_at_cutoff p f element _ s1 hel hit
      have hs1 : ∀ e ∈ s1.m_stack,
          e.height = 0 ∧ (run_propagators p.m_propagators f e.domain).isSome = true := by
        intro e he
        rcases a1 with h1 | h1
        · rw [h1] at he
          exact hs e (by rw [hst]; exact List.mem_cons_of_mem _ he)
        · rw [h1] at he
          cases he
      have hlen1 : s1.m_stack.length ≤ n := by
        rcases a1 with h1 | h1
        · rw [h1]
          rw [hst] at hlen
          simp only [List.length_cons] at hlen
          exact Nat.le_of_succ_le_succ hlen
        · rw [h1]; exact Nat.zero_le _
      obtain ⟨out, ho1, ho2⟩ := ih s1 hs1 hlen1
      exact ⟨out, ho1, by rw [ho2, a2]⟩

theorem push_roots_pushed (vs : List V) (s : ProofState V) :
    (push_roots vs s).pushed.length = s.pushed.length + vs.length ∧
    (push_roots vs s).m_stack.length = s.m_stack.length + vs.length ∧
    (∀ e ∈ (push_roots vs s).m_stack, e ∈ s.m_stack ∨ (e.height = 0 ∧ e.domain ∈ vs)) := by
  induction vs generalizing s with
  | nil => exact ⟨rfl, rfl, fun e he => Or.inl he⟩
  | cons v vs ih =>
    simp only [push_roots]
    refine ⟨?_, ?_, ?_⟩
    · rw [(ih _).1]
      simp only [List.length_append, List.length_cons, List.length_nil]
      omega
    · rw [(ih _).2.1]
      simp only [List.length_cons]
      omega
    · intro e he
      rcases (ih _).2.2 e he with h | h
      · simp only [List.mem_cons] at h
        rcases h with rfl | h
        · exact Or.inr ⟨rfl, List.mem_cons_self _ _⟩
        · exact Or.inl h
      · exact Or.inr ⟨h.1, List.mem_cons_of_mem _ h.2⟩

/-- C34: a frame that survives propagation and checking without being definitely
satisfiable and whose height equals the abort height is never split: the
iteration calls the reporter once for it with the flag `false`, sets the result
to `false`, pushes no frame and does not read the `split` member, and the result
of `prove` is `false` at the end of every continuation of the run.  In
particular with `abort_at_height(0)` the run of `prove` does not depend on the
`split` member at all, pushes the root frames only, and finishes within as many
iterations as there are roots when the propagation loop finishes on each root. -/
theorem height_cutoff (p : Prover V) (fuel : Nat) (element : StackElement V)
    (s : ProofState V) (domain : V)
    (hrun : run_propagators p.m_propagators fuel element.domain = some (false, domain))
    (hchk : p.check_element domain = some false)
    (hh : element.height = p.m_abort_height) :
    (p.iteration fuel element s = some (p.report s domain false) ∧
     (p.report s domain false).reported = s.reported ++ [(domain, false)] ∧
     (p.report s domain false).result = false ∧
     (p.report s domain false).pushed = s.pushed ∧
     (p.report s domain false).m_id_counter = s.m_id_counter ∧
     ((p.report s domain false).m_stack = s.m_stack ∨ (p.report s domain false).m_stack = []) ∧
     (∀ sp : V → Nat → List V,
       iteration { p with split := sp } fuel element s = some (p.report s domain false)) ∧
     (∀ (n : Nat) (out : ProofState V),
       prove_loop p fuel n (p.report s domain false) = some out → out.result = false)) ∧
    (∀ (q : Prover V) (f : Nat),
      (∀ sp : V → Nat → List V,
        prove_run { q.abort_at_height 0 with split := sp } f = prove_run (q.abort_at_height 0) f) ∧
      ((∀ v ∈ q.m_basic,
          (run_propagators (q.abort_at_height 0).m_propagators f v).isSome = true) →
        q.m_basic.length ≤ f →
        ∃ out, prove_run (q.abort_at_height 0) f = some out ∧
          out.pushed.length = q.m_basic.length ∧
          (q.abort_at_height 0).prove f = some out.result)) := by
  have hit : p.iteration fuel element s = some (p.report s domain false) := by
    rw [iteration_of_run p fuel element s false domain hrun, hchk]
    simp only [Bool.false_eq_true, if_false, if_pos hh]
  obtain ⟨a1, a2, a3⟩ := report_fields p s domain false
  refine ⟨⟨hit, (report_result p s domain false).2, (report_result p s domain false).1,
    a1, a2, a3, ?_, ?_⟩, ?_⟩
  · intro sp
    rw [iteration_split_irrelevant p sp fuel element s hh, hit]
  · intro n out hout
    exact prove_loop_result_false p fuel n _ out (report_result p s domain false).1 hout
  · intro q f
    have h0 : (q.abort_at_height 0).m_abort_height = 0 := rfl
    have hroots := push_roots_pushed q.m_basic
      (⟨[], q.m_id_counter, true, [], [], []⟩ : ProofState V)
    have hstack : ∀ e ∈ (q.abort_at_height 0).setup_proof.m_stack,
        e.height = 0 ∧ e.domain ∈ q.m_basic := by
      intro e he
      rcases hroots.2.2 e he with h | h
      · cases h
      · exact h
    refine ⟨?_, ?_⟩
    · intro sp
      exact prove_loop_split_irrelevant (q.abort_at_height 0) sp f h0 f _
        (fun e he => (hstack e he).1)
    · intro hprop hlen
      obtain ⟨out, ho1, ho2⟩ := prove_loop_cutoff_total (q.abort_at_height 0) f h0 f
        (q.abort_at_height 0).setup_proof
        (fun e he => ⟨(hstack e he).1, hprop _ (hstack e he).2⟩)
        (by
          have hl : (q.abort_at_height 0).setup_proof.m_stack.length
              = 0 + q.m_basic.length := hroots.2.1
          omega)
      refine ⟨out, ho1, ?_, ?_⟩
      · rw [ho2]
        have hl : (q.abort_at_height 0).setup_proof.pushed.length
            = 0 + q.m_basic.length := hroots.1
        omega
      · unfold prove prove_run
        rw [ho1]
        rfl

/-- Witness of C34: the root `x ∈ [-1, 1]` with a checker that is indeterminate on
every box and `abort_at_height(0)`; the root is reported with the flag `false`. -/
theorem height_cutoff_witness :
    run_propagators
        (prover_box1 (Dbl.ofInt (-1)) (Dbl.ofInt 1) [constraint_indeterminate] 0).m_propagators 1
        (box1 (Dbl.ofInt (-1)) (Dbl.ofInt 1))
      = some (false, box1 (Dbl.ofInt (-1)) (Dbl.ofInt 1)) ∧
    (prover_box1 (Dbl.ofInt (-1)) (Dbl.ofInt 1) [constraint_indeterminate] 0).check_element
        (box1 (Dbl.ofInt (-1)) (Dbl.ofInt 1)) = some false ∧
    (prover_box1 (Dbl.ofInt (-1)) (Dbl.ofInt 1) [constraint_indeterminate] 0).iteration 1
        (StackElement.root (box1 (Dbl.ofInt (-1)) (Dbl.ofInt 1)) 1)
        ⟨[], 1, true, [], [], []⟩
      = some ⟨[], 1, false, [(box1 (Dbl.ofInt (-1)) (Dbl.ofInt 1), false)],
          [box1 (Dbl.ofInt (-1)) (Dbl.ofInt 1)], []⟩ :=
  ⟨by decide, by decide,
   (height_cutoff (prover_box1 (Dbl.ofInt (-1)) (Dbl.ofInt 1) [constraint_indeterminate] 0) 1
      (StackElement.root (box1 (Dbl.ofInt (-1)) (Dbl.ofInt 1)) 1) ⟨[], 1, true, [], [], []⟩
      (box1 (Dbl.ofInt (-1)) (Dbl.ofInt 1)) (by decide) (by decide) rfl).1.1⟩

end Prover

end ivarp

namespace ivarp

namespace Prover

variable {V : Type}

/-! ## The checking step -/

theorem foldl_and_bits (domain : V) (cs : List (Constraint V)) (acc : IBool) :
    (cs.foldl (fun a c => a.and (c.satisfied domain)) acc).ub
      = (acc.ub && cs.all (fun c => (c.satisfied domain).ub)) ∧
    (cs.foldl (fun a c => a.and (c.satisfied domain)) acc).lb
      = (acc.lb && cs.all (fun c => (c.satisfied domain).lb)) := by
  induction cs generalizing acc with
  | nil => simp
  | cons c rest ih =>
    simp only [List.foldl_cons, List.all_cons]
    rw [(ih _).1, (ih _).2]
    simp [IBool.and, Bool.and_assoc]

/-- The loop of `run_checker_collection` against the conjunction of all values:
the upper bits agree, and the results agree when the upper bit is set. -/
theorem checker_loop_spec (domain : V) (cs : List (Constraint V)) (acc : IBool) :
    (checker_loop domain cs acc).ub
      = (cs.foldl (fun a c => a.and (c.satisfied domain)) acc).ub ∧
    ((checker_loop domain cs acc).ub = true →
      checker_loop domain cs acc = cs.foldl (fun a c => a.and (c.satisfied domain)) acc) := by
  induction cs generalizing acc with
  | nil => exact ⟨rfl, fun _ => rfl⟩
  | cons c rest ih =>
    simp only [checker_loop, List.foldl_cons]
    cases hr : (c.satisfied domain).possibly with
    | false =>
      simp only [Bool.not_false, if_true]
      have hub : (c.satisfied domain).ub = false := hr
      have h1 : (acc.and (c.satisfied domain)).ub = false := by simp [IBool.and, hub]
      rw [(foldl_and_bits domain rest _).1, h1]
      simp
    | true =>
      simp only [Bool.not_true, Bool.false_eq_true, if_false]
      exact ih _

theorem run_checker_collection_spec (domain : V) (cs : List (Constraint V)) :
    (run_checker_collection domain cs).ub = (conj_all domain cs).ub ∧
    ((run_checker_collection domain cs).ub = true →
      run_checker_collection domain cs = conj_all domain cs) :=
  checker_loop_spec domain cs ⟨true, true⟩

theorem conj_all_wellFormed (domain : V) (cs : List (Constraint V))
    (h : ∀ c ∈ cs, (c.satisfied domain).WellFormed) : (conj_all domain cs).WellFormed := by
  unfold conj_all IBool.WellFormed
  rw [(foldl_and_bits domain cs _).1, (foldl_and_bits domain cs _).2]
  simp only [Bool.true_and]
  cases hl : cs.all (fun c => (c.satisfied domain).lb) with
  | false => rfl
  | true =>
    have hu : cs.all (fun c => (c.satisfied domain).ub) = true := by
      rw [List.all_eq_true] at hl ⊢
      intro c hc
      have h1 := hl c hc
      have h2 := h c hc
      unfold IBool.WellFormed at h2
      rw [h1] at h2
      simpa using h2
    rw [hu]
    rfl

theorem check_element_eq (p : Prover V) (domain : V) :
    p.check_element domain =
      (if !(p.run_checkers domain).possibly then none
       else if (p.run_checkers domain).definitely then
         (if !((p.run_checkers domain).and (p.run_propagators_as_checkers domain)).possibly
          then none
          else some ((p.run_checkers domain).and
            (p.run_propagators_as_checkers domain)).definitely)
       else some false) := rfl

/-- The value of the checking step in terms of the conjunctions of all values. -/
theorem check_element_spec (p : Prover V) (domain : V) :
    (p.check_element domain = some true ↔
      conj_all domain p.m_checkers = ⟨true, true⟩ ∧
      conj_all domain p.m_propagators = ⟨true, true⟩) ∧
    ((conj_all domain p.m_checkers).definitely = true →
      (conj_all domain p.m_propagators).possibly = false → p.check_element domain = none) ∧
    (conj_all domain p.m_checkers = ⟨true, true⟩ →
      conj_all domain p.m_propagators = ⟨false, true⟩ → p.check_element domain = some false) := by
  rw [check_element_eq]
  obtain ⟨c1, c2⟩ := run_checker_collection_spec domain p.m_checkers
  obtain ⟨p1, p2⟩ := run_checker_collection_spec domain p.m_propagators
  unfold run_checkers run_propagators_as_checkers
  generalize run_checker_collection domain p.m_checkers = Cs at c1 c2 ⊢
  generalize run_checker_collection domain p.m_propagators = Ps at p1 p2 ⊢
  generalize conj_all domain p.m_checkers = C at c1 c2 ⊢
  generalize conj_all domain p.m_propagators = P at p1 p2 ⊢
  obtain ⟨a, b⟩ := Cs
  obtain ⟨c, d⟩ := C
  obtain ⟨e, f⟩ := Ps
  obtain ⟨g, h⟩ := P
  simp only [IBool.possibly, IBool.definitely, IBool.and, IBool.mk.injEq] at *
  subst c1 p1
  cases a <;> cases b <;> cases e <;> cases f <;> simp_all

/-- C33: for a frame on which the propagation loop returns with the flag `empty`
and the box `domain`, the iteration calls the reporter with the flag `true` (and
sets the result to `false`) if and only if the frame survived propagation and
both the conjunction of all checkers' satisfied values and the conjunction of all
propagators' satisfied values are `{true, true}`; when every satisfied value is
well-formed (`lb ≤ ub`) this is the case if and only if the frame survived and
both conjunctions are definitely true.  If the checkers are definitely true and
the propagators' conjunction is not possibly true the frame is discarded, and if
the checkers are `{true, true}` and the propagators' conjunction is
indeterminate the frame goes to the height cutoff or the split. -/
theorem report_satisfiable_iff (p : Prover V) (fuel : Nat) (element : StackElement V)
    (s : ProofState V) (empty : Bool) (domain : V)
    (hrun : run_propagators p.m_propagators fuel element.domain = some (empty, domain)) :
    ∃ out, p.iteration fuel element s = some out ∧
      ((out.reported = s.reported ++ [(domain, true)] ∧ out.result = false) ↔
        (empty = false ∧ conj_all domain p.m_checkers = ⟨true, true⟩ ∧
          conj_all domain p.m_propagators = ⟨true, true⟩)) ∧
      ((∀ c ∈ p.m_constraints, (c.satisfied domain).WellFormed) →
        ((out.reported = s.reported ++ [(domain, true)] ∧ out.result = false) ↔
          (empty = false ∧ (conj_all domain p.m_checkers).definitely = true ∧
            (conj_all domain p.m_propagators).definitely = true))) ∧
      (empty = false → (conj_all domain p.m_checkers).definitely = true →
        (conj_all domain p.m_propagators).possibly = false →
        out = { s with leaves := s.leaves ++ [domain] }) ∧
      (empty = false → conj_all domain p.m_checkers = ⟨true, true⟩ →
        conj_all domain p.m_propagators = ⟨false, true⟩ →
        out = if element.height = p.m_abort_height then p.report s domain false
              else push_children { element with domain := domain }
                (p.split domain element.height) s) := by
  obtain ⟨hc1, hc2, hc3⟩ := check_element_spec p domain
  have hne : ∀ (l : List (V × Bool)) (x : V × Bool), l ≠ l ++ [x] := by
    intro l x h
    have := congrArg List.length h
    simp at this
  have hmain : ∃ out, p.iteration fuel element s = some out ∧
      ((out.reported = s.reported ++ [(domain, true)] ∧ out.result = false) ↔
        (empty = false ∧ conj_all domain p.m_checkers = ⟨true, true⟩ ∧
          conj_all domain p.m_propagators = ⟨true, true⟩)) ∧
      (empty = false → (conj_all domain p.m_checkers).definitely = true →
        (conj_all domain p.m_propagators).possibly = false →
        out = { s with leaves := s.leaves ++ [domain] }) ∧
      (empty = false → conj_all domain p.m_checkers = ⟨true, true⟩ →
        conj_all domain p.m_propagators = ⟨false, true⟩ →
        out = if element.height = p.m_abort_height then p.report s domain false
              else push_children { element with domain := domain }
                (p.split domain element.height) s) := by
    refine ⟨_, iteration_of_run p fuel element s empty domain hrun, ?_, ?_, ?_⟩
    · cases empty with
      | true =>
        simp only [if_true, Bool.true_eq_false, false_and, iff_false, not_and]
        intro h
        exact absurd h (hne _ _)
      | false =>
        simp only [Bool.false_eq_true, if_false, true_and]
        cases hc : p.check_element domain with
        | none =>
          have hn : ¬ (conj_all domain p.m_checkers = ⟨true, true⟩ ∧
              conj_all domain p.m_propagators = ⟨true, true⟩) := by
            rw [← hc1, hc]; simp
          simp only [hn, iff_false, not_and]
          intro h
          exact absurd h (hne _ _)
        | some b =>
          cases b with
          | true =>
            have hy : conj_all domain p.m_checkers = ⟨true, true⟩ ∧
                conj_all domain p.m_propagators = ⟨true, true⟩ := hc1.mp hc
            simp only [hy, and_self, iff_true]
            exact ⟨(report_result p s domain true).2, (report_result p s domain true).1⟩
          | false =>
            have hn : ¬ (conj_all domain p.m_checkers = ⟨true, true⟩ ∧
                conj_all domain p.m_propagators = ⟨true, true⟩) := by
              rw [← hc1, hc]; simp
            simp only [hn, iff_false, not_and]
            intro h
            exfalso
            split at h
            · rw [(report_result p s domain false).2] at h
              have h1 := List.append_cancel_left h
              simp at h1
            · rw [(push_children_fields _ _ s).2.1] at h
              exact hne _ _ h
    · intro he h1 h2
      subst he
      rw [hc2 h1 h2]
      rfl
    · intro he h1 h2
      subst he
      rw [hc3 h1 h2]
      rfl
  obtain ⟨out, ho1, ho2, ho3, ho4⟩ := hmain
  refine ⟨out, ho1, ho2, ?_, ho3, ho4⟩
  intro hwf
  rw [ho2]
  have wc : (conj_all domain p.m_checkers).WellFormed :=
    conj_all_wellFormed domain _ (fun c hc => hwf c (List.mem_of_mem_filter hc))
  have wp : (conj_all domain p.m_propagators).WellFormed :=
    conj_all_wellFormed domain _ (fun c hc => hwf c (List.mem_of_mem_filter hc))
  generalize conj_all domain p.m_checkers = C at wc ⊢
  generalize conj_all domain p.m_propagators = P at wp ⊢
  obtain ⟨a, b⟩ := C
  obtain ⟨c, d⟩ := P
  unfold IBool.WellFormed at wc wp
  simp only [IBool.definitely, IBool.mk.injEq] at *
  cases a <;> cases b <;> cases c <;> cases d <;> simp_all

/-- Witness of C33: the frame `x ∈ [0.5, 1]` of the prover for `x > 0` is reported
as definitely satisfiable. -/
theorem report_satisfiable_iff_witness :
    run_propagators (prover_gt 0).m_propagators 1 (box1 Dbl.half (Dbl.ofInt 1))
      = some (false, box1 Dbl.half (Dbl.ofInt 1)) ∧
    conj_all (box1 Dbl.half (Dbl.ofInt 1)) (prover_gt 0).m_checkers = ⟨true, true⟩ ∧
    conj_all (box1 Dbl.half (Dbl.ofInt 1)) (prover_gt 0).m_propagators = ⟨true, true⟩ ∧
    ∃ out, (prover_gt 0).iteration 1 ⟨box1 Dbl.half (Dbl.ofInt 1), 2, 5, 3⟩
        ⟨[], 5, true, [], [], []⟩ = some out ∧
      out.reported = [(box1 Dbl.half (Dbl.ofInt 1), true)] ∧ out.result = false := by
  obtain ⟨out, h1, h2, _⟩ := report_satisfiable_iff (prover_gt 0) 1
    ⟨box1 Dbl.half (Dbl.ofInt 1), 2, 5, 3⟩ ⟨[], 5, true, [], [], []⟩ false
    (box1 Dbl.half (Dbl.ofInt 1)) (by decide)
  exact ⟨by decide, by decide, by decide, out, h1, h2.mpr ⟨rfl, by decide, by decide⟩⟩

/-- Counterexample to C33 as stated: on the root `x ∈ [3, 1]` (an empty interval)
the checker `x < 2` has the satisfied value `{true, false}`; the frame survives
propagation, the conjunction of the checkers' values is definitely true and so
is the conjunction of the propagators' values (there is none), but the frame is
discarded: the reporter is never called and `prove` returns `true`. -/
theorem definitely_true_not_reported :
    run_propagators
        (prover_box1 (Dbl.ofInt 3) (Dbl.ofInt 1) [constraint_lt 2] 7).m_propagators 1
        (box1 (Dbl.ofInt 3) (Dbl.ofInt 1))
      = some (false, box1 (Dbl.ofInt 3) (Dbl.ofInt 1)) ∧
    (constraint_lt 2).satisfied (box1 (Dbl.ofInt 3) (Dbl.ofInt 1)) = ⟨true, false⟩ ∧
    (conj_all (box1 (Dbl.ofInt 3) (Dbl.ofInt 1))
      (prover_box1 (Dbl.ofInt 3) (Dbl.ofInt 1) [constraint_lt 2] 7).m_checkers).definitely
      = true ∧
    (conj_all (box1 (Dbl.ofInt 3) (Dbl.ofInt 1))
      (prover_box1 (Dbl.ofInt 3) (Dbl.ofInt 1) [constraint_lt 2] 7).m_propagators).definitely
      = true ∧
    (prover_box1 (Dbl.ofInt 3) (Dbl.ofInt 1) [constraint_lt 2] 7).prove_reports 1 = some [] ∧
    (prover_box1 (Dbl.ofInt 3) (Dbl.ofInt 1) [constraint_lt 2] 7).prove 1 = some true := by
  decide

end Prover

end ivarp

namespace ivarp

namespace PropagateResult

theorem hasEmpty_or (a b : PropagateResult) :
    (a.or b).hasEmpty = (a.hasEmpty || b.hasEmpty) := by
  cases a <;> cases b <;> decide

theorem hasChanged_or (a b : PropagateResult) :
    (a.or b).hasChanged = (a.hasChanged || b.hasChanged) := by
  cases a <;> cases b <;> decide

theorem eq_changed_iff (r : PropagateResult) :
    r = CHANGED ↔ r.hasChanged = true ∧ r.hasEmpty = false := by
  cases r <;> decide

theorem hasEmpty_foldl (rs : List PropagateResult) (acc : PropagateResult) :
    (rs.foldl PropagateResult.or acc).hasEmpty = (acc.hasEmpty || rs.any hasEmpty) := by
  induction rs generalizing acc with
  | nil => simp
  | cons r rs ih =>
    simp only [List.foldl_cons, List.any_cons]
    rw [ih, hasEmpty_or, Bool.or_assoc]

theorem hasChanged_foldl (rs : List PropagateResult) (acc : PropagateResult) :
    (rs.foldl PropagateResult.or acc).hasChanged = (acc.hasChanged || rs.any hasChanged) := by
  induction rs generalizing acc with
  | nil => simp
  | cons r rs ih =>
    simp only [List.foldl_cons, List.any_cons]
    rw [ih, hasChanged_or, Bool.or_assoc]

theorem hasEmpty_union (rs : List PropagateResult) :
    (union rs).hasEmpty = true ↔ ∃ r ∈ rs, r.hasEmpty = true := by
  unfold union
  rw [hasEmpty_foldl]
  simp [hasEmpty, PropagateResult.and, toUnsigned, ofUnsigned]

theorem hasChanged_union (rs : List PropagateResult) :
    (union rs).hasChanged = true ↔ ∃ r ∈ rs, r.hasChanged = true := by
  unfold union
  rw [hasChanged_foldl]
  simp [hasChanged, PropagateResult.and, toUnsigned, ofUnsigned]

theorem hasEmpty_empty : EMPTY.hasEmpty = true := by decide

end PropagateResult

namespace Prover

variable {V : Type}

/-! ## The propagation loop -/

/-- One pass of the loop of `run_propagators` returns the union of the results of
its calls and the box left by the last call. -/
theorem propagate_pass_eq (ps : List (Constraint V)) (acc : PropagateResult) (domain : V) :
    propagate_pass ps acc domain
      = ((pass_calls ps domain).1.foldl PropagateResult.or acc, (pass_calls ps domain).2) := by
  induction ps generalizing acc domain with
  | nil => rfl
  | cons c rest ih =>
    simp only [propagate_pass, pass_calls]
    split
    · rfl
    · rw [ih]
      rfl

theorem propagate_pass_union (ps : List (Constraint V)) (domain : V) :
    propagate_pass ps PropagateResult.UNCHANGED domain
      = (PropagateResult.union (pass_calls ps domain).1, (pass_calls ps domain).2) :=
  propagate_pass_eq ps _ domain

/-- The calls of a pass are the calls of a prefix of the propagator list in list
order; the prefix is the whole list unless the last call returned `EMPTY`. -/
theorem pass_calls_prefix (ps : List (Constraint V)) (domain : V) :
    ∃ k, k ≤ ps.length ∧ pass_calls ps domain = call_in_order (ps.take k) domain ∧
      (k = ps.length ∨ (pass_calls ps domain).1.getLast? = some PropagateResult.EMPTY) ∧
      ((∀ r ∈ (pass_calls ps domain).1, r ≠ PropagateResult.EMPTY) → k = ps.length) := by
  induction ps generalizing domain with
  | nil => exact ⟨0, le_refl _, rfl, Or.inl rfl, fun _ => rfl⟩
  | cons c rest ih =>
    by_cases he : (c.propagate domain).1 = PropagateResult.EMPTY
    · refine ⟨1, by simp, ?_, Or.inr ?_, ?_⟩
      · simp [pass_calls, he, call_in_order]
      · simp [pass_calls, he]
      · intro h
        exfalso
        apply h (c.propagate domain).1 _ he
        simp [pass_calls, he]
    · obtain ⟨k, hk, h1, h2, h3⟩ := ih (c.propagate domain).2
      refine ⟨k + 1, by simp; exact hk, ?_, ?_, ?_⟩
      · simp only [pass_calls, if_neg he, List.take_succ_cons, call_in_order, h1]
      · rcases h2 with h2 | h2
        · exact Or.inl (by simp [h2])
        · right
          simp only [pass_calls, if_neg he]
          cases hl : (pass_calls rest (c.propagate domain).2).1 with
          | nil => rw [hl] at h2; simp at h2
          | cons x xs =>
            rw [hl] at h2
            rw [List.getLast?_cons_cons]
            exact h2
      · intro h
        have : k = rest.length := by
          apply h3
          intro r hr
          apply h r
          simp only [pass_calls, if_neg he, List.mem_cons]
          exact Or.inr hr
        simp [this]

/-- The loop of `run_propagators`: after `n` passes whose union is `CHANGED` and
one whose union is not, it returns whether that last union has the bit `EMPTY`,
with the box after the last pass. -/
theorem run_propagators_passes (ps : List (Constraint V)) :
    ∀ (n fuel : Nat) (domain : V), n < fuel →
      (∀ i, i < n →
        PropagateResult.union (pass_calls ps (pass_box ps i domain)).1 = PropagateResult.CHANGED) →
      PropagateResult.union (pass_calls ps (pass_box ps n domain)).1 ≠ PropagateResult.CHANGED →
      run_propagators ps fuel domain
        = some ((PropagateResult.union (pass_calls ps (pass_box ps n domain)).1).hasEmpty,
            pass_box ps (n + 1) domain) := by
  intro n
  induction n with
  | zero =>
    intro fuel domain hf _ hstop
    obtain ⟨f, rfl⟩ : ∃ f, fuel = f + 1 := ⟨fuel - 1, by omega⟩
    simp only [pass_box] at hstop ⊢
    unfold run_propagators
    simp only [propagate_pass_union, if_neg hstop]
    rfl
  | succ n ih =>
    intro fuel domain hf hch hstop
    obtain ⟨f, rfl⟩ : ∃ f, fuel = f + 1 := ⟨fuel - 1, by omega⟩
    have h0 := hch 0 (Nat.succ_pos n)
    simp only [pass_box] at h0
    unfold run_propagators
    simp only [propagate_pass_union, if_pos h0]
    have hb : ∀ i, pass_box ps (i + 1) domain = pass_box ps i (pass_calls ps domain).2 := by
      intro i
      simp only [pass_box, propagate_pass_union]
    rw [ih f (pass_calls ps domain).2 (by omega)
      (fun i hi => by rw [← hb]; exact hch (i + 1) (by omega))
      (by rw [← hb]; exact hstop)]
    rw [hb (n + 1), hb n]

theorem pass_box_succ (ps : List (Constraint V)) (n : Nat) (domain : V) :
    pass_box ps (n + 1) domain = (pass_calls ps (pass_box ps n domain)).2 := by
  induction n generalizing domain with
  | zero => simp only [pass_box, propagate_pass_union]
  | succ n ih =>
    have h1 : pass_box ps (n + 1 + 1) domain
        = pass_box ps (n + 1) (propagate_pass ps PropagateResult.UNCHANGED domain).2 := rfl
    have h2 : pass_box ps (n + 1) domain
        = pass_box ps n (propagate_pass ps PropagateResult.UNCHANGED domain).2 := rfl
    rw [h1, ih, h2]

/-- C32: the propagation loop.  Let the first `n` passes over the propagators
have the union `CHANGED` and the next pass a union other than `CHANGED`.  Then
every pass calls the propagators in list order, each on the box left by the call
before, and unions their results; a pass is complete unless its last call
returned `EMPTY`, and each of the first `n` passes is complete; a further pass
is started exactly after a pass with a `CHANGED` bit and no `EMPTY` bit;
`run_propagators` returns within any bound above `n`, with the box after the last
pass, and returns `true` if and only if some call of `propagate` in the run
returned a result containing the bit `EMPTY`; such a call lies in the last pass. -/
theorem run_propagators_spec (ps : List (Constraint V)) (domain : V) (n fuel : Nat)
    (hn : n < fuel)
    (hch : ∀ i, i < n →
      PropagateResult.union (pass_calls ps (pass_box ps i domain)).1 = PropagateResult.CHANGED)
    (hstop :
      PropagateResult.union (pass_calls ps (pass_box ps n domain)).1 ≠ PropagateResult.CHANGED) :
    (∀ i, i ≤ n → ∃ k, k ≤ ps.length ∧
      pass_calls ps (pass_box ps i domain) = call_in_order (ps.take k) (pass_box ps i domain) ∧
      propagate_pass ps PropagateResult.UNCHANGED (pass_box ps i domain)
        = (PropagateResult.union (pass_calls ps (pass_box ps i domain)).1,
           pass_box ps (i + 1) domain) ∧
      (k = ps.length ∨
        (pass_calls ps (pass_box ps i domain)).1.getLast? = some PropagateResult.EMPTY) ∧
      (i < n → k = ps.length)) ∧
    (∀ i, i ≤ n →
      (i < n ↔ ((∃ r ∈ (pass_calls ps (pass_box ps i domain)).1, r.hasChanged = true) ∧
        ∀ r ∈ (pass_calls ps (pass_box ps i domain)).1, r.hasEmpty = false))) ∧
    (∃ flag : Bool, run_propagators ps fuel domain = some (flag, pass_box ps (n + 1) domain) ∧
      (flag = true ↔
        ∃ i, i ≤ n ∧ ∃ r ∈ (pass_calls ps (pass_box ps i domain)).1, r.hasEmpty = true)) ∧
    (∀ i, i ≤ n →
      (∃ r ∈ (pass_calls ps (pass_box ps i domain)).1, r.hasEmpty = true) → i = n) := by
  have hbits : ∀ i, i ≤ n →
      (i < n ↔ ((∃ r ∈ (pass_calls ps (pass_box ps i domain)).1, r.hasChanged = true) ∧
        ∀ r ∈ (pass_calls ps (pass_box ps i domain)).1, r.hasEmpty = false)) := by
    intro i hi
    have key : PropagateResult.union (pass_calls ps (pass_box ps i domain)).1
        = PropagateResult.CHANGED ↔
        ((∃ r ∈ (pass_calls ps (pass_box ps i domain)).1, r.hasChanged = true) ∧
        ∀ r ∈ (pass_calls ps (pass_box ps i domain)).1, r.hasEmpty = false) := by
      rw [PropagateResult.eq_changed_iff, PropagateResult.hasChanged_union]
      apply and_congr Iff.rfl
      rw [← Bool.not_eq_true, PropagateResult.hasEmpty_union]
      simp
    rw [← key]
    constructor
    · intro h; exact hch i h
    · intro h
      rcases Nat.lt_or_ge i n with h1 | h1
      · exact h1
      · have : i = n := by omega
        subst this
        exact absurd h hstop
  have hlast : ∀ i, i ≤ n →
      (∃ r ∈ (pass_calls ps (pass_box ps i domain)).1, r.hasEmpty = true) → i = n := by
    intro i hi hex
    rcases Nat.lt_or_ge i n with h1 | h1
    · exfalso
      obtain ⟨r, hr, hre⟩ := hex
      have := ((hbits i hi).mp h1).2 r hr
      rw [this] at hre
      cases hre
    · omega
  refine ⟨?_, hbits, ?_, hlast⟩
  · intro i hi
    obtain ⟨k, hk, h1, h2, h3⟩ := pass_calls_prefix ps (pass_box ps i domain)
    refine ⟨k, hk, h1, ?_, h2, ?_⟩
    · rw [propagate_pass_union, pass_box_succ]
    · intro hlt
      apply h3
      intro r hr he
      have := ((hbits i hi).mp hlt).2 r hr
      rw [he, PropagateResult.hasEmpty_empty] at this
      cases this
  · refine ⟨_, run_propagators_passes ps n fuel domain hn hch hstop, ?_⟩
    rw [PropagateResult.hasEmpty_union]
    constructor
    · intro h
      exact ⟨n, le_refl _, h⟩
    · rintro ⟨i, hi, hex⟩
      have := hlast i hi hex
      subst this
      exact hex

/-- Witness of C32: the propagators `x <= 0` and "the interval is ordered" on the
box `x ∈ [1, 2]`: the first call lowers the upper bound and returns `CHANGED`, the
second returns `EMPTY`; the union of the pass is `CHANGED_EMPTY`, no further pass
is started and `run_propagators` returns `true`. -/
theorem run_propagators_spec_witness :
    PropagateResult.union
        (pass_calls [constraint_le_zero, constraint_ordered] (box1 (Dbl.ofInt 1) (Dbl.ofInt 2))).1
      = PropagateResult.CHANGED_EMPTY ∧
    (pass_calls [constraint_le_zero, constraint_ordered] (box1 (Dbl.ofInt 1) (Dbl.ofInt 2))).1
      = [PropagateResult.CHANGED, PropagateResult.EMPTY] ∧
    run_propagators [constraint_le_zero, constraint_ordered] 1 (box1 (Dbl.ofInt 1) (Dbl.ofInt 2))
      = some (true, box1 (Dbl.ofInt 1) (Dbl.ofInt 0)) ∧
    ∃ flag : Bool,
      run_propagators [constraint_le_zero, constraint_ordered] 1 (box1 (Dbl.ofInt 1) (Dbl.ofInt 2))
        = some (flag, pass_box [constraint_le_zero, constraint_ordered] (0 + 1)
            (box1 (Dbl.ofInt 1) (Dbl.ofInt 2))) ∧
      (flag = true ↔ ∃ i, i ≤ 0 ∧
        ∃ r ∈ (pass_calls [constraint_le_zero, constraint_ordered]
          (pass_box [constraint_le_zero, constraint_ordered] i
            (box1 (Dbl.ofInt 1) (Dbl.ofInt 2)))).1, r.hasEmpty = true) :=
  ⟨by decide, by decide, by decide,
   (run_propagators_spec [constraint_le_zero, constraint_ordered]
      (box1 (Dbl.ofInt 1) (Dbl.ofInt 2)) 0 1 (by decide)
      (fun i hi => absurd hi (Nat.not_lt_zero i)) (by decide)).2.2.1⟩

end Prover

end ivarp

namespace ivarp

namespace Prover

variable {V : Type}

/-! ## Frames: heights, ids and the order of work -/

/-- The frames pushed by the calls of `split_callback`. -/
theorem push_children_frames (element : StackElement V) (ds : List V) (s : ProofState V)
    (hc : s.m_id_counter < 2 ^ 64) :
    ∃ fs : List (StackElement V),
      (push_children element ds s).m_stack = fs.reverse ++ s.m_stack ∧
      (push_children element ds s).pushed = s.pushed ++ fs ∧
      (push_children element ds s).m_id_counter = (s.m_id_counter + ds.length) % 2 ^ 64 ∧
      fs.length = ds.length ∧
      ∀ (i : Nat) (f : StackElement V), fs[i]? = some f →
        ∃ d, ds[i]? = some d ∧
          f = StackElement.child d element ((s.m_id_counter + 1 + i) % 2 ^ 64) := by
  induction ds generalizing s with
  | nil =>
    refine ⟨[], by simp [push_children], by simp [push_children], ?_, rfl, ?_⟩
    · simp only [push_children, List.length_nil, Nat.add_zero]
      exact (Nat.mod_eq_of_lt hc).symm
    · intro i f h; simp at h
  | cons d ds ih =>
    simp only [push_children]
    obtain ⟨fs, h1, h2, h3, h4, h5⟩ := ih
      { s with m_id_counter := (s.m_id_counter + 1) % 2 ^ 64,
               m_stack := StackElement.child d element ((s.m_id_counter + 1) % 2 ^ 64)
                 :: s.m_stack,
               pushed := s.pushed
                 ++ [StackElement.child d element ((s.m_id_counter + 1) % 2 ^ 64)] }
      (Nat.mod_lt _ (by decide))
    refine ⟨StackElement.child d element ((s.m_id_counter + 1) % 2 ^ 64) :: fs, ?_, ?_, ?_, ?_, ?_⟩
    · rw [h1]; simp
    · rw [h2]; simp
    · rw [h3]
      simp only [List.length_cons]
      omega
    · simp [h4]
    · intro i f hf
      cases i with
      | zero =>
        simp only [List.getElem?_cons_zero, Option.some.injEq] at hf
        exact ⟨d, by simp, by rw [← hf]⟩
      | succ i =>
        simp only [List.getElem?_cons_succ] at hf
        obtain ⟨d1, hd1, hf1⟩ := h5 i f hf
        refine ⟨d1, by simpa using hd1, ?_⟩
        rw [hf1]
        congr 1
        simp only
        omega

/-- The frames pushed by `setup_proof`. -/
theorem push_roots_frames (vs : List V) (s : ProofState V) (hc : s.m_id_counter < 2 ^ 64) :
    ∃ fs : List (StackElement V),
      (push_roots vs s).m_stack = fs.reverse ++ s.m_stack ∧
      (push_roots vs s).pushed = s.pushed ++ fs ∧
      (push_roots vs s).m_id_counter = (s.m_id_counter + vs.length) % 2 ^ 64 ∧
      fs.length = vs.length ∧
      ∀ (i : Nat) (f : StackElement V), fs[i]? = some f →
        ∃ d, vs[i]? = some d ∧
          f = StackElement.root d ((s.m_id_counter + 1 + i) % 2 ^ 64) := by
  induction vs generalizing s with
  | nil =>
    refine ⟨[], by simp [push_roots], by simp [push_roots], ?_, rfl, ?_⟩
    · simp only [push_roots, List.length_nil, Nat.add_zero]
      exact (Nat.mod_eq_of_lt hc).symm
    · intro i f h; simp at h
  | cons d ds ih =>
    simp only [push_roots]
    obtain ⟨fs, h1, h2, h3, h4, h5⟩ := ih
      { s with m_id_counter := (s.m_id_counter + 1) % 2 ^ 64,
               m_stack := StackElement.root d ((s.m_id_counter + 1) % 2 ^ 64) :: s.m_stack,
               pushed := s.pushed ++ [StackElement.root d ((s.m_id_counter + 1) % 2 ^ 64)] }
      (Nat.mod_lt _ (by decide))
    refine ⟨StackElement.root d ((s.m_id_counter + 1) % 2 ^ 64) :: fs, ?_, ?_, ?_, ?_, ?_⟩
    · rw [h1]; simp
    · rw [h2]; simp
    · rw [h3]
      simp only [List.length_cons]
      omega
    · simp [h4]
    · intro i f hf
      cases i with
      | zero =>
        simp only [List.getElem?_cons_zero, Option.some.injEq] at hf
        exact ⟨d, by simp, by rw [← hf]⟩
      | succ i =>
        simp only [List.getElem?_cons_succ] at hf
        obtain ⟨d1, hd1, hf1⟩ := h5 i f hf
        refine ⟨d1, by simpa using hd1, ?_⟩
        rw [hf1]
        congr 1
        simp only
        omega

/-- The state built by `setup_proof` is well numbered. -/
theorem framesOk_setup (p : Prover V) (hc : p.m_id_counter < 2 ^ 64) :
    FramesOk p p.setup_proof ∧ p.setup_proof.pushed.length = p.m_basic.length ∧
    p.setup_proof.m_stack = p.setup_proof.pushed.reverse := by
  obtain ⟨fs, h1, h2, h3, h4, h5⟩ := push_roots_frames p.m_basic
    (⟨[], p.m_id_counter, true, [], [], []⟩ : ProofState V) hc
  have e1 : p.setup_proof.m_stack = fs.reverse := by
    unfold setup_proof; rw [h1]; simp
  have e2 : p.setup_proof.pushed = fs := by
    unfold setup_proof; rw [h2]; simp
  have e3 : p.setup_proof.m_id_counter = (p.m_id_counter + p.m_basic.length) % 2 ^ 64 := by
    unfold setup_proof; rw [h3]
  refine ⟨⟨?_, ?_, ?_, ?_, ?_, ?_⟩, by rw [e2, h4], by rw [e1, e2]⟩
  · rw [e3, e2, h4]
  · intro i e he
    rw [e2] at he
    obtain ⟨d, _, hf⟩ := h5 i e he
    rw [hf]
    rfl
  · rw [e2, h4]
  · intro i e he _
    rw [e2] at he
    obtain ⟨d, hd, hf⟩ := h5 i e he
    rw [hf]
    exact ⟨rfl, rfl, hd⟩
  · intro i e he hi
    rw [e2] at he
    have : i < fs.length := by
      by_contra hcon
      rw [List.getElem?_eq_none (by omega)] at he
      cases he
    omega
  · rw [e1, e2]

/-- A state that differs from a well-numbered one only in the work stack, the
result, the reports and the leaves is well numbered when its stack is a sublist
of the old one. -/
theorem framesOk_of_fields (p : Prover V) (s s1 : ProofState V) (h : FramesOk p s)
    (h1 : s1.pushed = s.pushed) (h2 : s1.m_id_counter = s.m_id_counter)
    (h3 : List.Sublist s1.m_stack s.m_stack) : FramesOk p s1 := by
  obtain ⟨a1, a2, a3, a4, a5, a6⟩ := h
  refine ⟨?_, ?_, ?_, ?_, ?_, ?_⟩
  · rw [h2, h1]; exact a1
  · rw [h1]; exact a2
  · rw [h1]; exact a3
  · rw [h1]; exact a4
  · rw [h1]; exact a5
  · rw [h1]; exact h3.trans a6

/-- Pushing the children of a frame of a well-numbered state keeps it well
numbered, when the parent is on record and below the last height. -/
theorem framesOk_push_children (p : Prover V) (s : ProofState V) (h : FramesOk p s)
    (element : StackElement V) (ds : List V) (j : Nat) (parent : StackElement V)
    (hj : s.pushed[j]? = some parent) (hh : element.height = parent.height)
    (hi : element.id = parent.id) (hlt : element.height + 1 < 2 ^ 64) :
    FramesOk p (push_children element ds s) := by
  obtain ⟨a1, a2, a3, a4, a5, a6⟩ := h
  have hc : s.m_id_counter < 2 ^ 64 := by rw [a1]; exact Nat.mod_lt _ (by decide)
  obtain ⟨fs, h1, h2, h3, h4, h5⟩ := push_children_frames element ds s hc
  have hjl : j < s.pushed.length := by
    by_contra hcon
    rw [List.getElem?_eq_none (by omega)] at hj
    cases hj
  refine ⟨?_, ?_, ?_, ?_, ?_, ?_⟩
  · rw [h3, h2, a1, List.length_append, h4]
    omega
  · intro i e he
    rw [h2] at he
    by_cases hil : i < s.pushed.length
    · rw [List.getElem?_append_left hil] at he
      exact a2 i e he
    · rw [List.getElem?_append_right (by omega)] at he
      obtain ⟨d, _, hf⟩ := h5 _ e he
      rw [hf, a1]
      simp only [StackElement.child]
      omega
  · rw [h2, List.length_append]; omega
  · intro i e he hib
    rw [h2] at he
    rw [List.getElem?_append_left (by omega)] at he
    exact a4 i e he hib
  · intro i e he hib
    rw [h2] at he
    by_cases hil : i < s.pushed.length
    · rw [List.getElem?_append_left hil] at he
      obtain ⟨j1, par, hj1, hp1, hp2, hp3⟩ := a5 i e he hib
      refine ⟨j1, par, hj1, ?_, hp2, hp3⟩
      rw [h2, List.getElem?_append_left (by omega)]
      exact hp1
    · rw [List.getElem?_append_right (by omega)] at he
      obtain ⟨d, _, hf⟩ := h5 _ e he
      refine ⟨j, parent, by omega, ?_, ?_, ?_⟩
      · rw [h2, List.getElem?_append_left hjl]
        exact hj
      · rw [hf]
        simp only [StackElement.child]
        rw [Nat.mod_eq_of_lt hlt, hh]
      · rw [hf]
        simp only [StackElement.child]
        exact hi
  · rw [h1, h2, List.reverse_append]
    exact List.Sublist.append (List.Sublist.refl _) a6

/-- The frame on top of the stack of a well-numbered state is on record. -/
theorem framesOk_top (p : Prover V) (s : ProofState V) (h : FramesOk p s)
    (element : StackElement V) (rest : List (StackElement V)) (hst : s.m_stack = element :: rest) :
    ∃ j : Nat, s.pushed[j]? = some element := by
  have hm : element ∈ s.pushed.reverse :=
    h.2.2.2.2.2.subset (by rw [hst]; exact List.mem_cons_self _ _)
  rw [List.mem_reverse] at hm
  obtain ⟨j, hj, hje⟩ := List.getElem_of_mem hm
  exact ⟨j, by rw [List.getElem?_eq_getElem hj, hje]⟩

/-- One iteration of `prove` keeps the state well numbered. -/
theorem iteration_framesOk (p : Prover V) (hH : p.m_abort_height < 2 ^ 64) (fuel : Nat)
    (s s1 : ProofState V) (element : StackElement V) (rest : List (StackElement V))
    (h : FramesOk p s) (hb : HeightsBounded p s) (hst : s.m_stack = element :: rest)
    (hit : p.iteration fuel element { s with m_stack := rest } = some s1) : FramesOk p s1 := by
  have h0 : FramesOk p { s with m_stack := rest } :=
    framesOk_of_fields p s _ h rfl rfl (by rw [hst]; exact List.sublist_cons_self _ _)
  cases hrun : run_propagators p.m_propagators fuel element.domain with
  | none =>
    unfold iteration at hit
    rw [hrun] at hit
    cases hit
  | some r =>
    obtain ⟨empty, domain⟩ := r
    rw [iteration_of_run p fuel element _ empty domain hrun] at hit
    cases empty with
    | true =>
      simp only [if_true, Option.some.injEq] at hit
      subst hit
      exact framesOk_of_fields p _ _ h0 rfl rfl (List.Sublist.refl _)
    | false =>
      simp only [Bool.false_eq_true, if_false, Option.some.injEq] at hit
      cases hc : p.check_element domain with
      | none =>
        rw [hc] at hit
        subst hit
        exact framesOk_of_fields p _ _ h0 rfl rfl (List.Sublist.refl _)
      | some b =>
        rw [hc] at hit
        have hrep : ∀ flag, FramesOk p (p.report { s with m_stack := rest } domain flag) := by
          intro flag
          obtain ⟨r1, r2, r3⟩ := report_fields p { s with m_stack := rest } domain flag
          refine framesOk_of_fields p _ _ h0 r1 r2 ?_
          rcases r3 with r3 | r3
          · rw [r3]
          · rw [r3]; exact List.nil_sublist _
        cases b with
        | true =>
          dsimp only at hit
          subst hit
          exact hrep true
        | false =>
          dsimp only at hit
          split at hit
          · subst hit
            exact hrep false
          · rename_i hne
            subst hit
            obtain ⟨j, hj⟩ := framesOk_top p s h element rest hst
            have hle : element.height ≤ p.m_abort_height :=
              hb.1 element (by rw [hst]; exact List.mem_cons_self _ _)
            have hlt : element.height + 1 < 2 ^ 64 := by omega
            exact framesOk_push_children p _ h0 _ _ j element hj rfl rfl hlt

/-- Induction over the first iterations of `prove`. -/
theorem run_iterations_induct (p : Prover V) (fuel : Nat) (P : ProofState V → Prop)
    (hstep : ∀ (s : ProofState V) (element : StackElement V) (rest : List (StackElement V))
      (s1 : ProofState V), P s → s.m_stack = element :: rest →
      p.iteration fuel element { s with m_stack := rest } = some s1 → P s1) :
    ∀ (k : Nat) (s out : ProofState V), P s → run_iterations p fuel k s = some out → P out := by
  intro k
  induction k with
  | zero =>
    intro s out hs h
    unfold run_iterations at h
    cases h
    exact hs
  | succ k ih =>
    intro s out hs h
    cases hst : s.m_stack with
    | nil =>
      rw [run_iterations_nil p fuel _ s hst] at h
      cases h
      exact hs
    | cons element rest =>
      rw [run_iterations_succ_cons p fuel k s element rest hst] at h
      cases hit : p.iteration fuel element { s with m_stack := rest } with
      | none => rw [hit] at h; cases h
      | some s1 =>
        rw [hit] at h
        exact ih s1 out (hstep s element rest s1 hs hst hit) h

/-- Every state of a run of `prove` is well numbered and has bounded heights. -/
theorem run_iterations_framesOk (p : Prover V) (hH : p.m_abort_height < 2 ^ 64)
    (hc : p.m_id_counter < 2 ^ 64) (fuel k : Nat) (s : ProofState V)
    (hrun : run_iterations p fuel k p.setup_proof = some s) :
    FramesOk p s ∧ HeightsBounded p s := by
  have hinit : HeightsBounded p p.setup_proof := by
    unfold setup_proof
    apply push_roots_forall (fun e => e.height ≤ p.m_abort_height)
    · intro d id
      exact Nat.zero_le _
    · intro e he; cases he
    · intro e he; cases he
  refine run_iterations_induct p fuel (fun s => FramesOk p s ∧ HeightsBounded p s) ?_ k _ s
    ⟨(framesOk_setup p hc).1, hinit⟩ hrun
  intro s0 element rest s1 hs hst hit
  refine ⟨iteration_framesOk p hH fuel s0 s1 element rest hs.1 hs.2 hst hit, ?_⟩
  exact iteration_heightsBounded p hH _ element { s0 with m_stack := rest } s1
    (hs.2.1 element (by rw [hst]; exact List.mem_cons_self _ _))
    ⟨fun e he => hs.2.1 e (by rw [hst]; exact List.mem_cons_of_mem _ he), hs.2.2⟩ hit

end Prover

end ivarp

namespace ivarp

namespace Prover

variable {V : Type}

theorem getElem?_lt_length {α : Type} (l : List α) (i : Nat) (e : α) (h : l[i]? = some e) :
    i < l.length := by
  by_contra hcon
  rw [List.getElem?_eq_none (by omega)] at h
  cases h

/-- C35: in every state of a run of `prove` (after any number of iterations from
`setup_proof`), as long as the 64-bit id counter has not wrapped around: the
frames created first are the roots, of height 0; every other frame was pushed
by a split and has the height of its parent plus one and the id of its parent
as `parent_id`, the parent being created before it; the frame created at
position `i` has the id `m_id_counter + 1 + i`, so the ids are strictly
increasing in the order of creation; the work stack holds frames in reverse
order of creation with the largest id on top, an iteration takes the frame on
top, and after a split the frame on top is the child pushed last. -/
theorem frames_spec (p : Prover V) (fuel k : Nat) (s : ProofState V)
    (hH : p.m_abort_height < 2 ^ 64)
    (hrun : run_iterations p fuel k p.setup_proof = some s)
    (hid : p.m_id_counter + s.pushed.length < 2 ^ 64) :
    (p.m_basic.length ≤ s.pushed.length ∧
      ∀ (i : Nat) (e : StackElement V), s.pushed[i]? = some e → i < p.m_basic.length →
        e.height = 0 ∧ p.m_basic[i]? = some e.domain) ∧
    (∀ (i : Nat) (e : StackElement V), s.pushed[i]? = some e → p.m_basic.length ≤ i →
      ∃ (j : Nat) (parent : StackElement V), j < i ∧ s.pushed[j]? = some parent ∧
        e.height = parent.height + 1 ∧ e.parent_id = parent.id ∧ parent.id < e.id) ∧
    (∀ (i : Nat) (e : StackElement V), s.pushed[i]? = some e → e.id = p.m_id_counter + 1 + i) ∧
    List.Pairwise (fun a b => a.id < b.id) s.pushed ∧
    List.Sublist s.m_stack s.pushed.reverse ∧
    List.Pairwise (fun a b => b.id < a.id) s.m_stack ∧
    (∀ (element : StackElement V) (rest : List (StackElement V)), s.m_stack = element :: rest →
      run_iterations p fuel 1 s = p.iteration fuel element { s with m_stack := rest }) ∧
    (∀ (element : StackElement V) (ds : List V) (s0 : ProofState V),
      s0.m_id_counter < 2 ^ 64 → ds ≠ [] →
      ∃ top : StackElement V, (push_children element ds s0).m_stack.head? = some top ∧
        (push_children element ds s0).pushed.getLast? = some top ∧
        ds.getLast? = some top.domain ∧ top.height = (element.height + 1) % 2 ^ 64 ∧
        top.parent_id = element.id) := by
  have hc : p.m_id_counter < 2 ^ 64 := by omega
  obtain ⟨⟨a1, a2, a3, a4, a5, a6⟩, _⟩ := run_iterations_framesOk p hH hc fuel k s hrun
  have hids : ∀ (i : Nat) (e : StackElement V), s.pushed[i]? = some e →
      e.id = p.m_id_counter + 1 + i := by
    intro i e he
    have hi := getElem?_lt_length _ i e he
    rw [a2 i e he]
    exact Nat.mod_eq_of_lt (by omega)
  have hpw : List.Pairwise (fun a b => a.id < b.id) s.pushed := by
    rw [List.pairwise_iff_getElem]
    intro i j hi hj hij
    rw [hids i _ (List.getElem?_eq_getElem hi), hids j _ (List.getElem?_eq_getElem hj)]
    omega
  refine ⟨⟨a3, fun i e he hi => ⟨(a4 i e he hi).1, (a4 i e he hi).2.2⟩⟩, ?_, hids, hpw, a6, ?_,
    ?_, ?_⟩
  · intro i e he hi
    obtain ⟨j, parent, hj, hp1, hp2, hp3⟩ := a5 i e he hi
    refine ⟨j, parent, hj, hp1, hp2, hp3, ?_⟩
    rw [hids i e he, hids j parent hp1]
    omega
  · exact List.Pairwise.sublist a6 (List.pairwise_reverse.mpr hpw)
  · intro element rest hst
    rw [run_iterations_succ_cons p fuel 0 s element rest hst]
    cases p.iteration fuel element { s with m_stack := rest } <;> rfl
  · intro element ds s0 hs0 hds
    obtain ⟨fs, h1, h2, _, h4, h5⟩ := push_children_frames element ds s0 hs0
    have hfs : fs ≠ [] := by
      intro h
      rw [h] at h4
      exact hds (List.length_eq_zero.mp h4.symm)
    have hlen : fs.length - 1 < fs.length := by
      have := List.length_pos.mpr hfs
      omega
    obtain ⟨d, hd, hf⟩ := h5 (fs.length - 1) (fs.getLast hfs) (by
      rw [List.getElem?_eq_getElem hlen, List.getLast_eq_getElem])
    refine ⟨fs.getLast hfs, ?_, ?_, ?_, ?_, ?_⟩
    · rw [h1, List.head?_append_of_ne_nil _ (by simpa using hfs), List.head?_reverse,
        List.getLast?_eq_getLast _ hfs]
    · rw [h2, List.getLast?_append_of_ne_nil _ hfs, List.getLast?_eq_getLast _ hfs]
    · rw [List.getLast?_eq_getElem?, ← h4, hd, hf]
      rfl
    · rw [hf]; rfl
    · rw [hf]; rfl

/-- Witness of C35: the prover for `x > 0` on `[-1, 1]` after two iterations
(the root and its second child have been split); five frames have been created. -/
theorem frames_spec_witness :
    (prover_gt 0).m_abort_height < 2 ^ 64 ∧
    ∃ s : ProofState Box1,
      run_iterations (prover_gt 0) 1 2 (prover_gt 0).setup_proof = some s ∧
      (prover_gt 0).m_id_counter + s.pushed.length < 2 ^ 64 ∧
      s.pushed.length = 5 ∧
      List.Pairwise (fun a b => a.id < b.id) s.pushed ∧
      List.Sublist s.m_stack s.pushed.reverse ∧
      List.Pairwise (fun a b => b.id < a.id) s.m_stack := by
  obtain ⟨s, hs⟩ := Option.isSome_iff_exists.mp
    (show (run_iterations (prover_gt 0) 1 2 (prover_gt 0).setup_proof).isSome = true by decide)
  have hlen : (run_iterations (prover_gt 0) 1 2 (prover_gt 0).setup_proof).map
      (fun s => s.pushed.length) = some 5 := by decide
  rw [hs] at hlen
  simp only [Option.map_some', Option.some.injEq] at hlen
  have h0 : (prover_gt 0).m_id_counter = 0 := rfl
  have hid : (prover_gt 0).m_id_counter + s.pushed.length < 2 ^ 64 := by
    rw [h0, hlen]; decide
  have h := frames_spec (prover_gt 0) 1 2 s (by decide) hs hid
  exact ⟨by decide, s, hs, hid, hlen, h.2.2.2.1, h.2.2.2.2.1, h.2.2.2.2.2.1⟩

end Prover

end ivarp

namespace ivarp

namespace VariableSetProofRestweightPartialR1Negative

open BasicVariableSet

/-! ## The coupling of `r1` and `r2` -/

theorem nested_r2 (n : Nat) (v : Box) :
    p_call_handler (change_handlers n) 2 false true v = v := by
  cases n <;> rfl

theorem nested_r1 (n : Nat) (v : Box) :
    p_call_handler (change_handlers n) 1 true false v = v := by
  cases n <;> rfl

theorem box_eq (v : Box) (h : v.num_vars = 3) :
    ∃ a r1 r2 : IDouble, v = ⟨[a, r1, r2], ()⟩ := by
  obtain ⟨vals, u⟩ := v
  simp only [num_vars] at h
  match vals, h with
  | [a, r1, r2], _ => exact ⟨a, r1, r2, rfl⟩

theorem le_of_not_gt {a b : Dbl} (ha : a.isNaN = false) (hb : b.isNaN = false)
    (h : ¬ Dbl.gt a b = true) : Dbl.le a b = true := by
  rw [← Dbl.not_lt_eq_le ha hb]
  simpa [Dbl.gt] using h

/-- The handler of `r1` after its upper bound changed. -/
theorem handler_r1_ub (n : Nat) (a r1 r2 : IDouble) (lbc : Bool) (h1 : r1.ub.isNaN = false)
    (h2 : r2.ub.isNaN = false) :
    ∃ r2n : IDouble,
      p_call_handler (change_handlers (n + 1)) 1 lbc true (⟨[a, r1, r2], ()⟩ : Box)
        = ⟨[a, r1, r2n], ()⟩ ∧ r2n.lb = r2.lb ∧ Dbl.le r2n.ub r1.ub = true ∧
        (r2n.ub = r2.ub ∨ r2n.ub = r1.ub) := by
  by_cases hg : Dbl.gt r2.ub r1.ub = true
  · refine ⟨{ r2 with ub := r1.ub }, ?_, rfl, Dbl.cmp_le_refl h1, Or.inr rfl⟩
    simp [p_call_handler, change_handlers, on_r1_changed, restrict_ub, get_value, hg]
    cases n <;> rfl
  · refine ⟨r2, ?_, rfl, le_of_not_gt h2 h1 hg, Or.inl rfl⟩
    simp [p_call_handler, change_handlers, on_r1_changed, restrict_ub, get_value, hg]

/-- The handler of `r2` after its lower bound changed. -/
theorem handler_r2_lb (n : Nat) (a r1 r2 : IDouble) (ubc : Bool) (h1 : r1.lb.isNaN = false)
    (h2 : r2.lb.isNaN = false) :
    ∃ r1n : IDouble,
      p_call_handler (change_handlers (n + 1)) 2 true ubc (⟨[a, r1, r2], ()⟩ : Box)
        = ⟨[a, r1n, r2], ()⟩ ∧ r1n.ub = r1.ub ∧ Dbl.le r2.lb r1n.lb = true ∧
        (r1n.lb = r1.lb ∨ r1n.lb = r2.lb) := by
  by_cases hg : Dbl.lt r1.lb r2.lb = true
  · refine ⟨{ r1 with lb := r2.lb }, ?_, rfl, Dbl.cmp_le_refl h2, Or.inr rfl⟩
    simp [p_call_handler, change_handlers, on_r2_changed, restrict_lb, get_value, hg]
    cases n <;> rfl
  · refine ⟨r1, ?_, rfl, ?_, Or.inl rfl⟩
    · simp [p_call_handler, change_handlers, on_r2_changed, restrict_lb, get_value, hg]
    · rw [← Dbl.not_lt_eq_le h2 h1]
      simpa using hg

theorem handler_alpha (n : Nat) (lbc ubc : Bool) (v : Box) :
    p_call_handler (change_handlers (n + 1)) 0 lbc ubc v = v := rfl

/-- The handler of `r1` for any flags. -/
theorem handler_r1 (n : Nat) (a r1 r2 : IDouble) (lbc ubc : Bool) (h1 : r1.ub.isNaN = false)
    (h2 : r2.ub.isNaN = false) :
    ∃ r2n : IDouble,
      p_call_handler (change_handlers (n + 1)) 1 lbc ubc (⟨[a, r1, r2], ()⟩ : Box)
        = ⟨[a, r1, r2n], ()⟩ ∧ r2n.lb = r2.lb ∧ (ubc = true → Dbl.le r2n.ub r1.ub = true) ∧
        (ubc = false → r2n = r2) := by
  cases ubc with
  | false => exact ⟨r2, rfl, rfl, (fun h => by cases h), fun _ => rfl⟩
  | true =>
    obtain ⟨r2n, e1, e2, e3, _⟩ := handler_r1_ub n a r1 r2 lbc h1 h2
    exact ⟨r2n, e1, e2, fun _ => e3, fun h => by cases h⟩

/-- The handler of `r2` for any flags. -/
theorem handler_r2 (n : Nat) (a r1 r2 : IDouble) (lbc ubc : Bool) (h1 : r1.lb.isNaN = false)
    (h2 : r2.lb.isNaN = false) :
    ∃ r1n : IDouble,
      p_call_handler (change_handlers (n + 1)) 2 lbc ubc (⟨[a, r1, r2], ()⟩ : Box)
        = ⟨[a, r1n, r2], ()⟩ ∧ r1n.ub = r1.ub ∧ (lbc = true → Dbl.le r2.lb r1n.lb = true) ∧
        (lbc = false → r1n = r1) := by
  cases lbc with
  | false => exact ⟨r1, rfl, rfl, (fun h => by cases h), fun _ => rfl⟩
  | true =>
    obtain ⟨r1n, e1, e2, e3, _⟩ := handler_r2_lb n a r1 r2 ubc h1 h2
    exact ⟨r1n, e1, e2, fun _ => e3, fun h => by cases h⟩

/-- The coupling, on a box given by its three intervals. -/
theorem coupled_iff (a r1 r2 : IDouble) :
    Coupled (⟨[a, r1, r2], ()⟩ : Box) ↔
      Dbl.le r2.ub r1.ub = true ∧ Dbl.le r2.lb r1.lb = true := Iff.rfl

/-- A write to `r1` followed by its handler keeps the coupling when the new lower
bound is not below the old one and the flag `ub_changed` is set whenever the
upper bound was written. -/
theorem write_r1 (n : Nat) (a r1 r2 r1w : IDouble) (lbc ubc : Bool)
    (hc : Coupled (⟨[a, r1, r2], ()⟩ : Box))
    (hlb : Dbl.le r1.lb r1w.lb = true) (hnan : r1w.ub.isNaN = false)
    (hub : ubc = false → Dbl.le r2.ub r1w.ub = true) :
    ∃ r2n : IDouble,
      p_call_handler (change_handlers (n + 1)) 1 lbc ubc (⟨[a, r1w, r2], ()⟩ : Box)
        = ⟨[a, r1w, r2n], ()⟩ ∧ Coupled (⟨[a, r1w, r2n], ()⟩ : Box) := by
  obtain ⟨c1, c2⟩ := (coupled_iff a r1 r2).mp hc
  obtain ⟨r2n, e1, e2, e3, e4⟩ := handler_r1 n a r1w r2 lbc ubc hnan (Dbl.isNaN_of_le_left c1)
  refine ⟨r2n, e1, (coupled_iff _ _ _).mpr ⟨?_, ?_⟩⟩
  · cases ubc with
    | true => exact e3 rfl
    | false => rw [e4 rfl]; exact hub rfl
  · rw [e2]; exact Dbl.cmp_le_le c2 hlb

/-- A write to `r2` followed by its handler keeps the coupling when the new upper
bound is not above the old one and the flag `lb_changed` is set whenever the
lower bound was written. -/
theorem write_r2 (n : Nat) (a r1 r2 r2w : IDouble) (lbc ubc : Bool)
    (hc : Coupled (⟨[a, r1, r2], ()⟩ : Box))
    (hub : Dbl.le r2w.ub r2.ub = true) (hnan : r2w.lb.isNaN = false)
    (hlb : lbc = false → Dbl.le r2w.lb r1.lb = true) :
    ∃ r1n : IDouble,
      p_call_handler (change_handlers (n + 1)) 2 lbc ubc (⟨[a, r1, r2w], ()⟩ : Box)
        = ⟨[a, r1n, r2w], ()⟩ ∧ Coupled (⟨[a, r1n, r2w], ()⟩ : Box) := by
  obtain ⟨c1, c2⟩ := (coupled_iff a r1 r2).mp hc
  obtain ⟨r1n, e1, e2, e3, e4⟩ := handler_r2 n a r1 r2w lbc ubc (Dbl.isNaN_of_le_right c2) hnan
  refine ⟨r1n, e1, (coupled_iff _ _ _).mpr ⟨?_, ?_⟩⟩
  · rw [e2]; exact Dbl.cmp_le_le hub c1
  · cases lbc with
    | true => exact e3 rfl
    | false => rw [e4 rfl]; exact hlb rfl

theorem isNaN_of_lt_right {a b : Dbl} (h : Dbl.lt a b = true) : b.isNaN = false :=
  Dbl.isNaN_of_le_right (Dbl.cmp_le_of_lt h)

theorem isNaN_of_lt_left {a b : Dbl} (h : Dbl.lt a b = true) : a.isNaN = false :=
  Dbl.isNaN_of_le_left (Dbl.cmp_le_of_lt h)

/-- A box with three variables that satisfies the coupling. -/
theorem good_of_write_r1 (n : Nat) (a r1 r2 r1w : IDouble) (lbc ubc : Bool)
    (hc : Coupled (⟨[a, r1, r2], ()⟩ : Box))
    (hlb : Dbl.le r1.lb r1w.lb = true) (hnan : r1w.ub.isNaN = false)
    (hub : ubc = false → Dbl.le r2.ub r1w.ub = true) :
    (p_call_handler (change_handlers (n + 1)) 1 lbc ubc (⟨[a, r1w, r2], ()⟩ : Box)).num_vars = 3 ∧
    Coupled (p_call_handler (change_handlers (n + 1)) 1 lbc ubc (⟨[a, r1w, r2], ()⟩ : Box)) := by
  obtain ⟨r2n, e1, e2⟩ := write_r1 n a r1 r2 r1w lbc ubc hc hlb hnan hub
  rw [e1]
  exact ⟨rfl, e2⟩

theorem good_of_write_r2 (n : Nat) (a r1 r2 r2w : IDouble) (lbc ubc : Bool)
    (hc : Coupled (⟨[a, r1, r2], ()⟩ : Box))
    (hub : Dbl.le r2w.ub r2.ub = true) (hnan : r2w.lb.isNaN = false)
    (hlb : lbc = false → Dbl.le r2w.lb r1.lb = true) :
    (p_call_handler (change_handlers (n + 1)) 2 lbc ubc (⟨[a, r1, r2w], ()⟩ : Box)).num_vars = 3 ∧
    Coupled (p_call_handler (change_handlers (n + 1)) 2 lbc ubc (⟨[a, r1, r2w], ()⟩ : Box)) := by
  obtain ⟨r1n, e1, e2⟩ := write_r2 n a r1 r2 r2w lbc ubc hc hub hnan hlb
  rw [e1]
  exact ⟨rfl, e2⟩

/-- The member `restrict_lb` keeps the coupling. -/
theorem restrict_lb_coupled (n : Nat) (a r1 r2 : IDouble) (index : Fin 3) (b : Dbl)
    (hc : Coupled (⟨[a, r1, r2], ()⟩ : Box)) :
    (restrict_lb (change_handlers (n + 1)) index.val b (⟨[a, r1, r2], ()⟩ : Box)).2.num_vars = 3 ∧
    Coupled (restrict_lb (change_handlers (n + 1)) index.val b (⟨[a, r1, r2], ()⟩ : Box)).2 := by
  obtain ⟨c1, c2⟩ := (coupled_iff a r1 r2).mp hc
  fin_cases index
  · simp only [restrict_lb, get_value, List.getD_cons_zero, List.set_cons_zero]
    split
    · exact ⟨rfl, hc⟩
    · exact ⟨rfl, hc⟩
  · simp only [restrict_lb, get_value, List.getD_cons_succ, List.getD_cons_zero,
      List.set_cons_succ, List.set_cons_zero]
    split
    · rename_i h
      exact good_of_write_r1 n a r1 r2 _ true false hc (Dbl.cmp_le_of_lt h)
        (Dbl.isNaN_of_le_right c1) (fun _ => c1)
    · exact ⟨rfl, hc⟩
  · simp only [restrict_lb, get_value, List.getD_cons_succ, List.getD_cons_zero,
      List.set_cons_succ, List.set_cons_zero]
    split
    · rename_i h
      exact good_of_write_r2 n a r1 r2 _ true false hc
        (Dbl.cmp_le_refl (Dbl.isNaN_of_le_left c1)) (isNaN_of_lt_right h)
        (fun h => by cases h)
    · exact ⟨rfl, hc⟩

/-- The member `restrict_ub` keeps the coupling. -/
theorem restrict_ub_coupled (n : Nat) (a r1 r2 : IDouble) (index : Fin 3) (b : Dbl)
    (hc : Coupled (⟨[a, r1, r2], ()⟩ : Box)) :
    (restrict_ub (change_handlers (n + 1)) index.val b (⟨[a, r1, r2], ()⟩ : Box)).2.num_vars = 3 ∧
    Coupled (restrict_ub (change_handlers (n + 1)) index.val b (⟨[a, r1, r2], ()⟩ : Box)).2 := by
  obtain ⟨c1, c2⟩ := (coupled_iff a r1 r2).mp hc
  fin_cases index
  · simp only [restrict_ub, get_value, List.getD_cons_zero, List.set_cons_zero]
    split
    · exact ⟨rfl, hc⟩
    · exact ⟨rfl, hc⟩
  · simp only [restrict_ub, get_value, List.getD_cons_succ, List.getD_cons_zero,
      List.set_cons_succ, List.set_cons_zero]
    split
    · rename_i h
      exact good_of_write_r1 n a r1 r2 _ false true hc
        (Dbl.cmp_le_refl (Dbl.isNaN_of_le_right c2)) (isNaN_of_lt_left h)
        (fun h => by cases h)
    · exact ⟨rfl, hc⟩
  · simp only [restrict_ub, get_value, List.getD_cons_succ, List.getD_cons_zero,
      List.set_cons_succ, List.set_cons_zero]
    split
    · rename_i h
      exact good_of_write_r2 n a r1 r2 _ false true hc (Dbl.cmp_le_of_lt h)
        (Dbl.isNaN_of_le_left c2) (fun _ => c2)
    · exact ⟨rfl, hc⟩

/-- The member `restrict` keeps the coupling. -/
theorem restrict_coupled (n : Nat) (a r1 r2 : IDouble) (index : Fin 3) (bounds : IDouble)
    (hc : Coupled (⟨[a, r1, r2], ()⟩ : Box)) :
    (restrict (change_handlers (n + 1)) index.val bounds (⟨[a, r1, r2], ()⟩ : Box)).2.num_vars = 3 ∧
    Coupled (restrict (change_handlers (n + 1)) index.val bounds (⟨[a, r1, r2], ()⟩ : Box)).2 := by
  obtain ⟨c1, c2⟩ := (coupled_iff a r1 r2).mp hc
  fin_cases index
  · simp only [restrict, get_value, List.getD_cons_zero, List.set_cons_zero, handler_alpha,
      ite_self]
    exact ⟨rfl, hc⟩
  · simp only [restrict, get_value, List.getD_cons_succ, List.getD_cons_zero,
      List.set_cons_succ, List.set_cons_zero]
    by_cases hl : Dbl.lt r1.lb bounds.lb = true
    · by_cases hu : Dbl.gt r1.ub bounds.ub = true
      · simp only [hl, hu, if_true, Bool.or_self]
        exact good_of_write_r1 n a r1 r2 _ true true hc (Dbl.cmp_le_of_lt hl)
          (isNaN_of_lt_left hu) (fun h => by cases h)
      · simp only [hl, hu, if_true, if_false, Bool.or_false, Bool.false_eq_true]
        exact good_of_write_r1 n a r1 r2 _ true false hc (Dbl.cmp_le_of_lt hl)
          (Dbl.isNaN_of_le_right c1) (fun _ => c1)
    · by_cases hu : Dbl.gt r1.ub bounds.ub = true
      · simp only [hl, hu, if_true, if_false, Bool.false_or, Bool.false_eq_true]
        exact good_of_write_r1 n a r1 r2 _ false true hc
          (Dbl.cmp_le_refl (Dbl.isNaN_of_le_right c2)) (isNaN_of_lt_left hu)
          (fun h => by cases h)
      · simp only [hl, hu, if_false, Bool.or_self, Bool.false_eq_true]
        exact ⟨rfl, hc⟩
  · simp only [restrict, get_value, List.getD_cons_succ, List.getD_cons_zero,
      List.set_cons_succ, List.set_cons_zero]
    by_cases hl : Dbl.lt r2.lb bounds.lb = true
    · by_cases hu : Dbl.gt r2.ub bounds.ub = true
      · simp only [hl, hu, if_true, Bool.or_self]
        exact good_of_write_r2 n a r1 r2 _ true true hc (Dbl.cmp_le_of_lt hu)
          (isNaN_of_lt_right hl) (fun h => by cases h)
      · simp only [hl, hu, if_true, if_false, Bool.or_false, Bool.false_eq_true]
        exact good_of_write_r2 n a r1 r2 _ true false hc
          (Dbl.cmp_le_refl (Dbl.isNaN_of_le_left c1)) (isNaN_of_lt_right hl)
          (fun h => by cases h)
    · by_cases hu : Dbl.gt r2.ub bounds.ub = true
      · simp only [hl, hu, if_true, if_false, Bool.false_or, Bool.false_eq_true]
        exact good_of_write_r2 n a r1 r2 _ false true hc (Dbl.cmp_le_of_lt hu)
          (Dbl.isNaN_of_le_left c2) (fun _ => c2)
      · simp only [hl, hu, if_false, Bool.or_self, Bool.false_eq_true]
        exact ⟨rfl, hc⟩

/-- The member `split` keeps the coupling in both boxes it hands over, when the
midpoint of the split variable lies between its bounds. -/
theorem split_coupled (n : Nat) (a r1 r2 : IDouble) (depth : Nat) (child : Fin 2)
    (hc : Coupled (⟨[a, r1, r2], ()⟩ : Box))
    (hin : ((⟨[a, r1, r2], ()⟩ : Box).get_value (depth % 3)).CenterInside) :
    ((default_split (change_handlers (n + 1)) (⟨[a, r1, r2], ()⟩ : Box) depth).getD child.val
      (⟨[a, r1, r2], ()⟩ : Box)).num_vars = 3 ∧
    Coupled ((default_split (change_handlers (n + 1)) (⟨[a, r1, r2], ()⟩ : Box) depth).getD
      child.val (⟨[a, r1, r2], ()⟩ : Box)) := by
  obtain ⟨c1, c2⟩ := (coupled_iff a r1 r2).mp hc
  have hnum : (⟨[a, r1, r2], ()⟩ : Box).num_vars = 3 := rfl
  have hmod : depth % 3 = 0 ∨ depth % 3 = 1 ∨ depth % 3 = 2 := by omega
  rcases hmod with hm | hm | hm
  · simp only [default_split, hnum, hm, split_half, get_value, List.getD_cons_zero,
      List.set_cons_zero]
    fin_cases child
    · exact ⟨rfl, hc⟩
    · exact ⟨rfl, hc⟩
  · rw [hm] at hin
    simp only [get_value, List.getD_cons_succ, List.getD_cons_zero] at hin
    simp only [default_split, hnum, hm, split_half, get_value, List.getD_cons_succ,
      List.getD_cons_zero, List.set_cons_succ, List.set_cons_zero]
    fin_cases child
    · exact good_of_write_r1 n a r1 r2 _ false true hc
        (Dbl.cmp_le_refl (Dbl.isNaN_of_le_right c2)) (Dbl.isNaN_of_le_right hin.1)
        (fun h => by cases h)
    · exact good_of_write_r1 n a r1 r2 _ true false hc hin.1
        (Dbl.isNaN_of_le_right c1) (fun _ => c1)
  · rw [hm] at hin
    simp only [get_value, List.getD_cons_succ, List.getD_cons_zero] at hin
    simp only [default_split, hnum, hm, split_half, get_value, List.getD_cons_succ,
      List.getD_cons_zero, List.set_cons_succ, List.set_cons_zero]
    fin_cases child
    · exact good_of_write_r2 n a r1 r2 _ false true hc hin.2
        (Dbl.isNaN_of_le_left c2) (fun _ => c2)
    · exact good_of_write_r2 n a r1 r2 _ true false hc
        (Dbl.cmp_le_refl (Dbl.isNaN_of_le_left c1)) (Dbl.isNaN_of_le_left hin.2)
        (fun h => by cases h)

/-- Every table of depth at least one acts like the table of depth one: the
nested calls of the handlers have no effect. -/
theorem change_handlers_stable (n : Nat) (i : Nat) (lbc ubc : Bool) (v : Box) :
    p_call_handler (change_handlers (n + 1)) i lbc ubc v
      = p_call_handler (change_handlers 1) i lbc ubc v := by
  have hub : ∀ (b : Dbl) (w : Box), (restrict_ub (change_handlers n) 2 b w).2
      = (restrict_ub (change_handlers 0) 2 b w).2 := by
    intro b w
    simp only [restrict_ub]
    split
    · exact (nested_r2 n _).trans (nested_r2 0 _).symm
    · rfl
  have hlb : ∀ (b : Dbl) (w : Box), (restrict_lb (change_handlers n) 1 b w).2
      = (restrict_lb (change_handlers 0) 1 b w).2 := by
    intro b w
    simp only [restrict_lb]
    split
    · exact (nested_r1 n _).trans (nested_r1 0 _).symm
    · rfl
  match i with
  | 0 => rfl
  | 1 =>
    cases ubc with
    | false => rfl
    | true => exact hub _ v
  | 2 =>
    cases lbc with
    | false => rfl
    | true => exact hlb _ v
  | _ + 3 => rfl

theorem apply_stable (n : Nat) (op : Op) (v : Box) :
    op.apply (change_handlers (n + 1)) v = op.apply (change_handlers 1) v := by
  cases op <;>
    simp only [Op.apply, restrict_lb, restrict_ub, restrict, default_split,
      change_handlers_stable n]

theorem run_stable (n : Nat) (ops : List Op) (v : Box) :
    run (change_handlers (n + 1)) ops v = run (change_handlers 1) ops v := by
  induction ops generalizing v with
  | nil => rfl
  | cons op rest ih =>
    simp only [run, List.foldl_cons] at ih ⊢
    rw [apply_stable n op v]
    exact ih _

/-- The constructor leaves the initial values as they are. -/
theorem new_eq (n : Nat) : new (n + 1) = ⟨initial_values, ()⟩ := by
  have h1 : Dbl.gt Dbl.half Dbl.half = false := by decide
  have h2 : Dbl.lt (Dbl.fin (1080863910568919 * pow2 1023))
      (Dbl.fin (1080863910568919 * pow2 1023)) = false := by decide
  simp [new, construct, initial_values, List.range, List.range.loop, p_call_handler,
    change_handlers, on_alpha_changed, on_r1_changed, on_r2_changed, restrict_ub, restrict_lb,
    get_value, h1, h2]

theorem apply_coupled (n : Nat) (op : Op) (v : Box) (h3 : v.num_vars = 3) (hc : Coupled v)
    (hin : op.SplitInside v) :
    (op.apply (change_handlers (n + 1)) v).num_vars = 3 ∧
    Coupled (op.apply (change_handlers (n + 1)) v) := by
  obtain ⟨a, r1, r2, rfl⟩ := box_eq v h3
  cases op with
  | restrict_lb index b => exact restrict_lb_coupled n a r1 r2 index b hc
  | restrict_ub index b => exact restrict_ub_coupled n a r1 r2 index b hc
  | restrict index bounds => exact restrict_coupled n a r1 r2 index bounds hc
  | split depth child => exact split_coupled n a r1 r2 depth child hc hin

theorem run_coupled (n : Nat) (ops : List Op) (v : Box) (h3 : v.num_vars = 3) (hc : Coupled v)
    (hin : SplitsInside (change_handlers (n + 1)) ops v) :
    (run (change_handlers (n + 1)) ops v).num_vars = 3 ∧
    Coupled (run (change_handlers (n + 1)) ops v) := by
  induction ops generalizing v with
  | nil => exact ⟨h3, hc⟩
  | cons op rest ih =>
    obtain ⟨g1, g2⟩ := apply_coupled n op v h3 hc hin.1
    exact ih _ g1 g2 hin.2

theorem splitsInside_of_no_split (hs : List (OnChangeHandler Unit)) (ops : List Op)
    (h : ∀ op ∈ ops, ∀ (d : Nat) (c : Fin 2), op ≠ Op.split d c) (v : Box) :
    SplitsInside hs ops v := by
  induction ops generalizing v with
  | nil => trivial
  | cons op rest ih =>
    refine ⟨?_, ih (fun o ho => h o (List.mem_cons_of_mem _ ho)) _⟩
    cases op with
    | restrict_lb index b => trivial
    | restrict_ub index b => trivial
    | restrict index bounds => trivial
    | split depth child => exact absurd rfl (h _ (List.mem_cons_self _ _) depth child)

/-- C31 as the code has it: for the three-variable box `(alpha, r1, r2)` with the
handlers `on_r1_changed` and `on_r2_changed` (at every depth of nested handler
calls), `r2.ub ≤ r1.ub` and `r2.lb ≤ r1.lb` hold after construction and after
every sequence of `restrict_lb`, `restrict_ub`, `restrict` and `split`
operations in which each split is applied to a box where the midpoint of the
split variable lies between its bounds; this condition holds for every
sequence without a split, and for a split of an interval with finite bounds
`lb ≤ ub` whose sum is in the range of the doubles. -/
theorem coupling_maintained (n : Nat) (ops : List Op)
    (hin : SplitsInside (change_handlers (n + 1)) ops (new (n + 1))) :
    Coupled (new (n + 1)) ∧
    Coupled (run (change_handlers (n + 1)) ops (new (n + 1))) ∧
    (run (change_handlers (n + 1)) ops (new (n + 1))).num_vars = 3 ∧
    run (change_handlers (n + 1)) ops (new (n + 1)) = run (change_handlers 1) ops (new 1) ∧
    (∀ ops1 : List Op, (∀ op ∈ ops1, ∀ (d : Nat) (c : Fin 2), op ≠ Op.split d c) →
      Coupled (run (change_handlers (n + 1)) ops1 (new (n + 1)))) ∧
    (∀ (v : Box) (op : Op), v.num_vars = 3 → Coupled v →
      op.SplitInside v →
      Coupled (op.apply (change_handlers (n + 1)) v)) ∧
    (∀ l u : Int, Dbl.Representable l → Dbl.Representable u → l ≤ u →
      -Dbl.maxFinite ≤ l + u → l + u ≤ Dbl.maxFinite →
      (⟨Dbl.fin l, Dbl.fin u⟩ : IDouble).CenterInside) := by
  have h3 : (new (n + 1)).num_vars = 3 := by rw [new_eq]; rfl
  have hc : Coupled (new (n + 1)) := by rw [new_eq]; decide
  refine ⟨hc, (run_coupled n ops _ h3 hc hin).2, (run_coupled n ops _ h3 hc hin).1, ?_, ?_, ?_, ?_⟩
  · rw [run_stable, new_eq, new_eq]
  · intro ops1 h1
    exact (run_coupled n ops1 _ h3 hc (splitsInside_of_no_split _ ops1 h1 _)).2
  · intro v op g3 gc gin
    exact (apply_coupled n op v g3 gc gin).2
  · intro l u hl hu hlu hlo hhi
    obtain ⟨mid, e, m1, m2, _⟩ := center_of_sum hl hu hlu hlo hhi
    unfold IDouble.CenterInside
    rw [e]
    simp only [Dbl.le_fin, decide_eq_true_eq]
    exact ⟨m1, m2⟩

/-- Witness of C31 (amended): the upper bound of `r1` is lowered to `63/128`, `r1` is
split (depth 1) and the upper half is kept, then the lower bound of `r2` is
raised to `31/64`. -/
theorem coupling_maintained_witness :
    SplitsInside (change_handlers 2)
      [Op.restrict_ub 1 (Dbl.fin (63 * pow2 1067)), Op.split 1 1,
       Op.restrict_lb 2 (Dbl.fin (31 * pow2 1068))] (new 2) ∧
    Coupled (run (change_handlers 2)
      [Op.restrict_ub 1 (Dbl.fin (63 * pow2 1067)), Op.split 1 1,
       Op.restrict_lb 2 (Dbl.fin (31 * pow2 1068))] (new 2)) :=
  ⟨by decide,
   (coupling_maintained 1
      [Op.restrict_ub 1 (Dbl.fin (63 * pow2 1067)), Op.split 1 1,
       Op.restrict_lb 2 (Dbl.fin (31 * pow2 1068))] (by decide)).2.1⟩

/-- Counterexample to C31 as stated: `restrict_r2_lb(10)` on the initial box makes
`r2 = [10, 0.5]` and, through the handler, `r1 = [10, 0.5]`; the split of `r1`
(depth 1) has the midpoint `5.25`, and its second box has `r1 = [5.25, 0.5]` and
`r2 = [10, 0.5]`, so `r2.lb ≤ r1.lb` fails (at every depth of nested handler
calls). -/
theorem coupling_broken_by_split :
    (∀ n : Nat, ¬ Coupled (run (change_handlers (n + 1))
      [Op.restrict_lb 2 (Dbl.ofInt 10), Op.split 1 1] (new (n + 1)))) ∧
    run (change_handlers 1) [Op.restrict_lb 2 (Dbl.ofInt 10)] (new 1)
      = ⟨[⟨Dbl.fin (3458516234325015 * pow2 1022), Dbl.fin (7074237752028441 * pow2 1021)⟩,
          ⟨Dbl.ofInt 10, Dbl.half⟩, ⟨Dbl.ofInt 10, Dbl.half⟩], ()⟩ ∧
    run (change_handlers 1) [Op.restrict_lb 2 (Dbl.ofInt 10), Op.split 1 1] (new 1)
      = ⟨[⟨Dbl.fin (3458516234325015 * pow2 1022), Dbl.fin (7074237752028441 * pow2 1021)⟩,
          ⟨Dbl.fin (21 * pow2 1072), Dbl.half⟩, ⟨Dbl.ofInt 10, Dbl.half⟩], ()⟩ ∧
    Dbl.le (Dbl.ofInt 10) (Dbl.fin (21 * pow2 1072)) = false := by
  refine ⟨?_, by decide, by decide, by decide⟩
  intro n
  rw [run_stable, new_eq, ← new_eq 0]
  decide

end VariableSetProofRestweightPartialR1Negative

end ivarp

namespace ivarp

namespace Radius123Consistency

open Below45IsocelesVariables BasicVariableSet

/-! ## The results of `Radius123Consistency::propagate` -/

theorem handler_r3_ub (M : Machine) (d : Nat) (v : Box) :
    p_call_handler (change_handlers M d) 3 false true v = v := by
  cases d <;> rfl

/-- Lowering the upper bound of `r3` leaves the other variables as they are. -/
theorem restrict_ub_r3_keeps (M : Machine) (d : Nat) (b : Dbl) (v : Box) (j : Nat)
    (hj : 3 ≠ j) :
    ((restrict_ub (change_handlers M d) 3 b v).2).get_value j = v.get_value j := by
  simp only [restrict_ub]
  split
  · simp only [handler_r3_ub]
    exact get_value_set_ne v 3 j hj _ _
  · rfl

theorem handler_r2_ub (M : Machine) (d : Nat) (v : Box) :
    (p_call_handler (change_handlers M d) 2 false true v).get_value 1 = v.get_value 1 := by
  cases d with
  | zero => rfl
  | succ d =>
    show ((restrict_ub (change_handlers M d) 3 (v.get_value 2).ub v).2).get_value 1
      = v.get_value 1
    exact restrict_ub_r3_keeps M d _ v 1 (by decide)

/-- Lowering the upper bound of `r2` leaves `r1` as it is. -/
theorem restrict_ub_r2_keeps (M : Machine) (d : Nat) (b : Dbl) (v : Box) :
    ((restrict_ub (change_handlers M d) 2 b v).2).get_value 1 = v.get_value 1 := by
  simp only [restrict_ub]
  split
  · rw [handler_r2_ub]
    exact get_value_set_ne v 2 1 (by decide) _ _
  · rfl

theorem or_changed_cases (a b : Bool) :
    (if b then (if a then PropagateResult.UNCHANGED.or PropagateResult.CHANGED
        else PropagateResult.UNCHANGED).or PropagateResult.CHANGED
      else (if a then PropagateResult.UNCHANGED.or PropagateResult.CHANGED
        else PropagateResult.UNCHANGED)) = PropagateResult.UNCHANGED ∨
    (if b then (if a then PropagateResult.UNCHANGED.or PropagateResult.CHANGED
        else PropagateResult.UNCHANGED).or PropagateResult.CHANGED
      else (if a then PropagateResult.UNCHANGED.or PropagateResult.CHANGED
        else PropagateResult.UNCHANGED)) = PropagateResult.CHANGED := by
  cases a <;> cases b <;> decide

/-- The results of `propagate`: it returns `UNCHANGED`, `CHANGED` or
`CHANGED_EMPTY`, and never `EMPTY`. -/
theorem propagate_cases (M : Machine) (hs : List (OnChangeHandler Derived)) (v : Box) :
    (propagate M hs v).1 = PropagateResult.UNCHANGED ∨
    (propagate M hs v).1 = PropagateResult.CHANGED ∨
    (propagate M hs v).1 = PropagateResult.CHANGED_EMPTY := by
  unfold propagate
  dsimp only
  split
  · exact Or.inr (Or.inr rfl)
  · split
    · exact Or.inr (Or.inr rfl)
    · split
      · exact Or.inr (Or.inr rfl)
      · rcases or_changed_cases _ _ with h | h
        · exact Or.inl h
        · exact Or.inr (Or.inl h)

/-- On a box whose `r1` has `lb > ub` the result of `propagate` is
`CHANGED_EMPTY`. -/
theorem propagate_inverted (M : Machine) (d : Nat) (v : Box)
    (h : Dbl.gt (v.get_value 1).lb (v.get_value 1).ub = true) :
    (propagate M (change_handlers M d) v).1 = PropagateResult.CHANGED_EMPTY := by
  unfold propagate
  dsimp only
  split
  · rfl
  · split
    · rfl
    · split
      · rfl
      · rename_i hb
        exfalso
        apply hb
        unfold bounds_inconsistent
        rw [restrict_ub_r3_keeps M d _ _ 1 (by decide), restrict_ub_r2_keeps M d _ v, h]
        rfl

/-- C36 on the code: `Radius123Consistency::propagate` never returns `EMPTY`; it
returns `UNCHANGED`, `CHANGED` or the combined value `CHANGED_EMPTY`, and it does
return `CHANGED_EMPTY`: on every box in which `r1` has `lb > ub`, for instance on
the box with `r1 = [1, 0.5]` that `restrict_r1_lb(1.0)` makes of a box with
`r1 = [0, 0.5]`.  The loop of `run_propagators` then does not take the `break` on
`pr == EMPTY`, ends the pass with the union `CHANGED_EMPTY` and returns `true`.
The constraints that keep the `propagate` of the base class return `UNCHANGED`. -/
theorem propagate_returns_changed_empty (M : Machine) (d : Nat) :
    (∀ v : Box, (propagate M (change_handlers M d) v).1 ≠ PropagateResult.EMPTY ∧
      ((propagate M (change_handlers M d) v).1 = PropagateResult.UNCHANGED ∨
       (propagate M (change_handlers M d) v).1 = PropagateResult.CHANGED ∨
       (propagate M (change_handlers M d) v).1 = PropagateResult.CHANGED_EMPTY)) ∧
    (∀ v : Box, Dbl.gt (v.get_value 1).lb (v.get_value 1).ub = true →
      (propagate M (change_handlers M d) v).1 = PropagateResult.CHANGED_EMPTY) ∧
    (∀ (alpha : IDouble) (D : Derived),
      ((restrict_lb (change_handlers M d) 1 (Dbl.ofInt 1)
        (⟨[alpha, ⟨Dbl.ofInt 0, Dbl.half⟩, ⟨Dbl.ofInt 0, Dbl.half⟩, ⟨Dbl.ofInt 0, Dbl.half⟩],
          D⟩ : Box)).2).get_value 1 = ⟨Dbl.ofInt 1, Dbl.half⟩ ∧
      (propagate M (change_handlers M d)
        (restrict_lb (change_handlers M d) 1 (Dbl.ofInt 1)
          (⟨[alpha, ⟨Dbl.ofInt 0, Dbl.half⟩, ⟨Dbl.ofInt 0, Dbl.half⟩, ⟨Dbl.ofInt 0, Dbl.half⟩],
            D⟩ : Box)).2).1 = PropagateResult.CHANGED_EMPTY) ∧
    (∀ (v : Box) (fuel : Nat),
      (propagate M (change_handlers M d) v).1 = PropagateResult.CHANGED_EMPTY →
      Prover.run_propagators [constraint M (change_handlers M d)] (fuel + 1) v
        = some (true, (propagate M (change_handlers M d) v).2)) ∧
    (∀ (V : Type) (sat : V → IBool) (v : V),
      ((Constraint.checker sat).propagate v).1 = PropagateResult.UNCHANGED) := by
  refine ⟨?_, fun v h => propagate_inverted M d v h, ?_, ?_, fun _ _ _ => rfl⟩
  · intro v
    refine ⟨?_, propagate_cases M _ v⟩
    rcases propagate_cases M (change_handlers M d) v with h | h | h <;> rw [h] <;> decide
  · intro alpha D
    have hlt : Dbl.lt (Dbl.ofInt 0) (Dbl.ofInt 1) = true := by decide
    have hr1 : ((restrict_lb (change_handlers M d) 1 (Dbl.ofInt 1)
        (⟨[alpha, ⟨Dbl.ofInt 0, Dbl.half⟩, ⟨Dbl.ofInt 0, Dbl.half⟩, ⟨Dbl.ofInt 0, Dbl.half⟩],
          D⟩ : Box)).2).get_value 1 = ⟨Dbl.ofInt 1, Dbl.half⟩ := by
      simp only [restrict_lb, get_value, List.getD_cons_succ, List.getD_cons_zero, hlt, if_true,
        List.set_cons_succ, List.set_cons_zero]
      cases d <;> rfl
    refine ⟨hr1, propagate_inverted M d _ ?_⟩
    rw [hr1]
    decide
  · intro v fuel h
    have e1 : (PropagateResult.CHANGED_EMPTY = PropagateResult.EMPTY) = False := by decide
    have e2 : PropagateResult.UNCHANGED.or PropagateResult.CHANGED_EMPTY
        = PropagateResult.CHANGED_EMPTY := by decide
    have e3 : (PropagateResult.CHANGED_EMPTY = PropagateResult.CHANGED) = False := by decide
    have e4 : decide (PropagateResult.CHANGED_EMPTY.and PropagateResult.EMPTY
        ≠ PropagateResult.UNCHANGED) = true := by decide
    simp only [Prover.run_propagators, Prover.propagate_pass, constraint, h, e1, e2, e3, e4,
      if_false]

end Radius123Consistency

end ivarp
